import Mathlib

/-!
neo-go: stack-item serialization and the block codec.

A shallow embedding of `pkg/vm/stackitem/serialization.go` and
`pkg/core/block/block.go`.

Conventions.
* A byte is a natural number; writers and readers reduce every byte modulo 256,
  fixed-width integers are reduced modulo `2^w`.
* The sticky error of `io.BinWriter` / `io.BinReader` is an `Option String`.
* Go pointers to stack items are addresses into a heap (a list of nodes); an
  address outside the heap is the nil `Item`.
* Recursion over a pointer graph or over the input takes a fuel argument; the
  entry points compute enough fuel themselves and the sufficiency is proved.
-/

namespace NeoGo

/-! ## Package `io` -/

/-- Modelled from the spec: `io.BinWriter` over a growable buffer (package `io` is not
among the sources): the bytes written so far and the sticky error. -/
structure BinWriter where
  buf : List Nat
  Err : Option String
deriving DecidableEq, Repr

/-- Modelled from the spec: `io.BinReader` (package `io` is not among the sources): the
bytes not yet consumed and the sticky error. -/
structure BinReader where
  data : List Nat
  Err : Option String
deriving DecidableEq, Repr

/-- The writer `io.NewBufBinWriter()` starts from. -/
def NewBufBinWriter : BinWriter := ⟨[], none⟩

/-- The reader `io.NewBinReaderFromBuf(b)` starts from. -/
def NewBinReaderFromBuf (b : List Nat) : BinReader := ⟨b, none⟩

/-- The error a reader reports when the input is exhausted. -/
def errEOF : String := "unexpected EOF"

/-- Little-endian bytes of `v`, exactly `n` of them. -/
def leBytes : Nat → Nat → List Nat
  | 0, _ => []
  | n + 1, v => v % 256 :: leBytes n (v / 256)

/-- Value of a little-endian byte string. -/
def leValue : List Nat → Nat
  | [] => 0
  | b :: bs => b % 256 + 256 * leValue bs

/-- The bytes `WriteVarUint` emits for a `uint64`. -/
def varUintBytes (val : Nat) : List Nat :=
  let v := val % 2 ^ 64
  if v < 0xfd then [v]
  else if v ≤ 0xffff then 0xfd :: leBytes 2 v
  else if v ≤ 0xffffffff then 0xfe :: leBytes 4 v
  else 0xff :: leBytes 8 v

namespace BinWriter

/-- Modelled from the spec: `WriteBytes`, a no-op once the error is set. -/
def WriteBytes (w : BinWriter) (b : List Nat) : BinWriter :=
  match w.Err with
  | some _ => w
  | none => { w with buf := w.buf ++ b.map (· % 256) }

/-- Modelled from the spec: `WriteB`, one byte. -/
def WriteB (w : BinWriter) (b : Nat) : BinWriter := w.WriteBytes [b]

/-- Modelled from the spec: `WriteBool`, one byte, 1 for true and 0 for false. -/
def WriteBool (w : BinWriter) (b : Bool) : BinWriter := w.WriteB (if b then 1 else 0)

/-- Modelled from the spec: `WriteU16LE`. -/
def WriteU16LE (w : BinWriter) (v : Nat) : BinWriter := w.WriteBytes (leBytes 2 v)

/-- Modelled from the spec: `WriteU32LE`. -/
def WriteU32LE (w : BinWriter) (v : Nat) : BinWriter := w.WriteBytes (leBytes 4 v)

/-- Modelled from the spec: `WriteU64LE`. -/
def WriteU64LE (w : BinWriter) (v : Nat) : BinWriter := w.WriteBytes (leBytes 8 v)

/-- Modelled from the spec: `WriteVarUint` of a `uint64`: below `0xFD` one byte, up to
`0xFFFF` the byte `0xFD` and 2 bytes, up to `0xFFFFFFFF` the byte `0xFE` and 4 bytes,
else `0xFF` and 8 bytes, little-endian. -/
def WriteVarUint (w : BinWriter) (val : Nat) : BinWriter :=
  let v := val % 2 ^ 64
  if v < 0xfd then w.WriteB v
  else if v ≤ 0xffff then (w.WriteB 0xfd).WriteU16LE v
  else if v ≤ 0xffffffff then (w.WriteB 0xfe).WriteU32LE v
  else (w.WriteB 0xff).WriteU64LE v

/-- Modelled from the spec: `WriteVarBytes`, a varuint length and the payload. -/
def WriteVarBytes (w : BinWriter) (b : List Nat) : BinWriter :=
  (w.WriteVarUint b.length).WriteBytes b

end BinWriter

namespace BinReader

/-- Modelled from the spec: `ReadBytes` into a buffer of `n` bytes; with the error set
it reads nothing and the buffer stays zeroed, on short input it sets the error. -/
def ReadBytes (r : BinReader) (n : Nat) : List Nat × BinReader :=
  match r.Err with
  | some _ => (List.replicate n 0, r)
  | none =>
    if n ≤ r.data.length then ((r.data.take n).map (· % 256), { r with data := r.data.drop n })
    else (List.replicate n 0, { data := [], Err := some errEOF })

/-- Modelled from the spec: `ReadB`, one byte, zero once the error is set. -/
def ReadB (r : BinReader) : Nat × BinReader :=
  match r.Err with
  | some _ => (0, r)
  | none =>
    match r.data with
    | [] => (0, { r with Err := some errEOF })
    | b :: rest => (b % 256, { r with data := rest })

/-- Modelled from the spec: `ReadBool`, a byte different from zero. -/
def ReadBool (r : BinReader) : Bool × BinReader :=
  let (b, r1) := r.ReadB
  (b != 0, r1)

/-- Modelled from the spec: a fixed-width little-endian unsigned integer of `n` bytes,
zero once the error is set. -/
def ReadUintLE (r : BinReader) (n : Nat) : Nat × BinReader :=
  let (bs, r1) := r.ReadBytes n
  match r1.Err with
  | some _ => (0, r1)
  | none => (leValue bs, r1)

/-- Modelled from the spec: `ReadU16LE`. -/
def ReadU16LE (r : BinReader) : Nat × BinReader := r.ReadUintLE 2

/-- Modelled from the spec: `ReadU32LE`. -/
def ReadU32LE (r : BinReader) : Nat × BinReader := r.ReadUintLE 4

/-- Modelled from the spec: `ReadU64LE`. -/
def ReadU64LE (r : BinReader) : Nat × BinReader := r.ReadUintLE 8

/-- Modelled from the spec: `ReadVarUint`: the first byte selects the width. -/
def ReadVarUint (r : BinReader) : Nat × BinReader :=
  match r.Err with
  | some _ => (0, r)
  | none =>
    let (b, r1) := r.ReadB
    if b = 0xfd then r1.ReadU16LE
    else if b = 0xfe then r1.ReadU32LE
    else if b = 0xff then r1.ReadU64LE
    else (b, r1)

/-- Modelled from the spec: `ReadVarBytes`, a varuint length and that many bytes. The
allocation of the buffer is not modelled: a length beyond the input is a read error. -/
def ReadVarBytes (r : BinReader) : List Nat × BinReader :=
  let (n, r1) := r.ReadVarUint
  r1.ReadBytes n

end BinReader

/-- Go's conversion `int(x)` of a `uint64` on a 64-bit platform. -/
def toInt64 (x : Nat) : Int :=
  let v : Nat := x % 2 ^ 64
  if v < 2 ^ 63 then Int.ofNat v else Int.ofNat v - 2 ^ 64

/-! ## Package `bigint` -/

/-- Auxiliary loop of `bigintToBytes`: the two's complement bytes of a nonzero `n`,
least significant first, stopping at the first byte that carries the sign. -/
def bigintToBytesAux : Nat → Int → List Nat
  | 0, _ => []
  | fuel + 1, n =>
    if -128 ≤ n ∧ n < 128 then [(n % 256).toNat]
    else (n % 256).toNat :: bigintToBytesAux fuel (n / 256)

/-- Modelled from the spec: `bigint.ToBytes` (package `bigint` is not among the sources):
signed minimum-length little-endian with the sign in the most significant bit; zero is
the empty string. -/
def bigintToBytes (n : Int) : List Nat :=
  if n = 0 then [] else bigintToBytesAux (n.natAbs + 1) n

/-- Modelled from the spec: `bigint.FromBytes`: the inverse reading, the top bit of the
last byte being the sign. -/
def bigintFromBytes (b : List Nat) : Int :=
  match b.getLast? with
  | none => 0
  | some top =>
    if top % 256 < 128 then Int.ofNat (leValue b) else Int.ofNat (leValue b) - 256 ^ b.length

/-! ## Package `stackitem` -/

/-- The `Type` constants `serialization.go` uses; they are declared in `type.go`, which
is not among the sources, so their values are a parameter. -/
structure TypeTags where
  ByteArrayT : Nat
  BufferT : Nat
  BooleanT : Nat
  IntegerT : Nat
  ArrayT : Nat
  StructT : Nat
  MapT : Nat
deriving DecidableEq, Repr

/-- A stack item object in memory. Containers hold the addresses of their elements. -/
inductive Node where
  | byteArray (value : List Nat)
  | buffer (value : List Nat)
  | bool (value : Bool)
  | bigInteger (value : Int)
  | interop
  | array (value : List Nat)
  | struct (value : List Nat)
  | map (value : List (Nat × Nat))
deriving DecidableEq, Repr

/-- The memory the items live in: address `a` holds `h[a]`; any other address is the
nil `Item`. -/
abbrev Heap := List Node

/-- The error of `serializeItemTo` on re-entry into a container. -/
def errRecursive : String := "recursive structures can't be serialized"

/-- The error of `serializeItemTo` on an interop item. -/
def errInterop : String := "interop item can't be serialized"

/-- The loop `for i := range arr { serializeItemTo(arr[i], w, seen) }`. -/
def serializeElems (ser : Nat → BinWriter → List Nat → Option (BinWriter × List Nat)) :
    List Nat → BinWriter → List Nat → Option (BinWriter × List Nat)
  | [], w, seen => some (w, seen)
  | a :: rest, w, seen =>
    match ser a w seen with
    | none => none
    | some (w1, seen1) => serializeElems ser rest w1 seen1

/-- The loop over the map elements: key, then value. -/
def serializePairs (ser : Nat → BinWriter → List Nat → Option (BinWriter × List Nat)) :
    List (Nat × Nat) → BinWriter → List Nat → Option (BinWriter × List Nat)
  | [], w, seen => some (w, seen)
  | (k, v) :: rest, w, seen =>
    match ser k w seen with
    | none => none
    | some (w1, seen1) =>
      match ser v w1 seen1 with
      | none => none
      | some (w2, seen2) => serializePairs ser rest w2 seen2

/-- The function `serializeItemTo(item, w, seen)`. The map `seen` is the list of the
addresses set to true; the result is the writer and `seen` afterwards, `none` when the
fuel (the recursion depth allowed) runs out. -/
def serializeItemTo (T : TypeTags) (h : Heap) :
    Nat → Nat → BinWriter → List Nat → Option (BinWriter × List Nat)
  | 0, _, _, _ => none
  | fuel + 1, item, w, seen =>
    if item ∈ seen then some ({ w with Err := some errRecursive }, seen)
    else
      match h[item]? with
      | none => some (w, seen)
      | some (Node.byteArray v) => some ((w.WriteBytes [T.ByteArrayT]).WriteVarBytes v, seen)
      | some (Node.buffer v) => some ((w.WriteBytes [T.BufferT]).WriteVarBytes v, seen)
      | some (Node.bool b) => some ((w.WriteBytes [T.BooleanT]).WriteBool b, seen)
      | some (Node.bigInteger n) =>
        some ((w.WriteBytes [T.IntegerT]).WriteVarBytes (bigintToBytes n), seen)
      | some Node.interop => some ({ w with Err := some errInterop }, seen)
      | some (Node.array arr) =>
        serializeElems (serializeItemTo T h fuel) arr
          ((w.WriteBytes [T.ArrayT]).WriteVarUint arr.length) (item :: seen)
      | some (Node.struct arr) =>
        serializeElems (serializeItemTo T h fuel) arr
          ((w.WriteBytes [T.StructT]).WriteVarUint arr.length) (item :: seen)
      | some (Node.map m) =>
        serializePairs (serializeItemTo T h fuel) m
          ((w.WriteBytes [T.MapT]).WriteVarUint m.length) (item :: seen)

/-- The function `EncodeBinaryStackItem(item, w)`: `serializeItemTo` with an empty `seen`.
A nested call either returns at once or marks a container that was not marked before, so
the depth never exceeds the number of objects plus one. -/
def EncodeBinaryStackItem (T : TypeTags) (h : Heap) (item : Nat) (w : BinWriter) :
    Option BinWriter :=
  (serializeItemTo T h (h.length + 1) item w []).map Prod.fst

/-- The function `SerializeItem(item)`: the bytes, or the writer's error. -/
def SerializeItem (T : TypeTags) (h : Heap) (item : Nat) : Option (Except String (List Nat)) :=
  (EncodeBinaryStackItem T h item NewBufBinWriter).map fun w =>
    match w.Err with
    | some e => Except.error e
    | none => Except.ok w.buf

/-- How a Go call ends: it returns, it panics, or (in this embedding only) the fuel of
a recursive model runs out. -/
inductive Outcome (α : Type) where
  | done (a : α)
  | crashed (msg : String)
  | outOfFuel
deriving DecidableEq, Repr

/-- A stack item built by the decoder. Every object is allocated anew by it, so a
decoded item is a tree; `null` is the nil `Item`. -/
inductive Item where
  | null
  | byteArray (value : List Nat)
  | buffer (value : List Nat)
  | bool (value : Bool)
  | bigInteger (value : Int)
  | interop
  | array (value : List Item)
  | struct (value : List Item)
  | map (value : List (Item × Item))
deriving Repr

/-- Modelled from the spec: `isValidMapKey` (map.go is not among the sources): map keys
must be primitive (byte-array, boolean, integer). -/
def isValidMapKey : Item → Bool
  | Item.byteArray _ => true
  | Item.bool _ => true
  | Item.bigInteger _ => true
  | _ => false

/-- Modelled from the spec: equality of two primitive keys: byte arrays by bytes, booleans
and integers by value. -/
def keyEquals : Item → Item → Bool
  | Item.byteArray a, Item.byteArray b => a == b
  | Item.bool a, Item.bool b => a == b
  | Item.bigInteger a, Item.bigInteger b => a == b
  | _, _ => false

/-- Replace the value stored under `key`, or append the pair when the key is new. -/
def mapPut (key value : Item) : List (Item × Item) → List (Item × Item)
  | [] => [(key, value)]
  | (k, v) :: rest =>
    if keyEquals k key then (k, value) :: rest else (k, v) :: mapPut key value rest

/-- Modelled from the spec: `Map.Add` (map.go is not among the sources): keys must be
primitive, so a key of another variant is refused (the call does not return); keys are
unique, so adding an existing key replaces its value; insertion order is kept. -/
def MapAdd (m : List (Item × Item)) (key value : Item) : Outcome (List (Item × Item)) :=
  if isValidMapKey key then Outcome.done (mapPut key value m)
  else Outcome.crashed "wrong key type"

/-- The error of the decoder's `default` case. -/
def errUnknownType : String := "unknown type"

/-- The loop `for i := 0; i < size; i++ { arr[i] = DecodeBinaryStackItem(r) }`. -/
def decodeElems (dec : BinReader → Outcome (Item × BinReader)) :
    Nat → BinReader → Outcome (List Item × BinReader)
  | 0, r => Outcome.done ([], r)
  | n + 1, r =>
    match dec r with
    | Outcome.done (it, r1) =>
      match decodeElems dec n r1 with
      | Outcome.done (arr, r2) => Outcome.done (it :: arr, r2)
      | Outcome.crashed msg => Outcome.crashed msg
      | Outcome.outOfFuel => Outcome.outOfFuel
    | Outcome.crashed msg => Outcome.crashed msg
    | Outcome.outOfFuel => Outcome.outOfFuel

/-- The loop of the `MapT` case: decode a key and a value, leave the loop when the
reader's error is set, else `m.Add(key, value)`. -/
def decodePairs (dec : BinReader → Outcome (Item × BinReader)) :
    Nat → List (Item × Item) → BinReader → Outcome (List (Item × Item) × BinReader)
  | 0, m, r => Outcome.done (m, r)
  | n + 1, m, r =>
    match dec r with
    | Outcome.done (key, r1) =>
      match dec r1 with
      | Outcome.done (value, r2) =>
        match r2.Err with
        | some _ => Outcome.done (m, r2)
        | none =>
          match MapAdd m key value with
          | Outcome.done m1 => decodePairs dec n m1 r2
          | Outcome.crashed msg => Outcome.crashed msg
          | Outcome.outOfFuel => Outcome.outOfFuel
      | Outcome.crashed msg => Outcome.crashed msg
      | Outcome.outOfFuel => Outcome.outOfFuel
    | Outcome.crashed msg => Outcome.crashed msg
    | Outcome.outOfFuel => Outcome.outOfFuel

/-- The limit `maxAlloc` of the Go runtime on a 64-bit platform (48 address bits): the
largest number of bytes one allocation may ask for. -/
def maxAlloc : Nat := 2 ^ 48

/-- Whether `make([]T, size)` panics in `makeslice` ("len out of range") for elements of
`elemSize` bytes: on a negative length, and on a length whose size in bytes exceeds
`maxAlloc`, which includes every length for which the product overflows. -/
def makeslicePanics (elemSize : Nat) (size : Int) : Bool :=
  decide (size < 0 ∨ maxAlloc < size.toNat * elemSize)

/-- The function `DecodeBinaryStackItem(r)`: the item and the reader afterwards.
`make([]Item, size)` panics on a negative `size` and on a `size` whose items (an `Item` is
an interface value of 16 bytes) exceed `maxAlloc`; a negative `size` runs the map loop
zero times. -/
def DecodeBinaryStackItem (T : TypeTags) : Nat → BinReader → Outcome (Item × BinReader)
  | 0, _ => Outcome.outOfFuel
  | fuel + 1, r =>
    let (t, r1) := r.ReadB
    match r1.Err with
    | some _ => Outcome.done (Item.null, r1)
    | none =>
      if t = T.ByteArrayT then
        let (data, r2) := r1.ReadVarBytes
        Outcome.done (Item.byteArray data, r2)
      else if t = T.BooleanT then
        let (b, r2) := r1.ReadBool
        Outcome.done (Item.bool b, r2)
      else if t = T.IntegerT then
        let (data, r2) := r1.ReadVarBytes
        Outcome.done (Item.bigInteger (bigintFromBytes data), r2)
      else if t = T.ArrayT ∨ t = T.StructT then
        let (n, r2) := r1.ReadVarUint
        let size := toInt64 n
        if makeslicePanics 16 size then Outcome.crashed "makeslice: len out of range"
        else
          match decodeElems (DecodeBinaryStackItem T fuel) size.toNat r2 with
          | Outcome.done (arr, r3) =>
            Outcome.done (if t = T.ArrayT then Item.array arr else Item.struct arr, r3)
          | Outcome.crashed msg => Outcome.crashed msg
          | Outcome.outOfFuel => Outcome.outOfFuel
      else if t = T.MapT then
        let (n, r2) := r1.ReadVarUint
        let size := toInt64 n
        match decodePairs (DecodeBinaryStackItem T fuel) size.toNat [] r2 with
        | Outcome.done (m, r3) => Outcome.done (Item.map m, r3)
        | Outcome.crashed msg => Outcome.crashed msg
        | Outcome.outOfFuel => Outcome.outOfFuel
      else Outcome.done (Item.null, { r1 with Err := some errUnknownType })

/-- The function `DeserializeItem(data)`: the item, or the reader's error. A nested
call that does not return at once comes after a tag byte was consumed, so the depth
never exceeds the length of the input plus one. -/
def DeserializeItem (T : TypeTags) (data : List Nat) : Outcome (Except String Item) :=
  match DecodeBinaryStackItem T (data.length + 1) (NewBinReaderFromBuf data) with
  | Outcome.done (item, r) =>
    match r.Err with
    | some e => Outcome.done (Except.error e)
    | none => Outcome.done (Except.ok item)
  | Outcome.crashed msg => Outcome.crashed msg
  | Outcome.outOfFuel => Outcome.outOfFuel

/-- The addresses a container holds: the elements of an array or struct, the keys and
values of a map. -/
def children (h : Heap) (a : Nat) : List Nat :=
  match h[a]? with
  | some (Node.array arr) => arr
  | some (Node.struct arr) => arr
  | some (Node.map m) => m.flatMap fun p => [p.1, p.2]
  | _ => []

/-- The item at `a` is an Array, a Struct or a Map. -/
def isContainer (h : Heap) (a : Nat) : Bool :=
  match h[a]? with
  | some (Node.array _) => true
  | some (Node.struct _) => true
  | some (Node.map _) => true
  | _ => false

/-- The item at `b` is an element, key or value of the container at `a`. -/
def Child (h : Heap) (a b : Nat) : Prop := b ∈ children h a

/-- The item at `a` contains the item at `b`, directly or through nested containers. -/
def Contains (h : Heap) (a b : Nat) : Prop := Relation.TransGen (Child h) a b

/-- The item at `b` is the item at `a` or is contained in it. -/
def Reach (h : Heap) (a b : Nat) : Prop := Relation.ReflTransGen (Child h) a b

/-- The number of containers of the heap that are not marked in `seen`. -/
def unseen (h : Heap) (seen : List Nat) : Nat :=
  ((Finset.range h.length).filter fun a => isContainer h a = true ∧ a ∉ seen).card

/-- What a finished traversal without error says about an item `b` it went through: it
is no interop item, and if it is a container it was not marked before and is marked now. -/
def Visited (h : Heap) (seen seen' : List Nat) (b : Nat) : Prop :=
  h[b]? ≠ some Node.interop ∧ (isContainer h b = true → b ∉ seen ∧ b ∈ seen')

/-- The writer's error is unset or is the re-entry error. -/
def errNoneOrRecursive (w : BinWriter) : Prop := w.Err = none ∨ w.Err = some errRecursive

/-- The properties of one traversal `f item w seen` that the proofs carry through the
recursion: `seen` only grows, an error is never cleared, a traversal ending without error
has visited everything below `item`, without interop items below `item` the only
error that can appear is the re-entry error, and a traversal ending without error
started from an item that does not contain itself. -/
def SerSpec (h : Heap) (f : Nat → BinWriter → List Nat → Option (BinWriter × List Nat)) : Prop :=
  ∀ item w seen w' seen', f item w seen = some (w', seen') →
    seen ⊆ seen' ∧ (w'.Err = none → w.Err = none) ∧
    (w'.Err = none → ∀ b, Reach h item b → Visited h seen seen' b) ∧
    ((∀ b, Reach h item b → h[b]? ≠ some Node.interop) →
      errNoneOrRecursive w → errNoneOrRecursive w') ∧
    (w'.Err = none → ¬ Contains h item item)

/-- The decoder's six `case` constants. -/
def TypeTags.decodable (T : TypeTags) : List Nat :=
  [T.ByteArrayT, T.BooleanT, T.IntegerT, T.ArrayT, T.StructT, T.MapT]

/-- The reader stands before a byte that is none of the decoder's `case` constants (so
in particular before every byte that is no stack-item type at all). -/
def atUnknownTag (T : TypeTags) (q : BinReader) : Prop :=
  q.Err = none ∧ ∃ b rest, q.data = b :: rest ∧ b % 256 ∉ T.decodable

/-- The item positions a run of `DecodeBinaryStackItem` reaches: `Reaches T fuel r q` says
that the call started at reader state `r` starts a call (itself, or a nested one for an
array element, a map key or a map value) at reader state `q`. The `i`-th element of an
array whose `make` does not panic is reached at the state the first `i` iterations of its
loop leave; a map key
likewise, and its value at the state the decoding of the key leaves. -/
inductive Reaches (T : TypeTags) : Nat → BinReader → BinReader → Prop where
  | here (fuel : Nat) (r : BinReader) : Reaches T fuel r r
  | elem (fuel : Nat) (r q0 q : BinReader) (i : Nat) (pre : List Item) :
      r.ReadB.2.Err = none →
      r.ReadB.1 ≠ T.ByteArrayT → r.ReadB.1 ≠ T.BooleanT → r.ReadB.1 ≠ T.IntegerT →
      (r.ReadB.1 = T.ArrayT ∨ r.ReadB.1 = T.StructT) →
      makeslicePanics 16 (toInt64 r.ReadB.2.ReadVarUint.1) = false →
      (i : Int) < toInt64 r.ReadB.2.ReadVarUint.1 →
      decodeElems (DecodeBinaryStackItem T fuel) i r.ReadB.2.ReadVarUint.2 =
        Outcome.done (pre, q0) →
      Reaches T fuel q0 q → Reaches T (fuel + 1) r q
  | key (fuel : Nat) (r q0 q : BinReader) (i : Nat) (m : List (Item × Item)) :
      r.ReadB.2.Err = none →
      r.ReadB.1 ≠ T.ByteArrayT → r.ReadB.1 ≠ T.BooleanT → r.ReadB.1 ≠ T.IntegerT →
      ¬ (r.ReadB.1 = T.ArrayT ∨ r.ReadB.1 = T.StructT) → r.ReadB.1 = T.MapT →
      (i : Int) < toInt64 r.ReadB.2.ReadVarUint.1 →
      decodePairs (DecodeBinaryStackItem T fuel) i [] r.ReadB.2.ReadVarUint.2 =
        Outcome.done (m, q0) →
      Reaches T fuel q0 q → Reaches T (fuel + 1) r q
  | value (fuel : Nat) (r q0 q1 q : BinReader) (i : Nat) (m : List (Item × Item)) (k : Item) :
      r.ReadB.2.Err = none →
      r.ReadB.1 ≠ T.ByteArrayT → r.ReadB.1 ≠ T.BooleanT → r.ReadB.1 ≠ T.IntegerT →
      ¬ (r.ReadB.1 = T.ArrayT ∨ r.ReadB.1 = T.StructT) → r.ReadB.1 = T.MapT →
      (i : Int) < toInt64 r.ReadB.2.ReadVarUint.1 →
      decodePairs (DecodeBinaryStackItem T fuel) i [] r.ReadB.2.ReadVarUint.2 =
        Outcome.done (m, q0) →
      DecodeBinaryStackItem T fuel q0 = Outcome.done (k, q1) →
      Reaches T fuel q1 q → Reaches T (fuel + 1) r q

/-! ## Package `block` -/

/-- Modelled from the spec: a `util.Uint256` is written as its 32 bytes (package `util` is
not among the sources). The value is the number the 32 bytes spell, least significant
byte first. -/
def Uint256.EncodeBinary (u : Nat) (w : BinWriter) : BinWriter := w.WriteBytes (leBytes 32 u)

/-- Modelled from the spec: a `util.Uint256` is read as 32 bytes. -/
def Uint256.DecodeBinary (r : BinReader) : Nat × BinReader := r.ReadUintLE 32

/-- Modelled from the spec: `transaction.Witness`, invocation and verification script. -/
structure Witness where
  InvocationScript : List Nat
  VerificationScript : List Nat
deriving DecidableEq, Repr

/-- Modelled from the spec: `Witness.EncodeBinary`, the two scripts as varbytes. -/
def Witness.EncodeBinary (s : Witness) (w : BinWriter) : BinWriter :=
  (w.WriteVarBytes s.InvocationScript).WriteVarBytes s.VerificationScript

/-- Modelled from the spec: `Witness.DecodeBinary`. -/
def Witness.DecodeBinary (r : BinReader) : Witness × BinReader :=
  let (inv, r1) := r.ReadVarBytes
  let (ver, r2) := r1.ReadVarBytes
  (⟨inv, ver⟩, r2)

/-- Modelled from the spec: `block.Base` (base.go is not among the sources): version (u32),
prev-hash (32 bytes), merkle-root (32 bytes), timestamp (u64), index (u32), next-consensus
(20 bytes) and the witness `Script`. -/
structure Base where
  Version : Nat
  PrevHash : Nat
  MerkleRoot : Nat
  Timestamp : Nat
  Index : Nat
  NextConsensus : Nat
  Script : Witness
deriving DecidableEq, Repr

/-- Modelled from the spec: `encodeHashableFields`: version | prev-hash | merkle-root |
timestamp | index | next-consensus. -/
def Base.encodeHashableFields (b : Base) (bw : BinWriter) : BinWriter :=
  (((((bw.WriteU32LE b.Version).WriteBytes (leBytes 32 b.PrevHash)).WriteBytes
    (leBytes 32 b.MerkleRoot)).WriteU64LE b.Timestamp).WriteU32LE b.Index).WriteBytes
    (leBytes 20 b.NextConsensus)

/-- Modelled from the spec: `decodeHashableFields`, the same six fields in the same order;
the witness of the receiver is not touched. -/
def Base.decodeHashableFields (b : Base) (br : BinReader) : Base × BinReader :=
  let (version, r1) := br.ReadU32LE
  let (prev, r2) := r1.ReadUintLE 32
  let (root, r3) := r2.ReadUintLE 32
  let (ts, r4) := r3.ReadU64LE
  let (index, r5) := r4.ReadU32LE
  let (next, r6) := r5.ReadUintLE 20
  (⟨version, prev, root, ts, index, next, b.Script⟩, r6)

/-- Modelled from the spec: `Base.EncodeBinary`: the hashable fields, a single `01`
separator byte, then the witness. -/
def Base.EncodeBinary (b : Base) (bw : BinWriter) : BinWriter :=
  b.Script.EncodeBinary ((b.encodeHashableFields bw).WriteB 1)

/-- Modelled from the spec: `Base.DecodeBinary`: the hashable fields, the separator byte,
the witness. -/
def Base.DecodeBinary (b : Base) (br : BinReader) : Base × BinReader :=
  let (b1, r1) := b.decodeHashableFields br
  let (_, r2) := r1.ReadB
  let (script, r3) := Witness.DecodeBinary r2
  ({ b1 with Script := script }, r3)

/-- Modelled from the spec: `block.ConsensusData`: primary index (u32) and nonce (u64). -/
structure ConsensusData where
  PrimaryIndex : Nat
  Nonce : Nat
deriving DecidableEq, Repr

/-- Modelled from the spec: `ConsensusData.EncodeBinary`: the primary index as a varuint,
the nonce as a u64. -/
def ConsensusData.EncodeBinary (c : ConsensusData) (bw : BinWriter) : BinWriter :=
  (bw.WriteVarUint c.PrimaryIndex).WriteU64LE c.Nonce

/-- Modelled from the spec: `ConsensusData.DecodeBinary`; the varuint is cut to a u32. -/
def ConsensusData.DecodeBinary (br : BinReader) : ConsensusData × BinReader :=
  let (p, r1) := br.ReadVarUint
  let (n, r2) := r1.ReadU64LE
  (⟨p % 2 ^ 32, n⟩, r2)

/-- The parts of the packages `transaction` and `hash` that block.go calls; none of them
is among the sources, so they are parameters: the transaction type `Tx` with its hash,
its codec and the placeholder `NewTrimmedTX`, the hash of the consensus data, and
`hash.NewMerkleTree` followed by `Root()` (the root, or the error of the construction). -/
structure Deps (Tx : Type) where
  Hash : Tx → Nat
  DecodeBinary : BinReader → Tx × BinReader
  EncodeBinary : Tx → BinWriter → BinWriter
  NewTrimmedTX : Nat → Tx
  cdHash : ConsensusData → Nat
  NewMerkleTree : List Nat → Except String Nat

/-- The struct `Block`: the base, the consensus data, the transaction list (a nil slice
is the empty list) and the `Trimmed` flag. -/
structure Block (Tx : Type) where
  Base : Base
  ConsensusData : ConsensusData
  Transactions : List Tx
  Trimmed : Bool

/-- The list `hashes` of `computeMerkleTree`: the consensus data hash, then the
transaction hashes in block order. -/
def Block.merkleHashes {Tx : Type} (D : Deps Tx) (b : Block Tx) : List Nat :=
  D.cdHash b.ConsensusData :: b.Transactions.map D.Hash

/-- The method `computeMerkleTree`, followed by `Root()`. -/
def Block.computeMerkleTree {Tx : Type} (D : Deps Tx) (b : Block Tx) : Except String Nat :=
  D.NewMerkleTree (b.merkleHashes D)

/-- The error of `Verify` on a repeated transaction hash. -/
def errDuplication : String := "transaction duplication is not allowed"

/-- The error of `Verify` on a wrong Merkle root. -/
def errMerkleMismatch : String := "MerkleRoot mismatch"

/-- The first loop of `Verify`: `hashes` holds the hashes met so far; true when a hash is
met a second time. -/
def verifyDuplicates {Tx : Type} (D : Deps Tx) : List Tx → List Nat → Bool
  | [], _ => false
  | tx :: rest, hashes =>
    if D.Hash tx ∈ hashes then true else verifyDuplicates D rest (D.Hash tx :: hashes)

/-- The method `Verify`: `none` is the nil error. -/
def Block.Verify {Tx : Type} (D : Deps Tx) (b : Block Tx) : Option String :=
  if verifyDuplicates D b.Transactions [] then some errDuplication
  else
    match b.computeMerkleTree D with
    | Except.error err => some err
    | Except.ok root => if b.Base.MerkleRoot ≠ root then some errMerkleMismatch else none

/-- Go's wrap-around of a signed 64-bit result. -/
def wrapInt64 (z : Int) : Int := (z + 2 ^ 63) % 2 ^ 64 - 2 ^ 63

/-- The loop `for i := 0; i < n; i++ { tx := new(Transaction); tx.DecodeBinary(br);
txes[i] = tx }`. -/
def decodeTxs {Tx : Type} (D : Deps Tx) : Nat → BinReader → List Tx × BinReader
  | 0, br => ([], br)
  | n + 1, br =>
    let (tx, br1) := D.DecodeBinary br
    let (rest, br2) := decodeTxs D n br1
    (tx :: rest, br2)

/-- The loop of `NewBlockFromTrimmedBytes`: read a hash, store `NewTrimmedTX(hash)`. -/
def decodeTrimmedTxs {Tx : Type} (D : Deps Tx) : Nat → BinReader → List Tx × BinReader
  | 0, br => ([], br)
  | n + 1, br =>
    let (hash, br1) := Uint256.DecodeBinary br
    let (rest, br2) := decodeTrimmedTxs D n br1
    (D.NewTrimmedTX hash :: rest, br2)

/-- The error of `DecodeBinary` on a zero `contentsCount`. -/
def errInvalidBlockFormat : String := "invalid block format"

/-- The method `DecodeBinary`, lines 149 to 162: everything before the final check of the
reader's error. A zero `contentsCount` sets the error and leaves the consensus data and
the transactions of the receiver as they were. `make` panics when the length does not
fit an `int`; the loop runs `int(contentsCount)-1` times. -/
def Block.decodeFields {Tx : Type} (D : Deps Tx) (b : Block Tx) (br : BinReader) :
    Outcome (Block Tx × BinReader) :=
  let (base, br1) := b.Base.DecodeBinary br
  let (contentsCount, br2) := br1.ReadVarUint
  if contentsCount = 0 then
    Outcome.done ({ b with Base := base }, { br2 with Err := some errInvalidBlockFormat })
  else
    let (cd, br3) := ConsensusData.DecodeBinary br2
    if 2 ^ 63 ≤ contentsCount - 1 then Outcome.crashed "makeslice: len out of range"
    else
      let (txes, br4) := decodeTxs D (wrapInt64 (toInt64 contentsCount - 1)).toNat br3
      Outcome.done ({ b with Base := base, ConsensusData := cd, Transactions := txes }, br4)

/-- The method `DecodeBinary`: the fields, then, when the reader's error is still unset,
`br.Err = b.Verify()`. -/
def Block.DecodeBinary {Tx : Type} (D : Deps Tx) (b : Block Tx) (br : BinReader) :
    Outcome (Block Tx × BinReader) :=
  match b.decodeFields D br with
  | Outcome.done (b1, br1) =>
    match br1.Err with
    | some _ => Outcome.done (b1, br1)
    | none => Outcome.done (b1, { br1 with Err := b1.Verify D })
  | Outcome.crashed msg => Outcome.crashed msg
  | Outcome.outOfFuel => Outcome.outOfFuel

/-- The loop `for i := 0; i < len(b.Transactions); i++ { b.Transactions[i].EncodeBinary(bw) }`. -/
def encodeTxs {Tx : Type} (D : Deps Tx) : List Tx → BinWriter → BinWriter
  | [], bw => bw
  | tx :: rest, bw => encodeTxs D rest (D.EncodeBinary tx bw)

/-- The method `EncodeBinary`. -/
def Block.EncodeBinary {Tx : Type} (D : Deps Tx) (b : Block Tx) (bw : BinWriter) : BinWriter :=
  encodeTxs D b.Transactions
    (b.ConsensusData.EncodeBinary ((b.Base.EncodeBinary bw).WriteVarUint (b.Transactions.length + 1)))

/-- The loop `for _, tx := range b.Transactions { h := tx.Hash(); h.EncodeBinary(buf) }`. -/
def encodeTxHashes {Tx : Type} (D : Deps Tx) : List Tx → BinWriter → BinWriter
  | [], bw => bw
  | tx :: rest, bw => encodeTxHashes D rest (Uint256.EncodeBinary (D.Hash tx) bw)

/-- The method `Trim`: the bytes, or the writer's error. -/
def Block.Trim {Tx : Type} (D : Deps Tx) (b : Block Tx) : Except String (List Nat) :=
  let buf := b.Base.encodeHashableFields NewBufBinWriter
  let buf := buf.WriteB 1
  let buf := b.Base.Script.EncodeBinary buf
  let buf := buf.WriteVarUint (b.Transactions.length + 1)
  let buf := Uint256.EncodeBinary (D.cdHash b.ConsensusData) buf
  let buf := encodeTxHashes D b.Transactions buf
  let buf := b.ConsensusData.EncodeBinary buf
  match buf.Err with
  | some err => Except.error err
  | none => Except.ok buf.buf

/-- The zero value of `Base`. -/
def Base.zero : Base := ⟨0, 0, 0, 0, 0, 0, ⟨[], []⟩⟩

/-- The function `NewBlockFromTrimmedBytes`: the block and the reader's error. `make`
panics when `lenTX` does not fit an `int`. -/
def NewBlockFromTrimmedBytes {Tx : Type} (D : Deps Tx) (b : List Nat) :
    Outcome (Block Tx × Option String) :=
  let br := NewBinReaderFromBuf b
  let (base, br1) := Base.zero.decodeHashableFields br
  let (_, br2) := br1.ReadB
  let (script, br3) := Witness.DecodeBinary br2
  let (lenHashes, br4) := br3.ReadVarUint
  if lenHashes > 0 then
    let (_, br5) := Uint256.DecodeBinary br4
    let lenTX := lenHashes - 1
    if 2 ^ 63 ≤ lenTX then Outcome.crashed "makeslice: len out of range"
    else
      let (txes, br6) := decodeTrimmedTxs D (toInt64 lenTX).toNat br5
      let (cd, br7) := ConsensusData.DecodeBinary br6
      Outcome.done (⟨{ base with Script := script }, cd, txes, true⟩, br7.Err)
  else
    Outcome.done (⟨{ base with Script := script }, ⟨0, 0⟩, [], true⟩, br4.Err)

/-- The method `Compare`. -/
def Block.Compare {Tx : Type} (b other : Block Tx) : Int :=
  if b.Base.Index > other.Base.Index then 1
  else if b.Base.Index = other.Base.Index then 0
  else -1

/-- The range of each field of a base: what the Go types `uint32`, `uint64`,
`util.Uint256`, `util.Uint160` and `[]byte` hold. -/
def Base.WF (b : Base) : Prop :=
  b.Version < 2 ^ 32 ∧ b.PrevHash < 2 ^ 256 ∧ b.MerkleRoot < 2 ^ 256 ∧ b.Timestamp < 2 ^ 64 ∧
  b.Index < 2 ^ 32 ∧ b.NextConsensus < 2 ^ 160 ∧
  (b.Script.InvocationScript.length < 2 ^ 63 ∧ ∀ x ∈ b.Script.InvocationScript, x < 256) ∧
  (b.Script.VerificationScript.length < 2 ^ 63 ∧ ∀ x ∈ b.Script.VerificationScript, x < 256)

/-- The range of each field of the consensus data. -/
def ConsensusData.WF (c : ConsensusData) : Prop := c.PrimaryIndex < 2 ^ 32 ∧ c.Nonce < 2 ^ 64

/-- A small instance of the absent parts, to run the block code on concrete blocks: a
transaction is one byte, which is also its hash; a placeholder is the low byte of the
hash; the hash of the consensus data is its nonce; the Merkle root of a nonempty list is
the sum of its entries, and of the empty list an error. -/
def demoDeps : Deps Nat where
  Hash := fun tx => tx
  DecodeBinary := fun br => br.ReadB
  EncodeBinary := fun tx bw => bw.WriteB tx
  NewTrimmedTX := fun h => h % 256
  cdHash := fun c => c.Nonce
  NewMerkleTree := fun l =>
    match l with
    | [] => Except.error "length of the hashes cannot be zero"
    | _ => Except.ok l.sum

/-- A block of the demo instance on which `Verify` passes: consensus data hash 5 and
transactions 3 and 4, Merkle root 12. -/
def demoBlock : Block Nat := ⟨⟨0, 0, 12, 0, 7, 0, ⟨[1], [81]⟩⟩, ⟨0, 5⟩, [3, 4], false⟩

/-- A block of the demo instance without transactions whose stored Merkle root, 0, is not
the computed one, 5. -/
def demoBadBlock : Block Nat := ⟨⟨0, 0, 0, 0, 7, 0, ⟨[], []⟩⟩, ⟨0, 5⟩, [], false⟩

/-- The bytes `encodeHashableFields` emits. -/
def Base.hashableBytes (b : Base) : List Nat :=
  leBytes 4 b.Version ++ (leBytes 32 b.PrevHash ++ (leBytes 32 b.MerkleRoot ++
    (leBytes 8 b.Timestamp ++ (leBytes 4 b.Index ++ leBytes 20 b.NextConsensus))))

/-- The bytes `Witness.EncodeBinary` emits. -/
def Witness.bytes (s : Witness) : List Nat :=
  (varUintBytes s.InvocationScript.length ++ s.InvocationScript.map (· % 256)) ++
    (varUintBytes s.VerificationScript.length ++ s.VerificationScript.map (· % 256))

/-- The bytes `Base.EncodeBinary` emits. -/
def Base.bytes (b : Base) : List Nat := b.hashableBytes ++ (1 :: b.Script.bytes)

/-- The bytes `ConsensusData.EncodeBinary` emits. -/
def ConsensusData.bytes (c : ConsensusData) : List Nat :=
  varUintBytes c.PrimaryIndex ++ leBytes 8 c.Nonce

/-- The transaction `tx` round-trips through its codec: its encoder appends a byte string
to a writer without error, and its decoder reads `tx` back from that string, leaving the
rest of the input. -/
def TxRoundTrips {Tx : Type} (D : Deps Tx) (tx : Tx) : Prop :=
  ∃ bs, (∀ w : BinWriter, w.Err = none → D.EncodeBinary tx w = ⟨w.buf ++ bs, none⟩) ∧
    ∀ rest, D.DecodeBinary ⟨bs ++ rest, none⟩ = (tx, ⟨rest, none⟩)

/-! ## Package `core`: the interop services -/

/-- Sequencing of Go statements that may panic: the rest runs on the value of a call that
returned. -/
def Outcome.bind {α β : Type} (x : Outcome α) (f : α → Outcome β) : Outcome β :=
  match x with
  | Outcome.done a => f a
  | Outcome.crashed msg => Outcome.crashed msg
  | Outcome.outOfFuel => Outcome.outOfFuel

instance : Monad Outcome where
  pure := Outcome.done
  bind := Outcome.bind

/-- Modelled from the spec: the trigger of an interop context (package `trigger` is not
among the sources). -/
inductive Trigger where
  | Application
  | ApplicationR
  | Verification
  | System
deriving DecidableEq, Repr

/-- The constant `MaxStorageKeyLen`. -/
def MaxStorageKeyLen : Nat := 1024

/-- The constant `MaxContractScriptSize`. -/
def MaxContractScriptSize : Nat := 1024 * 1024

/-- The struct `StorageContext`: the script hash (a `util.Uint160`) and the read/write
flag. -/
structure StorageContext where
  ScriptHash : Nat
  ReadOnly : Bool
deriving DecidableEq, Repr

/-- Modelled from the spec: `state.StorageItem`, value bytes and the `IsConst` flag. -/
structure StorageItem where
  Value : List Nat
  IsConst : Bool
deriving DecidableEq, Repr

/-- Modelled from the spec: `manifest.Manifest`: the feature flags has-storage and
is-payable; the permissions and methods are kept as uninterpreted bytes. -/
structure Manifest where
  HasStorage : Bool
  IsPayable : Bool
  Rest : List Nat
deriving DecidableEq, Repr

/-- Modelled from the spec: `state.Contract`: script bytes, manifest, stable numeric id. -/
structure Contract where
  Script : List Nat
  Manifest : Manifest
  ID : Int
deriving DecidableEq, Repr

/-- Modelled from the spec: `Contract.HasStorage`, the has-storage feature flag. -/
def Contract.HasStorage (cs : Contract) : Bool := cs.Manifest.HasStorage

/-- The parts of other packages that the interop services call and that are not among the
sources: `hash160` of a script, the decoding of a manifest (`m.DecodeBinary(r)` followed by
`r.Err`), and the constants `StoragePrice` and `manifest.MaxManifestSize`. -/
structure CoreDeps where
  hash160 : List Nat → Nat
  DecodeManifest : List Nat → Except String Manifest
  StoragePrice : Nat
  MaxManifestSize : Nat

/-- Modelled from the spec: `Contract.ScriptHash`, the `hash160` of the script. -/
def Contract.ScriptHash (C : CoreDeps) (cs : Contract) : Nat := C.hash160 cs.Script

/-- Lookup in a key/value list: the first entry under `k`. -/
def kvGet {κ α : Type} [DecidableEq κ] : List (κ × α) → κ → Option α
  | [], _ => none
  | (k', v) :: rest, k => if k' = k then some v else kvGet rest k

/-- Removal of every entry under `k`. -/
def kvDel {κ α : Type} [DecidableEq κ] (l : List (κ × α)) (k : κ) : List (κ × α) :=
  l.filter fun p => decide (p.1 ≠ k)

/-- Storing `v` under `k`, replacing what was there. -/
def kvPut {κ α : Type} [DecidableEq κ] (l : List (κ × α)) (k : κ) (v : α) : List (κ × α) :=
  (k, v) :: kvDel l k

/-- Modelled from the spec: the DAO (package `dao` is not among the sources), the
key/value view the interop services read and write: the contracts by script hash and the
storage items by script hash and key. -/
structure DAO where
  contracts : List (Nat × Contract)
  storage : List ((Nat × List Nat) × StorageItem)
deriving DecidableEq, Repr

/-- Every script hash holds at most one contract and every (script hash, key) at most one
storage item: the list stands for a map. -/
def DAO.WF (d : DAO) : Prop :=
  (d.contracts.map Prod.fst).Nodup ∧ (d.storage.map Prod.fst).Nodup

/-- Modelled from the spec: `GetContractState(hash)`, the contract or not found (`none`). -/
def DAO.GetContractState (d : DAO) (hash : Nat) : Option Contract := kvGet d.contracts hash

/-- Modelled from the spec: `PutContractState(contract)`, stored under its script hash. -/
def DAO.PutContractState (C : CoreDeps) (d : DAO) (cs : Contract) : DAO :=
  { d with contracts := kvPut d.contracts (cs.ScriptHash C) cs }

/-- Modelled from the spec: `DeleteContractState(hash)`. -/
def DAO.DeleteContractState (d : DAO) (hash : Nat) : DAO :=
  { d with contracts := kvDel d.contracts hash }

/-- Modelled from the spec: `GetStorageItem(scriptHash, key)`, the item or nil (`none`). -/
def DAO.GetStorageItem (d : DAO) (hash : Nat) (key : List Nat) : Option StorageItem :=
  kvGet d.storage (hash, key)

/-- Modelled from the spec: `PutStorageItem(scriptHash, key, item)`. -/
def DAO.PutStorageItem (d : DAO) (hash : Nat) (key : List Nat) (si : StorageItem) : DAO :=
  { d with storage := kvPut d.storage (hash, key) si }

/-- Modelled from the spec: `DeleteStorageItem(scriptHash, key)`. -/
def DAO.DeleteStorageItem (d : DAO) (hash : Nat) (key : List Nat) : DAO :=
  { d with storage := kvDel d.storage (hash, key) }

/-- Modelled from the spec: `GetStorageItems(scriptHash)`, the items of one contract by
key. -/
def DAO.GetStorageItems (d : DAO) (hash : Nat) : List (List Nat × StorageItem) :=
  (d.storage.filter fun e => decide (e.1.1 = hash)).map fun e => (e.1.2, e.2)

/-- Modelled from the spec: `GetStorageItemsWithPrefix(scriptHash, prefix)`, the items of
one contract whose key starts with the prefix; the keys returned are the suffix after the
prefix. -/
def DAO.GetStorageItemsWithPrefix (d : DAO) (hash : Nat) (pre : List Nat) :
    List (List Nat × StorageItem) :=
  (d.storage.filter fun e => decide (e.1.1 = hash ∧ pre <+: e.1.2)).map
    fun e => (e.1.2.drop pre.length, e.2)

/-- The struct `interop.Context`, as far as the services below use it: the trigger, the
DAO and the lower DAO. -/
structure Context where
  Trigger : NeoGo.Trigger
  DAO : NeoGo.DAO
  LowerDAO : NeoGo.DAO
deriving DecidableEq, Repr

/-- A host object that an interop item points to: a storage context, a contract, a map
iterator, a block (its transactions stand as numbers), a header (a `block.Header` is its
`Base`), a transaction. `other` is any object of another Go type, by the name of the
type. -/
inductive HostObject where
  | storageContext (stc : StorageContext)
  | contract (cs : Contract)
  | mapIterator (m : List (Item × Item))
  | block (b : Block Nat)
  | header (h : Base)
  | transaction (tx : Nat)
  | other (typeName : String)

/-- Modelled from the spec: an element of the evaluation stack (package `vm` is not among
the sources). An interop item holds the address of its host object; `compound` is an
array, struct or map. -/
inductive Element where
  | byteArray (value : List Nat)
  | integer (value : Int)
  | boolean (value : Bool)
  | interop (ptr : Nat)
  | compound

/-- Modelled from the spec: `Element.Bytes()`: byte array unchanged, integer as its signed
minimum-length little-endian bytes, boolean as the byte 1 or 0; on every other item the
conversion fails and `Bytes()` panics. -/
def Element.Bytes : Element → Outcome (List Nat)
  | Element.byteArray v => Outcome.done v
  | Element.integer n => Outcome.done (bigintToBytes n)
  | Element.boolean b => Outcome.done [if b then 1 else 0]
  | _ => Outcome.crashed "can't convert to []byte"

/-- Modelled from the spec: `Element.BigInt()`: the integer, the integer a byte array
spells, 1 or 0 for a boolean; on every other item it panics. -/
def Element.BigInt : Element → Outcome Int
  | Element.byteArray v => Outcome.done (bigintFromBytes v)
  | Element.integer n => Outcome.done n
  | Element.boolean b => Outcome.done (if b then 1 else 0)
  | _ => Outcome.crashed "can't convert to integer"

/-- What `big.Int.Int64()` computes: the low 64 bits of the magnitude, read as an `int64`
and negated (with wrap-around) for a negative number. It is the number itself when that
fits an `int64`. -/
def bigIntInt64 (x : Int) : Int :=
  if x < 0 then wrapInt64 (-(toInt64 x.natAbs)) else toInt64 x.natAbs

/-- Modelled from the spec: the VM, as far as the services below use it: the evaluation
stack (top first), the host objects, by address, that interop items point to, the scripts
of the invocation stack (top first), and the gas consumed and its limit. -/
structure VM where
  estack : List Element
  objects : List HostObject
  istack : List (List Nat)
  gasConsumed : Nat
  gasLimit : Nat

/-- Modelled from the spec: `v.Estack().Pop()`; on an empty stack the element is nil and
the method called on it panics. -/
def VM.Pop (v : VM) : Outcome (Element × VM) :=
  match v.estack with
  | [] => Outcome.crashed "invalid memory address or nil pointer dereference"
  | e :: rest => Outcome.done (e, { v with estack := rest })

/-- Modelled from the spec: `v.Estack().PushVal(x)`. -/
def VM.PushVal (v : VM) (e : Element) : VM := { v with estack := e :: v.estack }

/-- The call `stackitem.NewInterop(obj)` for a newly allocated host object: the object
gets the next free address. -/
def VM.NewObject (v : VM) (obj : HostObject) : Nat × VM :=
  (v.objects.length, { v with objects := v.objects ++ [obj] })

/-- Modelled from the spec: `AddGas(amount)`: the amount is added to the gas consumed; the
result is false when the budget is exceeded. -/
def VM.AddGas (v : VM) (gas : Nat) : Bool × VM :=
  (decide (v.gasConsumed + gas ≤ v.gasLimit), { v with gasConsumed := v.gasConsumed + gas })

/-- The `%T` of an error message: the name of the Go type of `Element.Value()`. -/
def Element.typeName (v : VM) : Element → String
  | Element.byteArray _ => "[]uint8"
  | Element.integer _ => "*big.Int"
  | Element.boolean _ => "bool"
  | Element.compound => "[]stackitem.Item"
  | Element.interop p =>
    match v.objects[p]? with
    | some (HostObject.storageContext _) => "*core.StorageContext"
    | some (HostObject.contract _) => "*state.Contract"
    | some (HostObject.mapIterator _) => "*vm.mapWrapper"
    | some (HostObject.block _) => "*block.Block"
    | some (HostObject.header _) => "*block.Header"
    | some (HostObject.transaction _) => "*transaction.Transaction"
    | some (HostObject.other name) => name
    | none => "<nil>"

/-- The type assertion `stcInterface.(*StorageContext)` on `Element.Value()`. -/
def Element.asStorageContext (v : VM) : Element → Option StorageContext
  | Element.interop p =>
    match v.objects[p]? with
    | some (HostObject.storageContext stc) => some stc
    | _ => none
  | _ => none

/-- The function `checkStorageContext`. -/
def checkStorageContext (ic : Context) (stc : StorageContext) : Option String :=
  match ic.DAO.GetContractState stc.ScriptHash with
  | none => some "no contract found"
  | some contract =>
    if !contract.HasStorage then
      some ("contract " ++ toString stc.ScriptHash ++ " can't use storage")
    else none

/-- The error of the storage services under a wrong trigger. -/
def errNotApplication : String := "can't delete when the trigger is not application"

/-- The error of the storage services on a read-only context. -/
def errReadOnlyContext : String := "StorageContext is read only"

/-- The error of `storageDelete` on a constant item. -/
def errItemConstant : String := "storage item is constant"

/-- The error of `putWithContextAndFlags` on a constant item. -/
def errItemReadOnly : String := "storage item exists and is read-only"

/-- The error of `putWithContextAndFlags` on a long key. -/
def errKeyTooBig : String := "key is too big"

/-- The test `si != nil && si.IsConst`. -/
def isConstItem (si : Option StorageItem) : Bool :=
  match si with
  | some item => item.IsConst
  | none => false

/-- The function `storageDelete`: the error returned (`none` is nil), the context and the
VM afterwards. -/
def storageDelete (ic : Context) (v : VM) : Outcome (Option String × Context × VM) :=
  if ic.Trigger ≠ Trigger.Application ∧ ic.Trigger ≠ Trigger.ApplicationR then
    Outcome.done (some errNotApplication, ic, v)
  else do
    let (stcInterface, v1) ← v.Pop
    match stcInterface.asStorageContext v1 with
    | none =>
      Outcome.done (some (stcInterface.typeName v1 ++ " is not a StorageContext"), ic, v1)
    | some stc =>
      if stc.ReadOnly then Outcome.done (some errReadOnlyContext, ic, v1)
      else
        match checkStorageContext ic stc with
        | some err => Outcome.done (some err, ic, v1)
        | none => do
          let (keyElem, v2) ← v1.Pop
          let key ← keyElem.Bytes
          let si := ic.DAO.GetStorageItem stc.ScriptHash key
          if isConstItem si then Outcome.done (some errItemConstant, ic, v2)
          else
            Outcome.done (none, { ic with DAO := ic.DAO.DeleteStorageItem stc.ScriptHash key }, v2)

/-- The function `storageGet`. -/
def storageGet (ic : Context) (v : VM) : Outcome (Option String × Context × VM) := do
  let (stcInterface, v1) ← v.Pop
  match stcInterface.asStorageContext v1 with
  | none =>
    Outcome.done (some (stcInterface.typeName v1 ++ " is not a StorageContext"), ic, v1)
  | some stc =>
    match checkStorageContext ic stc with
    | some err => Outcome.done (some err, ic, v1)
    | none => do
      let (keyElem, v2) ← v1.Pop
      let key ← keyElem.Bytes
      match ic.DAO.GetStorageItem stc.ScriptHash key with
      | some si => Outcome.done (none, ic, v2.PushVal (Element.byteArray si.Value))
      | none => Outcome.done (none, ic, v2.PushVal (Element.byteArray []))

/-- The function `putWithContextAndFlags`: the error returned and the context afterwards. -/
def putWithContextAndFlags (ic : Context) (stc : StorageContext) (key value : List Nat)
    (isConst : Bool) : Option String × Context :=
  if ic.Trigger ≠ Trigger.Application ∧ ic.Trigger ≠ Trigger.ApplicationR then
    (some errNotApplication, ic)
  else if key.length > MaxStorageKeyLen then (some errKeyTooBig, ic)
  else if stc.ReadOnly then (some errReadOnlyContext, ic)
  else
    match checkStorageContext ic stc with
    | some err => (some err, ic)
    | none =>
      let si : StorageItem :=
        match ic.DAO.GetStorageItem stc.ScriptHash key with
        | some si => si
        | none => ⟨[], false⟩
      if si.IsConst then (some errItemReadOnly, ic)
      else
        (none, { ic with DAO := ic.DAO.PutStorageItem stc.ScriptHash key ⟨value, isConst⟩ })

/-- The function `storagePutInternal`. -/
def storagePutInternal (ic : Context) (v : VM) (getFlag : Bool) :
    Outcome (Option String × Context × VM) := do
  let (stcInterface, v1) ← v.Pop
  match stcInterface.asStorageContext v1 with
  | none =>
    Outcome.done (some (stcInterface.typeName v1 ++ " is not a StorageContext"), ic, v1)
  | some stc => do
    let (keyElem, v2) ← v1.Pop
    let key ← keyElem.Bytes
    let (valueElem, v3) ← v2.Pop
    let value ← valueElem.Bytes
    if getFlag then do
      let (flagElem, v4) ← v3.Pop
      let flagInt ← flagElem.BigInt
      let flag := bigIntInt64 flagInt
      let (err, ic1) := putWithContextAndFlags ic stc key value (decide (flag = 1))
      Outcome.done (err, ic1, v4)
    else
      let flag : Int := 0
      let (err, ic1) := putWithContextAndFlags ic stc key value (decide (flag = 1))
      Outcome.done (err, ic1, v3)

/-- The function `storagePut`. -/
def storagePut (ic : Context) (v : VM) : Outcome (Option String × Context × VM) :=
  storagePutInternal ic v false

/-- The function `storagePutEx`. -/
def storagePutEx (ic : Context) (v : VM) : Outcome (Option String × Context × VM) :=
  storagePutInternal ic v true

/-- The function `storageContextAsReadOnly`. A context that is not read-only is replaced
by a newly allocated one; the interop item pushed points to it. -/
def storageContextAsReadOnly (ic : Context) (v : VM) : Outcome (Option String × Context × VM) := do
  let (stcInterface, v1) ← v.Pop
  match stcInterface with
  | Element.interop p =>
    match v1.objects[p]? with
    | some (HostObject.storageContext stc) =>
      if !stc.ReadOnly then
        let (q, v2) := v1.NewObject (HostObject.storageContext ⟨stc.ScriptHash, true⟩)
        Outcome.done (none, ic, v2.PushVal (Element.interop q))
      else Outcome.done (none, ic, v1.PushVal (Element.interop p))
    | _ =>
      Outcome.done (some (stcInterface.typeName v1 ++ " is not a StorageContext"), ic, v1)
  | _ => Outcome.done (some (stcInterface.typeName v1 ++ " is not a StorageContext"), ic, v1)

/-- Modelled from the spec: `bytes.Compare`, the byte-lexicographic comparison: -1, 0
or 1. -/
def bytesCompare : List Nat → List Nat → Int
  | [], [] => 0
  | [], _ :: _ => -1
  | _ :: _, [] => 1
  | a :: as, b :: bs => if a < b then -1 else if b < a then 1 else bytesCompare as bs

/-- The bytes of a map key, `Key.Value().([]byte)`; the keys of `storageFind` are byte
arrays. -/
def keyBytes : Item → List Nat
  | Item.byteArray v => v
  | _ => []

/-- The `less` function that `storageFind` gives to `sort.Slice`. -/
def storageFindLess (a b : Item × Item) : Bool :=
  decide (bytesCompare (keyBytes a.1) (keyBytes b.1) = -1)

/-- Modelled from the spec: `sort.Slice(elements, less)` (the standard library is not among
the sources), as an insertion sort that puts `a` before `b` unless `less(b, a)`. -/
def sortSlice (less : Item × Item → Item × Item → Bool) (m : List (Item × Item)) :
    List (Item × Item) :=
  m.insertionSort fun a b => less b a = false

/-- A byte slice that `append(prefix, k...)` returns. `shared n` has the array of
`prefix`: it is the prefix followed by the first `n` bytes of the spare capacity of that
array, as they are when the slice is read. `fresh` is a new array. -/
inductive KeySlice where
  | shared (n : Nat)
  | fresh (bytes : List Nat)
deriving DecidableEq, Repr

/-- The bytes of a slice while the spare capacity of the array of the prefix holds
`tail`. -/
def KeySlice.bytes (pre tail : List Nat) : KeySlice → List Nat
  | KeySlice.shared n => pre ++ tail.take n
  | KeySlice.fresh bs => bs

/-- Go's `append(prefix, k...)`; `tail` is what the array of `prefix` holds after the end
of the slice, so its length is the spare capacity. When `k` fits, it is written there and
the result shares the array; otherwise the result is a new array and the old one is left
as it is. The result is the slice and the spare capacity afterwards. -/
def appendPrefix (pre tail k : List Nat) : KeySlice × List Nat :=
  if k.length ≤ tail.length then (KeySlice.shared k.length, k ++ tail.drop k.length)
  else (KeySlice.fresh (pre ++ k), tail)

/-- Modelled from the spec: `Map.Add(key, value)` as in `MapAdd`, for keys that are byte
arrays over slices of `append`: an entry whose key has, when the call is made, the bytes
of the new key gets the value; otherwise the pair is appended. -/
def sliceMapAdd (pre tail : List Nat) (key : KeySlice) (value : List Nat) :
    List (KeySlice × List Nat) → List (KeySlice × List Nat)
  | [] => [(key, value)]
  | (k, v) :: rest =>
    if k.bytes pre tail == key.bytes pre tail then (k, value) :: rest
    else (k, v) :: sliceMapAdd pre tail key value rest

/-- The loop `for k, v := range siMap { filteredMap.Add(append(prefix, k...), v.Value) }`
of `storageFind`, over the entries in the order the iteration gives them: the spare
capacity of the array of the prefix and the map, before and after. -/
def storageFindFill (pre : List Nat) :
    List (List Nat × StorageItem) → List Nat → List (KeySlice × List Nat) →
      List Nat × List (KeySlice × List Nat)
  | [], tail, m => (tail, m)
  | (k, si) :: rest, tail, m =>
    let (key, tail1) := appendPrefix pre tail k
    storageFindFill pre rest tail1 (sliceMapAdd pre tail1 key si.Value m)

/-- The entries of the map as stack items, with the bytes the keys have while the spare
capacity holds `tail`. -/
def sliceMapItems (pre tail : List Nat) (m : List (KeySlice × List Nat)) : List (Item × Item) :=
  m.map fun e => (Item.byteArray (e.1.bytes pre tail), Item.byteArray e.2)

/-- The map `storageFind` builds from the items found: filled, then sorted by the bytes
the keys have after the loop. -/
def storageFindMap (pre tail : List Nat) (siMap : List (List Nat × StorageItem)) :
    Outcome (List (Item × Item)) :=
  let (tail1, filteredMap) := storageFindFill pre siMap tail []
  Outcome.done (sortSlice storageFindLess (sliceMapItems pre tail1 filteredMap))

/-- The function `storageFind`. The entries of `siMap` are taken in the order the DAO
lists them. `tail` is what the array of the slice `prefix` holds after the end of the
slice (its spare capacity), which an element of the model does not record; what else
shares that array is not part of the model. -/
def storageFind (ic : Context) (v : VM) (tail : List Nat) :
    Outcome (Option String × Context × VM) := do
  let (stcInterface, v1) ← v.Pop
  match stcInterface.asStorageContext v1 with
  | none =>
    Outcome.done (some (stcInterface.typeName v1 ++ " is not a StorageContext"), ic, v1)
  | some stc =>
    match checkStorageContext ic stc with
    | some err => Outcome.done (some err, ic, v1)
    | none => do
      let (prefixElem, v2) ← v1.Pop
      let pre ← prefixElem.Bytes
      let siMap := ic.DAO.GetStorageItemsWithPrefix stc.ScriptHash pre
      let filteredMap ← storageFindMap pre tail siMap
      let (item, v3) := v2.NewObject (HostObject.mapIterator filteredMap)
      Outcome.done (none, ic, v3.PushVal (Element.interop item))

/-- The error of `contractCreate` when the script hash is taken. -/
def errContractExists : String := "contract already exists"

/-- The function `createContractStateFromVM`: the contract or the error, and the VM
afterwards. -/
def createContractStateFromVM (C : CoreDeps) (ic : Context) (v : VM) :
    Outcome (Except String Contract × VM) :=
  if ic.Trigger ≠ Trigger.Application then
    Outcome.done (Except.error "can't create contract when not triggered by an application", v)
  else do
    let (scriptElem, v1) ← v.Pop
    let script ← scriptElem.Bytes
    if script.length > MaxContractScriptSize then
      Outcome.done (Except.error "the script is too big", v1)
    else do
      let (manifestElem, v2) ← v1.Pop
      let manifestBytes ← manifestElem.Bytes
      if manifestBytes.length > C.MaxManifestSize then
        Outcome.done (Except.error "manifest is too big", v2)
      else
        let (ok, v3) := v2.AddGas (C.StoragePrice * (script.length + manifestBytes.length))
        if !ok then Outcome.done (Except.error "gas limit exceeded", v3)
        else
          match C.DecodeManifest manifestBytes with
          | Except.error err => Outcome.done (Except.error err, v3)
          | Except.ok m => Outcome.done (Except.ok ⟨script, m, 0⟩, v3)

/-- The function `contractCreate`. -/
def contractCreate (C : CoreDeps) (ic : Context) (v : VM) :
    Outcome (Option String × Context × VM) := do
  let (res, v1) ← createContractStateFromVM C ic v
  match res with
  | Except.error err => Outcome.done (some err, ic, v1)
  | Except.ok newcontract =>
    match ic.DAO.GetContractState (newcontract.ScriptHash C) with
    | some _ => Outcome.done (some errContractExists, ic, v1)
    | none =>
      let ic1 := { ic with DAO := ic.DAO.PutContractState C newcontract }
      let (item, v2) := v1.NewObject (HostObject.contract newcontract)
      Outcome.done (none, ic1, v2.PushVal (Element.interop item))

/-- Modelled from the spec: `util.Uint160DecodeBytesBE`: exactly 20 bytes, read as the
hash they spell (package `util` is not among the sources). -/
def Uint160DecodeBytesBE (b : List Nat) : Except String Nat :=
  if b.length ≠ 20 then Except.error "expected byte size of 20"
  else Except.ok (leValue b)

/-- Modelled from the spec: `Uint160.BytesBE`, the 20 bytes of a hash. -/
def Uint160BytesBE (u : Nat) : List Nat := leBytes 20 u

/-- The function `bcGetContract`. -/
def bcGetContract (ic : Context) (v : VM) : Outcome (Option String × Context × VM) := do
  let (hashElem, v1) ← v.Pop
  let hashbytes ← hashElem.Bytes
  match Uint160DecodeBytesBE hashbytes with
  | Except.error err => Outcome.done (some err, ic, v1)
  | Except.ok hash =>
    match ic.DAO.GetContractState hash with
    | none => Outcome.done (none, ic, v1.PushVal (Element.byteArray []))
    | some cs =>
      let (item, v2) := v1.NewObject (HostObject.contract cs)
      Outcome.done (none, ic, v2.PushVal (Element.interop item))

/-- One call of a storage service, on any VM state: what it makes of the context. -/
inductive StorageStep : Context → Context → Prop where
  | put (ic ic1 : Context) (v v1 : VM) (err : Option String) :
      storagePut ic v = Outcome.done (err, ic1, v1) → StorageStep ic ic1
  | putEx (ic ic1 : Context) (v v1 : VM) (err : Option String) :
      storagePutEx ic v = Outcome.done (err, ic1, v1) → StorageStep ic ic1
  | delete (ic ic1 : Context) (v v1 : VM) (err : Option String) :
      storageDelete ic v = Outcome.done (err, ic1, v1) → StorageStep ic ic1
  | get (ic ic1 : Context) (v v1 : VM) (err : Option String) :
      storageGet ic v = Outcome.done (err, ic1, v1) → StorageStep ic ic1
  | find (ic ic1 : Context) (v v1 : VM) (tail : List Nat) (err : Option String) :
      storageFind ic v tail = Outcome.done (err, ic1, v1) → StorageStep ic ic1
  | asReadOnly (ic ic1 : Context) (v v1 : VM) (err : Option String) :
      storageContextAsReadOnly ic v = Outcome.done (err, ic1, v1) → StorageStep ic ic1

/-- The context `ic1` is what any number of calls of storage services, on any VM states,
make of `ic`. -/
def StorageLater (ic ic1 : Context) : Prop := Relation.ReflTransGen StorageStep ic ic1

/-- A small instance of the absent parts of the interop services: the hash of a script is
the number its first 20 bytes spell, a manifest decodes from at least two bytes, the
first two being the has-storage and is-payable flags, the storage price is 1 and a manifest
has at most 8 bytes. -/
def demoCore : CoreDeps where
  hash160 := fun script => leValue (script.take 20)
  DecodeManifest := fun b =>
    match b with
    | s :: p :: rest => Except.ok ⟨decide (s ≠ 0), decide (p ≠ 0), rest⟩
    | _ => Except.error "unexpected EOF"
  StoragePrice := 1
  MaxManifestSize := 8

/-- A contract with storage of the demo instance, with script hash 7. -/
def demoContract : Contract := ⟨[7], ⟨true, false, []⟩, 0⟩

/-- A context under the trigger Application whose DAO holds the demo contract and one
constant and one plain storage item of it. -/
def demoContext : Context :=
  { Trigger := Trigger.Application
    DAO := ⟨[(7, demoContract)],
      [((7, [1, 2]), ⟨[9], false⟩), ((7, [1, 1]), ⟨[8], true⟩), ((7, [3]), ⟨[5], false⟩)]⟩
    LowerDAO := ⟨[], []⟩ }

/-- A VM whose only host object is a writable storage context of the demo contract, with
the given evaluation stack. -/
def demoVM (estack : List Element) : VM :=
  { estack := estack
    objects := [HostObject.storageContext ⟨7, false⟩, HostObject.storageContext ⟨7, true⟩]
    istack := []
    gasConsumed := 0
    gasLimit := 1000 }

/-! ## Package `core`: the contract services -/

/-- Modelled from the spec: `v.GetCurrentScriptHash()` (package `vm` is not among the
sources): the hash of the script of the top invocation frame; with no frame the context is
nil and the call panics. -/
def VM.GetCurrentScriptHash (C : CoreDeps) (v : VM) : Outcome Nat :=
  match v.istack with
  | [] => Outcome.crashed "invalid memory address or nil pointer dereference"
  | script :: _ => Outcome.done (C.hash160 script)

/-- Modelled from the spec: `v.LoadScript(b)`: the script becomes a new invocation frame,
on top. -/
def VM.LoadScript (v : VM) (b : List Nat) : VM := { v with istack := b :: v.istack }

/-- The error of `contractDestroy` under a wrong trigger. -/
def errDestroyTrigger : String := "can't destroy contract when not triggered by application"

/-- The error of `createContractStateFromVM` under a wrong trigger. -/
def errCreateTrigger : String := "can't create contract when not triggered by an application"

/-- The loop `for k := range siMap { _ = ic.DAO.DeleteStorageItem(hash, []byte(k)) }` of
`contractDestroy`. -/
def deleteStorageItems (d : DAO) (hash : Nat) : List (List Nat × StorageItem) → DAO
  | [] => d
  | (k, _) :: rest => deleteStorageItems (d.DeleteStorageItem hash k) hash rest

/-- The function `contractDestroy`. -/
def contractDestroy (C : CoreDeps) (ic : Context) (v : VM) :
    Outcome (Option String × Context × VM) :=
  if ic.Trigger ≠ Trigger.Application then Outcome.done (some errDestroyTrigger, ic, v)
  else do
    let hash ← v.GetCurrentScriptHash C
    match ic.DAO.GetContractState hash with
    | none => Outcome.done (none, ic, v)
    | some cs =>
      let d1 := ic.DAO.DeleteContractState hash
      if cs.HasStorage then
        let siMap := d1.GetStorageItems hash
        Outcome.done (none, { ic with DAO := deleteStorageItems d1 hash siMap }, v)
      else Outcome.done (none, { ic with DAO := d1 }, v)

/-- The loop `for k, v := range siMap { v.IsConst = false; err =
ic.DAO.PutStorageItem(contract.ScriptHash(), []byte(k), v) }` of `contractMigrate`, over
the entries in the order the iteration gives them. -/
def migrateStorageItems (d : DAO) (hash : Nat) : List (List Nat × StorageItem) → DAO
  | [] => d
  | (k, si) :: rest =>
    migrateStorageItems (d.PutStorageItem hash k { si with IsConst := false }) hash rest

/-- The error of `contractMigrate` when no contract is stored at the current script hash. -/
def errContractMissing : String := "contract doesn't exist"

/-- The error of `contractMigrate` on an empty script. -/
def errInvalidScriptLen : String := "invalid script len"

/-- The error of `contractMigrate` when the new script hashes to the hash of the old one. -/
def errSameScript : String := "the script is the same"

/-- The block `if newcontract.Script != nil { ... }` of `contractMigrate`: the error it
returns, or the DAO after it. Byte slices are lists here, so the nil slice and the empty
one are both `[]`; `nilScript` tells that the script popped is the nil slice, which only
an empty script can be. -/
def migrateContractState (C : CoreDeps) (nilScript : Bool) (d : DAO)
    (contract newcontract : Contract) : Except String DAO :=
  if newcontract.Script = [] ∧ nilScript = true then Except.ok d
  else if newcontract.Script.length = 0 ∨ newcontract.Script.length > MaxContractScriptSize then
    Except.error errInvalidScriptLen
  else
    let h := newcontract.ScriptHash C
    if h = contract.ScriptHash C then Except.error errSameScript
    else
      match d.GetContractState h with
      | some _ => Except.error errContractExists
      | none =>
        let newcontract1 := { newcontract with ID := contract.ID }
        Except.ok ((d.PutContractState C newcontract1).DeleteContractState
          (contract.ScriptHash C))

/-- The function `contractMigrate`. -/
def contractMigrate (C : CoreDeps) (nilScript : Bool) (ic : Context) (v : VM) :
    Outcome (Option String × Context × VM) := do
  let cur ← v.GetCurrentScriptHash C
  match ic.DAO.GetContractState cur with
  | none => Outcome.done (some errContractMissing, ic, v)
  | some contract => do
    let (res, v1) ← createContractStateFromVM C ic v
    match res with
    | Except.error err => Outcome.done (some err, ic, v1)
    | Except.ok newcontract =>
      match migrateContractState C nilScript ic.DAO contract newcontract with
      | Except.error err => Outcome.done (some err, ic, v1)
      | Except.ok d1 => do
        let d2 ←
          if contract.HasStorage then do
            let hash ← v1.GetCurrentScriptHash C
            let siMap := d1.GetStorageItems hash
            Outcome.done (migrateStorageItems d1 (contract.ScriptHash C) siMap)
          else Outcome.done d1
        let (item, v2) := v1.NewObject (HostObject.contract contract)
        contractDestroy C { ic with DAO := d2 } (v2.PushVal (Element.interop item))

/-- The type assertion `csInterface.(*state.Contract)` on `Element.Value()`. -/
def Element.asContract (v : VM) : Element → Option Contract
  | Element.interop p =>
    match v.objects[p]? with
    | some (HostObject.contract cs) => some cs
    | _ => none
  | _ => none

/-- The function `contractGetStorageContext`. The `%T` of its first error is given the nil
`*state.Contract` that the failed assertion leaves, so the name is that of the pointer
type. -/
def contractGetStorageContext (C : CoreDeps) (ic : Context) (v : VM) :
    Outcome (Option String × Context × VM) := do
  let (csInterface, v1) ← v.Pop
  match csInterface.asContract v1 with
  | none => Outcome.done (some "*state.Contract is not a contract state", ic, v1)
  | some cs =>
    match ic.DAO.GetContractState (cs.ScriptHash C) with
    | none => Outcome.done (some "non-existent contract", ic, v1)
    | some _ =>
      match ic.LowerDAO.GetContractState (cs.ScriptHash C) with
      | some _ => Outcome.done (some "contract was not created in this transaction", ic, v1)
      | none =>
        let (item, v2) := v1.NewObject (HostObject.storageContext ⟨cs.ScriptHash C, false⟩)
        Outcome.done (none, ic, v2.PushVal (Element.interop item))

/-- The parts of the packages `manifest` and `smartcontract` that the call services use
and that are not among the sources: the predicate `Manifest.CanCall` of the caller's
manifest on the callee's manifest and the method name, and the constant
`smartcontract.All`. -/
structure CallDeps where
  CanCall : Manifest → Manifest → List Nat → Bool
  All : Int

/-- Modelled from the spec: `Item.TryBytes()`: the bytes of a primitive item, an error for
every other item. -/
def Element.TryBytes : Element → Except String (List Nat)
  | Element.byteArray v => Except.ok v
  | Element.integer n => Except.ok (bigintToBytes n)
  | Element.boolean b => Except.ok [if b then 1 else 0]
  | _ => Except.error "can't convert to []byte"

/-- The function `contractCallExInternal`; the call flags are the parameter the code
names `_`. -/
def contractCallExInternal (C : CoreDeps) (K : CallDeps) (ic : Context) (v : VM)
    (h : List Nat) (method args : Element) (_flags : Int) :
    Outcome (Option String × Context × VM) :=
  match Uint160DecodeBytesBE h with
  | Except.error _ => Outcome.done (some "invalid contract hash", ic, v)
  | Except.ok u =>
    match ic.DAO.GetContractState u with
    | none => Outcome.done (some "contract not found", ic, v)
    | some cs =>
      match method.TryBytes with
      | Except.error err => Outcome.done (some err, ic, v)
      | Except.ok bs => do
        let cur ← v.GetCurrentScriptHash C
        let allowed : Bool :=
          match ic.DAO.GetContractState cur with
          | some curr => K.CanCall curr.Manifest cs.Manifest bs
          | none => true
        if !allowed then Outcome.done (some "disallowed method call", ic, v)
        else
          let v1 := v.LoadScript cs.Script
          Outcome.done (none, ic, (v1.PushVal args).PushVal method)

/-- The function `contractCall`. -/
def contractCall (C : CoreDeps) (K : CallDeps) (ic : Context) (v : VM) :
    Outcome (Option String × Context × VM) := do
  let (hElem, v1) ← v.Pop
  let h ← hElem.Bytes
  let (method, v2) ← v1.Pop
  let (args, v3) ← v2.Pop
  contractCallExInternal C K ic v3 h method args K.All

/-! ## Package `core`: the blockchain accessors -/

/-- The chain `ic.Chain` (package `blockchainer` is not among the sources), as far as the
accessors below read it: the hash of the header at a height, and the block and the header
with a hash, if the chain has them. -/
structure Blockchainer where
  GetHeaderHash : Int → Nat
  GetBlock : Nat → Option (Block Nat)
  GetHeader : Nat → Option Base

/-- The constant `math.MaxUint32`. -/
def MaxUint32 : Int := 4294967295

/-- Modelled from the spec: `util.Uint256DecodeBytesBE` (package `util` is not among the
sources): exactly 32 bytes, read as the hash they spell. -/
def Uint256DecodeBytesBE (b : List Nat) : Except String Nat :=
  if b.length ≠ 32 then Except.error "expected []byte of size 32"
  else Except.ok (leValue b)

/-- The error of `getBlockHashFromElement` on a number that is no block index. -/
def errBadBlockIndex : String := "bad block index"

/-- The function `getBlockHashFromElement`: the hash or the error. The conversions
`element.Bytes()` and `element.BigInt()` panic on an item that does not convert. -/
def getBlockHashFromElement (bc : Blockchainer) (element : Element) :
    Outcome (Except String Nat) := do
  let hashbytes ← element.Bytes
  if hashbytes.length ≤ 5 then do
    let n ← element.BigInt
    let hashint := bigIntInt64 n
    if hashint < 0 ∨ hashint > MaxUint32 then Outcome.done (Except.error errBadBlockIndex)
    else Outcome.done (Except.ok (bc.GetHeaderHash hashint))
  else Outcome.done (Uint256DecodeBytesBE hashbytes)

/-- The function `bcGetBlock`. -/
def bcGetBlock (bc : Blockchainer) (ic : Context) (v : VM) :
    Outcome (Option String × Context × VM) := do
  let (element, v1) ← v.Pop
  let res ← getBlockHashFromElement bc element
  match res with
  | Except.error err => Outcome.done (some err, ic, v1)
  | Except.ok hash =>
    match bc.GetBlock hash with
    | none => Outcome.done (none, ic, v1.PushVal (Element.byteArray []))
    | some block =>
      let (item, v2) := v1.NewObject (HostObject.block block)
      Outcome.done (none, ic, v2.PushVal (Element.interop item))

/-- The function `bcGetHeader`. -/
def bcGetHeader (bc : Blockchainer) (ic : Context) (v : VM) :
    Outcome (Option String × Context × VM) := do
  let (element, v1) ← v.Pop
  let res ← getBlockHashFromElement bc element
  match res with
  | Except.error err => Outcome.done (some err, ic, v1)
  | Except.ok hash =>
    match bc.GetHeader hash with
    | none => Outcome.done (none, ic, v1.PushVal (Element.byteArray []))
    | some header =>
      let (item, v2) := v1.NewObject (HostObject.header header)
      Outcome.done (none, ic, v2.PushVal (Element.interop item))

/-- The function `getTransactionAndHeight`. The method `cd.GetTransaction` of the DAO
(package `dao` is not among the sources) is the parameter `GetTransaction`: for a hash, the
transaction and its height, or the error of the DAO when it holds none; no service here
writes the transactions. -/
def getTransactionAndHeight (GetTransaction : Nat → Except String (Nat × Nat)) (v : VM) :
    Outcome (Except String (Nat × Nat) × VM) := do
  let (element, v1) ← v.Pop
  let hashbytes ← element.Bytes
  match Uint256DecodeBytesBE hashbytes with
  | Except.error err => Outcome.done (Except.error err, v1)
  | Except.ok hash => Outcome.done (GetTransaction hash, v1)

/-- The function `bcGetTransaction`. -/
def bcGetTransaction (GetTransaction : Nat → Except String (Nat × Nat)) (ic : Context)
    (v : VM) : Outcome (Option String × Context × VM) := do
  let (res, v1) ← getTransactionAndHeight GetTransaction v
  match res with
  | Except.error err => Outcome.done (some err, ic, v1)
  | Except.ok (tx, _) =>
    let (item, v2) := v1.NewObject (HostObject.transaction tx)
    Outcome.done (none, ic, v2.PushVal (Element.interop item))

/-- The function `bcGetTransactionHeight`. -/
def bcGetTransactionHeight (GetTransaction : Nat → Except String (Nat × Nat)) (ic : Context)
    (v : VM) : Outcome (Option String × Context × VM) := do
  let (res, v1) ← getTransactionAndHeight GetTransaction v
  match res with
  | Except.error err => Outcome.done (some err, ic, v1)
  | Except.ok (_, h) => Outcome.done (none, ic, v1.PushVal (Element.integer h))

/-- A small chain: the header hash of a height is the height plus 100, and the chain has
the demo block and its header under the hash 100 only. -/
def demoChain : Blockchainer where
  GetHeaderHash := fun i => (i + 100).toNat
  GetBlock := fun hash => if hash = 100 then some demoBlock else none
  GetHeader := fun hash => if hash = 100 then some demoBlock.Base else none

/-- A DAO transaction table that holds the transaction 3 at height 0 under the hash 5
only. -/
def demoGetTransaction (hash : Nat) : Except String (Nat × Nat) :=
  if hash = 5 then Except.ok (3, 0) else Except.error "key not found"

/-- A small instance of the absent parts of the call services: the `Rest` bytes of a
manifest name the one method it may call, of any contract, and the constant `All` is 15. -/
def demoCall : CallDeps where
  CanCall := fun caller _ method => decide (caller.Rest = method)
  All := 15

/-- The demo VM running the script `[7]` of the demo contract. -/
def demoVMRunning (estack : List Element) : VM :=
  { demoVM estack with istack := [[7]] }

/-- The demo context after the demo contract, running its script `[7]`, has migrated to the
script `[5]`: the contract is stored at the hash 5, and the three items are still stored
under the hash 7, none of them constant. -/
def demoMigrated : Context :=
  { Trigger := Trigger.Application
    DAO := ⟨[(5, ⟨[5], ⟨true, false, []⟩, 0⟩)],
      [((7, [3]), ⟨[5], false⟩), ((7, [1, 1]), ⟨[8], false⟩), ((7, [1, 2]), ⟨[9], false⟩)]⟩
    LowerDAO := ⟨[], []⟩ }

/-! ## Package `core`: the call flags and the block accessor -/

/-- Go's conversion `int32(x)` of an `int64`: the low 32 bits, read as a signed number. -/
def wrapInt32 (z : Int) : Int := (z + 2 ^ 31) % 2 ^ 32 - 2 ^ 31

/-- The function `contractCallEx`: the call flags are the fourth element popped. -/
def contractCallEx (C : CoreDeps) (K : CallDeps) (ic : Context) (v : VM) :
    Outcome (Option String × Context × VM) := do
  let (hElem, v1) ← v.Pop
  let h ← hElem.Bytes
  let (method, v2) ← v1.Pop
  let (args, v3) ← v2.Pop
  let (flagElem, v4) ← v3.Pop
  let flagInt ← flagElem.BigInt
  let flags := wrapInt32 (bigIntInt64 flagInt)
  contractCallExInternal C K ic v4 h method args flags

/-- The type assertion `blockInterface.(*block.Block)` on `Element.Value()`. -/
def Element.asBlock (v : VM) : Element → Option (Block Nat)
  | Element.interop p =>
    match v.objects[p]? with
    | some (HostObject.block b) => some b
    | _ => none
  | _ => none

/-- The function `blockGetTransaction`: the index is `BigInt().Int64()` of the second
element; `block.Transactions[index]` panics when the index is out of range. -/
def blockGetTransaction (ic : Context) (v : VM) : Outcome (Option String × Context × VM) := do
  let (blockInterface, v1) ← v.Pop
  match blockInterface.asBlock v1 with
  | none => Outcome.done (some "value is not a block", ic, v1)
  | some block => do
    let (indexElem, v2) ← v1.Pop
    let indexInt ← indexElem.BigInt
    let index := bigIntInt64 indexInt
    if index < 0 ∨ index ≥ (block.Transactions.length : Int) then
      Outcome.done (some "wrong transaction index", ic, v2)
    else
      match block.Transactions[index.toNat]? with
      | none => Outcome.crashed "index out of range"
      | some tx =>
        let (item, v3) := v2.NewObject (HostObject.transaction tx)
        Outcome.done (none, ic, v3.PushVal (Element.interop item))

/-- A VM whose only host object is the demo block, with the given evaluation stack. -/
def demoBlockVM (estack : List Element) : VM :=
  { estack := estack
    objects := [HostObject.block demoBlock]
    istack := []
    gasConsumed := 0
    gasLimit := 1000 }

/-! ## Package `core`: the network fee -/

/-- Modelled from the spec: `util.Fixed8.Add` (package `util` is not among the sources): a
`Fixed8` is a 64-bit fixed-point number, and `Add` is the addition of Go's `int64`, which
wraps around. -/
def Fixed8.Add (f g : Int) : Int := wrapInt64 (f + g)

/-- What `CalculateNetworkFee` calls outside the sources: `vm.IsSignatureContract`;
`vm.ParseMultiSigContract`, whose results on a multisig script are the number of required
signatures and the public keys; the static table of opcode prices; the opcodes `PUSHDATA1`
and `PUSHNULL`; the first byte `emit.Int` writes for a number, the opcode that pushes it;
and `io.GetVarSize` at an `int` and at a byte slice. -/
structure FeeDeps where
  IsSignatureContract : List Nat → Bool
  ParseMultiSigContract : List Nat → Option (Int × List (List Nat))
  prices : Nat → Int
  PUSHDATA1 : Nat
  PUSHNULL : Nat
  emitInt : Int → Nat
  GetVarSizeInt : Int → Int
  GetVarSizeBytes : List Nat → Int

/-- The constant `ecdsaVerifyInteropPrice`. -/
def ecdsaVerifyInteropPrice : Int := 100000

/-- Modelled from the spec: `opcodePrice(op...)` (its file is not among the sources): the
prices of the static table, summed over the arguments. -/
def opcodePrice (F : FeeDeps) (opcodes : List Nat) : Int :=
  opcodes.foldl (fun result op => Fixed8.Add result (F.prices op)) 0

/-- The function `calculateMultisigFee`. -/
def calculateMultisigFee (F : FeeDeps) (n : Int) : Int :=
  let result := wrapInt64 (opcodePrice F [F.PUSHDATA1] * n)
  Fixed8.Add result (opcodePrice F [F.emitInt n])

/-- The function `CalculateNetworkFee`: the fee and the size. The code binds the first
result of `ParseMultiSigContract` to `n` and the number of public keys to `m`. -/
def CalculateNetworkFee (F : FeeDeps) (script : List Nat) : Int × Int :=
  if F.IsSignatureContract script then
    (Fixed8.Add 0 (Fixed8.Add (opcodePrice F [F.PUSHDATA1, F.PUSHNULL]) ecdsaVerifyInteropPrice),
     wrapInt64 (0 + wrapInt64 (67 + F.GetVarSizeBytes script)))
  else
    match F.ParseMultiSigContract script with
    | some (n, pubs) =>
      let m : Int := pubs.length
      let sizeInv := wrapInt64 (66 * m)
      let size := wrapInt64 (0 + wrapInt64 (wrapInt64 (F.GetVarSizeInt sizeInv + sizeInv) +
        F.GetVarSizeBytes script))
      let netFee := Fixed8.Add (Fixed8.Add 0 (calculateMultisigFee F m)) (calculateMultisigFee F n)
      let netFee1 := Fixed8.Add (Fixed8.Add netFee (opcodePrice F [F.PUSHNULL]))
        (wrapInt64 (ecdsaVerifyInteropPrice * n))
      (netFee1, size)
    | none => (0, 0)

/-- The range of what the absent parts return: a price is not negative and below `2 ^ 32`,
and the size of a number is not negative and below `2 ^ 32`. -/
def FeeDeps.WF (F : FeeDeps) : Prop :=
  (∀ op, 0 ≤ F.prices op ∧ F.prices op < 2 ^ 32) ∧
  (∀ x, 0 ≤ F.GetVarSizeInt x ∧ F.GetVarSizeInt x < 2 ^ 32)

/-- The size `io.GetVarSize` gives a script is not negative and fits a slice in memory. -/
def FeeDeps.SizeOk (F : FeeDeps) (script : List Nat) : Prop :=
  0 ≤ F.GetVarSizeBytes script ∧ F.GetVarSizeBytes script < 2 ^ 48

instance (F : FeeDeps) (script : List Nat) : Decidable (F.SizeOk script) := by
  unfold FeeDeps.SizeOk
  infer_instance

/-- A small instance of the absent parts: a script `[1]` is a signature contract, a script
`m :: keys` with `m ≥ 2` is a multisig contract of `m` signatures with one key per further
byte; the opcode 12 (`PUSHDATA1`) costs 180 and every other opcode 30; the opcode pushing
`n` is `16 + n % 16`; the size of a number is 1, 3 or 5 and the size of a script that of
its length plus its length. -/
def demoFee : FeeDeps where
  IsSignatureContract := fun s => decide (s = [1])
  ParseMultiSigContract := fun s =>
    match s with
    | m :: keys => if 2 ≤ m then some ((m : Int), keys.map fun k => [k]) else none
    | [] => none
  prices := fun op => if op = 12 then 180 else 30
  PUSHDATA1 := 12
  PUSHNULL := 11
  emitInt := fun n => 16 + n.toNat % 16
  GetVarSizeInt := fun x => if x < 0xfd then 1 else if x ≤ 0xffff then 3 else 5
  GetVarSizeBytes := fun b =>
    (if b.length < 0xfd then 1 else if b.length ≤ 0xffff then 3 else 5) + (b.length : Int)

/-! ## Package `transaction`: the names of the attribute usages -/

/-- The constant `_AttrUsage_name_0`. -/
def AttrUsage_name_0 : String := "ContractHash"

/-- The constant `_AttrUsage_name_1`. -/
def AttrUsage_name_1 : String := "ECDH02ECDH03"

/-- The constant `_AttrUsage_name_2`. -/
def AttrUsage_name_2 : String := "Vote"

/-- The constant `_AttrUsage_name_3`. -/
def AttrUsage_name_3 : String := "CertURLDescriptionURL"

/-- The constant `_AttrUsage_name_4`. -/
def AttrUsage_name_4 : String := "Description"

/-- The constant `_AttrUsage_name_5`. -/
def AttrUsage_name_5 : String :=
  "Hash1Hash2Hash3Hash4Hash5Hash6Hash7Hash8Hash9Hash10Hash11Hash12Hash13Hash14Hash15"

/-- The constant `_AttrUsage_name_6`. -/
def AttrUsage_name_6 : String :=
  "RemarkRemark1Remark2Remark3Remark4Remark5Remark6Remark7Remark8Remark9Remark10Remark11Remark12Remark13Remark14Remark15"

/-- The table `_AttrUsage_index_1`. -/
def AttrUsage_index_1 : List Nat := [0, 6, 12]

/-- The table `_AttrUsage_index_3`. -/
def AttrUsage_index_3 : List Nat := [0, 7, 21]

/-- The table `_AttrUsage_index_5`. -/
def AttrUsage_index_5 : List Nat :=
  [0, 5, 10, 15, 20, 25, 30, 35, 40, 45, 51, 57, 63, 69, 75, 81]

/-- The table `_AttrUsage_index_6`. -/
def AttrUsage_index_6 : List Nat :=
  [0, 6, 13, 20, 27, 34, 41, 48, 55, 62, 69, 77, 85, 93, 101, 109, 117]

/-- Go's `name[index[i]:index[i+1]]` for a `uint8` number `i`: an index outside the table
and a slice bound outside the string panic. The names are ASCII, so a byte is a
character. -/
def sliceName (name : String) (index : List Nat) (i : Nat) : Outcome String :=
  match index[i]?, index[(i + 1) % 256]? with
  | some lo, some hi =>
    if lo ≤ hi ∧ hi ≤ name.length then
      Outcome.done (String.mk ((name.toList.drop lo).take (hi - lo)))
    else Outcome.crashed "slice bounds out of range"
  | _, _ => Outcome.crashed "index out of range"

/-- The method `AttrUsage.String` on the `uint8` value `i`; `strconv.FormatInt(_, 10)` is
the decimal numeral. -/
def AttrUsage.String (i : Nat) : Outcome String :=
  if i = 0 then Outcome.done AttrUsage_name_0
  else if 2 ≤ i ∧ i ≤ 3 then sliceName AttrUsage_name_1 AttrUsage_index_1 ((i - 2) % 256)
  else if i = 48 then Outcome.done AttrUsage_name_2
  else if 128 ≤ i ∧ i ≤ 129 then sliceName AttrUsage_name_3 AttrUsage_index_3 ((i - 128) % 256)
  else if i = 144 then Outcome.done AttrUsage_name_4
  else if 161 ≤ i ∧ i ≤ 175 then sliceName AttrUsage_name_5 AttrUsage_index_5 ((i - 161) % 256)
  else if 240 ≤ i ∧ i ≤ 255 then sliceName AttrUsage_name_6 AttrUsage_index_6 ((i - 240) % 256)
  else Outcome.done ("AttrUsage(" ++ Nat.repr i ++ ")")

/-- The usage values and the names of their constants, as the specification lists them. -/
def specAttrUsageNames : List (Nat × String) :=
  [(0, "ContractHash"), (2, "ECDH02"), (3, "ECDH03"), (48, "Vote"), (128, "CertURL"),
   (129, "DescriptionURL"), (144, "Description"),
   (161, "Hash1"), (162, "Hash2"), (163, "Hash3"), (164, "Hash4"), (165, "Hash5"),
   (166, "Hash6"), (167, "Hash7"), (168, "Hash8"), (169, "Hash9"), (170, "Hash10"),
   (171, "Hash11"), (172, "Hash12"), (173, "Hash13"), (174, "Hash14"), (175, "Hash15"),
   (240, "Remark"), (241, "Remark1"), (242, "Remark2"), (243, "Remark3"), (244, "Remark4"),
   (245, "Remark5"), (246, "Remark6"), (247, "Remark7"), (248, "Remark8"), (249, "Remark9"),
   (250, "Remark10"), (251, "Remark11"), (252, "Remark12"), (253, "Remark13"),
   (254, "Remark14"), (255, "Remark15")]

/-! ## Package `core`: notifications -/

/-- The bytes of a Go string: its UTF-8 encoding. -/
def stringBytes (s : String) : List Nat :=
  (s.toList.flatMap String.utf8EncodeChar).map UInt8.toNat

/-- The item of a notification event: a stack item of the heap, by its address, or the
byte array `runtimeNotify` makes of an error message. -/
inductive EventItem where
  | item (address : Nat)
  | newByteArray (value : List Nat)
deriving DecidableEq, Repr

/-- Modelled from the spec: `state.NotificationEvent` (package `state` is not among the
sources): the script hash and the item. -/
structure NotificationEvent where
  ScriptHash : Nat
  Item : EventItem
deriving DecidableEq, Repr

/-- What `runtimeNotify` reads and writes of the VM and of the interop context: the memory
of the stack items, the evaluation stack (items by address, top first), the scripts of the
invocation stack (top first) and `ic.Notifications`. -/
structure NotifyState where
  heap : Heap
  estack : List Nat
  istack : List (List Nat)
  Notifications : List NotificationEvent
deriving DecidableEq, Repr

/-- The function `runtimeNotify`; `fmt.Sprintf("bad notification: %v", err)` is the prefix
followed by the message of the error. `Pop` on an empty stack and `GetCurrentScriptHash`
with no frame panic. -/
def runtimeNotify (T : TypeTags) (C : CoreDeps) (s : NotifyState) :
    Outcome (Option String × NotifyState) :=
  match s.estack with
  | [] => Outcome.crashed "invalid memory address or nil pointer dereference"
  | x :: rest =>
    match SerializeItem T s.heap x with
    | none => Outcome.outOfFuel
    | some res =>
      let item : EventItem :=
        match res with
        | Except.ok _ => EventItem.item x
        | Except.error err => EventItem.newByteArray (stringBytes ("bad notification: " ++ err))
      match s.istack with
      | [] => Outcome.crashed "invalid memory address or nil pointer dereference"
      | script :: _ =>
        let ne : NotificationEvent := ⟨C.hash160 script, item⟩
        Outcome.done (none, { s with estack := rest, Notifications := s.Notifications ++ [ne] })

/-- A state whose memory holds an array that contains itself, a byte array and an interop
item, all three on the stack, with one earlier notification, running the script `[7]`. -/
def demoNotifyState : NotifyState :=
  { heap := [Node.array [0], Node.byteArray [1, 2], Node.interop]
    estack := [0, 1, 2]
    istack := [[7]]
    Notifications := [⟨9, EventItem.item 1⟩] }

/-! ## Package `core`: the genesis block -/

/-- Modelled from the spec: `transaction.Transaction` (its file is not among the sources):
version, nonce, sender, system fee, network fee, valid-until-block, attributes (usage and
data), witnesses and script. -/
structure Transaction where
  Version : Nat
  Nonce : Nat
  Sender : Nat
  SystemFee : Int
  NetworkFee : Int
  ValidUntilBlock : Nat
  Attributes : List (Nat × List Nat)
  Scripts : List Witness
  Script : List Nat
deriving DecidableEq, Repr

/-- Modelled from the spec: `transaction.New(script, gas)`: a transaction of version 0 with
the script and the system fee given, no attributes and no witnesses; its nonce is a random
number, here the argument `nonce`. -/
def Transaction.New (script : List Nat) (gas : Int) (nonce : Nat) : Transaction :=
  { Version := 0
    Nonce := nonce % 2 ^ 32
    Sender := 0
    SystemFee := gas
    NetworkFee := 0
    ValidUntilBlock := 0
    Attributes := []
    Scripts := []
    Script := script }

/-- What `createGenesisBlock` calls outside the sources: `keys.NewPublicKeyFromString` (a
public key stands as its bytes), `smartcontract.CreateMultiSigRedeemScript`,
`hash.Hash160`, the bytes `emit.Syscall` writes for a name, and the opcode `PUSH1`. -/
structure GenesisDeps where
  NewPublicKeyFromString : String → Except String (List Nat)
  CreateMultiSigRedeemScript : Int → List (List Nat) → Except String (List Nat)
  Hash160 : List Nat → Nat
  Syscall : String → List Nat
  PUSH1 : Nat

/-- The number of days from 1970-01-01 to a date of the Gregorian calendar, for a year
after 0. -/
def daysFromCivil (year month day : Nat) : Int :=
  let y := if month ≤ 2 then year - 1 else year
  let era := y / 400
  let yoe := y - era * 400
  let doy := (153 * (if month > 2 then month - 3 else month + 9) + 2) / 5 + day - 1
  let doe := yoe * 365 + yoe / 4 - yoe / 100 + doy
  ((era * 146097 + doe : Nat) : Int) - 719468

/-- Go's `time.Date(year, month, day, hour, min, sec, 0, time.UTC).Unix()`. -/
def unixTime (year month day hour min sec : Nat) : Int :=
  daysFromCivil year month day * 86400 + ((hour * 3600 + min * 60 + sec : Nat) : Int)

/-- The method `RebuildMerkleRoot`: the block with the computed root, or the error of the
tree construction. -/
def Block.RebuildMerkleRoot {Tx : Type} (D : Deps Tx) (b : Block Tx) : Except String (Block Tx) :=
  match b.computeMerkleTree D with
  | Except.error err => Except.error err
  | Except.ok root => Except.ok { b with Base := { b.Base with MerkleRoot := root } }

/-- The function `deployNativeContracts`; `nonce` is the random number `transaction.New`
draws. -/
def deployNativeContracts (G : GenesisDeps) (nonce : Nat) : Transaction :=
  let script := G.Syscall "Neo.Native.Deploy"
  let tx := Transaction.New script 0 nonce
  { tx with
    Nonce := 0
    Sender := G.Hash160 [G.PUSH1 % 256]
    Scripts := [⟨[], [G.PUSH1 % 256]⟩] }

/-- The function `getValidators`, on the list `cfg.StandbyValidators`. -/
def getValidators (G : GenesisDeps) : List String → Except String (List (List Nat))
  | [] => Except.ok []
  | pubKeyStr :: rest =>
    match G.NewPublicKeyFromString pubKeyStr with
    | Except.error err => Except.error err
    | Except.ok pubKey =>
      match getValidators G rest with
      | Except.error err => Except.error err
      | Except.ok validators => Except.ok (pubKey :: validators)

/-- The function `getNextConsensusAddress`; the division is Go's, which truncates. -/
def getNextConsensusAddress (G : GenesisDeps) (validators : List (List Nat)) :
    Except String Nat :=
  let vlen : Int := validators.length
  match G.CreateMultiSigRedeemScript (vlen - (vlen - 1).tdiv 3) validators with
  | Except.error err => Except.error err
  | Except.ok raw => Except.ok (G.Hash160 raw)

/-- The function `createGenesisBlock`, on the list `cfg.StandbyValidators`; `nonce` is the
random number `transaction.New` draws. -/
def createGenesisBlock (G : GenesisDeps) (D : Deps Transaction) (nonce : Nat)
    (StandbyValidators : List String) : Except String (Block Transaction) :=
  match getValidators G StandbyValidators with
  | Except.error err => Except.error err
  | Except.ok validators =>
    match getNextConsensusAddress G validators with
    | Except.error err => Except.error err
    | Except.ok nextConsensus =>
      let base : Base :=
        { Version := 0
          PrevHash := 0
          MerkleRoot := 0
          Timestamp := (unixTime 2016 7 15 15 8 21).toNat % 2 ^ 64 * 1000 % 2 ^ 64
          Index := 0
          NextConsensus := nextConsensus
          Script := ⟨[], [G.PUSH1 % 256]⟩ }
      let b : Block Transaction :=
        { Base := base
          Transactions := [deployNativeContracts G nonce]
          ConsensusData := ⟨0, 2083236893⟩
          Trimmed := false }
      b.RebuildMerkleRoot D

/-- A small instance of the absent parts: a public key is the UTF-8 bytes of a nonempty
string; the redeem script of `m` of `n` keys, for `1 ≤ m ≤ n ≤ 1024`, is `m`, the first
byte of each key, `n`; the hash of a script is the value of its first 20 bytes; a syscall
is the byte 65 followed by the length of the name; `PUSH1` is 17. -/
def demoGenesis : GenesisDeps where
  NewPublicKeyFromString := fun s =>
    if s = "" then Except.error "invalid key" else Except.ok (stringBytes s)
  CreateMultiSigRedeemScript := fun m keys =>
    if 1 ≤ m ∧ m ≤ keys.length ∧ keys.length ≤ 1024 then
      Except.ok (m.toNat :: (keys.map fun k => k.headD 0) ++ [keys.length])
    else Except.error "invalid parameters"
  Hash160 := fun script => leValue (script.take 20)
  Syscall := fun name => [65, name.length]
  PUSH1 := 17

/-- A small instance of the transaction parts: the hash of a transaction is the length of
its script plus its nonce, the hash of the consensus data is its nonce, and the Merkle root
of a nonempty list is the sum of its entries. -/
def demoTxDeps : Deps Transaction where
  Hash := fun tx => tx.Script.length + tx.Nonce
  DecodeBinary := fun br => (Transaction.New [] 0 0, br)
  EncodeBinary := fun _ bw => bw
  NewTrimmedTX := fun h => Transaction.New [] 0 h
  cdHash := fun c => c.Nonce
  NewMerkleTree := fun l =>
    match l with
    | [] => Except.error "length of the hashes cannot be zero"
    | _ => Except.ok l.sum

/-! ## Package `stackitem`: paths to an object -/

/-- A path from the item at `a` to the item at `c`: the positions, in the element list of
each container on the way (keys and values in turn for a map), of the next item. -/
inductive PathTo (h : Heap) : Nat → List Nat → Nat → Prop where
  | here (a : Nat) : PathTo h a [] a
  | step (a i b : Nat) (p : List Nat) (c : Nat) (hb : (children h a)[i]? = some b)
      (hp : PathTo h b p c) : PathTo h a (i :: p) c

/-- Some Array, Struct or Map object is reached twice from the item at `a`: along two
different paths. -/
def ReachedTwice (h : Heap) (a : Nat) : Prop :=
  ∃ c p q, isContainer h c = true ∧ p ≠ q ∧ PathTo h a p c ∧ PathTo h a q c

/-- Every Array, Struct or Map object below the item at `a` is reached along one path
only. -/
def UniquePaths (h : Heap) (a : Nat) : Prop :=
  ∀ c p q, isContainer h c = true → PathTo h a p c → PathTo h a q c → p = q

/-! # Theorems -/

/-! ## Writers keep their error -/

@[simp] theorem BinWriter.WriteBytes_Err (w : BinWriter) (b : List Nat) :
    (w.WriteBytes b).Err = w.Err := by
  unfold BinWriter.WriteBytes
  split <;> simp_all

@[simp] theorem BinWriter.WriteB_Err (w : BinWriter) (b : Nat) : (w.WriteB b).Err = w.Err := by
  simp [BinWriter.WriteB]

@[simp] theorem BinWriter.WriteBool_Err (w : BinWriter) (b : Bool) :
    (w.WriteBool b).Err = w.Err := by
  simp [BinWriter.WriteBool]

@[simp] theorem BinWriter.WriteVarUint_Err (w : BinWriter) (v : Nat) :
    (w.WriteVarUint v).Err = w.Err := by
  unfold BinWriter.WriteVarUint
  simp only [BinWriter.WriteU16LE, BinWriter.WriteU32LE, BinWriter.WriteU64LE]
  split_ifs <;> simp

@[simp] theorem BinWriter.WriteVarBytes_Err (w : BinWriter) (b : List Nat) :
    (w.WriteVarBytes b).Err = w.Err := by
  simp [BinWriter.WriteVarBytes]

/-! ## The spec's examples of the encodings -/

/-- The integer encoding on the spec's examples: `0` is the empty payload, `-1` is `0xFF`,
`128` is `0x80 0x00`; and the decoding gives the integers back. -/
theorem bigint_examples :
    bigintToBytes 0 = [] ∧ bigintToBytes (-1) = [0xff] ∧ bigintToBytes 128 = [0x80, 0x00] ∧
    bigintFromBytes [] = 0 ∧ bigintFromBytes [0xff] = -1 ∧ bigintFromBytes [0x80, 0x00] = 128 := by
  decide

/-- The varuint encoding at the borders of its four widths. -/
theorem varUintBytes_examples :
    varUintBytes 0xfc = [0xfc] ∧ varUintBytes 0xfd = [0xfd, 0xfd, 0x00] ∧
    varUintBytes 0xffff = [0xfd, 0xff, 0xff] ∧
    varUintBytes 0x10000 = [0xfe, 0x00, 0x00, 0x01, 0x00] ∧
    varUintBytes 0xffffffff = [0xfe, 0xff, 0xff, 0xff, 0xff] ∧
    varUintBytes 0x100000000 = [0xff, 0, 0, 0, 0, 1, 0, 0, 0] := by
  decide

/-! ## What the writers emit and the readers read back -/

theorem leBytes_lt (n v : Nat) : ∀ b ∈ leBytes n v, b < 256 := by
  induction n generalizing v with
  | zero => simp [leBytes]
  | succ n ih =>
    intro b hb
    simp only [leBytes, List.mem_cons] at hb
    rcases hb with rfl | hb
    · exact Nat.mod_lt _ (by decide)
    · exact ih _ b hb

theorem map_mod_of_lt (l : List Nat) (hl : ∀ b ∈ l, b < 256) : l.map (· % 256) = l := by
  induction l with
  | nil => rfl
  | cons a t ih =>
    simp only [List.map_cons, List.cons.injEq]
    exact ⟨Nat.mod_eq_of_lt (hl a (List.mem_cons_self _ _)),
      ih fun b hb => hl b (List.mem_cons_of_mem _ hb)⟩

theorem leBytes_length (n v : Nat) : (leBytes n v).length = n := by
  induction n generalizing v with
  | zero => rfl
  | succ n ih => simp [leBytes, ih]

theorem leValue_leBytes (n v : Nat) : leValue (leBytes n v) = v % 256 ^ n := by
  induction n generalizing v with
  | zero => simp [leBytes, leValue, Nat.mod_one]
  | succ n ih =>
    simp only [leBytes, leValue, ih, Nat.mod_mod]
    rw [pow_succ, Nat.mul_comm (256 ^ n) 256, Nat.mod_mul]

theorem varUintBytes_lt (val : Nat) : ∀ b ∈ varUintBytes val, b < 256 := by
  intro b hb
  unfold varUintBytes at hb
  simp only at hb
  split_ifs at hb with h1 h2 h3
  · simp only [List.mem_singleton] at hb; omega
  all_goals
    simp only [List.mem_cons] at hb
    rcases hb with rfl | hb
    · decide
    · exact leBytes_lt _ _ b hb

theorem BinWriter.WriteBytes_ok (w : BinWriter) (hw : w.Err = none) (b : List Nat) :
    w.WriteBytes b = ⟨w.buf ++ b.map (· % 256), none⟩ := by
  cases w with
  | mk buf Err =>
    simp only at hw
    subst hw
    rfl

theorem BinWriter.WriteB_ok (w : BinWriter) (hw : w.Err = none) (b : Nat) :
    w.WriteB b = ⟨w.buf ++ [b % 256], none⟩ := by
  simp [BinWriter.WriteB, BinWriter.WriteBytes_ok w hw]

theorem BinWriter.WriteUintLE_ok (w : BinWriter) (hw : w.Err = none) (n v : Nat) :
    w.WriteBytes (leBytes n v) = ⟨w.buf ++ leBytes n v, none⟩ := by
  rw [BinWriter.WriteBytes_ok w hw, map_mod_of_lt _ (leBytes_lt n v)]

theorem BinWriter.WriteVarUint_ok (w : BinWriter) (hw : w.Err = none) (val : Nat) :
    w.WriteVarUint val = ⟨w.buf ++ varUintBytes val, none⟩ := by
  unfold BinWriter.WriteVarUint varUintBytes
  simp only [BinWriter.WriteU16LE, BinWriter.WriteU32LE, BinWriter.WriteU64LE]
  split_ifs with h1 h2 h3
  · rw [BinWriter.WriteB_ok w hw, Nat.mod_eq_of_lt (by omega)]
  all_goals
    rw [BinWriter.WriteUintLE_ok _ (by simp [hw]), BinWriter.WriteB_ok w hw]
    simp

theorem BinWriter.WriteVarBytes_ok (w : BinWriter) (hw : w.Err = none) (b : List Nat) :
    w.WriteVarBytes b = ⟨w.buf ++ (varUintBytes b.length ++ b.map (· % 256)), none⟩ := by
  unfold BinWriter.WriteVarBytes
  rw [BinWriter.WriteVarUint_ok w hw, BinWriter.WriteBytes_ok _ rfl]
  simp

theorem BinReader.ReadB_cons (b : Nat) (rest : List Nat) :
    BinReader.ReadB ⟨b :: rest, none⟩ = (b % 256, ⟨rest, none⟩) := rfl

theorem BinReader.ReadBytes_append (b rest : List Nat) :
    BinReader.ReadBytes ⟨b ++ rest, none⟩ b.length = (b.map (· % 256), ⟨rest, none⟩) := by
  simp [BinReader.ReadBytes]

theorem BinReader.ReadUintLE_leBytes (n v : Nat) (rest : List Nat) :
    BinReader.ReadUintLE ⟨leBytes n v ++ rest, none⟩ n = (v % 256 ^ n, ⟨rest, none⟩) := by
  have h := BinReader.ReadBytes_append (leBytes n v) rest
  rw [leBytes_length, map_mod_of_lt _ (leBytes_lt n v)] at h
  simp only [BinReader.ReadUintLE, h, leValue_leBytes]

theorem BinReader.ReadVarUint_varUintBytes (val : Nat) (rest : List Nat) :
    BinReader.ReadVarUint ⟨varUintBytes val ++ rest, none⟩ = (val % 2 ^ 64, ⟨rest, none⟩) := by
  have hlt : val % 2 ^ 64 < 2 ^ 64 := Nat.mod_lt _ (by decide)
  unfold varUintBytes
  simp only
  split_ifs with h1 h2 h3
  · simp only [BinReader.ReadVarUint, List.singleton_append, BinReader.ReadB_cons]
    rw [Nat.mod_eq_of_lt (by omega : val % 2 ^ 64 < 256)]
    rw [if_neg (by omega), if_neg (by omega), if_neg (by omega)]
  · simp only [BinReader.ReadVarUint, List.cons_append, BinReader.ReadB_cons,
      BinReader.ReadU16LE, BinReader.ReadUintLE_leBytes]
    rw [Nat.mod_eq_of_lt (show val % 2 ^ 64 < 256 ^ 2 by omega)]
    simp
  · simp only [BinReader.ReadVarUint, List.cons_append, BinReader.ReadB_cons,
      BinReader.ReadU32LE, BinReader.ReadUintLE_leBytes]
    rw [Nat.mod_eq_of_lt (show val % 2 ^ 64 < 256 ^ 4 by omega)]
    simp
  · simp only [BinReader.ReadVarUint, List.cons_append, BinReader.ReadB_cons,
      BinReader.ReadU64LE, BinReader.ReadUintLE_leBytes]
    rw [Nat.mod_eq_of_lt (show val % 2 ^ 64 < 256 ^ 8 by omega)]
    simp

theorem BinReader.ReadVarBytes_append (b rest : List Nat) (hb : b.length < 2 ^ 64) :
    BinReader.ReadVarBytes ⟨varUintBytes b.length ++ (b ++ rest), none⟩ =
      (b.map (· % 256), ⟨rest, none⟩) := by
  simp only [BinReader.ReadVarBytes, BinReader.ReadVarUint_varUintBytes,
    Nat.mod_eq_of_lt hb, BinReader.ReadBytes_append]

/-! ## The traversal of `serializeItemTo` -/

theorem reach_eq_of_children_nil {h : Heap} {a b : Nat} (hc : children h a = [])
    (hr : Reach h a b) : b = a := by
  rcases Relation.ReflTransGen.cases_head hr with heq | ⟨c, hch, _⟩
  · exact heq.symm
  · simp [Child, hc] at hch

theorem reach_cases {h : Heap} {a b : Nat} (hr : Reach h a b) :
    b = a ∨ ∃ c, c ∈ children h a ∧ Reach h c b := by
  rcases Relation.ReflTransGen.cases_head hr with heq | ⟨c, hch, hcb⟩
  · exact Or.inl heq.symm
  · exact Or.inr ⟨c, hch, hcb⟩

theorem Visited.mono_left {h : Heap} {s1 s2 s3 : List Nat} {b : Nat} (h12 : s1 ⊆ s2)
    (hv : Visited h s2 s3 b) : Visited h s1 s3 b :=
  ⟨hv.1, fun hc => ⟨fun hmem => (hv.2 hc).1 (h12 hmem), (hv.2 hc).2⟩⟩

theorem Visited.mono_right {h : Heap} {s1 s2 s3 : List Nat} {b : Nat} (h23 : s2 ⊆ s3)
    (hv : Visited h s1 s2 b) : Visited h s1 s3 b :=
  ⟨hv.1, fun hc => ⟨(hv.2 hc).1, h23 (hv.2 hc).2⟩⟩

theorem serializeElems_spec {h : Heap}
    {f : Nat → BinWriter → List Nat → Option (BinWriter × List Nat)} (hf : SerSpec h f) :
    ∀ (l : List Nat) (w : BinWriter) (seen : List Nat) (w' : BinWriter) (seen' : List Nat),
      serializeElems f l w seen = some (w', seen') →
      seen ⊆ seen' ∧ (w'.Err = none → w.Err = none) ∧
      (w'.Err = none → ∀ c ∈ l, ∀ b, Reach h c b → Visited h seen seen' b) ∧
      ((∀ c ∈ l, ∀ b, Reach h c b → h[b]? ≠ some Node.interop) →
        errNoneOrRecursive w → errNoneOrRecursive w') := by
  intro l
  induction l with
  | nil =>
    intro w seen w' seen' hrun
    simp only [serializeElems, Option.some.injEq, Prod.mk.injEq] at hrun
    obtain ⟨rfl, rfl⟩ := hrun
    exact ⟨List.Subset.refl _, id, by simp, fun _ hw => hw⟩
  | cons a rest ih =>
    intro w seen w' seen' hrun
    simp only [serializeElems] at hrun
    cases hfa : f a w seen with
    | none => simp [hfa] at hrun
    | some p =>
      obtain ⟨w1, s1⟩ := p
      simp only [hfa] at hrun
      obtain ⟨hsub1, hst1, hvis1, herr1, _⟩ := hf a w seen w1 s1 hfa
      obtain ⟨hsub2, hst2, hvis2, herr2⟩ := ih w1 s1 w' seen' hrun
      refine ⟨hsub1.trans hsub2, fun hn => hst1 (hst2 hn), ?_, ?_⟩
      · intro hn c hc b hr
        rcases List.mem_cons.mp hc with rfl | hc
        · exact (hvis1 (hst2 hn) b hr).mono_right hsub2
        · exact (hvis2 hn c hc b hr).mono_left hsub1
      · intro hno hw
        exact herr2 (fun c hc b hr => hno c (List.mem_cons_of_mem _ hc) b hr)
          (herr1 (fun b hr => hno a (List.mem_cons_self _ _) b hr) hw)

theorem serializePairs_spec {h : Heap}
    {f : Nat → BinWriter → List Nat → Option (BinWriter × List Nat)} (hf : SerSpec h f) :
    ∀ (m : List (Nat × Nat)) (w : BinWriter) (seen : List Nat) (w' : BinWriter)
      (seen' : List Nat),
      serializePairs f m w seen = some (w', seen') →
      seen ⊆ seen' ∧ (w'.Err = none → w.Err = none) ∧
      (w'.Err = none → ∀ c ∈ m.flatMap (fun p => [p.1, p.2]), ∀ b, Reach h c b →
        Visited h seen seen' b) ∧
      ((∀ c ∈ m.flatMap (fun p => [p.1, p.2]), ∀ b, Reach h c b →
          h[b]? ≠ some Node.interop) →
        errNoneOrRecursive w → errNoneOrRecursive w') := by
  intro m
  induction m with
  | nil =>
    intro w seen w' seen' hrun
    simp only [serializePairs, Option.some.injEq, Prod.mk.injEq] at hrun
    obtain ⟨rfl, rfl⟩ := hrun
    exact ⟨List.Subset.refl _, id, by simp, fun _ hw => hw⟩
  | cons kv rest ih =>
    intro w seen w' seen' hrun
    obtain ⟨k, v⟩ := kv
    simp only [serializePairs] at hrun
    cases hfk : f k w seen with
    | none => simp [hfk] at hrun
    | some p =>
      obtain ⟨w1, s1⟩ := p
      simp only [hfk] at hrun
      cases hfv : f v w1 s1 with
      | none => simp [hfv] at hrun
      | some q =>
        obtain ⟨w2, s2⟩ := q
        simp only [hfv] at hrun
        obtain ⟨hsub1, hst1, hvis1, herr1, _⟩ := hf k w seen w1 s1 hfk
        obtain ⟨hsub2, hst2, hvis2, herr2, _⟩ := hf v w1 s1 w2 s2 hfv
        obtain ⟨hsub3, hst3, hvis3, herr3⟩ := ih w2 s2 w' seen' hrun
        refine ⟨(hsub1.trans hsub2).trans hsub3, fun hn => hst1 (hst2 (hst3 hn)), ?_, ?_⟩
        · intro hn c hc b hr
          simp only [List.flatMap_cons, List.mem_append, List.mem_cons, List.mem_singleton,
            List.not_mem_nil, or_false] at hc
          rcases hc with (rfl | rfl) | hc
          · exact (hvis1 (hst2 (hst3 hn)) b hr).mono_right (hsub2.trans hsub3)
          · exact ((hvis2 (hst3 hn) b hr).mono_right hsub3).mono_left hsub1
          · exact (hvis3 hn c hc b hr).mono_left (hsub1.trans hsub2)
        · intro hno hw
          refine herr3 (fun c hc b hr => hno c ?_ b hr)
            (herr2 (fun b hr => hno v ?_ b hr) (herr1 (fun b hr => hno k ?_ b hr) hw))
          · simp only [List.flatMap_cons, List.mem_append]; exact Or.inr hc
          · simp [List.flatMap_cons]
          · simp [List.flatMap_cons]

/-- A leaf of the traversal: an item without children that is no interop item and no
container, written without touching `seen` or the error. -/
theorem serSpec_leaf {h : Heap} {item : Nat} {w w' : BinWriter} {seen : List Nat}
    (hc : children h item = []) (hi : h[item]? ≠ some Node.interop)
    (hn : isContainer h item = false) (hw : w'.Err = w.Err) :
    seen ⊆ seen ∧ (w'.Err = none → w.Err = none) ∧
    (w'.Err = none → ∀ b, Reach h item b → Visited h seen seen b) ∧
    ((∀ b, Reach h item b → h[b]? ≠ some Node.interop) →
      errNoneOrRecursive w → errNoneOrRecursive w') ∧
    (w'.Err = none → ¬ Contains h item item) := by
  refine ⟨List.Subset.refl _, fun h1 => hw ▸ h1, ?_, ?_, ?_⟩
  · intro _ b hr
    have hb := reach_eq_of_children_nil hc hr
    subst hb
    exact ⟨hi, fun hcon => by simp [hn] at hcon⟩
  · intro _ hok
    simpa [errNoneOrRecursive, hw] using hok
  · intro _ hcyc
    obtain ⟨c, hch, _⟩ := Relation.TransGen.head'_iff.mp hcyc
    simp [Child, hc] at hch

/-- A container of the traversal, given what its loop over the children does. -/
theorem serSpec_container {h : Heap} {item : Nat} {w w0 w' : BinWriter} {seen seen' : List Nat}
    (hi : h[item]? ≠ some Node.interop) (hcon : isContainer h item = true)
    (hmem : item ∉ seen) (hw : w0.Err = w.Err)
    (hloop : (item :: seen) ⊆ seen' ∧ (w'.Err = none → w0.Err = none) ∧
      (w'.Err = none → ∀ c ∈ children h item, ∀ b, Reach h c b →
        Visited h (item :: seen) seen' b) ∧
      ((∀ c ∈ children h item, ∀ b, Reach h c b → h[b]? ≠ some Node.interop) →
        errNoneOrRecursive w0 → errNoneOrRecursive w')) :
    seen ⊆ seen' ∧ (w'.Err = none → w.Err = none) ∧
    (w'.Err = none → ∀ b, Reach h item b → Visited h seen seen' b) ∧
    ((∀ b, Reach h item b → h[b]? ≠ some Node.interop) →
      errNoneOrRecursive w → errNoneOrRecursive w') ∧
    (w'.Err = none → ¬ Contains h item item) := by
  obtain ⟨hsub, hst, hvis, herr⟩ := hloop
  have hsub' : seen ⊆ seen' := fun x hx => hsub (List.mem_cons_of_mem _ hx)
  refine ⟨hsub', fun h1 => hw ▸ hst h1, ?_, ?_, ?_⟩
  rotate_left 2
  · intro hnone hcyc
    obtain ⟨c, hch, hcb⟩ := Relation.TransGen.head'_iff.mp hcyc
    exact ((hvis hnone c hch item hcb).2 hcon).1 (List.mem_cons_self _ _)
  · intro hnone b hr
    rcases reach_cases hr with rfl | ⟨c, hc, hcb⟩
    · exact ⟨hi, fun _ => ⟨hmem, hsub (List.mem_cons_self _ _)⟩⟩
    · exact (hvis hnone c hc b hcb).mono_left (List.subset_cons_self _ _)
  · intro hno hok
    refine herr (fun c hc b hcb => hno b ?_) ?_
    · exact Relation.ReflTransGen.head hc hcb
    · simpa [errNoneOrRecursive, hw] using hok

theorem serializeItemTo_spec (T : TypeTags) (h : Heap) :
    ∀ fuel, SerSpec h (serializeItemTo T h fuel) := by
  intro fuel
  induction fuel with
  | zero => intro item w seen w' seen' hrun; simp [serializeItemTo] at hrun
  | succ fuel ih =>
    intro item w seen w' seen' hrun
    unfold serializeItemTo at hrun
    split_ifs at hrun with hseen
    · simp only [Option.some.injEq, Prod.mk.injEq] at hrun
      obtain ⟨rfl, rfl⟩ := hrun
      refine ⟨List.Subset.refl _, fun h1 => by simp at h1, fun h1 => by simp at h1, ?_,
        fun h1 => by simp at h1⟩
      intro _ _
      exact Or.inr rfl
    · split at hrun
      all_goals rename_i hnode
      · simp only [Option.some.injEq, Prod.mk.injEq] at hrun
        obtain ⟨rfl, rfl⟩ := hrun
        exact serSpec_leaf (by simp [children, hnode]) (by simp [hnode])
          (by simp [isContainer, hnode]) rfl
      · simp only [Option.some.injEq, Prod.mk.injEq] at hrun
        obtain ⟨rfl, rfl⟩ := hrun
        exact serSpec_leaf (by simp [children, hnode]) (by simp [hnode])
          (by simp [isContainer, hnode]) (by simp)
      · simp only [Option.some.injEq, Prod.mk.injEq] at hrun
        obtain ⟨rfl, rfl⟩ := hrun
        exact serSpec_leaf (by simp [children, hnode]) (by simp [hnode])
          (by simp [isContainer, hnode]) (by simp)
      · simp only [Option.some.injEq, Prod.mk.injEq] at hrun
        obtain ⟨rfl, rfl⟩ := hrun
        exact serSpec_leaf (by simp [children, hnode]) (by simp [hnode])
          (by simp [isContainer, hnode]) (by simp)
      · simp only [Option.some.injEq, Prod.mk.injEq] at hrun
        obtain ⟨rfl, rfl⟩ := hrun
        exact serSpec_leaf (by simp [children, hnode]) (by simp [hnode])
          (by simp [isContainer, hnode]) (by simp)
      · simp only [Option.some.injEq, Prod.mk.injEq] at hrun
        obtain ⟨rfl, rfl⟩ := hrun
        refine ⟨List.Subset.refl _, fun h1 => by simp at h1, fun h1 => by simp at h1, ?_,
          fun h1 => by simp at h1⟩
        intro hno _
        exact absurd hnode (hno item Relation.ReflTransGen.refl)
      · rename_i arr
        have hch : children h item = arr := by simp only [children, hnode]
        exact serSpec_container (by simp [hnode]) (by simp [isContainer, hnode]) hseen (by simp)
          (hch ▸ serializeElems_spec ih _ _ _ _ _ hrun)
      · rename_i arr
        have hch : children h item = arr := by simp only [children, hnode]
        exact serSpec_container (by simp [hnode]) (by simp [isContainer, hnode]) hseen (by simp)
          (hch ▸ serializeElems_spec ih _ _ _ _ _ hrun)
      · rename_i m
        have hch : children h item = m.flatMap fun p => [p.1, p.2] := by
          simp only [children, hnode]
        exact serSpec_container (by simp [hnode]) (by simp [isContainer, hnode]) hseen (by simp)
          (hch ▸ serializePairs_spec ih _ _ _ _ _ hrun)

/-! ## The fuel of `SerializeItem` is enough -/

theorem unseen_mono (h : Heap) {s1 s2 : List Nat} (hsub : s1 ⊆ s2) :
    unseen h s2 ≤ unseen h s1 := by
  apply Finset.card_le_card
  intro a ha
  simp only [Finset.mem_filter, Finset.mem_range] at ha ⊢
  exact ⟨ha.1, ha.2.1, fun hm => ha.2.2 (hsub hm)⟩

theorem unseen_cons_lt (h : Heap) {item : Nat} {seen : List Nat}
    (hc : isContainer h item = true) (hn : item ∉ seen) :
    unseen h (item :: seen) < unseen h seen := by
  have hlt : item < h.length := by
    by_contra hge
    have : h[item]? = none := List.getElem?_eq_none (Nat.le_of_not_lt hge)
    simp [isContainer, this] at hc
  apply Finset.card_lt_card
  rw [Finset.ssubset_iff_of_subset]
  · refine ⟨item, ?_, ?_⟩
    · simp only [Finset.mem_filter, Finset.mem_range]
      exact ⟨hlt, hc, hn⟩
    · simp
  · intro a ha
    simp only [Finset.mem_filter, Finset.mem_range, List.mem_cons, not_or] at ha ⊢
    exact ⟨ha.1, ha.2.1, ha.2.2.2⟩

theorem serializeElems_isSome {h : Heap}
    {f : Nat → BinWriter → List Nat → Option (BinWriter × List Nat)} (hf : SerSpec h f)
    (s0 : List Nat) (hsome : ∀ a w s, s0 ⊆ s → ∃ r, f a w s = some r) :
    ∀ (l : List Nat) (w : BinWriter) (seen : List Nat), s0 ⊆ seen →
      ∃ r, serializeElems f l w seen = some r := by
  intro l
  induction l with
  | nil => intro w seen _; exact ⟨_, rfl⟩
  | cons a rest ih =>
    intro w seen hs
    obtain ⟨⟨w1, s1⟩, h1⟩ := hsome a w seen hs
    obtain ⟨r, hr⟩ := ih w1 s1 (hs.trans (hf a w seen w1 s1 h1).1)
    exact ⟨r, by simp only [serializeElems, h1, hr]⟩

theorem serializePairs_isSome {h : Heap}
    {f : Nat → BinWriter → List Nat → Option (BinWriter × List Nat)} (hf : SerSpec h f)
    (s0 : List Nat) (hsome : ∀ a w s, s0 ⊆ s → ∃ r, f a w s = some r) :
    ∀ (m : List (Nat × Nat)) (w : BinWriter) (seen : List Nat), s0 ⊆ seen →
      ∃ r, serializePairs f m w seen = some r := by
  intro m
  induction m with
  | nil => intro w seen _; exact ⟨_, rfl⟩
  | cons kv rest ih =>
    intro w seen hs
    obtain ⟨k, v⟩ := kv
    obtain ⟨⟨w1, s1⟩, h1⟩ := hsome k w seen hs
    have hs1 := hs.trans (hf k w seen w1 s1 h1).1
    obtain ⟨⟨w2, s2⟩, h2⟩ := hsome v w1 s1 hs1
    obtain ⟨r, hr⟩ := ih w2 s2 (hs1.trans (hf v w1 s1 w2 s2 h2).1)
    exact ⟨r, by simp only [serializePairs, h1, h2, hr]⟩

theorem serializeItemTo_isSome (T : TypeTags) (h : Heap) :
    ∀ (fuel item : Nat) (w : BinWriter) (seen : List Nat), unseen h seen < fuel →
      ∃ r, serializeItemTo T h fuel item w seen = some r := by
  intro fuel
  induction fuel with
  | zero => intro item w seen hlt; omega
  | succ fuel ih =>
    intro item w seen hlt
    unfold serializeItemTo
    split_ifs with hseen
    · exact ⟨_, rfl⟩
    · have hrec : isContainer h item = true →
          ∀ a w1 s, (item :: seen) ⊆ s → ∃ r, serializeItemTo T h fuel a w1 s = some r := by
        intro hc a w1 s hs
        apply ih
        have h1 := unseen_mono h hs
        have h2 := unseen_cons_lt h hc hseen
        omega
      split
      all_goals rename_i hnode
      · exact ⟨_, rfl⟩
      · exact ⟨_, rfl⟩
      · exact ⟨_, rfl⟩
      · exact ⟨_, rfl⟩
      · exact ⟨_, rfl⟩
      · exact ⟨_, rfl⟩
      · exact serializeElems_isSome (serializeItemTo_spec T h fuel) (item :: seen)
          (hrec (by simp [isContainer, hnode])) _ _ _ (List.Subset.refl _)
      · exact serializeElems_isSome (serializeItemTo_spec T h fuel) (item :: seen)
          (hrec (by simp [isContainer, hnode])) _ _ _ (List.Subset.refl _)
      · exact serializePairs_isSome (serializeItemTo_spec T h fuel) (item :: seen)
          (hrec (by simp [isContainer, hnode])) _ _ _ (List.Subset.refl _)

theorem unseen_le_length (h : Heap) (seen : List Nat) : unseen h seen ≤ h.length := by
  unfold unseen
  calc _ ≤ (Finset.range h.length).card := Finset.card_filter_le _ _
    _ = h.length := Finset.card_range _

/-- The function `SerializeItem` returns on every heap and item: its fuel never runs out. -/
theorem SerializeItem_returns (T : TypeTags) (h : Heap) (item : Nat) :
    ∃ res, SerializeItem T h item = some res := by
  obtain ⟨⟨w, s⟩, hr⟩ := serializeItemTo_isSome T h (h.length + 1) item NewBufBinWriter []
    (Nat.lt_succ_of_le (unseen_le_length h []))
  simp only [SerializeItem, EncodeBinaryStackItem, hr, Option.map_some']
  exact ⟨_, rfl⟩

/-! ## C2 -/

/-- C2: for every item that is an Interop item, or a container that contains an Interop
item, or a container that contains itself (directly or through nested containers),
`SerializeItem` returns an error (and so no bytes); when no Interop item is the item or
is contained in it, that error is "recursive structures can't be serialized". -/
theorem SerializeItem_interop_or_cycle_fails (T : TypeTags) (h : Heap) (item : Nat)
    (hbad : h[item]? = some Node.interop ∨
      (∃ b, Contains h item b ∧ h[b]? = some Node.interop) ∨ Contains h item item) :
    ∃ e, SerializeItem T h item = some (Except.error e) ∧
      ((∀ b, Reach h item b → h[b]? ≠ some Node.interop) → e = errRecursive) := by
  obtain ⟨⟨w, s⟩, hr⟩ := serializeItemTo_isSome T h (h.length + 1) item NewBufBinWriter []
    (Nat.lt_succ_of_le (unseen_le_length h []))
  obtain ⟨_, _, hvis, herr, hcyc⟩ := serializeItemTo_spec T h _ item _ _ w s hr
  have hne : w.Err ≠ none := by
    intro hnone
    rcases hbad with hi | ⟨b, hb, hi⟩ | hc
    · exact (hvis hnone item Relation.ReflTransGen.refl).1 hi
    · exact (hvis hnone b (Relation.TransGen.to_reflTransGen hb)).1 hi
    · exact hcyc hnone hc
  obtain ⟨e, he⟩ := Option.ne_none_iff_exists'.mp hne
  refine ⟨e, ?_, ?_⟩
  · simp only [SerializeItem, EncodeBinaryStackItem, hr, Option.map_some', he]
  · intro hno
    rcases herr hno (Or.inl rfl) with h1 | h1
    · exact absurd h1 hne
    · rw [he] at h1
      exact Option.some.inj h1

/-- C2 at an array that is its own only element. -/
theorem SerializeItem_interop_or_cycle_fails_witness :
    Contains [Node.array [0]] 0 0 ∧
    ∃ e, SerializeItem ⟨40, 48, 32, 33, 64, 65, 72⟩ [Node.array [0]] 0 = some (Except.error e) ∧
      ((∀ b, Reach [Node.array [0]] 0 b → [Node.array [0]][b]? ≠ some Node.interop) →
        e = errRecursive) :=
  ⟨Relation.TransGen.single (by simp [Child, children]),
    SerializeItem_interop_or_cycle_fails ⟨40, 48, 32, 33, 64, 65, 72⟩ [Node.array [0]] 0
      (Or.inr (Or.inr (Relation.TransGen.single (by simp [Child, children]))))⟩

/-! ## C1 -/

theorem DecodeBinaryStackItem_ne_buffer (T : TypeTags) (fuel : Nat) (r r' : BinReader)
    (it : Item) (hd : DecodeBinaryStackItem T fuel r = Outcome.done (it, r')) (v : List Nat) :
    it ≠ Item.buffer v := by
  rintro rfl
  cases fuel with
  | zero => simp [DecodeBinaryStackItem] at hd
  | succ fuel =>
    simp only [DecodeBinaryStackItem] at hd
    split at hd
    · simp at hd
    · split_ifs at hd
      all_goals (try split at hd)
      all_goals simp at hd

theorem DeserializeItem_ok_iff (T : TypeTags) (data : List Nat) (it : Item) :
    DeserializeItem T data = Outcome.done (Except.ok it) ↔
      ∃ r, DecodeBinaryStackItem T (data.length + 1) (NewBinReaderFromBuf data) =
        Outcome.done (it, r) ∧ r.Err = none := by
  unfold DeserializeItem
  constructor
  · intro hd
    split at hd
    · rename_i item r hdec
      split at hd
      · simp at hd
      · rename_i hnone
        simp only [Outcome.done.injEq, Except.ok.injEq] at hd
        subst hd
        exact ⟨r, hdec, hnone⟩
    · simp at hd
    · simp at hd
  · rintro ⟨r, hdec, hnone⟩
    simp [hdec, hnone]

theorem SerializeItem_buffer (T : TypeTags) (v : List Nat) :
    SerializeItem T [Node.buffer v] 0 =
      some (Except.ok (T.BufferT % 256 :: (varUintBytes v.length ++ v.map (· % 256)))) := by
  simp [SerializeItem, EncodeBinaryStackItem, serializeItemTo, NewBufBinWriter,
    BinWriter.WriteBytes_ok, BinWriter.WriteVarBytes_ok]

/-- C1 fails on the code at a Buffer item: `SerializeItem` of a Buffer holding `v`
succeeds, and `DeserializeItem` applied to the bytes never gives a Buffer back; when
`BufferT` is none of the decoder's six `case` constants it returns the error
"unknown type". -/
theorem SerializeItem_buffer_not_restored (T : TypeTags) (v v' : List Nat) :
    ∃ bs, SerializeItem T [Node.buffer v] 0 = some (Except.ok bs) ∧
      DeserializeItem T bs ≠ Outcome.done (Except.ok (Item.buffer v')) ∧
      (T.BufferT % 256 ∉ T.decodable →
        DeserializeItem T bs = Outcome.done (Except.error errUnknownType)) := by
  refine ⟨_, SerializeItem_buffer T v, ?_, ?_⟩
  · intro hd
    obtain ⟨r, hdec, _⟩ := (DeserializeItem_ok_iff T _ _).mp hd
    exact DecodeBinaryStackItem_ne_buffer T _ _ _ _ hdec v' rfl
  · intro hnot
    simp only [TypeTags.decodable, List.mem_cons, List.mem_singleton, List.not_mem_nil,
      or_false, not_or] at hnot
    obtain ⟨h1, h2, h3, h4, h5, h6⟩ := hnot
    simp [DeserializeItem, DecodeBinaryStackItem, NewBinReaderFromBuf, BinReader.ReadB,
      h1, h2, h3, h4, h5, h6]

/-! ## Readers only consume -/

theorem BinReader.ReadBytes_data_le (r : BinReader) (n : Nat) :
    (r.ReadBytes n).2.data.length ≤ r.data.length := by
  unfold BinReader.ReadBytes
  split
  · exact Nat.le_refl _
  · split_ifs <;> simp

theorem BinReader.ReadB_data_le (r : BinReader) : r.ReadB.2.data.length ≤ r.data.length := by
  unfold BinReader.ReadB
  split
  · exact Nat.le_refl _
  · split <;> simp_all

theorem BinReader.ReadB_data_lt (r : BinReader) (h : r.ReadB.2.Err = none) :
    r.ReadB.2.data.length < r.data.length := by
  unfold BinReader.ReadB at h ⊢
  split
  · rename_i e he
    simp [he] at h
  · rename_i he
    split
    · rename_i hd
      simp [he, hd] at h
    · rename_i b rest hd
      simp [hd]

theorem BinReader.ReadB_eq_of_ok (r : BinReader) (h : r.ReadB.2.Err = none) :
    ∃ b rest, r.data = b :: rest ∧ r.Err = none ∧ r.ReadB = (b % 256, ⟨rest, none⟩) := by
  cases r with
  | mk data Err =>
    cases Err with
    | some e => simp [BinReader.ReadB] at h
    | none =>
      cases data with
      | nil => simp [BinReader.ReadB] at h
      | cons b rest => exact ⟨b, rest, rfl, rfl, rfl⟩

theorem BinReader.ReadBool_data_le (r : BinReader) :
    r.ReadBool.2.data.length ≤ r.data.length := by
  simpa [BinReader.ReadBool] using r.ReadB_data_le

theorem BinReader.ReadUintLE_data_le (r : BinReader) (n : Nat) :
    (r.ReadUintLE n).2.data.length ≤ r.data.length := by
  have h := r.ReadBytes_data_le n
  unfold BinReader.ReadUintLE
  simp only
  split <;> exact h

theorem BinReader.ReadVarUint_data_le (r : BinReader) :
    r.ReadVarUint.2.data.length ≤ r.data.length := by
  unfold BinReader.ReadVarUint
  split
  · exact Nat.le_refl _
  · simp only [BinReader.ReadU16LE, BinReader.ReadU32LE, BinReader.ReadU64LE]
    split_ifs
    · exact (BinReader.ReadUintLE_data_le _ _).trans r.ReadB_data_le
    · exact (BinReader.ReadUintLE_data_le _ _).trans r.ReadB_data_le
    · exact (BinReader.ReadUintLE_data_le _ _).trans r.ReadB_data_le
    · exact r.ReadB_data_le

theorem BinReader.ReadVarBytes_data_le (r : BinReader) :
    r.ReadVarBytes.2.data.length ≤ r.data.length := by
  unfold BinReader.ReadVarBytes
  exact (BinReader.ReadBytes_data_le _ _).trans r.ReadVarUint_data_le

/-! ## Readers keep their error -/

theorem BinReader.ReadB_of_err (r : BinReader) {e : String} (h : r.Err = some e) :
    r.ReadB = (0, r) := by
  simp [BinReader.ReadB, h]

theorem BinReader.ReadVarUint_of_err (r : BinReader) {e : String} (h : r.Err = some e) :
    r.ReadVarUint = (0, r) := by
  simp [BinReader.ReadVarUint, h]

/-! ## The decoder only consumes, and does nothing once the error is set -/

theorem decodeElems_data_le {dec : BinReader → Outcome (Item × BinReader)}
    (hdec : ∀ r it r', dec r = Outcome.done (it, r') → r'.data.length ≤ r.data.length) :
    ∀ (n : Nat) (r : BinReader) (arr : List Item) (r' : BinReader),
      decodeElems dec n r = Outcome.done (arr, r') → r'.data.length ≤ r.data.length := by
  intro n
  induction n with
  | zero =>
    intro r arr r' hrun
    simp only [decodeElems, Outcome.done.injEq, Prod.mk.injEq] at hrun
    rw [← hrun.2]
  | succ n ih =>
    intro r arr r' hrun
    simp only [decodeElems] at hrun
    split at hrun
    · rename_i it r1 h1
      split at hrun
      · rename_i arr1 r2 h2
        simp only [Outcome.done.injEq, Prod.mk.injEq] at hrun
        rw [← hrun.2]
        exact (ih _ _ _ h2).trans (hdec _ _ _ h1)
      · simp at hrun
      · simp at hrun
    · simp at hrun
    · simp at hrun

theorem decodePairs_data_le {dec : BinReader → Outcome (Item × BinReader)}
    (hdec : ∀ r it r', dec r = Outcome.done (it, r') → r'.data.length ≤ r.data.length) :
    ∀ (n : Nat) (m0 : List (Item × Item)) (r : BinReader) (m : List (Item × Item))
      (r' : BinReader),
      decodePairs dec n m0 r = Outcome.done (m, r') → r'.data.length ≤ r.data.length := by
  intro n
  induction n with
  | zero =>
    intro m0 r m r' hrun
    simp only [decodePairs, Outcome.done.injEq, Prod.mk.injEq] at hrun
    rw [← hrun.2]
  | succ n ih =>
    intro m0 r m r' hrun
    simp only [decodePairs] at hrun
    split at hrun
    · rename_i key r1 h1
      split at hrun
      · rename_i value r2 h2
        have h12 := (hdec _ _ _ h2).trans (hdec _ _ _ h1)
        split at hrun
        · simp only [Outcome.done.injEq, Prod.mk.injEq] at hrun
          rw [← hrun.2]
          exact h12
        · split at hrun
          · exact (ih _ _ _ _ hrun).trans h12
          · simp at hrun
          · simp at hrun
      · simp at hrun
      · simp at hrun
    · simp at hrun
    · simp at hrun

theorem DecodeBinaryStackItem_data_le (T : TypeTags) :
    ∀ (fuel : Nat) (r : BinReader) (it : Item) (r' : BinReader),
      DecodeBinaryStackItem T fuel r = Outcome.done (it, r') →
      r'.data.length ≤ r.data.length := by
  intro fuel
  induction fuel with
  | zero => intro r it r' hd; simp [DecodeBinaryStackItem] at hd
  | succ fuel ih =>
    intro r it r' hd
    simp only [DecodeBinaryStackItem] at hd
    have hB := r.ReadB_data_le
    have hV := r.ReadB.2.ReadVarUint_data_le
    split at hd
    · simp only [Outcome.done.injEq, Prod.mk.injEq] at hd
      rw [← hd.2]; exact hB
    · split_ifs at hd
      · simp only [Outcome.done.injEq, Prod.mk.injEq] at hd
        rw [← hd.2]; exact (BinReader.ReadVarBytes_data_le _).trans hB
      · simp only [Outcome.done.injEq, Prod.mk.injEq] at hd
        rw [← hd.2]; exact (BinReader.ReadBool_data_le _).trans hB
      · simp only [Outcome.done.injEq, Prod.mk.injEq] at hd
        rw [← hd.2]; exact (BinReader.ReadVarBytes_data_le _).trans hB
      · split at hd
        · rename_i arr r3 h3
          simp only [Outcome.done.injEq, Prod.mk.injEq] at hd
          rw [← hd.2]
          exact ((decodeElems_data_le ih _ _ _ _ h3).trans hV).trans hB
        · simp at hd
        · simp at hd
      · split at hd
        · rename_i arr r3 h3
          simp only [Outcome.done.injEq, Prod.mk.injEq] at hd
          rw [← hd.2]
          exact ((decodeElems_data_le ih _ _ _ _ h3).trans hV).trans hB
        · simp at hd
        · simp at hd
      · split at hd
        · rename_i m r3 h3
          simp only [Outcome.done.injEq, Prod.mk.injEq] at hd
          rw [← hd.2]
          exact ((decodePairs_data_le ih _ _ _ _ _ h3).trans hV).trans hB
        · simp at hd
        · simp at hd
      · simp only [Outcome.done.injEq, Prod.mk.injEq] at hd
        rw [← hd.2]; exact hB

theorem DecodeBinaryStackItem_of_err (T : TypeTags) (fuel : Nat) (r : BinReader) {e : String}
    (h : r.Err = some e) :
    DecodeBinaryStackItem T (fuel + 1) r = Outcome.done (Item.null, r) := by
  simp [DecodeBinaryStackItem, BinReader.ReadB_of_err r h, h]

/-! ## The fuel of `DeserializeItem` is enough -/

theorem DecodeBinaryStackItem_succ (T : TypeTags) (fuel : Nat) (r : BinReader) :
    DecodeBinaryStackItem T (fuel + 1) r =
      match r.ReadB.2.Err with
      | some _ => Outcome.done (Item.null, r.ReadB.2)
      | none =>
        if r.ReadB.1 = T.ByteArrayT then
          Outcome.done (Item.byteArray r.ReadB.2.ReadVarBytes.1, r.ReadB.2.ReadVarBytes.2)
        else if r.ReadB.1 = T.BooleanT then
          Outcome.done (Item.bool r.ReadB.2.ReadBool.1, r.ReadB.2.ReadBool.2)
        else if r.ReadB.1 = T.IntegerT then
          Outcome.done (Item.bigInteger (bigintFromBytes r.ReadB.2.ReadVarBytes.1),
            r.ReadB.2.ReadVarBytes.2)
        else if r.ReadB.1 = T.ArrayT ∨ r.ReadB.1 = T.StructT then
          if makeslicePanics 16 (toInt64 r.ReadB.2.ReadVarUint.1) then
            Outcome.crashed "makeslice: len out of range"
          else
            match decodeElems (DecodeBinaryStackItem T fuel)
                (toInt64 r.ReadB.2.ReadVarUint.1).toNat r.ReadB.2.ReadVarUint.2 with
            | Outcome.done (arr, r3) =>
              Outcome.done (if r.ReadB.1 = T.ArrayT then Item.array arr else Item.struct arr, r3)
            | Outcome.crashed msg => Outcome.crashed msg
            | Outcome.outOfFuel => Outcome.outOfFuel
        else if r.ReadB.1 = T.MapT then
          match decodePairs (DecodeBinaryStackItem T fuel)
              (toInt64 r.ReadB.2.ReadVarUint.1).toNat [] r.ReadB.2.ReadVarUint.2 with
          | Outcome.done (m, r3) => Outcome.done (Item.map m, r3)
          | Outcome.crashed msg => Outcome.crashed msg
          | Outcome.outOfFuel => Outcome.outOfFuel
        else Outcome.done (Item.null, { r.ReadB.2 with Err := some errUnknownType }) := by
  rfl

theorem decodeElems_ne_outOfFuel {dec : BinReader → Outcome (Item × BinReader)} (k : Nat)
    (hle : ∀ r it r', dec r = Outcome.done (it, r') → r'.data.length ≤ r.data.length)
    (hdec : ∀ r, r.data.length ≤ k → dec r ≠ Outcome.outOfFuel) :
    ∀ (n : Nat) (r : BinReader), r.data.length ≤ k →
      decodeElems dec n r ≠ Outcome.outOfFuel := by
  intro n
  induction n with
  | zero => intro r _; simp [decodeElems]
  | succ n ih =>
    intro r hr
    simp only [decodeElems]
    have h0 := hdec r hr
    split
    · rename_i it r1 h1
      have h2 := ih r1 ((hle _ _ _ h1).trans hr)
      split
      · simp
      · simp
      · rename_i h3; exact absurd h3 h2
    · simp
    · rename_i h1; exact absurd h1 h0

theorem decodePairs_ne_outOfFuel {dec : BinReader → Outcome (Item × BinReader)} (k : Nat)
    (hle : ∀ r it r', dec r = Outcome.done (it, r') → r'.data.length ≤ r.data.length)
    (hdec : ∀ r, r.data.length ≤ k → dec r ≠ Outcome.outOfFuel) :
    ∀ (n : Nat) (m : List (Item × Item)) (r : BinReader), r.data.length ≤ k →
      decodePairs dec n m r ≠ Outcome.outOfFuel := by
  intro n
  induction n with
  | zero => intro m r _; simp [decodePairs]
  | succ n ih =>
    intro m r hr
    simp only [decodePairs]
    have h0 := hdec r hr
    split
    · rename_i key r1 h1
      have hr1 := (hle _ _ _ h1).trans hr
      have h0' := hdec r1 hr1
      split
      · rename_i value r2 h2
        have hr2 := (hle _ _ _ h2).trans hr1
        split
        · simp
        · split
          · rename_i m1 _
            exact ih m1 r2 hr2
          · simp
          · rename_i h3
            simp only [MapAdd] at h3
            split_ifs at h3
      · simp
      · rename_i h2; exact absurd h2 h0'
    · simp
    · rename_i h1; exact absurd h1 h0

theorem DecodeBinaryStackItem_ne_outOfFuel (T : TypeTags) :
    ∀ (fuel : Nat) (r : BinReader), r.data.length < fuel →
      DecodeBinaryStackItem T fuel r ≠ Outcome.outOfFuel := by
  intro fuel
  induction fuel with
  | zero => intro r h; omega
  | succ fuel ih =>
    intro r hlt
    rw [DecodeBinaryStackItem_succ]
    split
    · simp
    · rename_i herr
      have hlt1 := r.ReadB_data_lt herr
      have hV := r.ReadB.2.ReadVarUint_data_le
      have hk : r.ReadB.2.ReadVarUint.2.data.length ≤ fuel - 1 := by omega
      have hrec : ∀ q : BinReader, q.data.length ≤ fuel - 1 →
          DecodeBinaryStackItem T fuel q ≠ Outcome.outOfFuel := fun q hq => ih q (by omega)
      have hE := decodeElems_ne_outOfFuel (fuel - 1) (DecodeBinaryStackItem_data_le T fuel)
        hrec (toInt64 r.ReadB.2.ReadVarUint.1).toNat _ hk
      have hP := decodePairs_ne_outOfFuel (fuel - 1) (DecodeBinaryStackItem_data_le T fuel)
        hrec (toInt64 r.ReadB.2.ReadVarUint.1).toNat [] _ hk
      split_ifs
      all_goals first
        | (simp; done)
        | (split
           · simp
           · simp
           · rename_i h3
             first
               | exact absurd h3 hE
               | exact absurd h3 hP)

/-- The function `DeserializeItem` returns or panics on every input: its fuel never runs
out. -/
theorem DeserializeItem_ne_outOfFuel (T : TypeTags) (data : List Nat) :
    DeserializeItem T data ≠ Outcome.outOfFuel := by
  have h := DecodeBinaryStackItem_ne_outOfFuel T (data.length + 1) (NewBinReaderFromBuf data)
    (Nat.lt_succ_self _)
  unfold DeserializeItem
  split
  · split <;> simp
  · simp
  · rename_i h3; exact absurd h3 h

/-! ## C3 -/

theorem decodeElems_of_err {dec : BinReader → Outcome (Item × BinReader)}
    (hst : ∀ r e, r.Err = some e → dec r = Outcome.done (Item.null, r)) :
    ∀ (n : Nat) (r : BinReader) (e : String), r.Err = some e →
      ∃ arr, decodeElems dec n r = Outcome.done (arr, r) := by
  intro n
  induction n with
  | zero => intro r e _; exact ⟨[], rfl⟩
  | succ n ih =>
    intro r e he
    obtain ⟨arr, harr⟩ := ih r e he
    exact ⟨Item.null :: arr, by simp only [decodeElems, hst r e he, harr]⟩

theorem decodePairs_of_err {dec : BinReader → Outcome (Item × BinReader)}
    (hst : ∀ r e, r.Err = some e → dec r = Outcome.done (Item.null, r))
    (n : Nat) (m : List (Item × Item)) (r : BinReader) (e : String) (he : r.Err = some e) :
    decodePairs dec n m r = Outcome.done (m, r) := by
  cases n with
  | zero => rfl
  | succ n => simp only [decodePairs, hst r e he, he]

theorem decodeElems_add {dec : BinReader → Outcome (Item × BinReader)} :
    ∀ (i j : Nat) (r q0 : BinReader) (pre : List Item),
      decodeElems dec i r = Outcome.done (pre, q0) →
      decodeElems dec (i + j) r =
        match decodeElems dec j q0 with
        | Outcome.done (arr, r') => Outcome.done (pre ++ arr, r')
        | Outcome.crashed msg => Outcome.crashed msg
        | Outcome.outOfFuel => Outcome.outOfFuel := by
  intro i
  induction i with
  | zero =>
    intro j r q0 pre hrun
    simp only [decodeElems, Outcome.done.injEq, Prod.mk.injEq] at hrun
    obtain ⟨rfl, rfl⟩ := hrun
    simp only [Nat.zero_add, List.nil_append]
    rcases decodeElems dec j r with ⟨arr, r'⟩ | msg | _ <;> simp
  | succ i ih =>
    intro j r q0 pre hrun
    rw [Nat.add_right_comm]
    simp only [decodeElems] at hrun ⊢
    split at hrun
    · rename_i it r1 h1
      split at hrun
      · rename_i arr1 r2 h2
        simp only [Outcome.done.injEq, Prod.mk.injEq] at hrun
        obtain ⟨rfl, rfl⟩ := hrun
        rw [ih j r1 r2 arr1 h2]
        rcases decodeElems dec j r2 with ⟨arr, r'⟩ | msg | _ <;> simp
      · simp at hrun
      · simp at hrun
    · simp at hrun
    · simp at hrun

theorem decodePairs_add {dec : BinReader → Outcome (Item × BinReader)}
    (hst : ∀ r e, r.Err = some e → dec r = Outcome.done (Item.null, r)) :
    ∀ (i j : Nat) (m0 : List (Item × Item)) (r q0 : BinReader) (m : List (Item × Item)),
      decodePairs dec i m0 r = Outcome.done (m, q0) →
      decodePairs dec (i + j) m0 r = decodePairs dec j m q0 := by
  intro i
  induction i with
  | zero =>
    intro j m0 r q0 m hrun
    simp only [decodePairs, Outcome.done.injEq, Prod.mk.injEq] at hrun
    obtain ⟨rfl, rfl⟩ := hrun
    simp
  | succ i ih =>
    intro j m0 r q0 m hrun
    rw [Nat.add_right_comm]
    simp only [decodePairs] at hrun ⊢
    split at hrun
    · rename_i key r1 h1
      split at hrun
      · rename_i value r2 h2
        split at hrun
        · rename_i e he
          simp only [Outcome.done.injEq, Prod.mk.injEq] at hrun
          obtain ⟨rfl, rfl⟩ := hrun
          rw [decodePairs_of_err hst j m0 r2 e he]
        · rename_i hnone
          split at hrun
          · rename_i m1 hadd
            exact ih j m1 r2 q0 m hrun
          · simp at hrun
          · simp at hrun
      · simp at hrun
      · simp at hrun
    · simp at hrun
    · simp at hrun

theorem DecodeBinaryStackItem_sticky (T : TypeTags) (fuel : Nat) :
    ∀ r e, r.Err = some e →
      DecodeBinaryStackItem T (fuel + 1) r = Outcome.done (Item.null, r) :=
  fun r _ he => DecodeBinaryStackItem_of_err T fuel r he

theorem DecodeBinaryStackItem_at_unknown_tag (T : TypeTags) (fuel : Nat) (q : BinReader)
    (hq : atUnknownTag T q) :
    ∃ it r', DecodeBinaryStackItem T (fuel + 1) q = Outcome.done (it, r') ∧
      r'.Err = some errUnknownType := by
  obtain ⟨hnone, b, rest, hdata, hnot⟩ := hq
  cases q with
  | mk data Err =>
    simp only at hnone hdata
    subst hnone hdata
    simp only [TypeTags.decodable, List.mem_cons, List.mem_singleton, List.not_mem_nil,
      or_false, not_or] at hnot
    obtain ⟨h1, h2, h3, h4, h5, h6⟩ := hnot
    exact ⟨Item.null, ⟨rest, some errUnknownType⟩, by
      simp [DecodeBinaryStackItem, BinReader.ReadB, h1, h2, h3, h4, h5, h6], rfl⟩

theorem Reaches_unknown_tag (T : TypeTags) :
    ∀ (fuel : Nat) (r q : BinReader), Reaches T fuel r q → r.data.length < fuel →
      atUnknownTag T q →
      ∃ it r', DecodeBinaryStackItem T fuel r = Outcome.done (it, r') ∧
        r'.Err = some errUnknownType := by
  intro fuel r q hreach
  induction hreach with
  | here fuel r =>
    intro hlt hq
    obtain ⟨f, rfl⟩ := Nat.exists_eq_succ_of_ne_zero (Nat.not_eq_zero_of_lt hlt)
    exact DecodeBinaryStackItem_at_unknown_tag T f r hq
  | elem fuel r q0 q i pre herr h1 h2 h3 h4 hmk hi hpre _ ih =>
    intro hlt hq
    have hlen : q0.data.length < fuel := by
      have a := decodeElems_data_le (DecodeBinaryStackItem_data_le T fuel) _ _ _ _ hpre
      have b := r.ReadB.2.ReadVarUint_data_le
      have c := r.ReadB_data_lt herr
      omega
    obtain ⟨it, q1, hdec, hq1⟩ := ih hlen hq
    obtain ⟨f, rfl⟩ := Nat.exists_eq_succ_of_ne_zero (Nat.not_eq_zero_of_lt hlen)
    obtain ⟨k, hk⟩ : ∃ k, (toInt64 r.ReadB.2.ReadVarUint.1).toNat = i + (k + 1) :=
      ⟨(toInt64 r.ReadB.2.ReadVarUint.1).toNat - i - 1, by omega⟩
    obtain ⟨tail, htail⟩ := decodeElems_of_err (DecodeBinaryStackItem_sticky T f) k q1 _ hq1
    have hloop : decodeElems (DecodeBinaryStackItem T (f + 1))
        (toInt64 r.ReadB.2.ReadVarUint.1).toNat r.ReadB.2.ReadVarUint.2 =
        Outcome.done (pre ++ it :: tail, q1) := by
      rw [hk, decodeElems_add i (k + 1) _ q0 pre hpre]
      simp only [decodeElems, hdec, htail]
    rw [DecodeBinaryStackItem_succ]
    simp only [herr, if_neg h1, if_neg h2, if_neg h3, if_pos h4, hmk, Bool.false_eq_true,
      if_false, hloop]
    exact ⟨_, _, rfl, hq1⟩
  | key fuel r q0 q i m herr h1 h2 h3 h4 h5 hi hpre _ ih =>
    intro hlt hq
    have hlen : q0.data.length < fuel := by
      have a := decodePairs_data_le (DecodeBinaryStackItem_data_le T fuel) _ _ _ _ _ hpre
      have b := r.ReadB.2.ReadVarUint_data_le
      have c := r.ReadB_data_lt herr
      omega
    obtain ⟨it, q1, hdec, hq1⟩ := ih hlen hq
    obtain ⟨f, rfl⟩ := Nat.exists_eq_succ_of_ne_zero (Nat.not_eq_zero_of_lt hlen)
    obtain ⟨k, hk⟩ : ∃ k, (toInt64 r.ReadB.2.ReadVarUint.1).toNat = i + (k + 1) :=
      ⟨(toInt64 r.ReadB.2.ReadVarUint.1).toNat - i - 1, by omega⟩
    have hloop : decodePairs (DecodeBinaryStackItem T (f + 1))
        (toInt64 r.ReadB.2.ReadVarUint.1).toNat [] r.ReadB.2.ReadVarUint.2 =
        Outcome.done (m, q1) := by
      rw [hk, decodePairs_add (DecodeBinaryStackItem_sticky T f) i (k + 1) _ _ q0 m hpre]
      simp only [decodePairs, hdec, DecodeBinaryStackItem_sticky T f q1 _ hq1, hq1]
    rw [DecodeBinaryStackItem_succ]
    simp only [herr, if_neg h1, if_neg h2, if_neg h3, if_neg h4, if_pos h5, hloop]
    exact ⟨_, _, rfl, hq1⟩
  | value fuel r q0 q1 q i m k0 herr h1 h2 h3 h4 h5 hi hpre hkey _ ih =>
    intro hlt hq
    have hlen : q1.data.length < fuel := by
      have a := decodePairs_data_le (DecodeBinaryStackItem_data_le T fuel) _ _ _ _ _ hpre
      have a' := DecodeBinaryStackItem_data_le T fuel _ _ _ hkey
      have b := r.ReadB.2.ReadVarUint_data_le
      have c := r.ReadB_data_lt herr
      omega
    obtain ⟨it, q2, hdec, hq2⟩ := ih hlen hq
    obtain ⟨f, rfl⟩ := Nat.exists_eq_succ_of_ne_zero (Nat.not_eq_zero_of_lt hlen)
    obtain ⟨k, hk⟩ : ∃ k, (toInt64 r.ReadB.2.ReadVarUint.1).toNat = i + (k + 1) :=
      ⟨(toInt64 r.ReadB.2.ReadVarUint.1).toNat - i - 1, by omega⟩
    have hloop : decodePairs (DecodeBinaryStackItem T (f + 1))
        (toInt64 r.ReadB.2.ReadVarUint.1).toNat [] r.ReadB.2.ReadVarUint.2 =
        Outcome.done (m, q2) := by
      rw [hk, decodePairs_add (DecodeBinaryStackItem_sticky T f) i (k + 1) _ _ q0 m hpre]
      simp only [decodePairs, hkey, hdec, hq2]
    rw [DecodeBinaryStackItem_succ]
    simp only [herr, if_neg h1, if_neg h2, if_neg h3, if_neg h4, if_pos h5, hloop]
    exact ⟨_, _, rfl, hq2⟩

/-- C3: for every byte string in which an item position that the decoder reaches (the
top-level one, or a nested array element, map key or map value) carries a tag byte that
is none of the decoder's `case` constants, hence in particular a byte that is no
stack-item type, `DeserializeItem` returns an error, "unknown type", and no item. -/
theorem DeserializeItem_unknown_tag (T : TypeTags) (data : List Nat) (q : BinReader)
    (hreach : Reaches T (data.length + 1) (NewBinReaderFromBuf data) q)
    (hq : atUnknownTag T q) :
    DeserializeItem T data = Outcome.done (Except.error errUnknownType) := by
  obtain ⟨it, r', hdec, herr⟩ :=
    Reaches_unknown_tag T _ _ q hreach (Nat.lt_succ_self _) hq
  simp only [DeserializeItem, hdec, herr]

/-- C3 at an array of one element whose tag byte `0x99` is no stack-item type. -/
theorem DeserializeItem_unknown_tag_witness :
    Reaches ⟨40, 48, 32, 33, 64, 65, 72⟩ 4 (NewBinReaderFromBuf [64, 1, 153]) ⟨[153], none⟩ ∧
    atUnknownTag ⟨40, 48, 32, 33, 64, 65, 72⟩ ⟨[153], none⟩ ∧
    DeserializeItem ⟨40, 48, 32, 33, 64, 65, 72⟩ [64, 1, 153] =
      Outcome.done (Except.error errUnknownType) :=
  have hreach : Reaches ⟨40, 48, 32, 33, 64, 65, 72⟩ 4 (NewBinReaderFromBuf [64, 1, 153])
      ⟨[153], none⟩ :=
    Reaches.elem 3 _ _ _ 0 [] rfl (by decide) (by decide) (by decide) (by decide) (by decide)
      (by decide) rfl (Reaches.here _ _)
  have htag : atUnknownTag ⟨40, 48, 32, 33, 64, 65, 72⟩ ⟨[153], none⟩ :=
    ⟨rfl, 153, [], rfl, by decide⟩
  ⟨hreach, htag, DeserializeItem_unknown_tag ⟨40, 48, 32, 33, 64, 65, 72⟩ [64, 1, 153]
    ⟨[153], none⟩ hreach htag⟩

/-- An unknown tag byte behind an Array header whose count is beyond what `make` allocates
is not reached: on the count `2 ^ 60` the decoder panics in `make`. -/
theorem DeserializeItem_count_beyond_maxAlloc :
    DeserializeItem ⟨40, 48, 32, 33, 64, 65, 72⟩ [64, 255, 0, 0, 0, 0, 0, 0, 0, 16, 153] =
      Outcome.crashed "makeslice: len out of range" := by
  rfl

/-! ## C4, C5: `Block.Verify` -/

theorem verifyDuplicates_eq_false_iff {Tx : Type} (D : Deps Tx) :
    ∀ (txs : List Tx) (hashes : List Nat),
      verifyDuplicates D txs hashes = false ↔
        (txs.map D.Hash).Nodup ∧ ∀ x ∈ txs.map D.Hash, x ∉ hashes := by
  intro txs
  induction txs with
  | nil => intro hashes; simp [verifyDuplicates]
  | cons tx rest ih =>
    intro hashes
    simp only [verifyDuplicates, List.map_cons, List.nodup_cons, List.mem_cons, forall_eq_or_imp]
    split_ifs with hmem
    · simp [hmem]
    · rw [ih]
      simp only [List.mem_cons, not_or]
      constructor
      · rintro ⟨hnd, hall⟩
        exact ⟨⟨fun hin => (hall _ hin).1 rfl, hnd⟩, hmem, fun x hx => (hall x hx).2⟩
      · rintro ⟨⟨hnot, hnd⟩, _, hall⟩
        exact ⟨hnd, fun x hx => ⟨fun heq => hnot (heq ▸ hx), hall x hx⟩⟩

theorem verifyDuplicates_nil_hashes {Tx : Type} (D : Deps Tx) (txs : List Tx) :
    verifyDuplicates D txs [] = false ↔ (txs.map D.Hash).Nodup := by
  simp [verifyDuplicates_eq_false_iff]

/-- C4: for every block whose transactions have pairwise distinct hashes, the list
`[hash(ConsensusData), hash(tx0), hash(tx1), ...]` is not empty, so a tree construction
that fails on the empty list only gives a root, and `Verify` returns no error if and only
if `MerkleRoot` equals that root. -/
theorem Block_Verify_iff_merkle_root {Tx : Type} (D : Deps Tx) (b : Block Tx)
    (hdistinct : (b.Transactions.map D.Hash).Nodup)
    (hM : ∀ l, l ≠ [] → ∃ root, D.NewMerkleTree l = Except.ok root) :
    D.cdHash b.ConsensusData :: b.Transactions.map D.Hash ≠ [] ∧
    ∃ root, D.NewMerkleTree (D.cdHash b.ConsensusData :: b.Transactions.map D.Hash) =
        Except.ok root ∧
      (b.Verify D = none ↔ b.Base.MerkleRoot = root) := by
  refine ⟨List.cons_ne_nil _ _, ?_⟩
  obtain ⟨root, hroot⟩ := hM _ (List.cons_ne_nil (D.cdHash b.ConsensusData)
    (b.Transactions.map D.Hash))
  refine ⟨root, hroot, ?_⟩
  have hdup := (verifyDuplicates_nil_hashes D b.Transactions).mpr hdistinct
  simp only [Block.Verify, hdup, Block.computeMerkleTree, Block.merkleHashes, hroot]
  simp

/-- C4 on a block of the demo instance with two transactions. -/
theorem Block_Verify_iff_merkle_root_witness :
    (([3, 4] : List Nat).map demoDeps.Hash).Nodup ∧
    (∀ l, l ≠ [] → ∃ root, demoDeps.NewMerkleTree l = Except.ok root) ∧
    ∃ root, demoDeps.NewMerkleTree
        (demoDeps.cdHash ⟨0, 5⟩ :: ([3, 4] : List Nat).map demoDeps.Hash) = Except.ok root ∧
      ((⟨⟨0, 0, 12, 0, 0, 0, ⟨[], []⟩⟩, ⟨0, 5⟩, [3, 4], false⟩ : Block Nat).Verify demoDeps = none
        ↔ 12 = root) :=
  have hnd : (([3, 4] : List Nat).map demoDeps.Hash).Nodup := by decide
  have hM : ∀ l, l ≠ [] → ∃ root, demoDeps.NewMerkleTree l = Except.ok root := by
    intro l hl
    cases l with
    | nil => exact absurd rfl hl
    | cons a t => exact ⟨_, rfl⟩
  ⟨hnd, hM, (Block_Verify_iff_merkle_root demoDeps
    ⟨⟨0, 0, 12, 0, 0, 0, ⟨[], []⟩⟩, ⟨0, 5⟩, [3, 4], false⟩ hnd hM).2⟩

/-- C5: for every block in which two transactions at different positions have the same
hash, `Verify` returns "transaction duplication is not allowed", whatever the stored
`MerkleRoot` (and every other field) is. -/
theorem Block_Verify_duplicate {Tx : Type} (D : Deps Tx) (b : Block Tx) (i j : Nat)
    (hi : i < b.Transactions.length) (hj : j < b.Transactions.length) (hij : i ≠ j)
    (hsame : D.Hash b.Transactions[i] = D.Hash b.Transactions[j]) :
    b.Verify D = some errDuplication := by
  have hnot : ¬ (b.Transactions.map D.Hash).Nodup := by
    intro hnd
    have hi' : i < (b.Transactions.map D.Hash).length := by simpa using hi
    have hj' : j < (b.Transactions.map D.Hash).length := by simpa using hj
    have := (@List.Nodup.getElem_inj_iff _ _ hnd i hi' j hj').mp (by simpa using hsame)
    exact hij this
  have hdup : verifyDuplicates D b.Transactions [] = true := by
    cases hv : verifyDuplicates D b.Transactions [] with
    | true => rfl
    | false => exact absurd ((verifyDuplicates_nil_hashes D _).mp hv) hnot
  simp [Block.Verify, hdup]

/-- C5 on a block of the demo instance whose first and third transaction are equal. -/
theorem Block_Verify_duplicate_witness :
    demoDeps.Hash ([3, 4, 3] : List Nat)[0] = demoDeps.Hash ([3, 4, 3] : List Nat)[2] ∧
    (⟨⟨0, 0, 12, 0, 0, 0, ⟨[], []⟩⟩, ⟨0, 5⟩, [3, 4, 3], false⟩ : Block Nat).Verify demoDeps =
      some errDuplication :=
  ⟨rfl, Block_Verify_duplicate demoDeps
    ⟨⟨0, 0, 12, 0, 0, 0, ⟨[], []⟩⟩, ⟨0, 5⟩, [3, 4, 3], false⟩ 0 2
    (by decide) (by decide) (by decide) rfl⟩

/-! ## C10: `Block.Compare` -/

/-- C10: `a.Compare(b)` is 1 when `a.Index > b.Index`, 0 when the indices are equal and
-1 when `a.Index < b.Index`; hence `a.Compare(b) = -(b.Compare(a))`, and the result is the
same for any two blocks with the same indices as `a` and `b`. -/
theorem Block_Compare_by_index {Tx : Type} (a b : Block Tx) :
    (a.Base.Index > b.Base.Index → a.Compare b = 1) ∧
    (a.Base.Index = b.Base.Index → a.Compare b = 0) ∧
    (a.Base.Index < b.Base.Index → a.Compare b = -1) ∧
    a.Compare b = -(b.Compare a) ∧
    (∀ a' b' : Block Tx, a'.Base.Index = a.Base.Index → b'.Base.Index = b.Base.Index →
      a'.Compare b' = a.Compare b) := by
  refine ⟨?_, ?_, ?_, ?_, ?_⟩
  · intro h; simp [Block.Compare, h]
  · intro h; simp [Block.Compare, h]
  · intro h
    have h1 : ¬ a.Base.Index > b.Base.Index := by omega
    have h2 : ¬ a.Base.Index = b.Base.Index := by omega
    simp [Block.Compare, h1, h2]
  · unfold Block.Compare
    split_ifs <;> first | rfl | omega
  · intro a' b' ha hb
    simp [Block.Compare, ha, hb]

/-! ## C7, C8: `Block.DecodeBinary` -/

theorem Block_Verify_eq_none {Tx : Type} (D : Deps Tx) (b : Block Tx)
    (hv : b.Verify D = none) :
    (b.Transactions.map D.Hash).Nodup ∧
      b.computeMerkleTree D = Except.ok b.Base.MerkleRoot := by
  unfold Block.Verify at hv
  split_ifs at hv with hdup
  simp only [Bool.not_eq_true] at hdup
  refine ⟨(verifyDuplicates_nil_hashes D _).mp hdup, ?_⟩
  split at hv
  · simp at hv
  · rename_i root hroot
    split_ifs at hv with hne
    simp only [ne_eq, Decidable.not_not] at hne
    rw [hroot, hne]

theorem wrapInt64_count (c : Nat) (h2 : ¬ 2 ^ 63 ≤ c - 1) :
    (wrapInt64 (toInt64 c - 1)).toNat = c - 1 := by
  have hc : c % 2 ^ 64 = c := Nat.mod_eq_of_lt (by omega)
  unfold wrapInt64 toInt64
  simp only [hc, Int.ofNat_eq_coe]
  split_ifs with h3 <;> omega

/-- C7: whenever `Block.DecodeBinary` returns with the reader's error unset, `Verify`
returns nil on the decoded block, which therefore has pairwise distinct transaction hashes
and a `MerkleRoot` equal to the recomputed one; and when all the fields decode (the error
is unset after the last of them), the reader's error is exactly the result of `Verify`. -/
theorem Block_DecodeBinary_verifies {Tx : Type} (D : Deps Tx) (b : Block Tx) (br : BinReader)
    (b' : Block Tx) (br' : BinReader)
    (hdec : b.DecodeBinary D br = Outcome.done (b', br')) :
    (br'.Err = none →
      b'.Verify D = none ∧ (b'.Transactions.map D.Hash).Nodup ∧
        b'.computeMerkleTree D = Except.ok b'.Base.MerkleRoot) ∧
    (∀ b1 br1, b.decodeFields D br = Outcome.done (b1, br1) → br1.Err = none →
      b' = b1 ∧ br'.Err = b1.Verify D) := by
  unfold Block.DecodeBinary at hdec
  split at hdec
  · rename_i b1 br1 hfields
    split at hdec
    · rename_i e he
      simp only [Outcome.done.injEq, Prod.mk.injEq] at hdec
      obtain ⟨rfl, rfl⟩ := hdec
      refine ⟨fun hn => by simp [he] at hn, ?_⟩
      intro b2 br2 h2 hn
      rw [hfields] at h2
      simp only [Outcome.done.injEq, Prod.mk.injEq] at h2
      obtain ⟨rfl, rfl⟩ := h2
      simp [he] at hn
    · rename_i hnone
      simp only [Outcome.done.injEq, Prod.mk.injEq] at hdec
      obtain ⟨rfl, rfl⟩ := hdec
      refine ⟨fun hn => ⟨hn, Block_Verify_eq_none D b1 hn⟩, ?_⟩
      intro b2 br2 h2 _
      rw [hfields] at h2
      simp only [Outcome.done.injEq, Prod.mk.injEq] at h2
      obtain ⟨rfl, rfl⟩ := h2
      exact ⟨rfl, rfl⟩
  · simp at hdec
  · simp at hdec

/-- A `contentsCount` that reads as 0 ends `Block.DecodeBinary` at once, with the error
"invalid block format". -/
theorem Block_DecodeBinary_zero_count {Tx : Type} (D : Deps Tx) (b : Block Tx) (br : BinReader)
    (hzero : (b.Base.DecodeBinary br).2.ReadVarUint.1 = 0) :
    b.DecodeBinary D br = Outcome.done
      ({ b with Base := (b.Base.DecodeBinary br).1 },
       { (b.Base.DecodeBinary br).2.ReadVarUint.2 with Err := some errInvalidBlockFormat }) := by
  simp [Block.DecodeBinary, Block.decodeFields, hzero]

theorem BinReader.ReadUintLE_leBytes_of_lt (n v : Nat) (rest : List Nat) (h : v < 256 ^ n) :
    BinReader.ReadUintLE ⟨leBytes n v ++ rest, none⟩ n = (v, ⟨rest, none⟩) := by
  rw [BinReader.ReadUintLE_leBytes, Nat.mod_eq_of_lt h]

theorem Base.encodeHashableFields_ok (b : Base) (w : BinWriter) (hw : w.Err = none) :
    b.encodeHashableFields w = ⟨w.buf ++ b.hashableBytes, none⟩ := by
  simp only [Base.encodeHashableFields, BinWriter.WriteU32LE, BinWriter.WriteU64LE,
    BinWriter.WriteUintLE_ok w hw, BinWriter.WriteUintLE_ok ⟨_, none⟩ rfl, Base.hashableBytes,
    List.append_assoc]

theorem Base.decodeHashableFields_bytes (b b0 : Base) (rest : List Nat) (hb : b.WF) :
    b0.decodeHashableFields ⟨b.hashableBytes ++ rest, none⟩ =
      ({ b with Script := b0.Script }, ⟨rest, none⟩) := by
  obtain ⟨h1, h2, h3, h4, h5, h6, _, _⟩ := hb
  simp only [Base.decodeHashableFields, Base.hashableBytes, List.append_assoc,
    BinReader.ReadU32LE, BinReader.ReadU64LE]
  rw [BinReader.ReadUintLE_leBytes_of_lt 4 _ _ (by omega)]
  simp only
  rw [BinReader.ReadUintLE_leBytes_of_lt 32 _ _ (by omega)]
  simp only
  rw [BinReader.ReadUintLE_leBytes_of_lt 32 _ _ (by omega)]
  simp only
  rw [BinReader.ReadUintLE_leBytes_of_lt 8 _ _ (by omega)]
  simp only
  rw [BinReader.ReadUintLE_leBytes_of_lt 4 _ _ (by omega)]
  simp only
  rw [BinReader.ReadUintLE_leBytes_of_lt 20 _ _ (by omega)]

theorem Witness_EncodeBinary_ok (s : Witness) (w : BinWriter) (hw : w.Err = none) :
    s.EncodeBinary w = ⟨w.buf ++ s.bytes, none⟩ := by
  simp only [Witness.EncodeBinary, BinWriter.WriteVarBytes_ok w hw,
    BinWriter.WriteVarBytes_ok ⟨_, none⟩ rfl, Witness.bytes, List.append_assoc]

theorem Witness_DecodeBinary_bytes (s : Witness) (rest : List Nat)
    (hi : s.InvocationScript.length < 2 ^ 63 ∧ ∀ x ∈ s.InvocationScript, x < 256)
    (hv : s.VerificationScript.length < 2 ^ 63 ∧ ∀ x ∈ s.VerificationScript, x < 256) :
    Witness.DecodeBinary ⟨s.bytes ++ rest, none⟩ = (s, ⟨rest, none⟩) := by
  have e1 := map_mod_of_lt _ hi.2
  have e2 := map_mod_of_lt _ hv.2
  simp only [Witness.DecodeBinary, Witness.bytes, e1, e2, List.append_assoc]
  rw [BinReader.ReadVarBytes_append _ _ (by omega)]
  simp only
  rw [BinReader.ReadVarBytes_append _ _ (by omega)]
  simp only [e1, e2]

theorem Base_EncodeBinary_ok (b : Base) (w : BinWriter) (hw : w.Err = none) :
    b.EncodeBinary w = ⟨w.buf ++ b.bytes, none⟩ := by
  simp only [Base.EncodeBinary, Base.encodeHashableFields_ok b w hw,
    BinWriter.WriteB_ok ⟨_, none⟩ rfl, Witness_EncodeBinary_ok _ ⟨_, none⟩ rfl, Base.bytes,
    List.append_assoc, List.singleton_append, Nat.one_mod]

theorem Base_DecodeBinary_bytes (b b0 : Base) (rest : List Nat) (hb : b.WF) :
    b0.DecodeBinary ⟨b.bytes ++ rest, none⟩ = (b, ⟨rest, none⟩) := by
  simp only [Base.DecodeBinary, Base.bytes, List.append_assoc,
    Base.decodeHashableFields_bytes b b0 _ hb, List.cons_append, BinReader.ReadB_cons,
    Witness_DecodeBinary_bytes b.Script rest hb.2.2.2.2.2.2.1 hb.2.2.2.2.2.2.2]

theorem ConsensusData_EncodeBinary_ok (c : ConsensusData) (w : BinWriter) (hw : w.Err = none) :
    c.EncodeBinary w = ⟨w.buf ++ c.bytes, none⟩ := by
  simp only [ConsensusData.EncodeBinary, BinWriter.WriteVarUint_ok w hw, BinWriter.WriteU64LE,
    BinWriter.WriteUintLE_ok ⟨_, none⟩ rfl, ConsensusData.bytes, List.append_assoc]

theorem ConsensusData_DecodeBinary_bytes (c : ConsensusData) (rest : List Nat) (hc : c.WF) :
    ConsensusData.DecodeBinary ⟨c.bytes ++ rest, none⟩ = (c, ⟨rest, none⟩) := by
  obtain ⟨h1, h2⟩ := hc
  simp only [ConsensusData.DecodeBinary, ConsensusData.bytes, List.append_assoc,
    BinReader.ReadVarUint_varUintBytes, BinReader.ReadU64LE]
  rw [BinReader.ReadUintLE_leBytes_of_lt 8 _ _ (by omega)]
  simp only
  rw [Nat.mod_eq_of_lt (by omega : c.PrimaryIndex < 2 ^ 64), Nat.mod_eq_of_lt h1]

/-! ## C6: `DecodeBinary` after `EncodeBinary` -/

theorem encodeTxs_decodeTxs {Tx : Type} (D : Deps Tx) :
    ∀ txs : List Tx, (∀ tx ∈ txs, TxRoundTrips D tx) →
      ∃ bs, (∀ w : BinWriter, w.Err = none → encodeTxs D txs w = ⟨w.buf ++ bs, none⟩) ∧
        ∀ rest, decodeTxs D txs.length ⟨bs ++ rest, none⟩ = (txs, ⟨rest, none⟩) := by
  intro txs
  induction txs with
  | nil =>
    intro _
    refine ⟨[], ?_, ?_⟩
    · intro w hw
      cases w
      simp only at hw
      subst hw
      simp [encodeTxs]
    · intro rest
      simp [decodeTxs]
  | cons tx txs ih =>
    intro hall
    obtain ⟨bs1, henc1, hdec1⟩ := hall tx (List.mem_cons_self _ _)
    obtain ⟨bs2, henc2, hdec2⟩ := ih fun t ht => hall t (List.mem_cons_of_mem _ ht)
    refine ⟨bs1 ++ bs2, ?_, ?_⟩
    · intro w hw
      simp only [encodeTxs, henc1 w hw, henc2 ⟨_, none⟩ rfl, List.append_assoc]
    · intro rest
      simp only [List.length_cons, decodeTxs, List.append_assoc, hdec1, hdec2]

theorem Block_decodeFields_of_steps {Tx : Type} (D : Deps Tx) (b : Block Tx)
    (br br1 br2 br3 br4 : BinReader) (base : Base) (n : Nat) (cd : ConsensusData)
    (txes : List Tx)
    (h1 : b.Base.DecodeBinary br = (base, br1)) (h2 : br1.ReadVarUint = (n, br2))
    (hn : ¬ n = 0) (h3 : ConsensusData.DecodeBinary br2 = (cd, br3))
    (hbig : ¬ 2 ^ 63 ≤ n - 1)
    (h4 : decodeTxs D (wrapInt64 (toInt64 n - 1)).toNat br3 = (txes, br4)) :
    b.decodeFields D br =
      Outcome.done ({ b with Base := base, ConsensusData := cd, Transactions := txes }, br4) := by
  simp only [Block.decodeFields, h1, h2, if_neg hn, h3, if_neg hbig, h4]

theorem Block_Verify_congr {Tx : Type} (D : Deps Tx) (b : Block Tx) (t : Bool) :
    ({ b with Trimmed := t } : Block Tx).Verify D = b.Verify D := rfl

/-- C6 as amended: for every block `b` on which `Verify` passes (with fields within the
range of their Go types and transactions that round-trip through their own codec),
`EncodeBinary` writes without error and `DecodeBinary` applied to the bytes consumes them
all, leaves the reader's error unset and yields a block with the base, the consensus data
and the transaction list of `b`, on which `Verify` passes. -/
theorem Block_DecodeBinary_EncodeBinary {Tx : Type} (D : Deps Tx) (b b0 : Block Tx)
    (hbase : b.Base.WF) (hcd : b.ConsensusData.WF) (hlen : b.Transactions.length < 2 ^ 63)
    (htx : ∀ tx ∈ b.Transactions, TxRoundTrips D tx) (hverify : b.Verify D = none) :
    (b.EncodeBinary D NewBufBinWriter).Err = none ∧
    b0.DecodeBinary D (NewBinReaderFromBuf (b.EncodeBinary D NewBufBinWriter).buf) =
      Outcome.done ({ b with Trimmed := b0.Trimmed }, ⟨[], none⟩) ∧
    ({ b with Trimmed := b0.Trimmed } : Block Tx).Verify D = none := by
  obtain ⟨bs, henc, hdec⟩ := encodeTxs_decodeTxs D b.Transactions htx
  have hE : b.EncodeBinary D NewBufBinWriter =
      ⟨b.Base.bytes ++ (varUintBytes (b.Transactions.length + 1) ++
        (b.ConsensusData.bytes ++ (bs ++ []))), none⟩ := by
    simp only [Block.EncodeBinary, NewBufBinWriter, Base_EncodeBinary_ok _ ⟨[], none⟩ rfl,
      BinWriter.WriteVarUint_ok ⟨_, none⟩ rfl, ConsensusData_EncodeBinary_ok _ ⟨_, none⟩ rfl,
      henc ⟨_, none⟩ rfl, List.nil_append, List.append_assoc, List.append_nil]
  have hmod : (b.Transactions.length + 1) % 2 ^ 64 = b.Transactions.length + 1 :=
    Nat.mod_eq_of_lt (by omega)
  have hz : ¬ b.Transactions.length + 1 = 0 := by omega
  have hbig : ¬ 2 ^ 63 ≤ b.Transactions.length + 1 - 1 := by omega
  have hcount : (wrapInt64 (toInt64 (b.Transactions.length + 1) - 1)).toNat =
      b.Transactions.length := by
    rw [wrapInt64_count _ hbig]; omega
  have hF : b0.decodeFields D (NewBinReaderFromBuf (b.EncodeBinary D NewBufBinWriter).buf) =
      Outcome.done ({ b with Trimmed := b0.Trimmed }, ⟨[], none⟩) := by
    rw [hE]
    exact Block_decodeFields_of_steps D b0 _ _ _ _ _ _ _ _ _
      (Base_DecodeBinary_bytes b.Base b0.Base _ hbase)
      (hmod ▸ BinReader.ReadVarUint_varUintBytes (b.Transactions.length + 1) _)
      hz (ConsensusData_DecodeBinary_bytes _ _ hcd) hbig (hcount.symm ▸ hdec [])
  refine ⟨by rw [hE], ?_, hverify⟩
  simp only [Block.DecodeBinary, hF]
  rw [Block_Verify_congr D b b0.Trimmed, hverify]

theorem demoDeps_roundTrips (tx : Nat) (h : tx < 256) : TxRoundTrips demoDeps tx := by
  refine ⟨[tx], ?_, ?_⟩
  · intro w hw
    simp only [demoDeps, BinWriter.WriteB_ok w hw, Nat.mod_eq_of_lt h]
  · intro rest
    simp only [demoDeps, List.singleton_append, BinReader.ReadB_cons, Nat.mod_eq_of_lt h]

/-- C6 on the valid block of the demo instance. -/
theorem Block_DecodeBinary_EncodeBinary_witness :
    demoBlock.Verify demoDeps = none ∧
    (demoBlock.EncodeBinary demoDeps NewBufBinWriter).Err = none ∧
    demoBadBlock.DecodeBinary demoDeps
        (NewBinReaderFromBuf (demoBlock.EncodeBinary demoDeps NewBufBinWriter).buf) =
      Outcome.done ({ demoBlock with Trimmed := demoBadBlock.Trimmed }, ⟨[], none⟩) ∧
    ({ demoBlock with Trimmed := demoBadBlock.Trimmed } : Block Nat).Verify demoDeps = none :=
  ⟨rfl, Block_DecodeBinary_EncodeBinary demoDeps demoBlock demoBadBlock
    (by unfold Base.WF demoBlock; decide) (by unfold ConsensusData.WF demoBlock; decide)
    (by unfold demoBlock; decide)
    (fun tx htx => demoDeps_roundTrips tx (by
      simp only [demoBlock, List.mem_cons, List.mem_singleton, List.not_mem_nil, or_false] at htx
      omega))
    rfl⟩

/-- C6 as stated fails: `EncodeBinary` writes the block of the demo instance whose stored
Merkle root is wrong, and `DecodeBinary` applied to these bytes decodes every field and
sets the reader's error to "MerkleRoot mismatch", the result of `Verify` on the decoded
block. -/
theorem Block_DecodeBinary_EncodeBinary_invalid :
    (demoBadBlock.EncodeBinary demoDeps NewBufBinWriter).Err = none ∧
    demoBadBlock.DecodeBinary demoDeps
        (NewBinReaderFromBuf (demoBadBlock.EncodeBinary demoDeps NewBufBinWriter).buf) =
      Outcome.done (demoBadBlock, ⟨[], some errMerkleMismatch⟩) ∧
    demoBadBlock.Verify demoDeps = some errMerkleMismatch :=
  ⟨rfl, rfl, rfl⟩

/-- C7 on the bytes of the valid block of the demo instance. -/
theorem Block_DecodeBinary_verifies_witness :
    demoBadBlock.DecodeBinary demoDeps
        (NewBinReaderFromBuf (demoBlock.EncodeBinary demoDeps NewBufBinWriter).buf) =
      Outcome.done (demoBlock, ⟨[], none⟩) ∧
    ((none : Option String) = none →
      demoBlock.Verify demoDeps = none ∧ (demoBlock.Transactions.map demoDeps.Hash).Nodup ∧
        demoBlock.computeMerkleTree demoDeps = Except.ok demoBlock.Base.MerkleRoot) :=
  ⟨rfl, (Block_DecodeBinary_verifies demoDeps demoBadBlock
    (NewBinReaderFromBuf (demoBlock.EncodeBinary demoDeps NewBufBinWriter).buf)
    demoBlock ⟨[], none⟩ rfl).1⟩

theorem encodeTxHashes_decodeTrimmedTxs {Tx : Type} (D : Deps Tx) :
    ∀ txs : List Tx, (∀ tx ∈ txs, D.Hash tx < 2 ^ 256) →
      ∃ bs, (∀ w : BinWriter, w.Err = none → encodeTxHashes D txs w = ⟨w.buf ++ bs, none⟩) ∧
        ∀ rest, decodeTrimmedTxs D txs.length ⟨bs ++ rest, none⟩ =
          (txs.map fun tx => D.NewTrimmedTX (D.Hash tx), ⟨rest, none⟩) := by
  intro txs
  induction txs with
  | nil =>
    intro _
    refine ⟨[], ?_, ?_⟩
    · intro w hw
      cases w
      simp only at hw
      subst hw
      simp [encodeTxHashes]
    · intro rest
      simp [decodeTrimmedTxs]
  | cons tx txs ih =>
    intro hall
    have hlt : D.Hash tx < 256 ^ 32 := by
      have := hall tx (List.mem_cons_self _ _)
      omega
    obtain ⟨bs2, henc2, hdec2⟩ := ih fun t ht => hall t (List.mem_cons_of_mem _ ht)
    refine ⟨leBytes 32 (D.Hash tx) ++ bs2, ?_, ?_⟩
    · intro w hw
      simp only [encodeTxHashes, Uint256.EncodeBinary, BinWriter.WriteUintLE_ok w hw,
        henc2 ⟨_, none⟩ rfl, List.append_assoc]
    · intro rest
      simp only [List.length_cons, decodeTrimmedTxs, Uint256.DecodeBinary, List.append_assoc,
        BinReader.ReadUintLE_leBytes_of_lt 32 _ _ hlt, hdec2, List.map_cons]

theorem NewBlockFromTrimmedBytes_of_steps {Tx : Type} (D : Deps Tx) (data : List Nat)
    (base : Base) (br1 br2 br3 br4 br5 br6 br7 : BinReader) (sep n cdh : Nat) (script : Witness)
    (txes : List Tx) (cd : ConsensusData)
    (h1 : Base.zero.decodeHashableFields (NewBinReaderFromBuf data) = (base, br1))
    (h2 : br1.ReadB = (sep, br2)) (h3 : Witness.DecodeBinary br2 = (script, br3))
    (h4 : br3.ReadVarUint = (n, br4)) (hn : n > 0)
    (h5 : Uint256.DecodeBinary br4 = (cdh, br5)) (hbig : ¬ 2 ^ 63 ≤ n - 1)
    (h6 : decodeTrimmedTxs D (toInt64 (n - 1)).toNat br5 = (txes, br6))
    (h7 : ConsensusData.DecodeBinary br6 = (cd, br7)) :
    NewBlockFromTrimmedBytes D data =
      Outcome.done (⟨{ base with Script := script }, cd, txes, true⟩, br7.Err) := by
  simp only [NewBlockFromTrimmedBytes, h1, h2, h3, h4, if_pos hn, h5, if_neg hbig, h6, h7]

/-- C9: for every block `b` (with fields and hashes within the range of their Go types),
`Trim` succeeds and `NewBlockFromTrimmedBytes` applied to its bytes returns without error a
block with `Trimmed = true`, the base and the consensus data of `b`, and a transaction list
of the same length whose `i`-th entry is the placeholder `NewTrimmedTX` of the hash of the
`i`-th transaction of `b`. -/
theorem NewBlockFromTrimmedBytes_Trim {Tx : Type} (D : Deps Tx) (b : Block Tx)
    (hbase : b.Base.WF) (hcd : b.ConsensusData.WF) (hlen : b.Transactions.length < 2 ^ 63)
    (hhash : ∀ tx ∈ b.Transactions, D.Hash tx < 2 ^ 256) :
    ∃ bytes, b.Trim D = Except.ok bytes ∧
      NewBlockFromTrimmedBytes D bytes =
        Outcome.done (⟨b.Base, b.ConsensusData,
          b.Transactions.map fun tx => D.NewTrimmedTX (D.Hash tx), true⟩, none) ∧
      (b.Transactions.map fun tx => D.NewTrimmedTX (D.Hash tx)).length =
        b.Transactions.length := by
  obtain ⟨bs, henc, hdec⟩ := encodeTxHashes_decodeTrimmedTxs D b.Transactions hhash
  have hT : b.Trim D = Except.ok (b.Base.hashableBytes ++ (1 :: (b.Base.Script.bytes ++
      (varUintBytes (b.Transactions.length + 1) ++
        (leBytes 32 (D.cdHash b.ConsensusData) ++ (bs ++ (b.ConsensusData.bytes ++ []))))))) := by
    simp only [Block.Trim, NewBufBinWriter, Base.encodeHashableFields_ok _ ⟨[], none⟩ rfl,
      BinWriter.WriteB_ok ⟨_, none⟩ rfl, Witness_EncodeBinary_ok _ ⟨_, none⟩ rfl,
      BinWriter.WriteVarUint_ok ⟨_, none⟩ rfl, Uint256.EncodeBinary,
      BinWriter.WriteUintLE_ok ⟨_, none⟩ rfl, henc ⟨_, none⟩ rfl,
      ConsensusData_EncodeBinary_ok _ ⟨_, none⟩ rfl, List.nil_append, List.append_assoc,
      List.singleton_append, List.append_nil, Nat.one_mod, List.cons_append]
  have hmod : (b.Transactions.length + 1) % 2 ^ 64 = b.Transactions.length + 1 :=
    Nat.mod_eq_of_lt (by omega)
  have hcount : (toInt64 (b.Transactions.length + 1 - 1)).toNat = b.Transactions.length := by
    have h1 : (b.Transactions.length + 1 - 1) % 2 ^ 64 = b.Transactions.length :=
      Nat.mod_eq_of_lt (by omega)
    unfold toInt64
    simp only [h1, Int.ofNat_eq_coe]
    split_ifs
    omega
  refine ⟨_, hT, ?_, List.length_map _ _⟩
  exact NewBlockFromTrimmedBytes_of_steps D _ _ _ _ _ _ _ _ _ _ _ _ _ _ _
    (Base.decodeHashableFields_bytes b.Base Base.zero _ hbase)
    (BinReader.ReadB_cons _ _)
    (Witness_DecodeBinary_bytes b.Base.Script _ hbase.2.2.2.2.2.2.1 hbase.2.2.2.2.2.2.2)
    (hmod ▸ BinReader.ReadVarUint_varUintBytes (b.Transactions.length + 1) _)
    (Nat.succ_pos _)
    (BinReader.ReadUintLE_leBytes 32 _ _)
    (by omega)
    (hcount.symm ▸ hdec _)
    (ConsensusData_DecodeBinary_bytes _ _ hcd)

/-- C9 on the valid block of the demo instance. -/
theorem NewBlockFromTrimmedBytes_Trim_witness :
    demoBlock.Base.WF ∧ demoBlock.ConsensusData.WF ∧
    ∃ bytes, demoBlock.Trim demoDeps = Except.ok bytes ∧
      NewBlockFromTrimmedBytes demoDeps bytes =
        Outcome.done (⟨demoBlock.Base, demoBlock.ConsensusData,
          demoBlock.Transactions.map fun tx => demoDeps.NewTrimmedTX (demoDeps.Hash tx),
          true⟩, none) ∧
      (demoBlock.Transactions.map fun tx => demoDeps.NewTrimmedTX (demoDeps.Hash tx)).length =
        demoBlock.Transactions.length :=
  have hbase : demoBlock.Base.WF := by unfold Base.WF demoBlock; decide
  have hcd : demoBlock.ConsensusData.WF := by unfold ConsensusData.WF demoBlock; decide
  ⟨hbase, hcd, NewBlockFromTrimmedBytes_Trim demoDeps demoBlock hbase hcd
    (by unfold demoBlock; decide)
    (fun tx htx => by
      simp only [demoBlock, List.mem_cons, List.mem_singleton, List.not_mem_nil, or_false] at htx
      have : demoDeps.Hash tx = tx := rfl
      omega)⟩

/-! # Package `core`: the interop services -/

/-! ## Sequencing -/

@[simp] theorem Outcome.done_bind {α β : Type} (a : α) (f : α → Outcome β) :
    (Outcome.done a >>= f) = f a := rfl

@[simp] theorem Outcome.crashed_bind {α β : Type} (msg : String) (f : α → Outcome β) :
    (Outcome.crashed msg >>= f) = Outcome.crashed msg := rfl

@[simp] theorem Outcome.outOfFuel_bind {α β : Type} (f : α → Outcome β) :
    ((Outcome.outOfFuel : Outcome α) >>= f) = Outcome.outOfFuel := rfl

@[simp] theorem Outcome.pure_eq_done {α : Type} (a : α) : (pure a : Outcome α) = Outcome.done a :=
  rfl

theorem Outcome.bind_eq_done {α β : Type} {x : Outcome α} {f : α → Outcome β} {b : β}
    (h : (x >>= f) = Outcome.done b) : ∃ a, x = Outcome.done a ∧ f a = Outcome.done b := by
  cases x with
  | done a => exact ⟨a, rfl, h⟩
  | crashed msg => simp at h
  | outOfFuel => simp at h

/-! ## Key/value lists -/

theorem kvDel_cons_eq {κ α : Type} [DecidableEq κ] (t : List (κ × α)) (k : κ) (v : α) :
    kvDel ((k, v) :: t) k = kvDel t k := by
  simp [kvDel]

theorem kvDel_cons_ne {κ α : Type} [DecidableEq κ] (t : List (κ × α)) (k k1 : κ) (v : α)
    (h : k1 ≠ k) : kvDel ((k1, v) :: t) k = (k1, v) :: kvDel t k := by
  simp [kvDel, h]

theorem kvGet_cons_eq {κ α : Type} [DecidableEq κ] (t : List (κ × α)) (k : κ) (v : α) :
    kvGet ((k, v) :: t) k = some v := by
  simp [kvGet]

theorem kvGet_cons_ne {κ α : Type} [DecidableEq κ] (t : List (κ × α)) (k k1 : κ) (v : α)
    (h : k1 ≠ k) : kvGet ((k1, v) :: t) k = kvGet t k := by
  simp [kvGet, h]

theorem kvGet_kvDel_same {κ α : Type} [DecidableEq κ] (l : List (κ × α)) (k : κ) :
    kvGet (kvDel l k) k = none := by
  induction l with
  | nil => rfl
  | cons p t ih =>
    obtain ⟨k1, v⟩ := p
    by_cases h : k1 = k
    · subst h
      rw [kvDel_cons_eq, ih]
    · rw [kvDel_cons_ne t k k1 v h, kvGet_cons_ne _ k k1 v h, ih]

theorem kvGet_kvDel_other {κ α : Type} [DecidableEq κ] (l : List (κ × α)) (k k1 : κ)
    (hne : k1 ≠ k) : kvGet (kvDel l k) k1 = kvGet l k1 := by
  induction l with
  | nil => rfl
  | cons p t ih =>
    obtain ⟨k2, v⟩ := p
    by_cases h : k2 = k
    · subst h
      rw [kvDel_cons_eq, ih, kvGet_cons_ne t k1 k2 v (fun e => hne e.symm)]
    · rw [kvDel_cons_ne t k k2 v h]
      by_cases h2 : k2 = k1
      · subst h2
        rw [kvGet_cons_eq, kvGet_cons_eq]
      · rw [kvGet_cons_ne _ k1 k2 v h2, kvGet_cons_ne _ k1 k2 v h2, ih]

theorem kvGet_kvPut_same {κ α : Type} [DecidableEq κ] (l : List (κ × α)) (k : κ) (v : α) :
    kvGet (kvPut l k v) k = some v := kvGet_cons_eq _ k v

theorem kvGet_kvPut_other {κ α : Type} [DecidableEq κ] (l : List (κ × α)) (k k1 : κ) (v : α)
    (hne : k1 ≠ k) : kvGet (kvPut l k v) k1 = kvGet l k1 := by
  unfold kvPut
  rw [kvGet_cons_ne _ k1 k v (fun e => hne e.symm), kvGet_kvDel_other l k k1 hne]

/-! ## The storage services -/

theorem VM.Pop_cons (v : VM) (e : Element) (rest : List Element) (hs : v.estack = e :: rest) :
    v.Pop = Outcome.done (e, { v with estack := rest }) := by
  unfold VM.Pop
  rw [hs]

theorem VM.Pop_nil (v : VM) (hs : v.estack = []) :
    v.Pop = Outcome.crashed "invalid memory address or nil pointer dereference" := by
  unfold VM.Pop
  rw [hs]

theorem VM.Pop_eq_done {v v1 : VM} {e : Element} (h : v.Pop = Outcome.done (e, v1)) :
    v.estack = e :: v1.estack ∧ v1.objects = v.objects := by
  unfold VM.Pop at h
  split at h
  · simp at h
  · rename_i e1 rest hs
    simp only [Outcome.done.injEq, Prod.mk.injEq] at h
    obtain ⟨h1, h2⟩ := h
    subst h1
    subst h2
    exact ⟨hs, rfl⟩

theorem asStorageContext_interop (v : VM) (p : Nat) (stc : StorageContext)
    (hp : v.objects[p]? = some (HostObject.storageContext stc)) :
    (Element.interop p).asStorageContext v = some stc := by
  simp [Element.asStorageContext, hp]

/-- The services `storagePut` on a stack that holds a storage context, a key and a value:
what `putWithContextAndFlags` returns for them with `isConst = false`. -/
theorem storagePut_eq (ic : Context) (v : VM) (p : Nat) (stc : StorageContext)
    (keyElem valueElem : Element) (rest : List Element) (key value : List Nat)
    (hs : v.estack = Element.interop p :: keyElem :: valueElem :: rest)
    (hp : v.objects[p]? = some (HostObject.storageContext stc))
    (hk : keyElem.Bytes = Outcome.done key) (hv : valueElem.Bytes = Outcome.done value) :
    storagePut ic v = Outcome.done ((putWithContextAndFlags ic stc key value false).1,
      (putWithContextAndFlags ic stc key value false).2, { v with estack := rest }) := by
  unfold storagePut storagePutInternal
  rw [VM.Pop_cons v _ _ hs]
  simp only [Outcome.done_bind]
  simp [Element.asStorageContext, hp, VM.Pop, hk, hv]

/-- The service `storagePutEx` on a stack that holds a storage context, a key, a value and
the flags. -/
theorem storagePutEx_eq (ic : Context) (v : VM) (p : Nat) (stc : StorageContext)
    (keyElem valueElem flagElem : Element) (rest : List Element) (key value : List Nat)
    (flags : Int)
    (hs : v.estack = Element.interop p :: keyElem :: valueElem :: flagElem :: rest)
    (hp : v.objects[p]? = some (HostObject.storageContext stc))
    (hk : keyElem.Bytes = Outcome.done key) (hv : valueElem.Bytes = Outcome.done value)
    (hf : flagElem.BigInt = Outcome.done flags) :
    storagePutEx ic v = Outcome.done
      ((putWithContextAndFlags ic stc key value (decide (bigIntInt64 flags = 1))).1,
       (putWithContextAndFlags ic stc key value (decide (bigIntInt64 flags = 1))).2,
       { v with estack := rest }) := by
  unfold storagePutEx storagePutInternal
  rw [VM.Pop_cons v _ _ hs]
  simp only [Outcome.done_bind]
  simp [Element.asStorageContext, hp, VM.Pop, hk, hv, hf]

/-- Whatever `storagePutInternal` returns is an early error that leaves the context as it
was, or what `putWithContextAndFlags` returns. -/
theorem storagePutInternal_done {ic ic1 : Context} {v v1 : VM} {getFlag : Bool}
    {err : Option String} (h : storagePutInternal ic v getFlag = Outcome.done (err, ic1, v1)) :
    (err ≠ none ∧ ic1 = ic) ∨
      ∃ stc key value isConst, (err, ic1) = putWithContextAndFlags ic stc key value isConst := by
  unfold storagePutInternal at h
  obtain ⟨⟨e, w⟩, -, h⟩ := Outcome.bind_eq_done h
  dsimp only at h
  split at h
  · simp only [Outcome.done.injEq, Prod.mk.injEq] at h
    exact Or.inl ⟨by rw [← h.1]; simp, h.2.1.symm⟩
  · rename_i stc _
    obtain ⟨⟨e2, w2⟩, -, h⟩ := Outcome.bind_eq_done h
    obtain ⟨key, -, h⟩ := Outcome.bind_eq_done h
    obtain ⟨⟨e3, w3⟩, -, h⟩ := Outcome.bind_eq_done h
    obtain ⟨value, -, h⟩ := Outcome.bind_eq_done h
    dsimp only at h
    split at h
    · obtain ⟨⟨e4, w4⟩, -, h⟩ := Outcome.bind_eq_done h
      obtain ⟨flagInt, -, h⟩ := Outcome.bind_eq_done h
      simp only [Outcome.done.injEq, Prod.mk.injEq] at h
      exact Or.inr ⟨stc, key, value, _, Prod.ext h.1.symm h.2.1.symm⟩
    · simp only [Outcome.done.injEq, Prod.mk.injEq] at h
      exact Or.inr ⟨stc, key, value, _, Prod.ext h.1.symm h.2.1.symm⟩

/-- What `putWithContextAndFlags` returns: an error and the context as it was, or no error
and the context with the item stored, all preconditions having held. -/
theorem putWithContextAndFlags_cases (ic : Context) (stc : StorageContext)
    (key value : List Nat) (isConst : Bool) :
    ((putWithContextAndFlags ic stc key value isConst).1 ≠ none ∧
        (putWithContextAndFlags ic stc key value isConst).2 = ic) ∨
      ((ic.Trigger = Trigger.Application ∨ ic.Trigger = Trigger.ApplicationR) ∧
        key.length ≤ MaxStorageKeyLen ∧ stc.ReadOnly = false ∧
        checkStorageContext ic stc = none ∧
        isConstItem (ic.DAO.GetStorageItem stc.ScriptHash key) = false ∧
        putWithContextAndFlags ic stc key value isConst =
          (none, { ic with DAO := ic.DAO.PutStorageItem stc.ScriptHash key ⟨value, isConst⟩ })) := by
  unfold putWithContextAndFlags
  by_cases ht : ic.Trigger ≠ Trigger.Application ∧ ic.Trigger ≠ Trigger.ApplicationR
  · rw [if_pos ht]
    exact Or.inl ⟨by simp, rfl⟩
  · rw [if_neg ht]
    by_cases hl : key.length > MaxStorageKeyLen
    · rw [if_pos hl]
      exact Or.inl ⟨by simp, rfl⟩
    · rw [if_neg hl]
      cases hr : stc.ReadOnly with
      | true => exact Or.inl ⟨by simp, by simp⟩
      | false =>
        cases hc : checkStorageContext ic stc with
        | some e => exact Or.inl ⟨by simp, by simp⟩
        | none =>
          cases hg : ic.DAO.GetStorageItem stc.ScriptHash key with
          | none =>
            refine Or.inr ⟨?_, by omega, rfl, rfl, by simp [isConstItem], by simp⟩
            by_contra hcon
            exact ht ⟨fun e => hcon (Or.inl e), fun e => hcon (Or.inr e)⟩
          | some si =>
            cases hsi : si.IsConst with
            | true => exact Or.inl ⟨by simp [hsi], by simp [hsi]⟩
            | false =>
              refine Or.inr ⟨?_, by omega, rfl, rfl, by simp [isConstItem, hsi], by simp [hsi]⟩
              by_contra hcon
              exact ht ⟨fun e => hcon (Or.inl e), fun e => hcon (Or.inr e)⟩

theorem checkStorageContext_eq_none (ic : Context) (stc : StorageContext) :
    checkStorageContext ic stc = none ↔
      ∃ cs, ic.DAO.GetContractState stc.ScriptHash = some cs ∧ cs.HasStorage = true := by
  unfold checkStorageContext
  cases hg : ic.DAO.GetContractState stc.ScriptHash with
  | none => simp
  | some cs => cases hh : cs.HasStorage <;> simp [hh]

theorem checkStorageContext_congr (ic ic1 : Context) (stc : StorageContext)
    (h : ic1.DAO.contracts = ic.DAO.contracts) :
    checkStorageContext ic1 stc = checkStorageContext ic stc := by
  unfold checkStorageContext DAO.GetContractState
  rw [h]

theorem putWithContextAndFlags_ok (ic : Context) (stc : StorageContext) (key value : List Nat)
    (isConst : Bool)
    (ht : ic.Trigger = Trigger.Application ∨ ic.Trigger = Trigger.ApplicationR)
    (hl : key.length ≤ MaxStorageKeyLen) (hr : stc.ReadOnly = false)
    (hc : checkStorageContext ic stc = none)
    (hi : isConstItem (ic.DAO.GetStorageItem stc.ScriptHash key) = false) :
    putWithContextAndFlags ic stc key value isConst =
      (none, { ic with DAO := ic.DAO.PutStorageItem stc.ScriptHash key ⟨value, isConst⟩ }) := by
  unfold putWithContextAndFlags
  have ht1 : ¬ (ic.Trigger ≠ Trigger.Application ∧ ic.Trigger ≠ Trigger.ApplicationR) := by
    rintro ⟨h1, h2⟩
    rcases ht with h | h
    · exact h1 h
    · exact h2 h
  rw [if_neg ht1, if_neg (by omega), hr, hc]
  cases hg : ic.DAO.GetStorageItem stc.ScriptHash key with
  | none => simp
  | some si =>
    rw [hg] at hi
    simp only [isConstItem] at hi
    simp [hi]

theorem putWithContextAndFlags_trigger (ic : Context) (stc : StorageContext)
    (key value : List Nat) (isConst : Bool)
    (ht : ic.Trigger ≠ Trigger.Application ∧ ic.Trigger ≠ Trigger.ApplicationR) :
    putWithContextAndFlags ic stc key value isConst = (some errNotApplication, ic) := by
  unfold putWithContextAndFlags
  rw [if_pos ht]

theorem putWithContextAndFlags_keyTooBig (ic : Context) (stc : StorageContext)
    (key value : List Nat) (isConst : Bool)
    (ht : ic.Trigger = Trigger.Application ∨ ic.Trigger = Trigger.ApplicationR)
    (hl : MaxStorageKeyLen < key.length) :
    putWithContextAndFlags ic stc key value isConst = (some errKeyTooBig, ic) := by
  unfold putWithContextAndFlags
  have ht1 : ¬ (ic.Trigger ≠ Trigger.Application ∧ ic.Trigger ≠ Trigger.ApplicationR) := by
    rintro ⟨h1, h2⟩
    rcases ht with h | h
    · exact h1 h
    · exact h2 h
  rw [if_neg ht1, if_pos hl]

theorem putWithContextAndFlags_const (ic : Context) (stc : StorageContext)
    (key value : List Nat) (isConst : Bool)
    (ht : ic.Trigger = Trigger.Application ∨ ic.Trigger = Trigger.ApplicationR)
    (hl : key.length ≤ MaxStorageKeyLen) (hr : stc.ReadOnly = false)
    (hc : checkStorageContext ic stc = none)
    (hi : isConstItem (ic.DAO.GetStorageItem stc.ScriptHash key) = true) :
    putWithContextAndFlags ic stc key value isConst = (some errItemReadOnly, ic) := by
  unfold putWithContextAndFlags
  have ht1 : ¬ (ic.Trigger ≠ Trigger.Application ∧ ic.Trigger ≠ Trigger.ApplicationR) := by
    rintro ⟨h1, h2⟩
    rcases ht with h | h
    · exact h1 h
    · exact h2 h
  rw [if_neg ht1, if_neg (by omega), hr, hc]
  cases hg : ic.DAO.GetStorageItem stc.ScriptHash key with
  | none => rw [hg] at hi; simp [isConstItem] at hi
  | some si =>
    rw [hg] at hi
    simp only [isConstItem] at hi
    simp [hi]

/-- The service `storageDelete` on a stack that holds a writable storage context of a
contract with storage and a key, under a trigger that allows writing. -/
theorem storageDelete_eq (ic : Context) (v : VM) (p : Nat) (stc : StorageContext)
    (keyElem : Element) (rest : List Element) (key : List Nat)
    (ht : ic.Trigger = Trigger.Application ∨ ic.Trigger = Trigger.ApplicationR)
    (hs : v.estack = Element.interop p :: keyElem :: rest)
    (hp : v.objects[p]? = some (HostObject.storageContext stc))
    (hr : stc.ReadOnly = false) (hc : checkStorageContext ic stc = none)
    (hk : keyElem.Bytes = Outcome.done key) :
    storageDelete ic v =
      if isConstItem (ic.DAO.GetStorageItem stc.ScriptHash key) then
        Outcome.done (some errItemConstant, ic, { v with estack := rest })
      else
        Outcome.done (none, { ic with DAO := ic.DAO.DeleteStorageItem stc.ScriptHash key },
          { v with estack := rest }) := by
  unfold storageDelete
  have ht1 : ¬ (ic.Trigger ≠ Trigger.Application ∧ ic.Trigger ≠ Trigger.ApplicationR) := by
    rintro ⟨h1, h2⟩
    rcases ht with h | h
    · exact h1 h
    · exact h2 h
  rw [if_neg ht1, VM.Pop_cons v _ _ hs]
  simp [Element.asStorageContext, hp, VM.Pop, hk, hr, hc]

/-- Whatever `storageDelete` returns is an error that leaves the context as it was, or no
error and the context with the key removed, all preconditions having held. -/
theorem storageDelete_done {ic ic1 : Context} {v v1 : VM} {err : Option String}
    (h : storageDelete ic v = Outcome.done (err, ic1, v1)) :
    (err ≠ none ∧ ic1 = ic) ∨
      ∃ stc key, (ic.Trigger = Trigger.Application ∨ ic.Trigger = Trigger.ApplicationR) ∧
        stc.ReadOnly = false ∧ checkStorageContext ic stc = none ∧
        isConstItem (ic.DAO.GetStorageItem stc.ScriptHash key) = false ∧ err = none ∧
        ic1 = { ic with DAO := ic.DAO.DeleteStorageItem stc.ScriptHash key } := by
  unfold storageDelete at h
  split at h
  · simp only [Outcome.done.injEq, Prod.mk.injEq] at h
    exact Or.inl ⟨by rw [← h.1]; simp, h.2.1.symm⟩
  · rename_i ht
    have ht1 : ic.Trigger = Trigger.Application ∨ ic.Trigger = Trigger.ApplicationR := by
      by_contra hcon
      exact ht ⟨fun e => hcon (Or.inl e), fun e => hcon (Or.inr e)⟩
    obtain ⟨⟨e, w⟩, -, h⟩ := Outcome.bind_eq_done h
    dsimp only at h
    split at h
    · simp only [Outcome.done.injEq, Prod.mk.injEq] at h
      exact Or.inl ⟨by rw [← h.1]; simp, h.2.1.symm⟩
    · rename_i stc _
      split at h
      · simp only [Outcome.done.injEq, Prod.mk.injEq] at h
        exact Or.inl ⟨by rw [← h.1]; simp, h.2.1.symm⟩
      · rename_i hr
        split at h
        · simp only [Outcome.done.injEq, Prod.mk.injEq] at h
          exact Or.inl ⟨by rw [← h.1]; simp, h.2.1.symm⟩
        · rename_i hc
          obtain ⟨⟨e2, w2⟩, -, h⟩ := Outcome.bind_eq_done h
          obtain ⟨key, -, h⟩ := Outcome.bind_eq_done h
          dsimp only at h
          split at h
          · simp only [Outcome.done.injEq, Prod.mk.injEq] at h
            exact Or.inl ⟨by rw [← h.1]; simp, h.2.1.symm⟩
          · rename_i hi
            simp only [Outcome.done.injEq, Prod.mk.injEq] at h
            exact Or.inr ⟨stc, key, ht1, by simpa using hr, hc, by simpa using hi, h.1.symm,
              h.2.1.symm⟩

/-- The service `storageGet` on a stack that holds a storage context of a contract with
storage and a key: the value of the item under the key, or the empty byte array, is
pushed. -/
theorem storageGet_eq (ic : Context) (v : VM) (p : Nat) (stc : StorageContext)
    (keyElem : Element) (rest : List Element) (key : List Nat)
    (hs : v.estack = Element.interop p :: keyElem :: rest)
    (hp : v.objects[p]? = some (HostObject.storageContext stc))
    (hc : checkStorageContext ic stc = none)
    (hk : keyElem.Bytes = Outcome.done key) :
    storageGet ic v = Outcome.done (none, ic,
      { v with estack := (Element.byteArray
          (((ic.DAO.GetStorageItem stc.ScriptHash key).map StorageItem.Value).getD [])) :: rest }) := by
  unfold storageGet
  rw [VM.Pop_cons v _ _ hs]
  cases hg : ic.DAO.GetStorageItem stc.ScriptHash key <;>
    simp [Element.asStorageContext, hp, VM.Pop, hk, hc, hg, VM.PushVal]

theorem storageGet_done {ic ic1 : Context} {v v1 : VM} {err : Option String}
    (h : storageGet ic v = Outcome.done (err, ic1, v1)) : ic1 = ic := by
  unfold storageGet at h
  obtain ⟨⟨e, w⟩, -, h⟩ := Outcome.bind_eq_done h
  dsimp only at h
  split at h
  · simp only [Outcome.done.injEq, Prod.mk.injEq] at h
    exact h.2.1.symm
  · split at h
    · simp only [Outcome.done.injEq, Prod.mk.injEq] at h
      exact h.2.1.symm
    · obtain ⟨⟨e2, w2⟩, -, h⟩ := Outcome.bind_eq_done h
      obtain ⟨key, -, h⟩ := Outcome.bind_eq_done h
      dsimp only at h
      split at h <;>
      · simp only [Outcome.done.injEq, Prod.mk.injEq] at h
        exact h.2.1.symm

theorem storageFind_done {ic ic1 : Context} {v v1 : VM} {tail : List Nat}
    {err : Option String}
    (h : storageFind ic v tail = Outcome.done (err, ic1, v1)) : ic1 = ic := by
  unfold storageFind at h
  obtain ⟨⟨e, w⟩, -, h⟩ := Outcome.bind_eq_done h
  dsimp only at h
  split at h
  · simp only [Outcome.done.injEq, Prod.mk.injEq] at h
    exact h.2.1.symm
  · split at h
    · simp only [Outcome.done.injEq, Prod.mk.injEq] at h
      exact h.2.1.symm
    · obtain ⟨⟨e2, w2⟩, -, h⟩ := Outcome.bind_eq_done h
      obtain ⟨pre, -, h⟩ := Outcome.bind_eq_done h
      obtain ⟨m, -, h⟩ := Outcome.bind_eq_done h
      simp only [Outcome.done.injEq, Prod.mk.injEq] at h
      exact h.2.1.symm

theorem storageContextAsReadOnly_done {ic ic1 : Context} {v v1 : VM} {err : Option String}
    (h : storageContextAsReadOnly ic v = Outcome.done (err, ic1, v1)) : ic1 = ic := by
  unfold storageContextAsReadOnly at h
  obtain ⟨⟨e, w⟩, -, h⟩ := Outcome.bind_eq_done h
  dsimp only at h
  split at h
  · split at h
    · split at h <;>
      · simp only [Outcome.done.injEq, Prod.mk.injEq] at h
        exact h.2.1.symm
    · simp only [Outcome.done.injEq, Prod.mk.injEq] at h
      exact h.2.1.symm
  · simp only [Outcome.done.injEq, Prod.mk.injEq] at h
    exact h.2.1.symm

/-! ## The DAO -/

theorem DAO.GetStorageItem_Put_same (d : DAO) (hash : Nat) (key : List Nat) (si : StorageItem) :
    (d.PutStorageItem hash key si).GetStorageItem hash key = some si :=
  kvGet_kvPut_same _ _ _

theorem DAO.GetStorageItem_Put_other (d : DAO) (hash hash1 : Nat) (key key1 : List Nat)
    (si : StorageItem) (hne : (hash1, key1) ≠ (hash, key)) :
    (d.PutStorageItem hash key si).GetStorageItem hash1 key1 = d.GetStorageItem hash1 key1 :=
  kvGet_kvPut_other _ _ _ _ hne

theorem DAO.GetStorageItem_Delete_same (d : DAO) (hash : Nat) (key : List Nat) :
    (d.DeleteStorageItem hash key).GetStorageItem hash key = none :=
  kvGet_kvDel_same _ _

theorem DAO.GetStorageItem_Delete_other (d : DAO) (hash hash1 : Nat) (key key1 : List Nat)
    (hne : (hash1, key1) ≠ (hash, key)) :
    (d.DeleteStorageItem hash key).GetStorageItem hash1 key1 = d.GetStorageItem hash1 key1 :=
  kvGet_kvDel_other _ _ _ hne

/-! ## C11: put, delete and get -/

/-- C11: under the trigger Application or ApplicationR, for a writable context `stc` of an
existing contract with storage, a key of at most 1024 bytes that holds no constant item and
any value: `storagePut` succeeds and afterwards `storageGet` on the same context and key
pushes exactly the value; `storageDelete` succeeds and afterwards `storageGet` pushes the
empty byte array; after either call the items under every other pair of script hash and
key, and the contracts, are what they were. -/
theorem storagePut_storageDelete_storageGet (ic : Context) (v : VM) (p : Nat)
    (stc : StorageContext) (cs : Contract) (keyElem valueElem : Element) (key value : List Nat)
    (ht : ic.Trigger = Trigger.Application ∨ ic.Trigger = Trigger.ApplicationR)
    (hp : v.objects[p]? = some (HostObject.storageContext stc))
    (hr : stc.ReadOnly = false)
    (hcs : ic.DAO.GetContractState stc.ScriptHash = some cs) (hst : cs.HasStorage = true)
    (hk : keyElem.Bytes = Outcome.done key) (hv : valueElem.Bytes = Outcome.done value)
    (hl : key.length ≤ 1024)
    (hi : ∀ si, ic.DAO.GetStorageItem stc.ScriptHash key = some si → si.IsConst = false) :
    ∃ ic1 ic2 : Context,
      (∀ rest, storagePut ic { v with estack := Element.interop p :: keyElem :: valueElem :: rest } =
        Outcome.done (none, ic1, { v with estack := rest })) ∧
      (∀ rest, storageGet ic1 { v with estack := Element.interop p :: keyElem :: rest } =
        Outcome.done (none, ic1, { v with estack := Element.byteArray value :: rest })) ∧
      (∀ rest, storageDelete ic { v with estack := Element.interop p :: keyElem :: rest } =
        Outcome.done (none, ic2, { v with estack := rest })) ∧
      (∀ rest, storageGet ic2 { v with estack := Element.interop p :: keyElem :: rest } =
        Outcome.done (none, ic2, { v with estack := Element.byteArray [] :: rest })) ∧
      (∀ hash1 key1, (hash1, key1) ≠ (stc.ScriptHash, key) →
        ic1.DAO.GetStorageItem hash1 key1 = ic.DAO.GetStorageItem hash1 key1 ∧
        ic2.DAO.GetStorageItem hash1 key1 = ic.DAO.GetStorageItem hash1 key1) ∧
      ic1.DAO.contracts = ic.DAO.contracts ∧ ic2.DAO.contracts = ic.DAO.contracts := by
  have hc : checkStorageContext ic stc = none :=
    (checkStorageContext_eq_none ic stc).2 ⟨cs, hcs, hst⟩
  have hi1 : isConstItem (ic.DAO.GetStorageItem stc.ScriptHash key) = false := by
    cases hg : ic.DAO.GetStorageItem stc.ScriptHash key with
    | none => rfl
    | some si => exact hi si hg
  refine ⟨{ ic with DAO := ic.DAO.PutStorageItem stc.ScriptHash key ⟨value, false⟩ },
    { ic with DAO := ic.DAO.DeleteStorageItem stc.ScriptHash key }, ?_, ?_, ?_, ?_, ?_, rfl, rfl⟩
  · intro rest
    rw [storagePut_eq ic { v with estack := _ } p stc keyElem valueElem rest key value rfl hp hk hv,
      putWithContextAndFlags_ok ic stc key value false ht hl hr hc hi1]
  · intro rest
    have hc1 : checkStorageContext
        { ic with DAO := ic.DAO.PutStorageItem stc.ScriptHash key ⟨value, false⟩ } stc = none :=
      (checkStorageContext_congr ic _ stc rfl).trans hc
    rw [storageGet_eq _ { v with estack := _ } p stc keyElem rest key rfl hp hc1 hk]
    simp only [DAO.GetStorageItem_Put_same, Option.map_some', Option.getD_some]
  · intro rest
    rw [storageDelete_eq ic { v with estack := _ } p stc keyElem rest key ht rfl hp hr hc hk, hi1]
    simp
  · intro rest
    have hc2 : checkStorageContext
        { ic with DAO := ic.DAO.DeleteStorageItem stc.ScriptHash key } stc = none :=
      (checkStorageContext_congr ic _ stc rfl).trans hc
    rw [storageGet_eq _ { v with estack := _ } p stc keyElem rest key rfl hp hc2 hk]
    simp only [DAO.GetStorageItem_Delete_same, Option.map_none', Option.getD_none]
  · intro hash1 key1 hne
    exact ⟨DAO.GetStorageItem_Put_other _ _ _ _ _ _ hne,
      DAO.GetStorageItem_Delete_other _ _ _ _ _ hne⟩

/-- C11 on the demo context: the key `[3]` of the contract 7 holds a plain item; the value
`[4]` is put, or the key deleted. -/
theorem storagePut_storageDelete_storageGet_witness :
    ∃ ic1 ic2 : Context,
      (∀ rest, storagePut demoContext (demoVM
          (Element.interop 0 :: Element.byteArray [3] :: Element.byteArray [4] :: rest)) =
        Outcome.done (none, ic1, demoVM rest)) ∧
      (∀ rest, storageGet ic1 (demoVM
          (Element.interop 0 :: Element.byteArray [3] :: rest)) =
        Outcome.done (none, ic1, demoVM (Element.byteArray [4] :: rest))) ∧
      (∀ rest, storageDelete demoContext (demoVM
          (Element.interop 0 :: Element.byteArray [3] :: rest)) =
        Outcome.done (none, ic2, demoVM rest)) ∧
      (∀ rest, storageGet ic2 (demoVM
          (Element.interop 0 :: Element.byteArray [3] :: rest)) =
        Outcome.done (none, ic2, demoVM (Element.byteArray [] :: rest))) ∧
      (∀ hash1 key1, (hash1, key1) ≠ ((7 : Nat), ([3] : List Nat)) →
        ic1.DAO.GetStorageItem hash1 key1 = demoContext.DAO.GetStorageItem hash1 key1 ∧
        ic2.DAO.GetStorageItem hash1 key1 = demoContext.DAO.GetStorageItem hash1 key1) ∧
      ic1.DAO.contracts = demoContext.DAO.contracts ∧
      ic2.DAO.contracts = demoContext.DAO.contracts :=
  storagePut_storageDelete_storageGet demoContext (demoVM []) 0 ⟨7, false⟩ demoContract
    (Element.byteArray [3]) (Element.byteArray [4]) [3] [4] (Or.inl rfl) rfl rfl rfl rfl rfl rfl
    (by decide) (by intro si h; cases h; rfl)

/-! ## C12: constant items are not overwritten -/

/-- A call of a storage service leaves the trigger, the contracts and every constant item
of a context as they were. -/
theorem StorageStep_const {ic ic1 : Context} (h : StorageStep ic ic1) :
    ic1.Trigger = ic.Trigger ∧ ic1.DAO.contracts = ic.DAO.contracts ∧
      ∀ hash key si, ic.DAO.GetStorageItem hash key = some si → si.IsConst = true →
        ic1.DAO.GetStorageItem hash key = some si := by
  have hput : ∀ {v v1 : VM} {gf : Bool} {err : Option String},
      storagePutInternal ic v gf = Outcome.done (err, ic1, v1) →
      ic1.Trigger = ic.Trigger ∧ ic1.DAO.contracts = ic.DAO.contracts ∧
        ∀ hash key si, ic.DAO.GetStorageItem hash key = some si → si.IsConst = true →
          ic1.DAO.GetStorageItem hash key = some si := by
    intro v v1 gf err hrun
    rcases storagePutInternal_done hrun with ⟨-, h1⟩ | ⟨stc, key, value, isConst, h1⟩
    · subst h1
      exact ⟨rfl, rfl, fun _ _ _ h _ => h⟩
    · rcases putWithContextAndFlags_cases ic stc key value isConst with
        ⟨-, h2⟩ | ⟨-, -, -, -, hi, h2⟩
      · rw [← h1] at h2
        dsimp only at h2
        subst h2
        exact ⟨rfl, rfl, fun _ _ _ h _ => h⟩
      · rw [h2] at h1
        simp only [Prod.mk.injEq] at h1
        obtain ⟨-, h1⟩ := h1
        subst h1
        refine ⟨rfl, rfl, ?_⟩
        intro hash key1 si hg hsi
        have hne : (hash, key1) ≠ (stc.ScriptHash, key) := by
          intro e
          simp only [Prod.mk.injEq] at e
          rw [e.1, e.2] at hg
          rw [hg] at hi
          simp only [isConstItem] at hi
          rw [hi] at hsi
          cases hsi
        exact (DAO.GetStorageItem_Put_other _ _ _ _ _ _ hne).trans hg
  cases h with
  | put v v1 err hrun => exact hput hrun
  | putEx v v1 err hrun => exact hput hrun
  | delete v v1 err hrun =>
    rcases storageDelete_done hrun with ⟨-, h1⟩ | ⟨stc, key, -, -, -, hi, -, h1⟩
    · subst h1
      exact ⟨rfl, rfl, fun _ _ _ h _ => h⟩
    · subst h1
      refine ⟨rfl, rfl, ?_⟩
      intro hash key1 si hg hsi
      have hne : (hash, key1) ≠ (stc.ScriptHash, key) := by
        intro e
        simp only [Prod.mk.injEq] at e
        rw [e.1, e.2] at hg
        rw [hg] at hi
        simp only [isConstItem] at hi
        rw [hi] at hsi
        cases hsi
      exact (DAO.GetStorageItem_Delete_other _ _ _ _ _ hne).trans hg
  | get v v1 err hrun =>
    rw [storageGet_done hrun]
    exact ⟨rfl, rfl, fun _ _ _ h _ => h⟩
  | find v v1 tail err hrun =>
    rw [storageFind_done hrun]
    exact ⟨rfl, rfl, fun _ _ _ h _ => h⟩
  | asReadOnly v v1 err hrun =>
    rw [storageContextAsReadOnly_done hrun]
    exact ⟨rfl, rfl, fun _ _ _ h _ => h⟩

/-- Any number of calls of storage services leaves the trigger, the contracts and every
constant item of a context as they were. -/
theorem StorageLater_const {ic ic1 : Context} (h : StorageLater ic ic1) :
    ic1.Trigger = ic.Trigger ∧ ic1.DAO.contracts = ic.DAO.contracts ∧
      ∀ hash key si, ic.DAO.GetStorageItem hash key = some si → si.IsConst = true →
        ic1.DAO.GetStorageItem hash key = some si := by
  induction h with
  | refl => exact ⟨rfl, rfl, fun _ _ _ h _ => h⟩
  | tail _ hstep ih =>
    obtain ⟨h1, h2, h3⟩ := StorageStep_const hstep
    exact ⟨h1.trans ih.1, h2.trans ih.2.1,
      fun hash key si hg hsi => h3 hash key si (ih.2.2 hash key si hg hsi) hsi⟩

/-- C12 as amended: when `storagePutEx` with the flags 1 has succeeded for a context `stc`,
a key and a value, then after any number of later calls of storage services (`storagePut`,
`storagePutEx`, `storageDelete`, `storageGet`, `storageFind`,
`storageContextAsReadOnly`) and of no other service, every `storagePut` and
every `storagePutEx` for the same context and key, with any value and flags, returns the
error "storage item exists and is read-only" and leaves the context as it is, and the item
stored under the key is still the value with `IsConst = true`. -/
theorem storagePutEx_const_is_final (ic ic1 ic2 : Context) (v v1 w : VM) (p q : Nat)
    (stc : StorageContext) (keyElem valueElem flagElem keyElem2 valueElem2 flagElem2 : Element)
    (rest : List Element) (key value value2 : List Nat) (flags2 : Int)
    (hs : v.estack = Element.interop p :: keyElem :: valueElem :: flagElem :: rest)
    (hp : v.objects[p]? = some (HostObject.storageContext stc))
    (hk : keyElem.Bytes = Outcome.done key) (hv : valueElem.Bytes = Outcome.done value)
    (hf : flagElem.BigInt = Outcome.done 1)
    (hput : storagePutEx ic v = Outcome.done (none, ic1, v1))
    (hlater : StorageLater ic1 ic2)
    (hq : w.objects[q]? = some (HostObject.storageContext stc))
    (hk2 : keyElem2.Bytes = Outcome.done key) (hv2 : valueElem2.Bytes = Outcome.done value2)
    (hf2 : flagElem2.BigInt = Outcome.done flags2) :
    (∀ rest2, storagePut ic2
        { w with estack := Element.interop q :: keyElem2 :: valueElem2 :: rest2 } =
      Outcome.done (some errItemReadOnly, ic2, { w with estack := rest2 })) ∧
    (∀ rest2, storagePutEx ic2
        { w with estack := Element.interop q :: keyElem2 :: valueElem2 :: flagElem2 :: rest2 } =
      Outcome.done (some errItemReadOnly, ic2, { w with estack := rest2 })) ∧
    ic2.DAO.GetStorageItem stc.ScriptHash key = some ⟨value, true⟩ := by
  rw [storagePutEx_eq ic v p stc keyElem valueElem flagElem rest key value 1 hs hp hk hv hf] at hput
  simp only [Outcome.done.injEq, Prod.mk.injEq] at hput
  obtain ⟨he, hic1, -⟩ := hput
  have hb : decide (bigIntInt64 1 = 1) = true := by decide
  rw [hb] at he hic1
  rcases putWithContextAndFlags_cases ic stc key value true with ⟨hne, -⟩ | ⟨ht, hl, hr, hc, -, heq⟩
  · exact absurd he hne
  · rw [heq] at hic1
    dsimp only at hic1
    subst hic1
    obtain ⟨hT, hC, hI⟩ := StorageLater_const hlater
    have hitem : ic2.DAO.GetStorageItem stc.ScriptHash key = some ⟨value, true⟩ :=
      hI stc.ScriptHash key ⟨value, true⟩ (DAO.GetStorageItem_Put_same _ _ _ _) rfl
    have ht2 : ic2.Trigger = Trigger.Application ∨ ic2.Trigger = Trigger.ApplicationR := by
      rw [hT]
      exact ht
    have hc2 : checkStorageContext ic2 stc = none :=
      (checkStorageContext_congr _ ic2 stc hC).trans
        ((checkStorageContext_congr ic _ stc rfl).trans hc)
    have hi2 : isConstItem (ic2.DAO.GetStorageItem stc.ScriptHash key) = true := by
      rw [hitem]
      rfl
    refine ⟨?_, ?_, hitem⟩
    · intro rest2
      rw [storagePut_eq ic2 { w with estack := _ } q stc keyElem2 valueElem2 rest2 key value2
        rfl hq hk2 hv2, putWithContextAndFlags_const ic2 stc key value2 false ht2 hl hr hc2 hi2]
    · intro rest2
      rw [storagePutEx_eq ic2 { w with estack := _ } q stc keyElem2 valueElem2 flagElem2 rest2
        key value2 flags2 rfl hq hk2 hv2 hf2,
        putWithContextAndFlags_const ic2 stc key value2 _ ht2 hl hr hc2 hi2]

/-- C12 on the demo context: the value `[4]` is stored as a constant under the key `[3]`
of the contract 7; a later put of `[6]` under the same key fails. -/
theorem storagePutEx_const_is_final_witness :
    (∀ rest2, storagePut
        { demoContext with DAO := demoContext.DAO.PutStorageItem 7 [3] ⟨[4], true⟩ }
        (demoVM (Element.interop 0 :: Element.byteArray [3] :: Element.byteArray [6] :: rest2)) =
      Outcome.done (some errItemReadOnly,
        { demoContext with DAO := demoContext.DAO.PutStorageItem 7 [3] ⟨[4], true⟩ },
        demoVM rest2)) ∧
    (∀ rest2, storagePutEx
        { demoContext with DAO := demoContext.DAO.PutStorageItem 7 [3] ⟨[4], true⟩ }
        (demoVM (Element.interop 0 :: Element.byteArray [3] :: Element.byteArray [6] ::
          Element.integer 0 :: rest2)) =
      Outcome.done (some errItemReadOnly,
        { demoContext with DAO := demoContext.DAO.PutStorageItem 7 [3] ⟨[4], true⟩ },
        demoVM rest2)) ∧
    ({ demoContext with DAO := demoContext.DAO.PutStorageItem 7 [3] ⟨[4], true⟩ } :
      Context).DAO.GetStorageItem 7 [3] = some ⟨[4], true⟩ :=
  storagePutEx_const_is_final demoContext
    { demoContext with DAO := demoContext.DAO.PutStorageItem 7 [3] ⟨[4], true⟩ }
    { demoContext with DAO := demoContext.DAO.PutStorageItem 7 [3] ⟨[4], true⟩ }
    (demoVM [Element.interop 0, Element.byteArray [3], Element.byteArray [4], Element.integer 1])
    (demoVM []) (demoVM []) 0 0 ⟨7, false⟩ (Element.byteArray [3]) (Element.byteArray [4])
    (Element.integer 1) (Element.byteArray [3]) (Element.byteArray [6]) (Element.integer 0)
    [] [3] [4] [6] 0 rfl rfl rfl rfl rfl rfl Relation.ReflTransGen.refl rfl rfl rfl rfl

/-- C12 as stated fails when the contract is destroyed and created again in between: on the
demo context, running the script `[7]` of the contract 7, `storagePutEx` with the flags 1
stores `[4]` as a constant under the key `[3]`; `contractDestroy` then deletes the contract
and all its items, `contractCreate` with the same script creates it again, and a later
`storagePut` of `[6]` under the key `[3]` returns no error and stores `[6]` with
`IsConst = false`. -/
theorem storagePutEx_const_counterexample :
    storagePutEx demoContext (demoVMRunning [Element.interop 0, Element.byteArray [3],
        Element.byteArray [4], Element.integer 1]) =
      Outcome.done (none,
        { demoContext with DAO := demoContext.DAO.PutStorageItem 7 [3] ⟨[4], true⟩ },
        demoVMRunning []) ∧
    (demoContext.DAO.PutStorageItem 7 [3] ⟨[4], true⟩).GetStorageItem 7 [3] =
      some ⟨[4], true⟩ ∧
    contractDestroy demoCore
        { demoContext with DAO := demoContext.DAO.PutStorageItem 7 [3] ⟨[4], true⟩ }
        (demoVMRunning []) =
      Outcome.done (none, { demoContext with DAO := ⟨[], []⟩ }, demoVMRunning []) ∧
    contractCreate demoCore { demoContext with DAO := ⟨[], []⟩ }
        (demoVMRunning [Element.byteArray [7], Element.byteArray [1, 0]]) =
      Outcome.done (none, { demoContext with DAO := ⟨[(7, demoContract)], []⟩ },
        { demoVMRunning [Element.interop 2] with
          objects := (demoVMRunning []).objects ++ [HostObject.contract demoContract]
          gasConsumed := 3 }) ∧
    storagePut { demoContext with DAO := ⟨[(7, demoContract)], []⟩ }
        (demoVMRunning [Element.interop 0, Element.byteArray [3], Element.byteArray [6]]) =
      Outcome.done (none,
        { demoContext with DAO := ⟨[(7, demoContract)], [((7, [3]), ⟨[6], false⟩)]⟩ },
        demoVMRunning []) := by
  refine ⟨rfl, rfl, rfl, rfl, rfl⟩

/-! ## C13: constant items are not deleted -/

/-- The service `storageDelete` on a stack that holds a storage context and a key: the
checks in the order the code makes them. -/
theorem storageDelete_stack (ic : Context) (v : VM) (p : Nat) (stc : StorageContext)
    (keyElem : Element) (rest : List Element) (key : List Nat)
    (hs : v.estack = Element.interop p :: keyElem :: rest)
    (hp : v.objects[p]? = some (HostObject.storageContext stc))
    (hk : keyElem.Bytes = Outcome.done key) :
    storageDelete ic v =
      if ic.Trigger ≠ Trigger.Application ∧ ic.Trigger ≠ Trigger.ApplicationR then
        Outcome.done (some errNotApplication, ic, v)
      else if stc.ReadOnly then
        Outcome.done (some errReadOnlyContext, ic, { v with estack := keyElem :: rest })
      else
        match checkStorageContext ic stc with
        | some err => Outcome.done (some err, ic, { v with estack := keyElem :: rest })
        | none =>
          if isConstItem (ic.DAO.GetStorageItem stc.ScriptHash key) then
            Outcome.done (some errItemConstant, ic, { v with estack := rest })
          else
            Outcome.done (none, { ic with DAO := ic.DAO.DeleteStorageItem stc.ScriptHash key },
              { v with estack := rest }) := by
  unfold storageDelete
  by_cases ht : ic.Trigger ≠ Trigger.Application ∧ ic.Trigger ≠ Trigger.ApplicationR
  · rw [if_pos ht, if_pos ht]
  · rw [if_neg ht, if_neg ht, VM.Pop_cons v _ _ hs]
    cases hr : stc.ReadOnly with
    | true => simp [Element.asStorageContext, hp, hr]
    | false =>
      cases hc : checkStorageContext ic stc with
      | some err => simp [Element.asStorageContext, hp, hr, hc]
      | none => simp [Element.asStorageContext, hp, VM.Pop, hk, hr, hc]

/-- C13: `storageDelete` on a stack that holds a storage context and a key. When the item
stored under the key has `IsConst = true`, the call returns an error and leaves the context,
and so the item with its value and flag, as it was; the error is "storage item is constant"
when the other preconditions are met. When they are met and the key holds a non-constant
item or none, the call succeeds and afterwards no item is stored under the key, the items
under every other pair of script hash and key being what they were. -/
theorem storageDelete_const (ic : Context) (v : VM) (p : Nat) (stc : StorageContext)
    (keyElem : Element) (rest : List Element) (key : List Nat)
    (hs : v.estack = Element.interop p :: keyElem :: rest)
    (hp : v.objects[p]? = some (HostObject.storageContext stc))
    (hk : keyElem.Bytes = Outcome.done key) :
    (∀ si, ic.DAO.GetStorageItem stc.ScriptHash key = some si → si.IsConst = true →
      (∃ err v1, storageDelete ic v = Outcome.done (some err, ic, v1)) ∧
      ((ic.Trigger = Trigger.Application ∨ ic.Trigger = Trigger.ApplicationR) →
        stc.ReadOnly = false → checkStorageContext ic stc = none →
        storageDelete ic v =
          Outcome.done (some errItemConstant, ic, { v with estack := rest }))) ∧
    ((ic.Trigger = Trigger.Application ∨ ic.Trigger = Trigger.ApplicationR) →
      stc.ReadOnly = false → checkStorageContext ic stc = none →
      (∀ si, ic.DAO.GetStorageItem stc.ScriptHash key = some si → si.IsConst = false) →
      ∃ ic1, storageDelete ic v = Outcome.done (none, ic1, { v with estack := rest }) ∧
        ic1.DAO.GetStorageItem stc.ScriptHash key = none ∧
        ∀ hash1 key1, (hash1, key1) ≠ (stc.ScriptHash, key) →
          ic1.DAO.GetStorageItem hash1 key1 = ic.DAO.GetStorageItem hash1 key1) := by
  have hrun := storageDelete_stack ic v p stc keyElem rest key hs hp hk
  refine ⟨?_, ?_⟩
  · intro si hg hsi
    have hi : isConstItem (ic.DAO.GetStorageItem stc.ScriptHash key) = true := by
      rw [hg]
      exact hsi
    refine ⟨?_, ?_⟩
    · rw [hrun, hi]
      by_cases ht : ic.Trigger ≠ Trigger.Application ∧ ic.Trigger ≠ Trigger.ApplicationR
      · rw [if_pos ht]
        exact ⟨_, _, rfl⟩
      · rw [if_neg ht]
        cases hr : stc.ReadOnly with
        | true => exact ⟨_, _, rfl⟩
        | false =>
          cases hc : checkStorageContext ic stc with
          | some err => exact ⟨_, _, rfl⟩
          | none => exact ⟨_, _, rfl⟩
    · intro ht hr hc
      rw [storageDelete_eq ic v p stc keyElem rest key ht hs hp hr hc hk, hi]
      rfl
  · intro ht hr hc hsi
    have hi : isConstItem (ic.DAO.GetStorageItem stc.ScriptHash key) = false := by
      cases hg : ic.DAO.GetStorageItem stc.ScriptHash key with
      | none => rfl
      | some si => exact hsi si hg
    refine ⟨{ ic with DAO := ic.DAO.DeleteStorageItem stc.ScriptHash key }, ?_,
      DAO.GetStorageItem_Delete_same _ _ _, fun hash1 key1 hne =>
        DAO.GetStorageItem_Delete_other _ _ _ _ _ hne⟩
    rw [storageDelete_eq ic v p stc keyElem rest key ht hs hp hr hc hk, hi]
    simp

/-- C13 on the demo context, whose key `[1, 1]` of the contract 7 holds a constant item. -/
theorem storageDelete_const_witness :
    ∃ err v1, storageDelete demoContext
        (demoVM [Element.interop 0, Element.byteArray [1, 1]]) =
      Outcome.done (some err, demoContext, v1) :=
  ((storageDelete_const demoContext (demoVM [Element.interop 0, Element.byteArray [1, 1]]) 0
    ⟨7, false⟩ (Element.byteArray [1, 1]) [] [1, 1] rfl rfl rfl).1 ⟨[8], true⟩ rfl rfl).1

/-! ## C14: the flags of `storagePutEx` -/

/-- The conversion `Int64()` gives back a number that fits an `int64`. -/
theorem bigIntInt64_of_range (x : Int) (h1 : -2 ^ 63 ≤ x) (h2 : x < 2 ^ 63) :
    bigIntInt64 x = x := by
  have hn : (x.natAbs : Int) = x ∨ (x.natAbs : Int) = -x := by omega
  unfold bigIntInt64 wrapInt64 toInt64
  generalize x.natAbs = n at hn
  simp only [Int.ofNat_eq_coe]
  split_ifs <;> omega

/-- C14, as the code has it: on a stack that holds a writable context of a contract with
storage, a key of at most 1024 bytes that holds no constant item, a value and the flags,
under a trigger that allows writing, `storagePutEx` succeeds and stores the value with
`IsConst = true` exactly when the flags, converted with `Int64()`, are equal to 1, which for
flags that fit an `int64` means that the flags are the number 1; `storagePut` succeeds and
stores the value with `IsConst = false`. -/
theorem storagePutEx_IsConst (ic : Context) (v : VM) (p : Nat) (stc : StorageContext)
    (keyElem valueElem flagElem : Element) (rest : List Element) (key value : List Nat)
    (flags : Int)
    (ht : ic.Trigger = Trigger.Application ∨ ic.Trigger = Trigger.ApplicationR)
    (hp : v.objects[p]? = some (HostObject.storageContext stc))
    (hr : stc.ReadOnly = false) (hc : checkStorageContext ic stc = none)
    (hk : keyElem.Bytes = Outcome.done key) (hv : valueElem.Bytes = Outcome.done value)
    (hf : flagElem.BigInt = Outcome.done flags)
    (hl : key.length ≤ 1024)
    (hi : ∀ si, ic.DAO.GetStorageItem stc.ScriptHash key = some si → si.IsConst = false) :
    ∃ ic1 ic2 : Context,
      storagePutEx ic
          { v with estack := Element.interop p :: keyElem :: valueElem :: flagElem :: rest } =
        Outcome.done (none, ic1, { v with estack := rest }) ∧
      ic1.DAO.GetStorageItem stc.ScriptHash key =
        some ⟨value, decide (bigIntInt64 flags = 1)⟩ ∧
      (-2 ^ 63 ≤ flags → flags < 2 ^ 63 →
        ic1.DAO.GetStorageItem stc.ScriptHash key = some ⟨value, decide (flags = 1)⟩) ∧
      storagePut ic { v with estack := Element.interop p :: keyElem :: valueElem :: rest } =
        Outcome.done (none, ic2, { v with estack := rest }) ∧
      ic2.DAO.GetStorageItem stc.ScriptHash key = some ⟨value, false⟩ := by
  have hi1 : isConstItem (ic.DAO.GetStorageItem stc.ScriptHash key) = false := by
    cases hg : ic.DAO.GetStorageItem stc.ScriptHash key with
    | none => rfl
    | some si => exact hi si hg
  refine ⟨{ ic with DAO := (ic.DAO.PutStorageItem stc.ScriptHash key
      ⟨value, decide (bigIntInt64 flags = 1)⟩) },
    { ic with DAO := ic.DAO.PutStorageItem stc.ScriptHash key ⟨value, false⟩ },
    ?_, DAO.GetStorageItem_Put_same _ _ _ _, ?_, ?_, DAO.GetStorageItem_Put_same _ _ _ _⟩
  · rw [storagePutEx_eq ic { v with estack := _ } p stc keyElem valueElem flagElem rest key
      value flags rfl hp hk hv hf, putWithContextAndFlags_ok ic stc key value _ ht hl hr hc hi1]
  · intro h1 h2
    rw [DAO.GetStorageItem_Put_same, bigIntInt64_of_range flags h1 h2]
  · rw [storagePut_eq ic { v with estack := _ } p stc keyElem valueElem rest key value rfl hp
      hk hv, putWithContextAndFlags_ok ic stc key value false ht hl hr hc hi1]

/-- C14 on the demo context: the flags 1 store a constant item under the key `[3]` of the
contract 7. -/
theorem storagePutEx_IsConst_witness :
    ∃ ic1 ic2 : Context,
      storagePutEx demoContext (demoVM [Element.interop 0, Element.byteArray [3],
          Element.byteArray [4], Element.integer 1]) =
        Outcome.done (none, ic1, demoVM []) ∧
      ic1.DAO.GetStorageItem 7 [3] = some ⟨[4], decide (bigIntInt64 1 = 1)⟩ ∧
      (-2 ^ 63 ≤ (1 : Int) → (1 : Int) < 2 ^ 63 →
        ic1.DAO.GetStorageItem 7 [3] = some ⟨[4], decide ((1 : Int) = 1)⟩) ∧
      storagePut demoContext (demoVM [Element.interop 0, Element.byteArray [3],
          Element.byteArray [4]]) =
        Outcome.done (none, ic2, demoVM []) ∧
      ic2.DAO.GetStorageItem 7 [3] = some ⟨[4], false⟩ :=
  storagePutEx_IsConst demoContext (demoVM []) 0 ⟨7, false⟩ (Element.byteArray [3])
    (Element.byteArray [4]) (Element.integer 1) [] [3] [4] 1 (Or.inl rfl) rfl rfl rfl rfl rfl rfl
    (by decide) (by intro si h; cases h; rfl)

/-- Against C14 as stated: with the flags 3, whose bit 0 is set, `storagePutEx` succeeds on
the demo context and stores the item with `IsConst = false`. -/
theorem storagePutEx_flags_three :
    (3 : Int) % 2 = 1 ∧
    storagePutEx demoContext (demoVM [Element.interop 0, Element.byteArray [3],
        Element.byteArray [4], Element.integer 3]) =
      Outcome.done (none,
        { demoContext with DAO := demoContext.DAO.PutStorageItem 7 [3] ⟨[4], false⟩ },
        demoVM []) ∧
    (demoContext.DAO.PutStorageItem 7 [3] ⟨[4], false⟩).GetStorageItem 7 [3] =
      some ⟨[4], false⟩ := by
  refine ⟨by decide, ?_, rfl⟩
  rw [storagePutEx_eq demoContext (demoVM [Element.interop 0, Element.byteArray [3],
      Element.byteArray [4], Element.integer 3]) 0 ⟨7, false⟩ (Element.byteArray [3])
    (Element.byteArray [4]) (Element.integer 3) [] [3] [4] 3 rfl rfl rfl rfl rfl,
    putWithContextAndFlags_ok demoContext ⟨7, false⟩ [3] [4] _ (Or.inl rfl) (by decide) rfl rfl rfl]
  rfl

/-! ## C15: the length of a key -/

/-- C15, as the code has it: under a trigger that allows writing, with a writable context
of a contract with storage, a key longer than 1024 bytes makes `storagePut` and
`storagePutEx` return the error "key is too big" and leave the context as it was, whereas
`storageDelete` makes no check of the length: it returns no error and removes whatever
non-constant item the DAO holds under the key. A key of exactly 1024 bytes that holds no
constant item is accepted by `storagePut`. -/
theorem storageDelete_no_key_length_check (ic : Context) (v : VM) (p : Nat)
    (stc : StorageContext) (keyElem valueElem flagElem : Element) (rest : List Element)
    (key value : List Nat) (flags : Int)
    (ht : ic.Trigger = Trigger.Application ∨ ic.Trigger = Trigger.ApplicationR)
    (hp : v.objects[p]? = some (HostObject.storageContext stc))
    (hr : stc.ReadOnly = false) (hc : checkStorageContext ic stc = none)
    (hk : keyElem.Bytes = Outcome.done key) (hv : valueElem.Bytes = Outcome.done value)
    (hf : flagElem.BigInt = Outcome.done flags)
    (hi : ∀ si, ic.DAO.GetStorageItem stc.ScriptHash key = some si → si.IsConst = false) :
    (1024 < key.length →
      storagePut ic { v with estack := Element.interop p :: keyElem :: valueElem :: rest } =
        Outcome.done (some errKeyTooBig, ic, { v with estack := rest }) ∧
      storagePutEx ic
          { v with estack := Element.interop p :: keyElem :: valueElem :: flagElem :: rest } =
        Outcome.done (some errKeyTooBig, ic, { v with estack := rest }) ∧
      storageDelete ic { v with estack := Element.interop p :: keyElem :: rest } =
        Outcome.done (none, { ic with DAO := ic.DAO.DeleteStorageItem stc.ScriptHash key },
          { v with estack := rest })) ∧
    (key.length = 1024 →
      storagePut ic { v with estack := Element.interop p :: keyElem :: valueElem :: rest } =
        Outcome.done (none,
          { ic with DAO := ic.DAO.PutStorageItem stc.ScriptHash key ⟨value, false⟩ },
          { v with estack := rest })) := by
  have hi1 : isConstItem (ic.DAO.GetStorageItem stc.ScriptHash key) = false := by
    cases hg : ic.DAO.GetStorageItem stc.ScriptHash key with
    | none => rfl
    | some si => exact hi si hg
  refine ⟨fun hl => ⟨?_, ?_, ?_⟩, fun hl => ?_⟩
  · rw [storagePut_eq ic { v with estack := _ } p stc keyElem valueElem rest key value rfl hp
      hk hv, putWithContextAndFlags_keyTooBig ic stc key value false ht hl]
  · rw [storagePutEx_eq ic { v with estack := _ } p stc keyElem valueElem flagElem rest key
      value flags rfl hp hk hv hf, putWithContextAndFlags_keyTooBig ic stc key value _ ht hl]
  · rw [storageDelete_eq ic { v with estack := _ } p stc keyElem rest key ht rfl hp hr hc hk,
      hi1]
    simp
  · rw [storagePut_eq ic { v with estack := _ } p stc keyElem valueElem rest key value rfl hp
      hk hv, putWithContextAndFlags_ok ic stc key value false ht (by
        show key.length ≤ 1024
        omega) hr hc hi1]

/-- C15 on the demo context: `storageDelete` with a key of 1025 bytes returns no error. -/
theorem storageDelete_no_key_length_check_witness :
    storageDelete demoContext
        (demoVM [Element.interop 0, Element.byteArray (List.replicate 1025 0)]) =
      Outcome.done (none,
        { demoContext with
          DAO := demoContext.DAO.DeleteStorageItem 7 (List.replicate 1025 0) },
        demoVM []) :=
  ((storageDelete_no_key_length_check demoContext (demoVM []) 0 ⟨7, false⟩
    (Element.byteArray (List.replicate 1025 0)) (Element.byteArray []) (Element.integer 0) []
    (List.replicate 1025 0) [] 0 (Or.inl rfl) rfl rfl rfl rfl rfl rfl
    (by
      intro si h
      have hnone : demoContext.DAO.GetStorageItem 7 (List.replicate 1025 0) = none := rfl
      rw [hnone] at h
      cases h)).1 (by rw [List.length_replicate]; decide)).2.2

/-! ## C16: the trigger -/

/-- Under a trigger that does not allow writing, `storagePutInternal` on a stack of a
context, a key and a value that convert to bytes (and flags that convert to an integer,
when they are read) returns an error and leaves the context as it was. -/
theorem storagePutInternal_trigger (ic : Context) (v : VM) (getFlag : Bool)
    (ctxElem keyElem valueElem flagElem : Element) (rest : List Element)
    (key value : List Nat) (flags : Int)
    (ht : ic.Trigger ≠ Trigger.Application ∧ ic.Trigger ≠ Trigger.ApplicationR)
    (hs : v.estack =
      ctxElem :: keyElem :: valueElem :: (if getFlag then flagElem :: rest else rest))
    (hk : keyElem.Bytes = Outcome.done key) (hv : valueElem.Bytes = Outcome.done value)
    (hf : flagElem.BigInt = Outcome.done flags) :
    ∃ err v1, storagePutInternal ic v getFlag = Outcome.done (some err, ic, v1) := by
  unfold storagePutInternal
  rw [VM.Pop_cons v _ _ hs]
  simp only [Outcome.done_bind]
  split
  · exact ⟨_, _, rfl⟩
  · rename_i stc _
    cases getFlag with
    | false =>
      simp only [VM.Pop, Outcome.done_bind, hk, hv, Bool.false_eq_true, if_false,
        putWithContextAndFlags_trigger ic stc _ _ _ ht]
      exact ⟨_, _, rfl⟩
    | true =>
      simp only [VM.Pop, Outcome.done_bind, hk, hv, hf, if_true,
        putWithContextAndFlags_trigger ic stc _ _ _ ht]
      exact ⟨_, _, rfl⟩

/-- The service `storageGet` does not look at the trigger. -/
theorem storageGet_trigger (ic : Context) (t : Trigger) (v : VM) :
    storageGet { ic with Trigger := t } v =
      (storageGet ic v >>= fun r => Outcome.done (r.1, { ic with Trigger := t }, r.2.2)) := by
  unfold storageGet
  have hcheck : ∀ stc, checkStorageContext { ic with Trigger := t } stc =
      checkStorageContext ic stc := fun _ => rfl
  cases hpop : v.Pop with
  | crashed msg => rfl
  | outOfFuel => rfl
  | done r =>
    obtain ⟨e, v1⟩ := r
    simp only [Outcome.done_bind]
    cases hctx : e.asStorageContext v1 with
    | none => rfl
    | some stc =>
      simp only [hcheck]
      cases hc : checkStorageContext ic stc with
      | some err => rfl
      | none =>
        simp only []
        cases hpop2 : v1.Pop with
        | crashed msg => rfl
        | outOfFuel => rfl
        | done r2 =>
          obtain ⟨e2, v2⟩ := r2
          simp only [Outcome.done_bind]
          cases hk : e2.Bytes with
          | crashed msg => rfl
          | outOfFuel => rfl
          | done key =>
            simp only [Outcome.done_bind]
            cases hg : ic.DAO.GetStorageItem stc.ScriptHash key <;> rfl

/-- The service `storageFind` does not look at the trigger. -/
theorem storageFind_trigger (ic : Context) (t : Trigger) (v : VM) (tail : List Nat) :
    storageFind { ic with Trigger := t } v tail =
      (storageFind ic v tail >>= fun r =>
        Outcome.done (r.1, { ic with Trigger := t }, r.2.2)) := by
  unfold storageFind
  have hcheck : ∀ stc, checkStorageContext { ic with Trigger := t } stc =
      checkStorageContext ic stc := fun _ => rfl
  cases hpop : v.Pop with
  | crashed msg => rfl
  | outOfFuel => rfl
  | done r =>
    obtain ⟨e, v1⟩ := r
    simp only [Outcome.done_bind]
    cases hctx : e.asStorageContext v1 with
    | none => rfl
    | some stc =>
      simp only [hcheck]
      cases hc : checkStorageContext ic stc with
      | some err => rfl
      | none =>
        simp only []
        cases hpop2 : v1.Pop with
        | crashed msg => rfl
        | outOfFuel => rfl
        | done r2 =>
          obtain ⟨e2, v2⟩ := r2
          simp only [Outcome.done_bind]
          cases hk : e2.Bytes with
          | crashed msg => rfl
          | outOfFuel => rfl
          | done pre =>
            simp only [Outcome.done_bind]
            cases hm : storageFindMap pre tail
                (ic.DAO.GetStorageItemsWithPrefix stc.ScriptHash pre) <;>
              rfl

/-- C16: under a trigger other than Application and ApplicationR, `storageDelete` returns
an error on every VM state, and `storagePut` and `storagePutEx` return an error whatever
the context element, the key and the value on the stack are (the flags being any integer);
all three leave the context, and so the DAO, as it was, and so does every call of
`storagePut` or `storagePutEx` that returns at all. The services `storageGet` and
`storageFind` give, for every trigger `t` put in place of the one of the context, the error
and the VM they give for the context itself. -/
theorem storage_writes_need_application (ic : Context)
    (ht : ic.Trigger ≠ Trigger.Application ∧ ic.Trigger ≠ Trigger.ApplicationR) :
    (∀ v, storageDelete ic v = Outcome.done (some errNotApplication, ic, v)) ∧
    (∀ (v : VM) (ctxElem keyElem valueElem : Element) (rest : List Element)
        (key value : List Nat),
      v.estack = ctxElem :: keyElem :: valueElem :: rest →
      keyElem.Bytes = Outcome.done key → valueElem.Bytes = Outcome.done value →
      ∃ err v1, storagePut ic v = Outcome.done (some err, ic, v1)) ∧
    (∀ (v : VM) (ctxElem keyElem valueElem flagElem : Element) (rest : List Element)
        (key value : List Nat) (flags : Int),
      v.estack = ctxElem :: keyElem :: valueElem :: flagElem :: rest →
      keyElem.Bytes = Outcome.done key → valueElem.Bytes = Outcome.done value →
      flagElem.BigInt = Outcome.done flags →
      ∃ err v1, storagePutEx ic v = Outcome.done (some err, ic, v1)) ∧
    (∀ v err ic1 v1, (storagePut ic v = Outcome.done (err, ic1, v1) ∨
        storagePutEx ic v = Outcome.done (err, ic1, v1)) → err ≠ none ∧ ic1 = ic) ∧
    (∀ t v, storageGet { ic with Trigger := t } v =
      (storageGet ic v >>= fun r => Outcome.done (r.1, { ic with Trigger := t }, r.2.2))) ∧
    (∀ t v tail, storageFind { ic with Trigger := t } v tail =
      (storageFind ic v tail >>= fun r =>
        Outcome.done (r.1, { ic with Trigger := t }, r.2.2))) := by
  refine ⟨?_, ?_, ?_, ?_, storageGet_trigger ic, storageFind_trigger ic⟩
  · intro v
    unfold storageDelete
    rw [if_pos ht]
  · intro v ctxElem keyElem valueElem rest key value hs hk hv
    exact storagePutInternal_trigger ic v false ctxElem keyElem valueElem (Element.integer 0)
      rest key value 0 ht hs hk hv rfl
  · intro v ctxElem keyElem valueElem flagElem rest key value flags hs hk hv hf
    exact storagePutInternal_trigger ic v true ctxElem keyElem valueElem flagElem
      rest key value flags ht hs hk hv hf
  · intro v err ic1 v1 hrun
    have hrun1 : ∃ gf, storagePutInternal ic v gf = Outcome.done (err, ic1, v1) := by
      rcases hrun with h | h
      · exact ⟨false, h⟩
      · exact ⟨true, h⟩
    obtain ⟨gf, hrun2⟩ := hrun1
    rcases storagePutInternal_done hrun2 with h | ⟨stc, key, value, isConst, h⟩
    · exact h
    · rw [putWithContextAndFlags_trigger ic stc key value isConst ht] at h
      simp only [Prod.mk.injEq] at h
      exact ⟨by rw [h.1]; simp, h.2⟩

/-- C16 on the demo context with the trigger Verification: `storageDelete` returns the
error. -/
theorem storage_writes_need_application_witness :
    storageDelete { demoContext with Trigger := Trigger.Verification }
        (demoVM [Element.interop 0, Element.byteArray [3]]) =
      Outcome.done (some errNotApplication,
        { demoContext with Trigger := Trigger.Verification },
        demoVM [Element.interop 0, Element.byteArray [3]]) :=
  (storage_writes_need_application { demoContext with Trigger := Trigger.Verification }
    ⟨by decide, by decide⟩).1 (demoVM [Element.interop 0, Element.byteArray [3]])

/-! ## C17: the storage context -/

/-- C17: for a storage context that is read-only, or whose script hash has no contract in
the DAO, or whose contract lacks the has-storage feature, `storagePut`, `storagePutEx` and
`storageDelete` return an error and leave the context, and so the DAO, as it was: the first
two on every stack that holds the context, a key and a value (and flags), the third on
every stack that holds the context on top. -/
theorem storage_writes_need_context (ic : Context) (v : VM) (p : Nat) (stc : StorageContext)
    (hp : v.objects[p]? = some (HostObject.storageContext stc))
    (hbad : stc.ReadOnly = true ∨ ic.DAO.GetContractState stc.ScriptHash = none ∨
      ∃ cs, ic.DAO.GetContractState stc.ScriptHash = some cs ∧ cs.HasStorage = false) :
    (∀ (keyElem valueElem : Element) (rest : List Element) (key value : List Nat),
      keyElem.Bytes = Outcome.done key → valueElem.Bytes = Outcome.done value →
      ∃ err, storagePut ic
          { v with estack := Element.interop p :: keyElem :: valueElem :: rest } =
        Outcome.done (some err, ic, { v with estack := rest })) ∧
    (∀ (keyElem valueElem flagElem : Element) (rest : List Element) (key value : List Nat)
        (flags : Int),
      keyElem.Bytes = Outcome.done key → valueElem.Bytes = Outcome.done value →
      flagElem.BigInt = Outcome.done flags →
      ∃ err, storagePutEx ic
          { v with estack := Element.interop p :: keyElem :: valueElem :: flagElem :: rest } =
        Outcome.done (some err, ic, { v with estack := rest })) ∧
    (∀ rest : List Element, ∃ err v1,
      storageDelete ic { v with estack := Element.interop p :: rest } =
        Outcome.done (some err, ic, v1)) := by
  have hno : ¬ (stc.ReadOnly = false ∧ checkStorageContext ic stc = none) := by
    rintro ⟨hr, hc⟩
    obtain ⟨cs, hcs, hst⟩ := (checkStorageContext_eq_none ic stc).1 hc
    rcases hbad with h | h | ⟨cs1, h1, h2⟩
    · rw [hr] at h
      cases h
    · rw [hcs] at h
      cases h
    · rw [hcs] at h1
      cases h1
      rw [hst] at h2
      cases h2
  have hput : ∀ key value isConst, ∃ err,
      putWithContextAndFlags ic stc key value isConst = (some err, ic) := by
    intro key value isConst
    rcases putWithContextAndFlags_cases ic stc key value isConst with
      ⟨h1, h2⟩ | ⟨-, -, hr, hc, -, -⟩
    · obtain ⟨err, herr⟩ := Option.ne_none_iff_exists.1 h1
      exact ⟨err, Prod.ext herr.symm h2⟩
    · exact absurd ⟨hr, hc⟩ hno
  refine ⟨?_, ?_, ?_⟩
  · intro keyElem valueElem rest key value hk hv
    obtain ⟨err, herr⟩ := hput key value false
    refine ⟨err, ?_⟩
    rw [storagePut_eq ic { v with estack := _ } p stc keyElem valueElem rest key value rfl hp
      hk hv, herr]
  · intro keyElem valueElem flagElem rest key value flags hk hv hf
    obtain ⟨err, herr⟩ := hput key value (decide (bigIntInt64 flags = 1))
    refine ⟨err, ?_⟩
    rw [storagePutEx_eq ic { v with estack := _ } p stc keyElem valueElem flagElem rest key
      value flags rfl hp hk hv hf, herr]
  · intro rest
    unfold storageDelete
    by_cases ht : ic.Trigger ≠ Trigger.Application ∧ ic.Trigger ≠ Trigger.ApplicationR
    · rw [if_pos ht]
      exact ⟨_, _, rfl⟩
    · rw [if_neg ht, VM.Pop_cons _ (Element.interop p) rest rfl]
      simp only [Outcome.done_bind, Element.asStorageContext, hp]
      cases hr : stc.ReadOnly with
      | true => exact ⟨_, _, rfl⟩
      | false =>
        cases hc : checkStorageContext ic stc with
        | some err => exact ⟨_, _, rfl⟩
        | none => exact absurd ⟨hr, hc⟩ hno

/-- C17 on the demo context, through the read-only context object of the demo VM. -/
theorem storage_writes_need_context_witness :
    ∃ err, storagePut demoContext
        (demoVM [Element.interop 1, Element.byteArray [3], Element.byteArray [4]]) =
      Outcome.done (some err, demoContext, demoVM []) :=
  (storage_writes_need_context demoContext (demoVM []) 1 ⟨7, true⟩ rfl (Or.inl rfl)).1
    (Element.byteArray [3]) (Element.byteArray [4]) [] [3] [4] rfl rfl

/-! ## C18: `storageContextAsReadOnly` -/

/-- The service `storageContextAsReadOnly` on a stack with a storage context on top. -/
theorem storageContextAsReadOnly_eq (ic : Context) (v : VM) (p : Nat) (stc : StorageContext)
    (rest : List Element) (hs : v.estack = Element.interop p :: rest)
    (hp : v.objects[p]? = some (HostObject.storageContext stc)) :
    storageContextAsReadOnly ic v =
      if stc.ReadOnly then
        Outcome.done (none, ic, { v with estack := Element.interop p :: rest })
      else
        Outcome.done (none, ic,
          { v with
            estack := Element.interop v.objects.length :: rest
            objects := v.objects ++ [HostObject.storageContext ⟨stc.ScriptHash, true⟩] }) := by
  unfold storageContextAsReadOnly
  rw [VM.Pop_cons v _ _ hs]
  cases hr : stc.ReadOnly <;> simp [hp, hr, VM.NewObject, VM.PushVal]

/-- C18: on a stack with a storage context `stc` on top, `storageContextAsReadOnly`
succeeds and puts in its place a context with `ReadOnly = true` and the script hash of
`stc`; every object there was, the input context among them, is left as it was; for a
read-only `stc` the context pushed is the very same object and no object is made, for a
writable `stc` it is a new object; and the service applied to its own result gives that
result again. Whatever the stack, a call that returns no error has pushed a context with
`ReadOnly = true`. -/
theorem storageContextAsReadOnly_spec (ic : Context) (v : VM) (p : Nat) (stc : StorageContext)
    (rest : List Element) (hs : v.estack = Element.interop p :: rest)
    (hp : v.objects[p]? = some (HostObject.storageContext stc)) :
    (∃ q v1, storageContextAsReadOnly ic v = Outcome.done (none, ic, v1) ∧
      v1.estack = Element.interop q :: rest ∧
      v1.objects[q]? = some (HostObject.storageContext ⟨stc.ScriptHash, true⟩) ∧
      (∀ (i : Nat) obj, v.objects[i]? = some obj → v1.objects[i]? = some obj) ∧
      (stc.ReadOnly = true → q = p ∧ v1.objects = v.objects) ∧
      (stc.ReadOnly = false → q = v.objects.length ∧ q ≠ p) ∧
      storageContextAsReadOnly ic v1 = Outcome.done (none, ic, v1)) ∧
    (∀ (w w1 : VM) (ic1 : Context),
      storageContextAsReadOnly ic w = Outcome.done (none, ic1, w1) →
      ∃ q sc, w1.estack = Element.interop q :: w.estack.tail ∧
        w1.objects[q]? = some (HostObject.storageContext sc) ∧ sc.ReadOnly = true) := by
  refine ⟨?_, ?_⟩
  · have hrun := storageContextAsReadOnly_eq ic v p stc rest hs hp
    have hlt : p < v.objects.length := by
      by_contra hcon
      rw [List.getElem?_eq_none (by omega)] at hp
      cases hp
    cases hr : stc.ReadOnly with
    | true =>
      rw [hr] at hrun
      simp only [if_true] at hrun
      have hstc : (⟨stc.ScriptHash, true⟩ : StorageContext) = stc := by
        cases stc
        simp only at hr
        rw [hr]
      refine ⟨p, _, hrun, rfl, ?_, fun i obj h => h, fun _ => ⟨rfl, rfl⟩, (fun h => by cases h), ?_⟩
      · rw [hstc]
        exact hp
      · rw [storageContextAsReadOnly_eq ic { v with estack := _ } p stc rest rfl hp, hr]
        rfl
    | false =>
      rw [hr] at hrun
      simp only [Bool.false_eq_true, if_false] at hrun
      refine ⟨v.objects.length, _, hrun, rfl, ?_, ?_, (fun h => by cases h),
        fun _ => ⟨rfl, by omega⟩, ?_⟩
      · simp
      · intro i obj h
        have hi : i < v.objects.length := by
          by_contra hcon
          rw [List.getElem?_eq_none (by omega)] at h
          cases h
        show (v.objects ++ _)[i]? = some obj
        rw [List.getElem?_append_left hi]
        exact h
      · rw [storageContextAsReadOnly_eq ic { v with estack := _, objects := _ } v.objects.length
          ⟨stc.ScriptHash, true⟩ rest rfl (by simp)]
        rfl
  · intro w w1 ic1 hrun
    unfold storageContextAsReadOnly at hrun
    obtain ⟨⟨e, w2⟩, hpop, hrun⟩ := Outcome.bind_eq_done hrun
    obtain ⟨hst, hobj⟩ := VM.Pop_eq_done hpop
    rw [hst]
    dsimp only at hrun
    split at hrun
    · rename_i q
      split at hrun
      · rename_i sc hq
        cases hr : sc.ReadOnly with
        | true =>
          rw [hr] at hrun
          simp only [Bool.not_true, Bool.false_eq_true, if_false, Outcome.done.injEq,
            Prod.mk.injEq, true_and] at hrun
          obtain ⟨-, hw⟩ := hrun
          subst hw
          exact ⟨q, sc, rfl, hq, hr⟩
        | false =>
          rw [hr] at hrun
          simp only [Bool.not_false, if_true, Outcome.done.injEq, Prod.mk.injEq, true_and,
            VM.NewObject, VM.PushVal] at hrun
          obtain ⟨-, hw⟩ := hrun
          subst hw
          exact ⟨w2.objects.length, ⟨sc.ScriptHash, true⟩, rfl, by simp, rfl⟩
      · simp at hrun
    · simp at hrun

/-- C18 on the demo VM, whose object 0 is a writable context of the contract 7: the context
pushed is the new object 2. -/
theorem storageContextAsReadOnly_spec_witness :
    ∃ q v1, storageContextAsReadOnly demoContext (demoVM [Element.interop 0]) =
        Outcome.done (none, demoContext, v1) ∧
      v1.estack = Element.interop q :: [] ∧
      v1.objects[q]? = some (HostObject.storageContext ⟨7, true⟩) ∧
      (∀ (i : Nat) obj, (demoVM [Element.interop 0]).objects[i]? = some obj →
        v1.objects[i]? = some obj) ∧
      ((⟨7, false⟩ : StorageContext).ReadOnly = true →
        q = 0 ∧ v1.objects = (demoVM [Element.interop 0]).objects) ∧
      ((⟨7, false⟩ : StorageContext).ReadOnly = false →
        q = (demoVM [Element.interop 0]).objects.length ∧ q ≠ 0) ∧
      storageContextAsReadOnly demoContext v1 = Outcome.done (none, demoContext, v1) :=
  (storageContextAsReadOnly_spec demoContext (demoVM [Element.interop 0]) 0 ⟨7, false⟩ []
    rfl rfl).1

/-! ## C19: `storageFind` -/

theorem bytesCompare_self (a : List Nat) : bytesCompare a a = 0 := by
  induction a with
  | nil => rfl
  | cons x xs ih => simp [bytesCompare, ih]

theorem bytesCompare_eq_zero {a b : List Nat} (h : bytesCompare a b = 0) : a = b := by
  induction a generalizing b with
  | nil =>
    cases b with
    | nil => rfl
    | cons y ys => simp [bytesCompare] at h
  | cons x xs ih =>
    cases b with
    | nil => simp [bytesCompare] at h
    | cons y ys =>
      simp only [bytesCompare] at h
      split_ifs at h with h1 h2
      · cases h
      · have hxy : x = y := by omega
        rw [hxy, ih h]

theorem bytesCompare_swap (a b : List Nat) : bytesCompare b a = -bytesCompare a b := by
  induction a generalizing b with
  | nil => cases b <;> simp [bytesCompare]
  | cons x xs ih =>
    cases b with
    | nil => simp [bytesCompare]
    | cons y ys =>
      simp only [bytesCompare]
      split_ifs <;> first | omega | rfl | exact ih ys

theorem bytesCompare_range (a b : List Nat) :
    bytesCompare a b = -1 ∨ bytesCompare a b = 0 ∨ bytesCompare a b = 1 := by
  induction a generalizing b with
  | nil => cases b <;> simp [bytesCompare]
  | cons x xs ih =>
    cases b with
    | nil => simp [bytesCompare]
    | cons y ys =>
      simp only [bytesCompare]
      split_ifs
      · exact Or.inl rfl
      · exact Or.inr (Or.inr rfl)
      · exact ih ys

/-- The order of `bytes.Compare` is transitive: not above, twice, is not above. -/
theorem bytesCompare_trans {a b c : List Nat} (h1 : bytesCompare a b ≠ 1)
    (h2 : bytesCompare b c ≠ 1) : bytesCompare a c ≠ 1 := by
  induction a generalizing b c with
  | nil => cases c <;> simp [bytesCompare]
  | cons x xs ih =>
    cases b with
    | nil => simp [bytesCompare] at h1
    | cons y ys =>
      cases c with
      | nil => simp [bytesCompare] at h2
      | cons z zs =>
        simp only [bytesCompare] at h1 h2 ⊢
        by_cases hxy : x < y
        · have hxz_or : x < z ∨ x = z ∨ z < x := by omega
          by_cases hyz : y < z
          · rw [if_pos (by omega : x < z)]
            decide
          · rw [if_neg hyz] at h2
            by_cases hzy : z < y
            · rw [if_pos hzy] at h2
              exact absurd rfl h2
            · rw [if_pos (by omega : x < z)]
              decide
        · rw [if_neg hxy] at h1
          by_cases hyx : y < x
          · rw [if_pos hyx] at h1
            exact absurd rfl h1
          · rw [if_neg hyx] at h1
            have hxy1 : x = y := by omega
            subst hxy1
            by_cases hxz : x < z
            · rw [if_pos hxz]
              decide
            · rw [if_neg hxz] at h2 ⊢
              by_cases hzx : z < x
              · rw [if_pos hzx] at h2
                exact absurd rfl h2
              · rw [if_neg hzx] at h2 ⊢
                exact ih h1 h2

theorem mapPut_new (key value : Item) (m : List (Item × Item))
    (h : ∀ e ∈ m, keyEquals e.1 key = false) : mapPut key value m = m ++ [(key, value)] := by
  induction m with
  | nil => rfl
  | cons e rest ih =>
    obtain ⟨k, w⟩ := e
    have hk : keyEquals k key = false := h (k, w) (List.mem_cons_self _ _)
    simp only [mapPut, hk, Bool.false_eq_true, if_false, List.cons_append]
    rw [ih fun e he => h e (List.mem_cons_of_mem _ he)]

/-- With no spare capacity `append(prefix, k...)` leaves none, and its result has the
bytes of the prefix followed by `k`. -/
theorem appendPrefix_nil (pre k : List Nat) :
    (appendPrefix pre [] k).2 = [] ∧ (appendPrefix pre [] k).1.bytes pre [] = pre ++ k := by
  unfold appendPrefix
  by_cases hk : k.length ≤ ([] : List Nat).length
  · have hnil : k = [] := List.length_eq_zero.mp (Nat.le_zero.mp hk)
    subst hnil
    simp [KeySlice.bytes]
  · rw [if_neg hk]
    exact ⟨rfl, rfl⟩

/-- Adding a key whose bytes no key of the map has appends the pair. -/
theorem sliceMapAdd_new (pre tail : List Nat) (key : KeySlice) (value : List Nat)
    (m : List (KeySlice × List Nat))
    (h : ∀ e ∈ m, e.1.bytes pre tail ≠ key.bytes pre tail) :
    sliceMapAdd pre tail key value m = m ++ [(key, value)] := by
  induction m with
  | nil => rfl
  | cons e rest ih =>
    obtain ⟨k, v⟩ := e
    have hk : (k.bytes pre tail == key.bytes pre tail) = false := by
      simpa using h (k, v) (List.mem_cons_self _ _)
    simp only [sliceMapAdd, hk, Bool.false_eq_true, if_false, List.cons_append]
    rw [ih fun e he => h e (List.mem_cons_of_mem _ he)]

/-- On the stack items of the entries, `sliceMapAdd` is `Map.Add` as `MapAdd` has it. -/
theorem sliceMapAdd_items (pre tail : List Nat) (key : KeySlice) (value : List Nat)
    (m : List (KeySlice × List Nat)) :
    MapAdd (sliceMapItems pre tail m) (Item.byteArray (key.bytes pre tail))
        (Item.byteArray value) =
      Outcome.done (sliceMapItems pre tail (sliceMapAdd pre tail key value m)) := by
  simp only [MapAdd, isValidMapKey, if_true, Outcome.done.injEq]
  induction m with
  | nil => rfl
  | cons e rest ih =>
    obtain ⟨k, v⟩ := e
    unfold sliceMapItems at ih ⊢
    simp only [List.map_cons, mapPut, keyEquals, sliceMapAdd]
    by_cases hk : (k.bytes pre tail == key.bytes pre tail) = true
    · simp only [hk, if_true, List.map_cons]
    · simp only [hk, Bool.false_eq_true, if_false, List.map_cons, ih]

/-- The loop of `storageFind` over items with distinct keys, when the prefix slice has no
spare capacity, makes one entry per item, in the order of the iteration: the key is the
prefix followed by the key of the item, the value is the value of the item. -/
theorem storageFindFill_eq (pre : List Nat) (l l0 : List (List Nat × StorageItem))
    (m : List (KeySlice × List Nat))
    (hnd : ((l0 ++ l).map Prod.fst).Nodup)
    (hm : sliceMapItems pre [] m =
      l0.map fun e => (Item.byteArray (pre ++ e.1), Item.byteArray e.2.Value)) :
    (storageFindFill pre l [] m).1 = [] ∧
    sliceMapItems pre [] (storageFindFill pre l [] m).2 =
      (l0 ++ l).map fun e => (Item.byteArray (pre ++ e.1), Item.byteArray e.2.Value) := by
  induction l generalizing l0 m with
  | nil => simpa [storageFindFill] using hm
  | cons e rest ih =>
    obtain ⟨k, si⟩ := e
    obtain ⟨ht, hb⟩ := appendPrefix_nil pre k
    rcases hap : appendPrefix pre [] k with ⟨key, tail1⟩
    rw [hap] at ht hb
    dsimp only at ht hb
    subst ht
    have hnew : ∀ x ∈ m, x.1.bytes pre [] ≠ key.bytes pre [] := by
      intro x hx heq
      have hx1 : (Item.byteArray (x.1.bytes pre []), Item.byteArray x.2) ∈
          sliceMapItems pre [] m := List.mem_map_of_mem _ hx
      rw [hm] at hx1
      obtain ⟨e0, he0, he⟩ := List.mem_map.1 hx1
      simp only [Prod.mk.injEq, Item.byteArray.injEq] at he
      have hk0 : e0.1 = k := List.append_cancel_left (he.1.trans (heq.trans hb))
      rw [List.map_append, List.nodup_append] at hnd
      exact hnd.2.2 (List.mem_map_of_mem Prod.fst he0)
        (by rw [hk0]; exact List.mem_map_of_mem Prod.fst (List.mem_cons_self _ _))
    have hm1 : sliceMapItems pre [] (m ++ [(key, si.Value)]) =
        (l0 ++ [(k, si)]).map fun e => (Item.byteArray (pre ++ e.1), Item.byteArray e.2.Value) := by
      unfold sliceMapItems at hm ⊢
      rw [List.map_append, List.map_append, hm]
      simp only [List.map_cons, List.map_nil, hb]
    have hnd1 : (((l0 ++ [(k, si)]) ++ rest).map Prod.fst).Nodup := by
      simpa using hnd
    have hstep : storageFindFill pre ((k, si) :: rest) [] m =
        storageFindFill pre rest [] (m ++ [(key, si.Value)]) := by
      simp only [storageFindFill, hap]
      rw [sliceMapAdd_new pre [] key si.Value m hnew]
    rw [hstep]
    have := ih (l0 ++ [(k, si)]) (m ++ [(key, si.Value)]) hnd1 hm1
    simpa using this

theorem storageFindLess_iff (a b : Item × Item) :
    storageFindLess a b = true ↔ bytesCompare (keyBytes a.1) (keyBytes b.1) = -1 := by
  simp [storageFindLess]

theorem storageFindLess_eq_false (a b : Item × Item) :
    storageFindLess b a = false ↔ bytesCompare (keyBytes a.1) (keyBytes b.1) ≠ 1 := by
  rw [← Bool.not_eq_true, storageFindLess_iff, bytesCompare_swap]
  omega

theorem sortSlice_perm (m : List (Item × Item)) : (sortSlice storageFindLess m).Perm m :=
  List.perm_insertionSort _ _

/-- After `sort.Slice` with the `less` of `storageFind` no entry comes before one with a
smaller key. -/
theorem sortSlice_sorted (m : List (Item × Item)) :
    List.Sorted (fun a b : Item × Item => storageFindLess b a = false)
      (sortSlice storageFindLess m) := by
  haveI : IsTotal (Item × Item) (fun a b => storageFindLess b a = false) := ⟨by
    intro a b
    simp only [storageFindLess_eq_false]
    rw [bytesCompare_swap (keyBytes a.1) (keyBytes b.1)]
    omega⟩
  haveI : IsTrans (Item × Item) (fun a b => storageFindLess b a = false) := ⟨by
    intro a b c h1 h2
    simp only [storageFindLess_eq_false] at h1 h2 ⊢
    exact bytesCompare_trans h1 h2⟩
  exact List.sorted_insertionSort _ m

/-- After `sort.Slice` entries with distinct keys are in strictly ascending order of the
keys. -/
theorem sortSlice_strict (m : List (Item × Item))
    (hnd : (m.map fun e => keyBytes e.1).Nodup) :
    List.Sorted (fun a b : Item × Item => bytesCompare (keyBytes a.1) (keyBytes b.1) = -1)
      (sortSlice storageFindLess m) := by
  have h1 := sortSlice_sorted m
  have h2 : ((sortSlice storageFindLess m).map fun e => keyBytes e.1).Nodup :=
    ((sortSlice_perm m).map _).nodup_iff.2 hnd
  have h3 : List.Pairwise (fun a b : Item × Item => keyBytes a.1 ≠ keyBytes b.1)
      (sortSlice storageFindLess m) := by
    rw [List.Nodup, List.pairwise_map] at h2
    exact h2
  refine (List.Pairwise.and h1 h3).imp ?_
  intro a b hab
  obtain ⟨hle, hne⟩ := hab
  rw [storageFindLess_eq_false] at hle
  rcases bytesCompare_range (keyBytes a.1) (keyBytes b.1) with h | h | h
  · exact h
  · exact absurd (bytesCompare_eq_zero h) hne
  · exact absurd h hle

theorem storageFind_entries_nodup (pre : List Nat) (siMap : List (List Nat × StorageItem))
    (hnd : (siMap.map Prod.fst).Nodup) :
    ((siMap.map fun e => (Item.byteArray (pre ++ e.1), Item.byteArray e.2.Value)).map
      fun e => keyBytes e.1).Nodup := by
  rw [List.map_map]
  have hfun : ((fun e : Item × Item => keyBytes e.1) ∘
      fun e : List Nat × StorageItem => (Item.byteArray (pre ++ e.1), Item.byteArray e.2.Value)) =
      (fun k => pre ++ k) ∘ Prod.fst := by
    funext e
    rfl
  rw [hfun, ← List.map_map]
  exact hnd.map fun a b h => List.append_cancel_left h

/-- The map `storageFind` builds from items with distinct keys when the prefix slice has
no spare capacity: one entry per item, sorted by key. -/
theorem storageFindMap_eq (pre : List Nat) (siMap : List (List Nat × StorageItem))
    (hnd : (siMap.map Prod.fst).Nodup) :
    storageFindMap pre [] siMap = Outcome.done (sortSlice storageFindLess
      (siMap.map fun e => (Item.byteArray (pre ++ e.1), Item.byteArray e.2.Value))) := by
  obtain ⟨h1, h2⟩ := storageFindFill_eq pre siMap [] [] (by simpa using hnd) rfl
  unfold storageFindMap
  rcases hfill : storageFindFill pre siMap [] [] with ⟨tail1, filteredMap⟩
  rw [hfill] at h1 h2
  dsimp only at h1 h2 ⊢
  rw [h1, h2, List.nil_append]

/-- The map `storageFind` builds when the prefix slice has no spare capacity does not
depend on the order in which the iteration over the Go map gives the items. -/
theorem storageFindMap_perm (pre : List Nat) (siMap siMap1 : List (List Nat × StorageItem))
    (hnd : (siMap.map Prod.fst).Nodup) (hperm : siMap1.Perm siMap) :
    storageFindMap pre [] siMap1 = storageFindMap pre [] siMap := by
  have hnd1 : (siMap1.map Prod.fst).Nodup := (hperm.map _).nodup_iff.2 hnd
  rw [storageFindMap_eq pre siMap hnd, storageFindMap_eq pre siMap1 hnd1]
  congr 1
  haveI : IsAntisymm (Item × Item)
      (fun a b => bytesCompare (keyBytes a.1) (keyBytes b.1) = -1) := ⟨by
    intro a b h1 h2
    rw [bytesCompare_swap] at h2
    omega⟩
  refine List.eq_of_perm_of_sorted ?_
    (sortSlice_strict _ (storageFind_entries_nodup pre siMap1 hnd1))
    (sortSlice_strict _ (storageFind_entries_nodup pre siMap hnd))
  exact ((sortSlice_perm _).trans (hperm.map _)).trans (sortSlice_perm _).symm

/-- In a DAO that stands for a map, the items `GetStorageItemsWithPrefix` returns have
distinct keys. -/
theorem DAO.GetStorageItemsWithPrefix_nodup (d : DAO) (hwf : d.WF) (hash : Nat)
    (pre : List Nat) : ((d.GetStorageItemsWithPrefix hash pre).map Prod.fst).Nodup := by
  unfold DAO.GetStorageItemsWithPrefix
  rw [List.map_map]
  have hst : d.storage.Nodup := List.Nodup.of_map _ hwf.2
  refine List.Nodup.map_on ?_ (hst.filter _)
  intro x hx y hy hxy
  simp only [List.mem_filter, decide_eq_true_eq] at hx hy
  simp only [Function.comp] at hxy
  obtain ⟨hxm, hxh, t1, ht1⟩ := hx
  obtain ⟨hym, hyh, t2, ht2⟩ := hy
  have hk : x.1.2 = y.1.2 := by
    rw [← ht1, ← ht2] at hxy ⊢
    simp only [List.drop_left] at hxy
    rw [hxy]
  have hkey : x.1 = y.1 := Prod.ext (hxh.trans hyh.symm) hk
  exact List.inj_on_of_nodup_map hwf.2 hxm hym hkey

/-- The service `storageFind` when the prefix slice has no spare capacity: on a stack that
holds a context `stc` of a contract with storage and a prefix, over a DAO that stands for a
map, it succeeds and pushes an iterator over a map `m` that has exactly one entry for each
item `GetStorageItemsWithPrefix` returns for the script hash and the prefix, with the
prefix followed by the key of the item (the suffix) as key and the value of the item as
value; the entries of `m` are in strictly ascending order of `bytes.Compare` on the keys;
and `m` is the same for every order in which the iteration over the items may run. -/
theorem storageFind_no_spare (ic : Context) (v : VM) (p : Nat) (stc : StorageContext)
    (cs : Contract) (prefixElem : Element) (rest : List Element) (pre : List Nat)
    (hs : v.estack = Element.interop p :: prefixElem :: rest)
    (hp : v.objects[p]? = some (HostObject.storageContext stc))
    (hcs : ic.DAO.GetContractState stc.ScriptHash = some cs) (hst : cs.HasStorage = true)
    (hk : prefixElem.Bytes = Outcome.done pre) (hwf : ic.DAO.WF) :
    ∃ m : List (Item × Item),
      storageFind ic v [] = Outcome.done (none, ic,
        { v with
          estack := Element.interop v.objects.length :: rest
          objects := v.objects ++ [HostObject.mapIterator m] }) ∧
      m.Perm ((ic.DAO.GetStorageItemsWithPrefix stc.ScriptHash pre).map
        fun e => (Item.byteArray (pre ++ e.1), Item.byteArray e.2.Value)) ∧
      List.Sorted (fun a b : Item × Item => bytesCompare (keyBytes a.1) (keyBytes b.1) = -1) m ∧
      ∀ siMap1 : List (List Nat × StorageItem),
        siMap1.Perm (ic.DAO.GetStorageItemsWithPrefix stc.ScriptHash pre) →
        storageFindMap pre [] siMap1 = Outcome.done m := by
  have hc : checkStorageContext ic stc = none :=
    (checkStorageContext_eq_none ic stc).2 ⟨cs, hcs, hst⟩
  have hnd := DAO.GetStorageItemsWithPrefix_nodup ic.DAO hwf stc.ScriptHash pre
  have hmap := storageFindMap_eq pre _ hnd
  refine ⟨_, ?_, sortSlice_perm _,
    sortSlice_strict _ (storageFind_entries_nodup pre _ hnd), ?_⟩
  · unfold storageFind
    rw [VM.Pop_cons v _ _ hs]
    simp [Element.asStorageContext, hp, hc, VM.Pop, hk, hmap, VM.NewObject, VM.PushVal]
  · intro siMap1 hperm
    rw [storageFindMap_perm pre _ siMap1 hnd hperm, hmap]

/-- The map `storageFind` builds on the demo context for the prefix `[1]` without spare
capacity: the key `[1, 1]` comes before the key `[1, 2]`, which the DAO lists first. -/
theorem storageFindMap_demo :
    storageFindMap [1] [] (demoContext.DAO.GetStorageItemsWithPrefix 7 [1]) =
      Outcome.done [(Item.byteArray [1, 1], Item.byteArray [8]),
        (Item.byteArray [1, 2], Item.byteArray [9])] := by
  rfl

/-- C19, the code on a prefix slice with spare capacity: in the demo context the contract 7
holds the items `[1, 2] -> [9]` and `[1, 1] -> [8]`, both under the prefix `[1]`. When the
array of the prefix slice has room for one more byte, both calls of `append` write the
suffix into that byte and return slices of the same array, so the second key added equals
the first and `Map.Add` replaces the value: `storageFind` returns no error and pushes an
iterator over a map with the single entry `[1, 1] -> [8]`, and with the single entry
`[1, 2] -> [9]` when the iteration runs in the other order. -/
theorem storageFind_keys_alias :
    demoContext.DAO.GetStorageItemsWithPrefix 7 [1] = [([2], ⟨[9], false⟩), ([1], ⟨[8], true⟩)] ∧
    storageFind demoContext (demoVM [Element.interop 0, Element.byteArray [1]]) [0] =
      Outcome.done (none, demoContext,
        { demoVM [Element.interop 2] with
          objects := (demoVM []).objects ++
            [HostObject.mapIterator [(Item.byteArray [1, 1], Item.byteArray [8])]] }) ∧
    storageFindMap [1] [0] [([1], ⟨[8], true⟩), ([2], ⟨[9], false⟩)] =
      Outcome.done [(Item.byteArray [1, 2], Item.byteArray [9])] := by
  refine ⟨rfl, rfl, rfl⟩

/-! ## C20: `contractCreate` -/

/-- The function `createContractStateFromVM` on a stack that holds a script and the bytes
of a manifest, under the trigger Application: the checks in the order the code makes
them. -/
theorem createContractStateFromVM_eq (C : CoreDeps) (ic : Context) (v : VM)
    (scriptElem manifestElem : Element) (rest : List Element) (script manifestBytes : List Nat)
    (ht : ic.Trigger = Trigger.Application)
    (hs : v.estack = scriptElem :: manifestElem :: rest)
    (hsb : scriptElem.Bytes = Outcome.done script)
    (hmb : manifestElem.Bytes = Outcome.done manifestBytes)
    (hl : script.length ≤ MaxContractScriptSize) :
    createContractStateFromVM C ic v =
      if manifestBytes.length > C.MaxManifestSize then
        Outcome.done (Except.error "manifest is too big", { v with estack := rest })
      else if v.gasConsumed + C.StoragePrice * (script.length + manifestBytes.length) ≤
          v.gasLimit then
        match C.DecodeManifest manifestBytes with
        | Except.error err => Outcome.done (Except.error err,
            { v with
              estack := rest
              gasConsumed :=
                v.gasConsumed + C.StoragePrice * (script.length + manifestBytes.length) })
        | Except.ok m => Outcome.done (Except.ok ⟨script, m, 0⟩,
            { v with
              estack := rest
              gasConsumed :=
                v.gasConsumed + C.StoragePrice * (script.length + manifestBytes.length) })
      else
        Outcome.done (Except.error "gas limit exceeded",
          { v with
            estack := rest
            gasConsumed :=
              v.gasConsumed + C.StoragePrice * (script.length + manifestBytes.length) }) := by
  unfold createContractStateFromVM
  rw [if_neg (by simp [ht]), VM.Pop_cons v _ _ hs]
  simp only [Outcome.done_bind, hsb]
  rw [if_neg (by omega), VM.Pop_cons _ manifestElem rest rfl]
  simp only [Outcome.done_bind, hmb]
  by_cases hm : manifestBytes.length > C.MaxManifestSize
  · rw [if_pos hm, if_pos hm]
  · rw [if_neg hm, if_neg hm]
    by_cases hg : v.gasConsumed + C.StoragePrice * (script.length + manifestBytes.length) ≤
        v.gasLimit
    · rw [if_pos hg]
      simp only [VM.AddGas, hg, decide_True, Bool.not_true, Bool.false_eq_true, if_false]
    · rw [if_neg hg]
      simp [VM.AddGas, hg]

theorem DAO.GetContractState_Put (C : CoreDeps) (d : DAO) (cs : Contract) :
    (d.PutContractState C cs).GetContractState (C.hash160 cs.Script) = some cs :=
  kvGet_kvPut_same _ _ _

/-- The service `bcGetContract` on a stack that holds the bytes of the hash of a stored
contract: an interop item of the contract is pushed. -/
theorem bcGetContract_eq (ic : Context) (w : VM) (hashElem : Element) (rest : List Element)
    (hashbytes : List Nat) (hash : Nat) (cs : Contract)
    (hs : w.estack = hashElem :: rest) (hb : hashElem.Bytes = Outcome.done hashbytes)
    (hd : Uint160DecodeBytesBE hashbytes = Except.ok hash)
    (hg : ic.DAO.GetContractState hash = some cs) :
    bcGetContract ic w = Outcome.done (none, ic,
      { w with
        estack := Element.interop w.objects.length :: rest
        objects := w.objects ++ [HostObject.contract cs] }) := by
  unfold bcGetContract
  rw [VM.Pop_cons w _ _ hs]
  simp [hb, hd, hg, VM.NewObject, VM.PushVal]

/-- C20, as the code has it: under the trigger Application, for a script of at most
`MaxContractScriptSize` bytes and manifest bytes of at most `MaxManifestSize` bytes that
decode to a manifest, with enough gas and no contract stored at the hash of the script,
`contractCreate` succeeds; afterwards `GetContractState` of that hash returns a contract
with that script and manifest, and `bcGetContract` for the bytes of that hash pushes an
interop item of it; a second `contractCreate` with the same script, on any such stack,
returns the error "contract already exists" and leaves the context, and so the DAO, as it
was. -/
theorem contractCreate_spec (C : CoreDeps) (ic : Context) (v : VM)
    (scriptElem manifestElem : Element) (rest : List Element) (script manifestBytes : List Nat)
    (m : Manifest)
    (ht : ic.Trigger = Trigger.Application)
    (hs : v.estack = scriptElem :: manifestElem :: rest)
    (hsb : scriptElem.Bytes = Outcome.done script)
    (hmb : manifestElem.Bytes = Outcome.done manifestBytes)
    (hl : script.length ≤ MaxContractScriptSize)
    (hml : manifestBytes.length ≤ C.MaxManifestSize)
    (hgas : v.gasConsumed + C.StoragePrice * (script.length + manifestBytes.length) ≤
      v.gasLimit)
    (hdec : C.DecodeManifest manifestBytes = Except.ok m)
    (hnone : ic.DAO.GetContractState (C.hash160 script) = none) :
    ∃ (ic1 : Context) (v1 : VM),
      contractCreate C ic v = Outcome.done (none, ic1, v1) ∧
      v1.estack = Element.interop v.objects.length :: rest ∧
      v1.objects = v.objects ++ [HostObject.contract ⟨script, m, 0⟩] ∧
      ic1.DAO.GetContractState (C.hash160 script) = some ⟨script, m, 0⟩ ∧
      (∀ (w : VM) (hashElem : Element) (rest2 : List Element) (hashbytes : List Nat),
        w.estack = hashElem :: rest2 → hashElem.Bytes = Outcome.done hashbytes →
        Uint160DecodeBytesBE hashbytes = Except.ok (C.hash160 script) →
        bcGetContract ic1 w = Outcome.done (none, ic1,
          { w with
            estack := Element.interop w.objects.length :: rest2
            objects := w.objects ++ [HostObject.contract ⟨script, m, 0⟩] })) ∧
      (∀ (w : VM) (scriptElem2 manifestElem2 : Element) (rest2 : List Element)
          (manifestBytes2 : List Nat) (m2 : Manifest),
        w.estack = scriptElem2 :: manifestElem2 :: rest2 →
        scriptElem2.Bytes = Outcome.done script →
        manifestElem2.Bytes = Outcome.done manifestBytes2 →
        manifestBytes2.length ≤ C.MaxManifestSize →
        w.gasConsumed + C.StoragePrice * (script.length + manifestBytes2.length) ≤ w.gasLimit →
        C.DecodeManifest manifestBytes2 = Except.ok m2 →
        ∃ w1, contractCreate C ic1 w = Outcome.done (some errContractExists, ic1, w1)) := by
  have hcreate := createContractStateFromVM_eq C ic v scriptElem manifestElem rest script
    manifestBytes ht hs hsb hmb hl
  rw [if_neg (by omega), if_pos hgas, hdec] at hcreate
  refine ⟨{ ic with DAO := ic.DAO.PutContractState C ⟨script, m, 0⟩ },
    { v with
      estack := Element.interop v.objects.length :: rest
      objects := v.objects ++ [HostObject.contract ⟨script, m, 0⟩]
      gasConsumed := v.gasConsumed + C.StoragePrice * (script.length + manifestBytes.length) },
    ?_, ?_, ?_, DAO.GetContractState_Put C ic.DAO ⟨script, m, 0⟩, ?_, ?_⟩
  · unfold contractCreate
    rw [hcreate]
    simp only [Outcome.done_bind, Contract.ScriptHash, hnone, VM.NewObject, VM.PushVal]
  · rfl
  · rfl
  · intro w hashElem rest2 hashbytes hw hb hd
    exact bcGetContract_eq _ w hashElem rest2 hashbytes _ _ hw hb hd
      (DAO.GetContractState_Put C ic.DAO ⟨script, m, 0⟩)
  · intro w scriptElem2 manifestElem2 rest2 manifestBytes2 m2 hw hsb2 hmb2 hml2 hgas2 hdec2
    have hcreate2 := createContractStateFromVM_eq C
      { ic with DAO := ic.DAO.PutContractState C ⟨script, m, 0⟩ } w scriptElem2 manifestElem2
      rest2 script manifestBytes2 ht hw hsb2 hmb2 hl
    rw [if_neg (by omega), if_pos hgas2, hdec2] at hcreate2
    refine ⟨{ w with
      estack := rest2
      gasConsumed := w.gasConsumed + C.StoragePrice * (script.length + manifestBytes2.length) },
      ?_⟩
    unfold contractCreate
    rw [hcreate2]
    simp only [Outcome.done_bind, Contract.ScriptHash]
    rw [DAO.GetContractState_Put C ic.DAO ⟨script, m, 0⟩]

/-- C20 on the demo instance: the script `[5]` with the manifest bytes `[1, 0]` is created
on the demo context, which holds no contract at the hash 5. -/
theorem contractCreate_spec_witness :
    ∃ (ic1 : Context) (v1 : VM),
      contractCreate demoCore demoContext
          (demoVM [Element.byteArray [5], Element.byteArray [1, 0]]) =
        Outcome.done (none, ic1, v1) ∧
      v1.estack = Element.interop 2 :: [] ∧
      v1.objects = (demoVM []).objects ++ [HostObject.contract ⟨[5], ⟨true, false, []⟩, 0⟩] ∧
      ic1.DAO.GetContractState (demoCore.hash160 [5]) = some ⟨[5], ⟨true, false, []⟩, 0⟩ ∧
      (∀ (w : VM) (hashElem : Element) (rest2 : List Element) (hashbytes : List Nat),
        w.estack = hashElem :: rest2 → hashElem.Bytes = Outcome.done hashbytes →
        Uint160DecodeBytesBE hashbytes = Except.ok (demoCore.hash160 [5]) →
        bcGetContract ic1 w = Outcome.done (none, ic1,
          { w with
            estack := Element.interop w.objects.length :: rest2
            objects := w.objects ++ [HostObject.contract ⟨[5], ⟨true, false, []⟩, 0⟩] })) ∧
      (∀ (w : VM) (scriptElem2 manifestElem2 : Element) (rest2 : List Element)
          (manifestBytes2 : List Nat) (m2 : Manifest),
        w.estack = scriptElem2 :: manifestElem2 :: rest2 →
        scriptElem2.Bytes = Outcome.done [5] →
        manifestElem2.Bytes = Outcome.done manifestBytes2 →
        manifestBytes2.length ≤ demoCore.MaxManifestSize →
        w.gasConsumed + demoCore.StoragePrice * (([5] : List Nat).length + manifestBytes2.length) ≤
          w.gasLimit →
        demoCore.DecodeManifest manifestBytes2 = Except.ok m2 →
        ∃ w1, contractCreate demoCore ic1 w =
          Outcome.done (some errContractExists, ic1, w1)) :=
  contractCreate_spec demoCore demoContext
    (demoVM [Element.byteArray [5], Element.byteArray [1, 0]])
    (Element.byteArray [5]) (Element.byteArray [1, 0]) [] [5] [1, 0] ⟨true, false, []⟩
    rfl rfl rfl rfl (by decide) (by decide) (by decide) rfl rfl

/-- Against C20 as stated: on the demo instance, whose manifests have at most 8 bytes, the
script `[5]` with manifest bytes that decode but are 9 in number is refused, under the
trigger Application, with enough gas and no contract stored at the hash of the script. -/
theorem contractCreate_manifest_too_big :
    demoContext.Trigger = Trigger.Application ∧
    ([5] : List Nat).length ≤ MaxContractScriptSize ∧
    demoCore.DecodeManifest [1, 0, 0, 0, 0, 0, 0, 0, 0] =
      Except.ok ⟨true, false, [0, 0, 0, 0, 0, 0, 0]⟩ ∧
    (demoVM []).gasConsumed + demoCore.StoragePrice * (1 + 9) ≤ (demoVM []).gasLimit ∧
    demoContext.DAO.GetContractState (demoCore.hash160 [5]) = none ∧
    contractCreate demoCore demoContext
        (demoVM [Element.byteArray [5], Element.byteArray [1, 0, 0, 0, 0, 0, 0, 0, 0]]) =
      Outcome.done (some "manifest is too big", demoContext, demoVM []) := by
  refine ⟨rfl, by decide, rfl, by decide, rfl, ?_⟩
  unfold contractCreate
  rw [createContractStateFromVM_eq demoCore demoContext
    (demoVM [Element.byteArray [5], Element.byteArray [1, 0, 0, 0, 0, 0, 0, 0, 0]])
    (Element.byteArray [5]) (Element.byteArray [1, 0, 0, 0, 0, 0, 0, 0, 0]) []
    [5] [1, 0, 0, 0, 0, 0, 0, 0, 0] rfl rfl rfl rfl (by decide)]
  rfl

/-! # Package `core`: the contract services -/

theorem VM.GetCurrentScriptHash_cons (C : CoreDeps) (v : VM) (cur : List Nat)
    (frames : List (List Nat)) (hi : v.istack = cur :: frames) :
    v.GetCurrentScriptHash C = Outcome.done (C.hash160 cur) := by
  unfold VM.GetCurrentScriptHash
  rw [hi]

/-- The function `createContractStateFromVM` on a stack that holds a script and the bytes
of a manifest: every check in the order the code makes them. -/
theorem createContractStateFromVM_stack (C : CoreDeps) (ic : Context) (v : VM)
    (scriptElem manifestElem : Element) (rest : List Element) (script manifestBytes : List Nat)
    (hs : v.estack = scriptElem :: manifestElem :: rest)
    (hsb : scriptElem.Bytes = Outcome.done script)
    (hmb : manifestElem.Bytes = Outcome.done manifestBytes) :
    createContractStateFromVM C ic v =
      if ic.Trigger ≠ Trigger.Application then
        Outcome.done (Except.error errCreateTrigger, v)
      else if script.length > MaxContractScriptSize then
        Outcome.done (Except.error "the script is too big",
          { v with estack := manifestElem :: rest })
      else if manifestBytes.length > C.MaxManifestSize then
        Outcome.done (Except.error "manifest is too big", { v with estack := rest })
      else if v.gasConsumed + C.StoragePrice * (script.length + manifestBytes.length) ≤
          v.gasLimit then
        match C.DecodeManifest manifestBytes with
        | Except.error err => Outcome.done (Except.error err,
            { v with
              estack := rest
              gasConsumed :=
                v.gasConsumed + C.StoragePrice * (script.length + manifestBytes.length) })
        | Except.ok m => Outcome.done (Except.ok ⟨script, m, 0⟩,
            { v with
              estack := rest
              gasConsumed :=
                v.gasConsumed + C.StoragePrice * (script.length + manifestBytes.length) })
      else
        Outcome.done (Except.error "gas limit exceeded",
          { v with
            estack := rest
            gasConsumed :=
              v.gasConsumed + C.StoragePrice * (script.length + manifestBytes.length) }) := by
  by_cases ht : ic.Trigger ≠ Trigger.Application
  · rw [if_pos ht]
    unfold createContractStateFromVM
    rw [if_pos ht]
    rfl
  · rw [if_neg ht]
    by_cases hl : script.length > MaxContractScriptSize
    · rw [if_pos hl]
      unfold createContractStateFromVM
      rw [if_neg ht, VM.Pop_cons v _ _ hs]
      simp only [Outcome.done_bind, hsb]
      rw [if_pos hl]
    · rw [if_neg hl]
      exact createContractStateFromVM_eq C ic v scriptElem manifestElem rest script
        manifestBytes (not_not.1 ht) hs hsb hmb (by omega)

/-- The service `contractCreate` stores nothing when `createContractStateFromVM` returns an
error. -/
theorem contractCreate_of_error (C : CoreDeps) (ic : Context) (v v1 : VM) (err : String)
    (h : createContractStateFromVM C ic v = Outcome.done (Except.error err, v1)) :
    contractCreate C ic v = Outcome.done (some err, ic, v1) := by
  unfold contractCreate
  rw [h]
  rfl

/-! ## C21: the caps and the gas of `contractCreate` -/

/-- C21: on a stack that holds a script and manifest bytes, `contractCreate` returns an
error and leaves the context, and so the DAO, as it was whenever the script is longer than
`MaxContractScriptSize` = 1048576 bytes or the manifest bytes are longer than
`MaxManifestSize`. Under the trigger Application with both sizes within the caps the gas
consumed grows by `StoragePrice * (len(script) + len(manifestBytes))`, and when that
exceeds the gas limit the call returns "gas limit exceeded" and leaves the context as it
was. A script of exactly 1048576 bytes is created when the manifest fits and decodes, the
gas suffices and no contract is stored at its hash. -/
theorem contractCreate_caps_and_gas (C : CoreDeps) (ic : Context) (v : VM)
    (scriptElem manifestElem : Element) (rest : List Element) (script manifestBytes : List Nat)
    (hs : v.estack = scriptElem :: manifestElem :: rest)
    (hsb : scriptElem.Bytes = Outcome.done script)
    (hmb : manifestElem.Bytes = Outcome.done manifestBytes) :
    MaxContractScriptSize = 1048576 ∧
    ((script.length > MaxContractScriptSize ∨ manifestBytes.length > C.MaxManifestSize) →
      ∃ err v1, contractCreate C ic v = Outcome.done (some err, ic, v1)) ∧
    (ic.Trigger = Trigger.Application → script.length ≤ MaxContractScriptSize →
      manifestBytes.length ≤ C.MaxManifestSize →
      ∃ err ic1 v1, contractCreate C ic v = Outcome.done (err, ic1, v1) ∧
        v1.gasConsumed =
          v.gasConsumed + C.StoragePrice * (script.length + manifestBytes.length) ∧
        (v.gasLimit < v.gasConsumed + C.StoragePrice * (script.length + manifestBytes.length) →
          err = some "gas limit exceeded" ∧ ic1 = ic)) ∧
    (ic.Trigger = Trigger.Application → script.length = 1048576 →
      manifestBytes.length ≤ C.MaxManifestSize →
      v.gasConsumed + C.StoragePrice * (script.length + manifestBytes.length) ≤ v.gasLimit →
      ∀ m, C.DecodeManifest manifestBytes = Except.ok m →
      ic.DAO.GetContractState (C.hash160 script) = none →
      ∃ ic1 v1, contractCreate C ic v = Outcome.done (none, ic1, v1) ∧
        ic1.DAO.GetContractState (C.hash160 script) = some ⟨script, m, 0⟩) := by
  have hrun := createContractStateFromVM_stack C ic v scriptElem manifestElem rest script
    manifestBytes hs hsb hmb
  refine ⟨rfl, ?_, ?_, ?_⟩
  · intro hbig
    by_cases ht : ic.Trigger ≠ Trigger.Application
    · rw [if_pos ht] at hrun
      exact ⟨_, _, contractCreate_of_error C ic v _ _ hrun⟩
    · rw [if_neg ht] at hrun
      by_cases hl : script.length > MaxContractScriptSize
      · rw [if_pos hl] at hrun
        exact ⟨_, _, contractCreate_of_error C ic v _ _ hrun⟩
      · have hm : manifestBytes.length > C.MaxManifestSize := by
          rcases hbig with h | h
          · exact absurd h hl
          · exact h
        rw [if_neg hl, if_pos hm] at hrun
        exact ⟨_, _, contractCreate_of_error C ic v _ _ hrun⟩
  · intro ht hl hm
    rw [if_neg (not_not.2 ht), if_neg (by omega), if_neg (by omega)] at hrun
    by_cases hg : v.gasConsumed + C.StoragePrice * (script.length + manifestBytes.length) ≤
        v.gasLimit
    · rw [if_pos hg] at hrun
      cases hd : C.DecodeManifest manifestBytes with
      | error e =>
        rw [hd] at hrun
        exact ⟨_, _, _, contractCreate_of_error C ic v _ _ hrun, rfl, fun h => by omega⟩
      | ok m =>
        rw [hd] at hrun
        unfold contractCreate
        rw [hrun]
        simp only [Outcome.done_bind]
        cases hget : ic.DAO.GetContractState (Contract.ScriptHash C ⟨script, m, 0⟩) with
        | some c => exact ⟨_, _, _, rfl, rfl, fun h => by omega⟩
        | none => exact ⟨_, _, _, rfl, rfl, fun h => by omega⟩
    · rw [if_neg hg] at hrun
      exact ⟨_, _, _, contractCreate_of_error C ic v _ _ hrun, rfl, fun _ => ⟨rfl, rfl⟩⟩
  · intro ht hl hm hg m hd hnone
    have hmax : MaxContractScriptSize = 1048576 := rfl
    rw [if_neg (not_not.2 ht), if_neg (by omega), if_neg (by omega), if_pos hg, hd] at hrun
    unfold contractCreate
    rw [hrun]
    simp only [Outcome.done_bind, Contract.ScriptHash, hnone]
    exact ⟨_, _, rfl, DAO.GetContractState_Put C ic.DAO ⟨script, m, 0⟩⟩

/-- C21 on the demo instance, whose manifests have at most 8 bytes: manifest bytes of 9
bytes are refused. -/
theorem contractCreate_caps_and_gas_witness :
    ∃ err v1, contractCreate demoCore demoContext
        (demoVM [Element.byteArray [5], Element.byteArray [1, 0, 0, 0, 0, 0, 0, 0, 0]]) =
      Outcome.done (some err, demoContext, v1) :=
  (contractCreate_caps_and_gas demoCore demoContext
    (demoVM [Element.byteArray [5], Element.byteArray [1, 0, 0, 0, 0, 0, 0, 0, 0]])
    (Element.byteArray [5]) (Element.byteArray [1, 0, 0, 0, 0, 0, 0, 0, 0]) [] [5]
    [1, 0, 0, 0, 0, 0, 0, 0, 0] rfl rfl rfl).2.1 (Or.inr (by decide))

/-! ## C25: the trigger of the contract services -/

/-- C25: under a trigger other than Application, `contractCreate` and `contractDestroy`
return an error on every VM state, and `contractMigrate` returns an error on every VM
state that has a current script; all three leave the context, and so the contract states
and the storage items, as they were. -/
theorem contract_services_need_application (C : CoreDeps) (ic : Context)
    (ht : ic.Trigger ≠ Trigger.Application) :
    (∀ v, contractCreate C ic v = Outcome.done (some errCreateTrigger, ic, v)) ∧
    (∀ v, contractDestroy C ic v = Outcome.done (some errDestroyTrigger, ic, v)) ∧
    (∀ (v : VM) (nilScript : Bool), v.istack ≠ [] →
      contractMigrate C nilScript ic v = Outcome.done (some errContractMissing, ic, v) ∨
      contractMigrate C nilScript ic v = Outcome.done (some errCreateTrigger, ic, v)) := by
  have hcreate : ∀ v, createContractStateFromVM C ic v =
      Outcome.done (Except.error errCreateTrigger, v) := by
    intro v
    unfold createContractStateFromVM
    rw [if_pos ht]
    rfl
  refine ⟨?_, ?_, ?_⟩
  · intro v
    exact contractCreate_of_error C ic v v _ (hcreate v)
  · intro v
    unfold contractDestroy
    rw [if_pos ht]
  · intro v nilScript hne
    cases hi : v.istack with
    | nil => exact absurd hi hne
    | cons cur frames =>
      unfold contractMigrate
      rw [VM.GetCurrentScriptHash_cons C v cur frames hi]
      simp only [Outcome.done_bind]
      cases hg : ic.DAO.GetContractState (C.hash160 cur) with
      | none => exact Or.inl rfl
      | some contract =>
        right
        simp only [hcreate v, Outcome.done_bind]

/-- C25 on the demo context with the trigger ApplicationR: `contractDestroy` returns the
error. -/
theorem contract_services_need_application_witness :
    contractDestroy demoCore { demoContext with Trigger := Trigger.ApplicationR }
        (demoVMRunning []) =
      Outcome.done (some errDestroyTrigger,
        { demoContext with Trigger := Trigger.ApplicationR }, demoVMRunning []) :=
  (contract_services_need_application demoCore
    { demoContext with Trigger := Trigger.ApplicationR } (by decide)).2.1 (demoVMRunning [])

/-! ## C26: `contractGetStorageContext` -/

/-- C26: on a stack with a handle of a contract `cs` on top, `contractGetStorageContext`
returns no error exactly when a contract is stored at the script hash of `cs` in the upper
DAO and none is stored at it in the lower DAO; it then puts in place of the handle a new
storage context with that script hash and `ReadOnly = false`; otherwise it returns an error
and pushes nothing. The context is left as it was in both cases. -/
theorem contractGetStorageContext_spec (C : CoreDeps) (ic : Context) (v : VM) (p : Nat)
    (cs : Contract) (rest : List Element) (hs : v.estack = Element.interop p :: rest)
    (hp : v.objects[p]? = some (HostObject.contract cs)) :
    (((∃ c, ic.DAO.GetContractState (cs.ScriptHash C) = some c) ∧
        ic.LowerDAO.GetContractState (cs.ScriptHash C) = none) →
      contractGetStorageContext C ic v = Outcome.done (none, ic,
        { v with
          estack := Element.interop v.objects.length :: rest
          objects := v.objects ++ [HostObject.storageContext ⟨cs.ScriptHash C, false⟩] })) ∧
    (¬ ((∃ c, ic.DAO.GetContractState (cs.ScriptHash C) = some c) ∧
        ic.LowerDAO.GetContractState (cs.ScriptHash C) = none) →
      ∃ err, contractGetStorageContext C ic v =
        Outcome.done (some err, ic, { v with estack := rest })) := by
  have hrun : contractGetStorageContext C ic v =
      match ic.DAO.GetContractState (cs.ScriptHash C) with
      | none => Outcome.done (some "non-existent contract", ic, { v with estack := rest })
      | some _ =>
        match ic.LowerDAO.GetContractState (cs.ScriptHash C) with
        | some _ => Outcome.done (some "contract was not created in this transaction", ic,
            { v with estack := rest })
        | none => Outcome.done (none, ic,
            { v with
              estack := Element.interop v.objects.length :: rest
              objects := v.objects ++ [HostObject.storageContext ⟨cs.ScriptHash C, false⟩] }) := by
    unfold contractGetStorageContext
    rw [VM.Pop_cons v _ _ hs]
    simp only [Outcome.done_bind, Element.asContract, hp]
    rfl
  refine ⟨?_, ?_⟩
  · rintro ⟨⟨c, hc⟩, hl⟩
    rw [hrun, hc, hl]
  · intro hno
    rw [hrun]
    cases hc : ic.DAO.GetContractState (cs.ScriptHash C) with
    | none => exact ⟨_, rfl⟩
    | some c =>
      cases hl : ic.LowerDAO.GetContractState (cs.ScriptHash C) with
      | none => exact absurd ⟨⟨c, hc⟩, hl⟩ hno
      | some c1 => exact ⟨_, rfl⟩

/-- C26 on the demo context, whose lower DAO is empty and whose upper DAO holds the demo
contract: a writable context of the contract 7 is pushed as the new object 3. -/
theorem contractGetStorageContext_spec_witness :
    contractGetStorageContext demoCore demoContext
        { demoVM [Element.interop 2] with
          objects := (demoVM []).objects ++ [HostObject.contract demoContract] } =
      Outcome.done (none, demoContext,
        { demoVM [Element.interop 3] with
          objects := (demoVM []).objects ++ [HostObject.contract demoContract,
            HostObject.storageContext ⟨7, false⟩] }) :=
  (contractGetStorageContext_spec demoCore demoContext
    { demoVM [Element.interop 2] with
      objects := (demoVM []).objects ++ [HostObject.contract demoContract] }
    2 demoContract [] rfl rfl).1 ⟨⟨demoContract, rfl⟩, rfl⟩

/-! ## C27: `contractCall` -/

theorem Uint160DecodeBytesBE_ok_iff (h : List Nat) :
    (∃ u, Uint160DecodeBytesBE h = Except.ok u) ↔ h.length = 20 := by
  unfold Uint160DecodeBytesBE
  by_cases hl : h.length = 20
  · simp [hl]
  · simp [hl]

/-- The function `contractCallExInternal` with a current script: the checks in the order
the code makes them. -/
theorem contractCallExInternal_eq (C : CoreDeps) (K : CallDeps) (ic : Context) (v : VM)
    (h : List Nat) (method args : Element) (flags : Int) (cur : List Nat)
    (frames : List (List Nat)) (hi : v.istack = cur :: frames) :
    contractCallExInternal C K ic v h method args flags =
      match Uint160DecodeBytesBE h with
      | Except.error _ => Outcome.done (some "invalid contract hash", ic, v)
      | Except.ok u =>
        match ic.DAO.GetContractState u with
        | none => Outcome.done (some "contract not found", ic, v)
        | some cs =>
          match method.TryBytes with
          | Except.error err => Outcome.done (some err, ic, v)
          | Except.ok bs =>
            if (match ic.DAO.GetContractState (C.hash160 cur) with
                | some curr => K.CanCall curr.Manifest cs.Manifest bs
                | none => true) = true then
              Outcome.done (none, ic,
                { v with
                  estack := method :: args :: v.estack
                  istack := cs.Script :: cur :: frames })
            else Outcome.done (some "disallowed method call", ic, v) := by
  unfold contractCallExInternal
  cases hd : Uint160DecodeBytesBE h with
  | error e => rfl
  | ok u =>
    simp only []
    cases hg : ic.DAO.GetContractState u with
    | none => rfl
    | some cs =>
      simp only []
      cases hm : method.TryBytes with
      | error e => rfl
      | ok bs =>
        simp only [VM.GetCurrentScriptHash_cons C v cur frames hi, Outcome.done_bind]
        cases hc : (match ic.DAO.GetContractState (C.hash160 cur) with
            | some curr => K.CanCall curr.Manifest cs.Manifest bs
            | none => true) with
        | true => simp [VM.LoadScript, VM.PushVal, hi]
        | false => simp

/-- C27: on a stack that holds the hash bytes, the method and the arguments, in a VM with
a current script, `contractCall` returns no error exactly when the hash bytes decode to a
script hash (they are 20 in number), a contract `cs` is stored at it, the method converts
to bytes, and no contract is stored at the current script hash or the manifest of that
contract can call the method of the manifest of `cs`. It then has loaded the script of `cs`
as the new top invocation frame and pushed the arguments and, on top, the method; in every
other case it returns an error, the three elements popped, nothing pushed and no script
loaded. The context is left as it was. -/
theorem contractCall_spec (C : CoreDeps) (K : CallDeps) (ic : Context) (v : VM)
    (hElem method args : Element) (rest : List Element) (h cur : List Nat)
    (frames : List (List Nat))
    (hs : v.estack = hElem :: method :: args :: rest) (hb : hElem.Bytes = Outcome.done h)
    (hi : v.istack = cur :: frames) :
    (∀ u cs bs, Uint160DecodeBytesBE h = Except.ok u →
      ic.DAO.GetContractState u = some cs → method.TryBytes = Except.ok bs →
      (∀ curr, ic.DAO.GetContractState (C.hash160 cur) = some curr →
        K.CanCall curr.Manifest cs.Manifest bs = true) →
      contractCall C K ic v = Outcome.done (none, ic,
        { v with
          estack := method :: args :: rest
          istack := cs.Script :: cur :: frames })) ∧
    ((¬ ∃ u cs bs, Uint160DecodeBytesBE h = Except.ok u ∧
        ic.DAO.GetContractState u = some cs ∧ method.TryBytes = Except.ok bs ∧
        ∀ curr, ic.DAO.GetContractState (C.hash160 cur) = some curr →
          K.CanCall curr.Manifest cs.Manifest bs = true) →
      ∃ err, contractCall C K ic v = Outcome.done (some err, ic, { v with estack := rest })) ∧
    ((∃ u, Uint160DecodeBytesBE h = Except.ok u) ↔ h.length = 20) := by
  have hrun : contractCall C K ic v =
      contractCallExInternal C K ic { v with estack := rest } h method args K.All := by
    unfold contractCall
    rw [VM.Pop_cons v _ _ hs]
    simp [VM.Pop, hb]
  rw [hrun, contractCallExInternal_eq C K ic { v with estack := rest } h method args K.All
    cur frames hi]
  refine ⟨?_, ?_, Uint160DecodeBytesBE_ok_iff h⟩
  · intro u cs bs hd hg hm hcan
    rw [hd]
    simp only [hg, hm]
    have hallowed : (match ic.DAO.GetContractState (C.hash160 cur) with
        | some curr => K.CanCall curr.Manifest cs.Manifest bs
        | none => true) = true := by
      cases hc : ic.DAO.GetContractState (C.hash160 cur) with
      | none => rfl
      | some curr => exact hcan curr hc
    rw [if_pos hallowed]
  · intro hno
    cases hd : Uint160DecodeBytesBE h with
    | error e => exact ⟨_, rfl⟩
    | ok u =>
      simp only []
      cases hg : ic.DAO.GetContractState u with
      | none => exact ⟨_, rfl⟩
      | some cs =>
        simp only []
        cases hm : method.TryBytes with
        | error e => exact ⟨_, rfl⟩
        | ok bs =>
          simp only []
          have hnot : ¬ ((match ic.DAO.GetContractState (C.hash160 cur) with
              | some curr => K.CanCall curr.Manifest cs.Manifest bs
              | none => true) = true) := by
            intro hallowed
            refine hno ⟨u, cs, bs, hd, hg, hm, ?_⟩
            intro curr hc
            rw [hc] at hallowed
            exact hallowed
          rw [if_neg hnot]
          exact ⟨_, rfl⟩

/-- C27 on the demo instance: the demo contract, whose manifest may call the method with
the empty name only, calls that method of itself. -/
theorem contractCall_spec_witness :
    contractCall demoCore demoCall demoContext
        (demoVMRunning [Element.byteArray (leBytes 20 7), Element.byteArray [],
          Element.compound]) =
      Outcome.done (none, demoContext,
        { demoVMRunning [Element.byteArray [], Element.compound] with
          istack := [[7], [7]] }) :=
  (contractCall_spec demoCore demoCall demoContext
    (demoVMRunning [Element.byteArray (leBytes 20 7), Element.byteArray [], Element.compound])
    (Element.byteArray (leBytes 20 7)) (Element.byteArray []) Element.compound [] (leBytes 20 7)
    [7] [] rfl rfl rfl).1 7 demoContract [] rfl rfl rfl
    (by intro curr hc; cases hc; rfl)

/-! # Package `core`: the blockchain accessors -/

theorem leValue_lt_pow (b : List Nat) : leValue b < 256 ^ b.length := by
  induction b with
  | nil => simp [leValue]
  | cons x xs ih =>
    simp only [leValue, List.length_cons, pow_succ]
    have hx : x % 256 < 256 := Nat.mod_lt _ (by decide)
    omega

theorem bigintFromBytes_range (b : List Nat) :
    -(256 ^ b.length : Int) ≤ bigintFromBytes b ∧ bigintFromBytes b < 256 ^ b.length := by
  have h := leValue_lt_pow b
  have h1 : (leValue b : Int) < 256 ^ b.length := by exact_mod_cast h
  have h0 : (0 : Int) ≤ leValue b := Int.ofNat_nonneg _
  have hp : (0 : Int) < 256 ^ b.length := by positivity
  unfold bigintFromBytes
  cases b.getLast? with
  | none => simp only []; omega
  | some top =>
    simp only [Int.ofNat_eq_coe]
    split_ifs <;> omega

theorem bigintToBytesAux_range (fuel : Nat) : ∀ (n : Int) (k : Nat), n.natAbs < fuel →
    (bigintToBytesAux fuel n).length ≤ k → -(256 ^ k : Int) ≤ n ∧ n < 256 ^ k := by
  induction fuel with
  | zero => intro n k h; omega
  | succ fuel ih =>
    intro n k hf hlen
    unfold bigintToBytesAux at hlen
    by_cases hsmall : -128 ≤ n ∧ n < 128
    · rw [if_pos hsmall] at hlen
      simp only [List.length_singleton] at hlen
      obtain ⟨k1, rfl⟩ : ∃ k1, k = k1 + 1 := ⟨k - 1, by omega⟩
      have hp : (1 : Int) ≤ 256 ^ k1 := by
        have : (0 : Int) < 256 ^ k1 := by positivity
        omega
      rw [pow_succ]
      omega
    · rw [if_neg hsmall] at hlen
      simp only [List.length_cons] at hlen
      obtain ⟨k1, rfl⟩ : ∃ k1, k = k1 + 1 := ⟨k - 1, by omega⟩
      have hrec := ih (n / 256) k1 (by omega) (by omega)
      rw [pow_succ]
      generalize (256 : Int) ^ k1 = P at hrec ⊢
      omega

theorem bigintToBytes_range (n : Int) (k : Nat) (hlen : (bigintToBytes n).length ≤ k) :
    -(256 ^ k : Int) ≤ n ∧ n < 256 ^ k := by
  unfold bigintToBytes at hlen
  by_cases h0 : n = 0
  · subst h0
    have hp : (0 : Int) < 256 ^ k := by positivity
    omega
  · rw [if_neg h0] at hlen
    exact bigintToBytesAux_range _ n k (by omega) hlen

/-- An element that converts to at most 5 bytes converts to an integer that fits an
`int64`. -/
theorem Element.BigInt_fits (e : Element) (b : List Nat) (n : Int)
    (hb : e.Bytes = Outcome.done b) (hn : e.BigInt = Outcome.done n) (hlen : b.length ≤ 5) :
    -2 ^ 63 ≤ n ∧ n < 2 ^ 63 := by
  have hpow : ∀ k : Nat, k ≤ 5 → ((256 : Int) ^ k ≤ 256 ^ 5) := by
    intro k hk
    exact pow_le_pow_right₀ (by norm_num) hk
  have h5 : ((256 : Int) ^ 5) = 1099511627776 := by norm_num
  cases e with
  | byteArray v =>
    simp only [Element.Bytes, Element.BigInt, Outcome.done.injEq] at hb hn
    subst hb
    subst hn
    have hr := bigintFromBytes_range v
    have hk := hpow v.length hlen
    omega
  | integer m =>
    simp only [Element.Bytes, Element.BigInt, Outcome.done.injEq] at hb hn
    subst hb
    subst hn
    have hr := bigintToBytes_range m 5 hlen
    omega
  | boolean x =>
    simp only [Element.BigInt, Outcome.done.injEq] at hn
    subst hn
    cases x <;> simp
  | interop p => simp [Element.Bytes] at hb
  | compound => simp [Element.Bytes] at hb

/-! ## C28: `getBlockHashFromElement` -/

/-- The function `getBlockHashFromElement` on an element that converts to bytes and to
an integer. -/
theorem getBlockHashFromElement_eq (bc : Blockchainer) (element : Element)
    (hashbytes : List Nat) (n : Int) (hb : element.Bytes = Outcome.done hashbytes)
    (hn : element.BigInt = Outcome.done n) :
    getBlockHashFromElement bc element = Outcome.done
      (if hashbytes.length ≤ 5 then
        if 0 ≤ n ∧ n ≤ MaxUint32 then Except.ok (bc.GetHeaderHash n)
        else Except.error errBadBlockIndex
      else Uint256DecodeBytesBE hashbytes) := by
  unfold getBlockHashFromElement
  simp only [hb, Outcome.done_bind]
  by_cases hlen : hashbytes.length ≤ 5
  · obtain ⟨h1, h2⟩ := Element.BigInt_fits element hashbytes n hb hn hlen
    rw [if_pos hlen, if_pos hlen]
    simp only [hn, Outcome.done_bind, bigIntInt64_of_range n h1 h2]
    by_cases hr : 0 ≤ n ∧ n ≤ MaxUint32
    · rw [if_pos hr, if_neg (by omega)]
    · rw [if_neg hr, if_pos (by omega)]
  · rw [if_neg hlen, if_neg hlen]

/-- C28, as the code has it: for an element that converts to the bytes `hashbytes` and to
the integer `n`, `getBlockHashFromElement` returns `GetHeaderHash(n)` when the bytes are at
most 5 in number and `n` is within 0 and `MaxUint32`, the error "bad block index" when they
are at most 5 and `n` is outside that range, and what `Uint256DecodeBytesBE` returns when
they are more than 5; so it accepts the element exactly when it is a number from 0 to
`MaxUint32` in at most 5 bytes or a string of 32 bytes, which is returned as the hash it
spells. -/
theorem getBlockHashFromElement_spec (bc : Blockchainer) (element : Element)
    (hashbytes : List Nat) (n : Int) (hb : element.Bytes = Outcome.done hashbytes)
    (hn : element.BigInt = Outcome.done n) :
    getBlockHashFromElement bc element = Outcome.done
      (if hashbytes.length ≤ 5 then
        if 0 ≤ n ∧ n ≤ MaxUint32 then Except.ok (bc.GetHeaderHash n)
        else Except.error errBadBlockIndex
      else Uint256DecodeBytesBE hashbytes) ∧
    ((∃ hash, getBlockHashFromElement bc element = Outcome.done (Except.ok hash)) ↔
      (hashbytes.length ≤ 5 ∧ 0 ≤ n ∧ n ≤ MaxUint32) ∨ hashbytes.length = 32) ∧
    (hashbytes.length = 32 →
      getBlockHashFromElement bc element = Outcome.done (Except.ok (leValue hashbytes))) := by
  have hrun := getBlockHashFromElement_eq bc element hashbytes n hb hn
  refine ⟨hrun, ?_, ?_⟩
  · rw [hrun]
    by_cases hlen : hashbytes.length ≤ 5
    · rw [if_pos hlen]
      by_cases hr : 0 ≤ n ∧ n ≤ MaxUint32
      · rw [if_pos hr]
        exact ⟨fun _ => Or.inl ⟨hlen, hr⟩, fun _ => ⟨_, rfl⟩⟩
      · rw [if_neg hr]
        constructor
        · rintro ⟨hash, h⟩
          simp at h
        · rintro (⟨-, h⟩ | h)
          · exact absurd h hr
          · omega
    · rw [if_neg hlen]
      unfold Uint256DecodeBytesBE
      by_cases h32 : hashbytes.length = 32
      · rw [if_neg (not_not.2 h32)]
        exact ⟨fun _ => Or.inr h32, fun _ => ⟨_, rfl⟩⟩
      · rw [if_pos h32]
        constructor
        · rintro ⟨hash, h⟩
          simp at h
        · rintro (⟨h, -⟩ | h)
          · exact absurd h hlen
          · exact absurd h h32
  · intro h32
    rw [hrun, if_neg (by omega)]
    unfold Uint256DecodeBytesBE
    rw [if_neg (not_not.2 h32)]

/-- C28 on the demo chain: the height 1 in one byte. -/
theorem getBlockHashFromElement_spec_witness :
    getBlockHashFromElement demoChain (Element.byteArray [1]) =
      Outcome.done (Except.ok (demoChain.GetHeaderHash 1)) :=
  (getBlockHashFromElement_spec demoChain (Element.byteArray [1]) [1] 1 rfl rfl).1

/-- Against C28 as stated: the height 4294967295 takes 5 bytes as a signed integer; the
element of these 5 bytes, which are neither at most 4 nor 32 in number, is accepted and
resolved with `GetHeaderHash`. -/
theorem getBlockHashFromElement_five_bytes :
    bigintToBytes 4294967295 = [255, 255, 255, 255, 0] ∧
    ([255, 255, 255, 255, 0] : List Nat).length = 5 ∧
    getBlockHashFromElement demoChain (Element.byteArray [255, 255, 255, 255, 0]) =
      Outcome.done (Except.ok (demoChain.GetHeaderHash 4294967295)) := by
  refine ⟨by decide, rfl, ?_⟩
  exact getBlockHashFromElement_eq demoChain (Element.byteArray [255, 255, 255, 255, 0])
    [255, 255, 255, 255, 0] 4294967295 rfl (by decide)

/-! ## C29: not found is no error -/

/-- C29: for an argument that `getBlockHashFromElement` resolves to a hash, `bcGetBlock`
and `bcGetHeader` return no error and put in place of the argument the empty byte array
when the chain has no block, or no header, with that hash, and a handle of the block, or
of the header, when it has one; for an argument whose bytes decode to a script hash,
`bcGetContract` does the same with the contract the DAO holds at it. The context is left
as it was. -/
theorem bcGet_not_found_pushes_empty (bc : Blockchainer) (ic : Context) (v : VM)
    (element : Element) (rest : List Element) (hs : v.estack = element :: rest) :
    (∀ hash, getBlockHashFromElement bc element = Outcome.done (Except.ok hash) →
      (bc.GetBlock hash = none →
        bcGetBlock bc ic v =
          Outcome.done (none, ic, { v with estack := Element.byteArray [] :: rest })) ∧
      (∀ b, bc.GetBlock hash = some b →
        bcGetBlock bc ic v = Outcome.done (none, ic,
          { v with
            estack := Element.interop v.objects.length :: rest
            objects := v.objects ++ [HostObject.block b] })) ∧
      (bc.GetHeader hash = none →
        bcGetHeader bc ic v =
          Outcome.done (none, ic, { v with estack := Element.byteArray [] :: rest })) ∧
      (∀ hd, bc.GetHeader hash = some hd →
        bcGetHeader bc ic v = Outcome.done (none, ic,
          { v with
            estack := Element.interop v.objects.length :: rest
            objects := v.objects ++ [HostObject.header hd] }))) ∧
    (∀ hashbytes hash, element.Bytes = Outcome.done hashbytes →
      Uint160DecodeBytesBE hashbytes = Except.ok hash →
      (ic.DAO.GetContractState hash = none →
        bcGetContract ic v =
          Outcome.done (none, ic, { v with estack := Element.byteArray [] :: rest })) ∧
      (∀ cs, ic.DAO.GetContractState hash = some cs →
        bcGetContract ic v = Outcome.done (none, ic,
          { v with
            estack := Element.interop v.objects.length :: rest
            objects := v.objects ++ [HostObject.contract cs] }))) := by
  refine ⟨?_, ?_⟩
  · intro hash hres
    refine ⟨?_, ?_, ?_, ?_⟩
    · intro hnone
      unfold bcGetBlock
      rw [VM.Pop_cons v _ _ hs]
      simp [hres, hnone, VM.PushVal]
    · intro b hsome
      unfold bcGetBlock
      rw [VM.Pop_cons v _ _ hs]
      simp [hres, hsome, VM.PushVal, VM.NewObject]
    · intro hnone
      unfold bcGetHeader
      rw [VM.Pop_cons v _ _ hs]
      simp [hres, hnone, VM.PushVal]
    · intro hd hsome
      unfold bcGetHeader
      rw [VM.Pop_cons v _ _ hs]
      simp [hres, hsome, VM.PushVal, VM.NewObject]
  · intro hashbytes hash hb hd
    refine ⟨?_, ?_⟩
    · intro hnone
      unfold bcGetContract
      rw [VM.Pop_cons v _ _ hs]
      simp [hb, hd, hnone, VM.PushVal]
    · intro cs hsome
      exact bcGetContract_eq ic v element rest hashbytes hash cs hs hb hd hsome

/-- C29 on the demo chain, which has no block with the hash of the height 1. -/
theorem bcGet_not_found_pushes_empty_witness :
    bcGetBlock demoChain demoContext (demoVM [Element.byteArray [1]]) =
      Outcome.done (none, demoContext, demoVM [Element.byteArray []]) :=
  ((bcGet_not_found_pushes_empty demoChain demoContext (demoVM [Element.byteArray [1]])
    (Element.byteArray [1]) [] rfl).1 101
      (getBlockHashFromElement_eq demoChain (Element.byteArray [1]) [1] 1 rfl rfl)).1 rfl

/-! ## C30: a transaction that is not found -/

/-- C30 as amended: for an argument of 32 bytes that spell a hash, when the DAO
holds no transaction for the hash and its `GetTransaction` returns the error `err`,
`bcGetTransaction` and `bcGetTransactionHeight` return that error and push nothing; when
the DAO holds the transaction `tx` at the height `height`, the first pushes a handle of the
transaction and the second the height. -/
theorem bcGetTransaction_not_found (GetTransaction : Nat → Except String (Nat × Nat))
    (ic : Context) (v : VM) (element : Element) (rest : List Element) (hashbytes : List Nat)
    (hash : Nat) (hs : v.estack = element :: rest)
    (hb : element.Bytes = Outcome.done hashbytes)
    (hd : Uint256DecodeBytesBE hashbytes = Except.ok hash) :
    hashbytes.length = 32 ∧
    (∀ err, GetTransaction hash = Except.error err →
      bcGetTransaction GetTransaction ic v =
        Outcome.done (some err, ic, { v with estack := rest }) ∧
      bcGetTransactionHeight GetTransaction ic v =
        Outcome.done (some err, ic, { v with estack := rest })) ∧
    (∀ tx height, GetTransaction hash = Except.ok (tx, height) →
      bcGetTransaction GetTransaction ic v = Outcome.done (none, ic,
        { v with
          estack := Element.interop v.objects.length :: rest
          objects := v.objects ++ [HostObject.transaction tx] }) ∧
      bcGetTransactionHeight GetTransaction ic v =
        Outcome.done (none, ic, { v with estack := Element.integer height :: rest })) := by
  have hget : getTransactionAndHeight GetTransaction v =
      Outcome.done (GetTransaction hash, { v with estack := rest }) := by
    unfold getTransactionAndHeight
    rw [VM.Pop_cons v _ _ hs]
    simp [hb, hd]
  refine ⟨?_, ?_, ?_⟩
  · unfold Uint256DecodeBytesBE at hd
    by_contra hlen
    rw [if_pos hlen] at hd
    cases hd
  · intro err herr
    unfold bcGetTransaction bcGetTransactionHeight
    rw [hget, herr]
    exact ⟨rfl, rfl⟩
  · intro tx height hok
    unfold bcGetTransaction bcGetTransactionHeight
    rw [hget, hok]
    exact ⟨rfl, rfl⟩

/-- C30 on the demo transaction table, which holds no transaction under the hash 6:
`bcGetTransaction` returns the error of the DAO. -/
theorem bcGetTransaction_not_found_witness :
    bcGetTransaction demoGetTransaction demoContext
        (demoVM [Element.byteArray (leBytes 32 6)]) =
      Outcome.done (some "key not found", demoContext, demoVM []) :=
  ((bcGetTransaction_not_found demoGetTransaction demoContext
    (demoVM [Element.byteArray (leBytes 32 6)]) (Element.byteArray (leBytes 32 6)) []
    (leBytes 32 6) 6 rfl rfl rfl).2.1 "key not found" rfl).1

/-- C30 as stated fails on the demo transaction table, which holds no transaction under
the hash 6: `bcGetTransaction` and `bcGetTransactionHeight` return the error of the DAO and
push nothing, rather than return no error and push the empty byte array. -/
theorem bcGetTransaction_counterexample :
    demoGetTransaction 6 = Except.error "key not found" ∧
    bcGetTransaction demoGetTransaction demoContext
        (demoVM [Element.byteArray (leBytes 32 6)]) =
      Outcome.done (some "key not found", demoContext, demoVM []) ∧
    bcGetTransactionHeight demoGetTransaction demoContext
        (demoVM [Element.byteArray (leBytes 32 6)]) =
      Outcome.done (some "key not found", demoContext, demoVM []) ∧
    bcGetTransaction demoGetTransaction demoContext
        (demoVM [Element.byteArray (leBytes 32 6)]) ≠
      Outcome.done (none, demoContext, demoVM [Element.byteArray []]) := by
  have h1 : bcGetTransaction demoGetTransaction demoContext
        (demoVM [Element.byteArray (leBytes 32 6)]) =
      Outcome.done (some "key not found", demoContext, demoVM []) := rfl
  refine ⟨rfl, h1, rfl, ?_⟩
  rw [h1]
  intro h
  cases h

/-! # Package `core`: destroy and migrate -/

theorem kvGet_eq_none_iff {κ α : Type} [DecidableEq κ] (l : List (κ × α)) (k : κ) :
    kvGet l k = none ↔ k ∉ l.map Prod.fst := by
  induction l with
  | nil => simp [kvGet]
  | cons p t ih =>
    obtain ⟨k1, v⟩ := p
    by_cases h : k1 = k
    · subst h
      simp [kvGet]
    · rw [kvGet_cons_ne t k k1 v h, ih]
      simp only [List.map_cons, List.mem_cons, not_or]
      exact ⟨fun h1 => ⟨fun e => h e.symm, h1⟩, fun h1 => h1.2⟩

theorem kvGet_mem {κ α : Type} [DecidableEq κ] (l : List (κ × α)) (k : κ) (v : α)
    (h : kvGet l k = some v) : (k, v) ∈ l := by
  induction l with
  | nil => simp [kvGet] at h
  | cons p t ih =>
    obtain ⟨k1, v1⟩ := p
    by_cases hk : k1 = k
    · subst hk
      rw [kvGet_cons_eq] at h
      cases h
      exact List.mem_cons_self _ _
    · rw [kvGet_cons_ne t k k1 v1 hk] at h
      exact List.mem_cons_of_mem _ (ih h)

/-- The keys `GetStorageItems` returns for a script hash are the keys under which the DAO
holds an item for it. -/
theorem DAO.mem_GetStorageItems (d : DAO) (hash : Nat) (k : List Nat) (si : StorageItem) :
    (k, si) ∈ d.GetStorageItems hash ↔ ((hash, k), si) ∈ d.storage := by
  unfold DAO.GetStorageItems
  simp only [List.mem_map, List.mem_filter, decide_eq_true_eq, Prod.mk.injEq]
  constructor
  · rintro ⟨e, ⟨hm, hh⟩, hk, hsi⟩
    obtain ⟨⟨h1, k1⟩, si1⟩ := e
    simp only at hh hk hsi
    subst hh
    subst hk
    subst hsi
    exact hm
  · intro hm
    exact ⟨((hash, k), si), ⟨hm, rfl⟩, rfl, rfl⟩

theorem DAO.GetStorageItems_keys (d : DAO) (hash : Nat) (k : List Nat) :
    k ∈ (d.GetStorageItems hash).map Prod.fst ↔ d.GetStorageItem hash k ≠ none := by
  unfold DAO.GetStorageItem
  rw [Ne, kvGet_eq_none_iff, not_not]
  simp only [List.mem_map]
  constructor
  · rintro ⟨⟨k1, si⟩, hm, hk⟩
    simp only at hk
    subst hk
    exact ⟨((hash, k1), si), (DAO.mem_GetStorageItems d hash k1 si).1 hm, rfl⟩
  · rintro ⟨⟨⟨h1, k1⟩, si⟩, hm, hk⟩
    simp only [Prod.mk.injEq] at hk
    obtain ⟨hh, hk1⟩ := hk
    subst hh
    subst hk1
    exact ⟨(k1, si), (DAO.mem_GetStorageItems d h1 k1 si).2 hm, rfl⟩

theorem DAO.GetStorageItems_nodup (d : DAO) (hwf : d.WF) (hash : Nat) :
    ((d.GetStorageItems hash).map Prod.fst).Nodup := by
  unfold DAO.GetStorageItems
  rw [List.map_map]
  have hst : d.storage.Nodup := List.Nodup.of_map _ hwf.2
  refine List.Nodup.map_on ?_ (hst.filter _)
  intro x hx y hy hxy
  simp only [List.mem_filter, decide_eq_true_eq] at hx hy
  simp only [Function.comp] at hxy
  have hkey : x.1 = y.1 := Prod.ext (hx.2.trans hy.2.symm) hxy
  exact List.inj_on_of_nodup_map hwf.2 hx.1 hy.1 hkey

theorem deleteStorageItems_contracts (d : DAO) (hash : Nat)
    (l : List (List Nat × StorageItem)) :
    (deleteStorageItems d hash l).contracts = d.contracts := by
  induction l generalizing d with
  | nil => rfl
  | cons e rest ih =>
    obtain ⟨k, si⟩ := e
    simp only [deleteStorageItems]
    rw [ih]
    rfl

/-- The loop of `contractDestroy` removes the items of the script hash under the keys of
the list and no other item. -/
theorem deleteStorageItems_get (d : DAO) (hash : Nat) (l : List (List Nat × StorageItem))
    (hash1 : Nat) (key1 : List Nat) :
    (deleteStorageItems d hash l).GetStorageItem hash1 key1 =
      if hash1 = hash ∧ key1 ∈ l.map Prod.fst then none else d.GetStorageItem hash1 key1 := by
  induction l generalizing d with
  | nil => simp [deleteStorageItems]
  | cons e rest ih =>
    obtain ⟨k, si⟩ := e
    simp only [deleteStorageItems]
    rw [ih]
    by_cases hin : hash1 = hash ∧ key1 ∈ rest.map Prod.fst
    · rw [if_pos hin, if_pos]
      exact ⟨hin.1, List.mem_cons_of_mem _ hin.2⟩
    · rw [if_neg hin]
      by_cases hk : (hash1, key1) = (hash, k)
      · simp only [Prod.mk.injEq] at hk
        rw [hk.1, hk.2, DAO.GetStorageItem_Delete_same, if_pos]
        exact ⟨rfl, List.mem_cons_self _ _⟩
      · rw [DAO.GetStorageItem_Delete_other _ _ _ _ _ hk, if_neg]
        rintro ⟨h1, h2⟩
        simp only [List.map_cons, List.mem_cons] at h2
        rcases h2 with h2 | h2
        · exact hk (by rw [h1, h2])
        · exact hin ⟨h1, h2⟩

theorem migrateStorageItems_contracts (d : DAO) (hash : Nat)
    (l : List (List Nat × StorageItem)) :
    (migrateStorageItems d hash l).contracts = d.contracts := by
  induction l generalizing d with
  | nil => rfl
  | cons e rest ih =>
    obtain ⟨k, si⟩ := e
    simp only [migrateStorageItems]
    rw [ih]
    rfl

/-- The loop of `contractMigrate` stores nothing under a script hash other than the one it
is given. -/
theorem migrateStorageItems_other (d : DAO) (hash : Nat) (l : List (List Nat × StorageItem))
    (hash1 : Nat) (key1 : List Nat) (hne : hash1 ≠ hash) :
    (migrateStorageItems d hash l).GetStorageItem hash1 key1 = d.GetStorageItem hash1 key1 := by
  induction l generalizing d with
  | nil => rfl
  | cons e rest ih =>
    obtain ⟨k, si⟩ := e
    simp only [migrateStorageItems]
    rw [ih]
    exact DAO.GetStorageItem_Put_other _ _ _ _ _ _ (by
      intro e
      simp only [Prod.mk.injEq] at e
      exact hne e.1)

/-- The loop of `contractMigrate` over items with distinct keys: under the script hash it
is given, every item of the list is stored with its value and `IsConst = false`, and the
items under keys that are not in the list are as they were. -/
theorem migrateStorageItems_get (d : DAO) (hash : Nat) (l : List (List Nat × StorageItem))
    (hnd : (l.map Prod.fst).Nodup) (key1 : List Nat) :
    (∀ si, (key1, si) ∈ l →
      (migrateStorageItems d hash l).GetStorageItem hash key1 = some ⟨si.Value, false⟩) ∧
    (key1 ∉ l.map Prod.fst →
      (migrateStorageItems d hash l).GetStorageItem hash key1 = d.GetStorageItem hash key1) := by
  induction l generalizing d with
  | nil =>
    exact ⟨fun si h => (by cases h), fun _ => rfl⟩
  | cons e rest ih =>
    obtain ⟨k, si0⟩ := e
    simp only [List.map_cons, List.nodup_cons] at hnd
    obtain ⟨ih1, ih2⟩ := ih (d.PutStorageItem hash k { si0 with IsConst := false }) hnd.2
    simp only [migrateStorageItems]
    refine ⟨?_, ?_⟩
    · intro si hmem
      rcases List.mem_cons.1 hmem with heq | hmem1
      · cases heq
        rw [ih2 hnd.1]
        exact DAO.GetStorageItem_Put_same _ _ _ _
      · exact ih1 si hmem1
    · intro hnot
      simp only [List.map_cons, List.mem_cons, not_or] at hnot
      rw [ih2 hnot.2]
      exact DAO.GetStorageItem_Put_other _ _ _ _ _ _ (by
        intro e
        simp only [Prod.mk.injEq] at e
        exact hnot.1 e.2)

/-- The function `contractDestroy` under the trigger Application in a VM with a current
script. -/
theorem contractDestroy_eq (C : CoreDeps) (ic : Context) (v : VM) (cur : List Nat)
    (frames : List (List Nat)) (ht : ic.Trigger = Trigger.Application)
    (hi : v.istack = cur :: frames) :
    contractDestroy C ic v =
      match ic.DAO.GetContractState (C.hash160 cur) with
      | none => Outcome.done (none, ic, v)
      | some cs =>
        if cs.HasStorage then
          Outcome.done (none,
            { ic with
              DAO := deleteStorageItems (ic.DAO.DeleteContractState (C.hash160 cur))
                (C.hash160 cur)
                ((ic.DAO.DeleteContractState (C.hash160 cur)).GetStorageItems (C.hash160 cur)) },
            v)
        else
          Outcome.done (none, { ic with DAO := ic.DAO.DeleteContractState (C.hash160 cur) }, v) := by
  unfold contractDestroy
  rw [if_neg (not_not.2 ht), VM.GetCurrentScriptHash_cons C v cur frames hi]
  rfl

/-! ## C24: `contractDestroy` -/

/-- C24, as the code has it: under the trigger Application, in a VM with a current script,
`contractDestroy` returns no error and leaves the VM as it was. Afterwards the DAO holds no
contract state at the current script hash, and the contract states and the storage items of
every other script hash are what they were. When the contract that was stored at the current
script hash has the has-storage feature, the DAO holds no storage item under that script
hash afterwards, whatever the `IsConst` flags were; when no contract was stored there, or
one without the feature, the storage items under that script hash are what they were. -/
theorem contractDestroy_spec (C : CoreDeps) (ic : Context) (v : VM) (cur : List Nat)
    (frames : List (List Nat)) (ht : ic.Trigger = Trigger.Application)
    (hi : v.istack = cur :: frames) :
    ∃ ic1, contractDestroy C ic v = Outcome.done (none, ic1, v) ∧
      ic1.DAO.GetContractState (C.hash160 cur) = none ∧
      (∀ hash1, hash1 ≠ C.hash160 cur →
        ic1.DAO.GetContractState hash1 = ic.DAO.GetContractState hash1 ∧
        ∀ key1, ic1.DAO.GetStorageItem hash1 key1 = ic.DAO.GetStorageItem hash1 key1) ∧
      (∀ cs, ic.DAO.GetContractState (C.hash160 cur) = some cs → cs.HasStorage = true →
        ∀ key1, ic1.DAO.GetStorageItem (C.hash160 cur) key1 = none) ∧
      ((ic.DAO.GetContractState (C.hash160 cur) = none ∨
          ∃ cs, ic.DAO.GetContractState (C.hash160 cur) = some cs ∧ cs.HasStorage = false) →
        ∀ key1, ic1.DAO.GetStorageItem (C.hash160 cur) key1 =
          ic.DAO.GetStorageItem (C.hash160 cur) key1) := by
  have hrun := contractDestroy_eq C ic v cur frames ht hi
  cases hg : ic.DAO.GetContractState (C.hash160 cur) with
  | none =>
    rw [hg] at hrun
    refine ⟨ic, hrun, hg, fun _ _ => ⟨rfl, fun _ => rfl⟩, ?_, fun _ _ => rfl⟩
    intro cs hcs
    cases hcs
  | some cs =>
    rw [hg] at hrun
    simp only [] at hrun
    cases hst : cs.HasStorage with
    | false =>
      rw [hst] at hrun
      simp only [Bool.false_eq_true, if_false] at hrun
      refine ⟨_, hrun, kvGet_kvDel_same _ _,
        fun hash1 hne => ⟨kvGet_kvDel_other _ _ _ hne, fun _ => rfl⟩, ?_, fun _ _ => rfl⟩
      intro cs1 hcs1 hst1
      cases hcs1
      rw [hst] at hst1
      cases hst1
    | true =>
      rw [hst] at hrun
      simp only [if_true] at hrun
      refine ⟨_, hrun, ?_, ?_, ?_, ?_⟩
      · show kvGet (deleteStorageItems _ _ _).contracts _ = none
        rw [deleteStorageItems_contracts]
        exact kvGet_kvDel_same _ _
      · intro hash1 hne
        refine ⟨?_, ?_⟩
        · show kvGet (deleteStorageItems _ _ _).contracts _ = _
          rw [deleteStorageItems_contracts]
          exact kvGet_kvDel_other _ _ _ hne
        · intro key1
          show (deleteStorageItems _ _ _).GetStorageItem hash1 key1 = _
          rw [deleteStorageItems_get, if_neg (fun h => hne h.1)]
          rfl
      · intro cs1 _ _ key1
        show (deleteStorageItems _ _ _).GetStorageItem _ key1 = _
        rw [deleteStorageItems_get]
        by_cases hin : key1 ∈ ((ic.DAO.DeleteContractState (C.hash160 cur)).GetStorageItems
            (C.hash160 cur)).map Prod.fst
        · rw [if_pos ⟨rfl, hin⟩]
        · rw [if_neg (fun h => hin h.2)]
          by_contra hcon
          exact hin ((DAO.GetStorageItems_keys _ _ _).2 hcon)
      · rintro (h | ⟨cs1, hcs1, hst1⟩)
        · cases h
        · cases hcs1
          rw [hst] at hst1
          cases hst1

/-- C24 on the demo context, in the VM that runs the script of the demo contract: the
contract and its three items, the constant one among them, are removed. -/
theorem contractDestroy_spec_witness :
    ∃ ic1, contractDestroy demoCore demoContext (demoVMRunning []) =
        Outcome.done (none, ic1, demoVMRunning []) ∧
      ic1.DAO.GetContractState (demoCore.hash160 [7]) = none ∧
      (∀ hash1, hash1 ≠ demoCore.hash160 [7] →
        ic1.DAO.GetContractState hash1 = demoContext.DAO.GetContractState hash1 ∧
        ∀ key1, ic1.DAO.GetStorageItem hash1 key1 =
          demoContext.DAO.GetStorageItem hash1 key1) ∧
      (∀ cs, demoContext.DAO.GetContractState (demoCore.hash160 [7]) = some cs →
        cs.HasStorage = true →
        ∀ key1, ic1.DAO.GetStorageItem (demoCore.hash160 [7]) key1 = none) ∧
      ((demoContext.DAO.GetContractState (demoCore.hash160 [7]) = none ∨
          ∃ cs, demoContext.DAO.GetContractState (demoCore.hash160 [7]) = some cs ∧
            cs.HasStorage = false) →
        ∀ key1, ic1.DAO.GetStorageItem (demoCore.hash160 [7]) key1 =
          demoContext.DAO.GetStorageItem (demoCore.hash160 [7]) key1) :=
  contractDestroy_spec demoCore demoContext (demoVMRunning []) [7] [] rfl rfl

/-- The function `contractDestroy` when no contract is stored at the current script
hash: nothing is done. -/
theorem contractDestroy_none (C : CoreDeps) (ic : Context) (v : VM) (cur : List Nat)
    (frames : List (List Nat)) (ht : ic.Trigger = Trigger.Application)
    (hi : v.istack = cur :: frames)
    (hg : ic.DAO.GetContractState (C.hash160 cur) = none) :
    contractDestroy C ic v = Outcome.done (none, ic, v) := by
  rw [contractDestroy_eq C ic v cur frames ht hi, hg]

/-- The block of `contractMigrate` that replaces the contract state, for a script that is
not empty and of at most `MaxContractScriptSize` bytes. -/
theorem migrateContractState_eq (C : CoreDeps) (nilScript : Bool) (d : DAO) (c1 : Contract)
    (script : List Nat) (m : Manifest) (hne : script ≠ [])
    (hl : script.length ≤ MaxContractScriptSize) :
    migrateContractState C nilScript d c1 ⟨script, m, 0⟩ =
      if C.hash160 script = C.hash160 c1.Script then Except.error errSameScript
      else
        match d.GetContractState (C.hash160 script) with
        | some _ => Except.error errContractExists
        | none => Except.ok ((d.PutContractState C ⟨script, m, c1.ID⟩).DeleteContractState
            (C.hash160 c1.Script)) := by
  unfold migrateContractState
  have hlen : script.length ≠ 0 := fun h => hne (List.length_eq_zero.1 h)
  rw [if_neg (fun h => hne h.1), if_neg (by
    show ¬ (script.length = 0 ∨ script.length > MaxContractScriptSize)
    omega)]
  rfl

/-- The service `contractMigrate`, run by a contract `c1` with the script `cur`, for a new
script that is not empty, fits, comes with manifest bytes that fit and decode, with enough
gas, hashes to another hash than `cur`, at which no contract is stored: the new contract is
stored with the id of `c1`, the state of `c1` is deleted, the items `GetStorageItems` gives
for the current script hash are put under the script hash of `c1` with `IsConst = false`,
a handle of `c1` is pushed, and `contractDestroy` finds no contract to destroy. -/
theorem contractMigrate_eq (C : CoreDeps) (nilScript : Bool) (ic : Context) (v : VM)
    (cur : List Nat) (frames : List (List Nat)) (c1 : Contract)
    (scriptElem manifestElem : Element) (rest : List Element) (script manifestBytes : List Nat)
    (m : Manifest)
    (ht : ic.Trigger = Trigger.Application)
    (hi : v.istack = cur :: frames)
    (hc1 : ic.DAO.GetContractState (C.hash160 cur) = some c1) (hscr : c1.Script = cur)
    (hs : v.estack = scriptElem :: manifestElem :: rest)
    (hsb : scriptElem.Bytes = Outcome.done script)
    (hmb : manifestElem.Bytes = Outcome.done manifestBytes)
    (hne : script ≠ []) (hl : script.length ≤ MaxContractScriptSize)
    (hml : manifestBytes.length ≤ C.MaxManifestSize)
    (hgas : v.gasConsumed + C.StoragePrice * (script.length + manifestBytes.length) ≤
      v.gasLimit)
    (hdec : C.DecodeManifest manifestBytes = Except.ok m)
    (hh : C.hash160 script ≠ C.hash160 cur)
    (hnone : ic.DAO.GetContractState (C.hash160 script) = none) :
    contractMigrate C nilScript ic v = Outcome.done (none,
      { ic with
        DAO :=
          (if c1.HasStorage then
            migrateStorageItems
              ((ic.DAO.PutContractState C ⟨script, m, c1.ID⟩).DeleteContractState
                (C.hash160 cur))
              (C.hash160 cur)
              (((ic.DAO.PutContractState C ⟨script, m, c1.ID⟩).DeleteContractState
                (C.hash160 cur)).GetStorageItems (C.hash160 cur))
          else
            (ic.DAO.PutContractState C ⟨script, m, c1.ID⟩).DeleteContractState
              (C.hash160 cur)) },
      { v with
        estack := Element.interop v.objects.length :: rest
        objects := v.objects ++ [HostObject.contract c1]
        gasConsumed :=
          v.gasConsumed + C.StoragePrice * (script.length + manifestBytes.length) }) := by
  have hcreate := createContractStateFromVM_eq C ic v scriptElem manifestElem rest script
    manifestBytes ht hs hsb hmb hl
  rw [if_neg (by omega), if_pos hgas, hdec] at hcreate
  simp only [] at hcreate
  have hstate := migrateContractState_eq C nilScript ic.DAO c1 script m hne hl
  rw [hscr, if_neg hh, hnone] at hstate
  simp only [] at hstate
  have hcur1 : VM.GetCurrentScriptHash C
      { v with
        estack := rest
        gasConsumed :=
          v.gasConsumed + C.StoragePrice * (script.length + manifestBytes.length) } =
      Outcome.done (C.hash160 cur) := VM.GetCurrentScriptHash_cons C _ cur frames hi
  unfold contractMigrate
  rw [VM.GetCurrentScriptHash_cons C v cur frames hi]
  simp only [Outcome.done_bind, hc1, hcreate, hstate, Contract.ScriptHash, hscr]
  cases hst : c1.HasStorage with
  | true =>
    simp only [if_true, hcur1, Outcome.done_bind, VM.NewObject, VM.PushVal]
    rw [contractDestroy_none C _ _ cur frames]
    · exact ht
    · exact hi
    · show kvGet (migrateStorageItems _ _ _).contracts _ = none
      rw [migrateStorageItems_contracts]
      exact kvGet_kvDel_same _ _
  | false =>
    simp only [Bool.false_eq_true, if_false, Outcome.done_bind, VM.NewObject, VM.PushVal]
    rw [contractDestroy_none C _ _ cur frames]
    · exact ht
    · exact hi
    · exact kvGet_kvDel_same _ _

/-- The service `contractMigrate` when the block that replaces the contract state returns
an error: the error is returned and nothing is stored. -/
theorem contractMigrate_of_error (C : CoreDeps) (nilScript : Bool) (ic : Context) (v v1 : VM)
    (cur : List Nat) (frames : List (List Nat)) (c1 newcontract : Contract) (err : String)
    (hi : v.istack = cur :: frames)
    (hc1 : ic.DAO.GetContractState (C.hash160 cur) = some c1)
    (hcreate : createContractStateFromVM C ic v = Outcome.done (Except.ok newcontract, v1))
    (hstate : migrateContractState C nilScript ic.DAO c1 newcontract = Except.error err) :
    contractMigrate C nilScript ic v = Outcome.done (some err, ic, v1) := by
  unfold contractMigrate
  rw [VM.GetCurrentScriptHash_cons C v cur frames hi]
  simp only [Outcome.done_bind, hc1, hcreate, hstate]

/-- The service `bcGetContract` on a stack that holds the bytes of a hash at which no
contract is stored: the empty byte array is pushed. -/
theorem bcGetContract_none (ic : Context) (w : VM) (hashElem : Element) (rest : List Element)
    (hashbytes : List Nat) (hash : Nat)
    (hs : w.estack = hashElem :: rest) (hb : hashElem.Bytes = Outcome.done hashbytes)
    (hd : Uint160DecodeBytesBE hashbytes = Except.ok hash)
    (hg : ic.DAO.GetContractState hash = none) :
    bcGetContract ic w =
      Outcome.done (none, ic, { w with estack := Element.byteArray [] :: rest }) := by
  unfold bcGetContract
  rw [VM.Pop_cons w _ _ hs]
  simp [hb, hd, hg, VM.PushVal]

/-! ## C22: `contractMigrate` and the contract states -/

/-- C22: let the contract `c1` with the script `cur` run `contractMigrate` under the
trigger Application for a new script that is not empty and fits, with manifest bytes that
fit and decode to `m`, and with enough gas. When the new script is `cur`, or hashes to the
hash of `cur`, the call returns "the script is the same"; when it hashes to another hash at
which a contract is stored, the call returns "contract already exists"; both leave the
context as it was. When it hashes to another hash at which no contract is stored, the call
succeeds; afterwards `GetContractState` finds no contract at the hash of `cur`, so that
`bcGetContract` pushes the empty byte array for it, and at the hash of the new script it
finds the contract with the new script, the manifest `m` and the id of `c1`. -/
theorem contractMigrate_spec (C : CoreDeps) (nilScript : Bool) (ic : Context) (v : VM)
    (cur : List Nat) (frames : List (List Nat)) (c1 : Contract)
    (scriptElem manifestElem : Element) (rest : List Element) (script manifestBytes : List Nat)
    (m : Manifest)
    (ht : ic.Trigger = Trigger.Application)
    (hi : v.istack = cur :: frames)
    (hc1 : ic.DAO.GetContractState (C.hash160 cur) = some c1) (hscr : c1.Script = cur)
    (hs : v.estack = scriptElem :: manifestElem :: rest)
    (hsb : scriptElem.Bytes = Outcome.done script)
    (hmb : manifestElem.Bytes = Outcome.done manifestBytes)
    (hne : script ≠ []) (hl : script.length ≤ MaxContractScriptSize)
    (hml : manifestBytes.length ≤ C.MaxManifestSize)
    (hgas : v.gasConsumed + C.StoragePrice * (script.length + manifestBytes.length) ≤
      v.gasLimit)
    (hdec : C.DecodeManifest manifestBytes = Except.ok m) :
    ((script = cur ∨ C.hash160 script = C.hash160 cur) →
      ∃ v1, contractMigrate C nilScript ic v = Outcome.done (some errSameScript, ic, v1)) ∧
    (C.hash160 script ≠ C.hash160 cur →
      (∃ c, ic.DAO.GetContractState (C.hash160 script) = some c) →
      ∃ v1, contractMigrate C nilScript ic v = Outcome.done (some errContractExists, ic, v1)) ∧
    (C.hash160 script ≠ C.hash160 cur → ic.DAO.GetContractState (C.hash160 script) = none →
      ∃ ic1 v1, contractMigrate C nilScript ic v = Outcome.done (none, ic1, v1) ∧
        ic1.DAO.GetContractState (C.hash160 cur) = none ∧
        ic1.DAO.GetContractState (C.hash160 script) = some ⟨script, m, c1.ID⟩ ∧
        ∀ (w : VM) (hashElem : Element) (rest2 : List Element) (hashbytes : List Nat),
          w.estack = hashElem :: rest2 → hashElem.Bytes = Outcome.done hashbytes →
          Uint160DecodeBytesBE hashbytes = Except.ok (C.hash160 cur) →
          bcGetContract ic1 w =
            Outcome.done (none, ic1, { w with estack := Element.byteArray [] :: rest2 })) := by
  have hcreate := createContractStateFromVM_eq C ic v scriptElem manifestElem rest script
    manifestBytes ht hs hsb hmb hl
  rw [if_neg (by omega), if_pos hgas, hdec] at hcreate
  simp only [] at hcreate
  have hstate := migrateContractState_eq C nilScript ic.DAO c1 script m hne hl
  rw [hscr] at hstate
  refine ⟨?_, ?_, ?_⟩
  · intro hsame
    have hh : C.hash160 script = C.hash160 cur := by
      rcases hsame with h | h
      · rw [h]
      · exact h
    rw [if_pos hh] at hstate
    exact ⟨_, contractMigrate_of_error C nilScript ic v _ cur frames c1 _ _ hi hc1 hcreate
      hstate⟩
  · rintro hh ⟨c, hc⟩
    rw [if_neg hh, hc] at hstate
    exact ⟨_, contractMigrate_of_error C nilScript ic v _ cur frames c1 _ _ hi hc1 hcreate
      hstate⟩
  · intro hh hnone
    have hrun := contractMigrate_eq C nilScript ic v cur frames c1 scriptElem manifestElem rest
      script manifestBytes m ht hi hc1 hscr hs hsb hmb hne hl hml hgas hdec hh hnone
    have hcontracts : ∀ hash,
        (if c1.HasStorage then
          migrateStorageItems
            ((ic.DAO.PutContractState C ⟨script, m, c1.ID⟩).DeleteContractState
              (C.hash160 cur))
            (C.hash160 cur)
            (((ic.DAO.PutContractState C ⟨script, m, c1.ID⟩).DeleteContractState
              (C.hash160 cur)).GetStorageItems (C.hash160 cur))
        else
          (ic.DAO.PutContractState C ⟨script, m, c1.ID⟩).DeleteContractState
            (C.hash160 cur)).GetContractState hash =
        ((ic.DAO.PutContractState C ⟨script, m, c1.ID⟩).DeleteContractState
          (C.hash160 cur)).GetContractState hash := by
      intro hash
      cases c1.HasStorage with
      | false => rfl
      | true =>
        simp only [if_true]
        show kvGet (migrateStorageItems _ _ _).contracts _ = _
        rw [migrateStorageItems_contracts]
        rfl
    have hold : ((ic.DAO.PutContractState C ⟨script, m, c1.ID⟩).DeleteContractState
        (C.hash160 cur)).GetContractState (C.hash160 cur) = none := kvGet_kvDel_same _ _
    have hnew : ((ic.DAO.PutContractState C ⟨script, m, c1.ID⟩).DeleteContractState
        (C.hash160 cur)).GetContractState (C.hash160 script) = some ⟨script, m, c1.ID⟩ :=
      (kvGet_kvDel_other _ _ _ hh).trans (kvGet_kvPut_same _ _ _)
    refine ⟨_, _, hrun, (hcontracts _).trans hold, (hcontracts _).trans hnew, ?_⟩
    intro w hashElem rest2 hashbytes hw hb hd
    exact bcGetContract_none _ w hashElem rest2 hashbytes _ hw hb hd
      ((hcontracts _).trans hold)

/-- C22 on the demo instance: the demo contract, running its script `[7]`, migrates to the
script `[5]`. -/
theorem contractMigrate_spec_witness :
    ∃ ic1 v1, contractMigrate demoCore false demoContext
        (demoVMRunning [Element.byteArray [5], Element.byteArray [1, 0]]) =
        Outcome.done (none, ic1, v1) ∧
      ic1.DAO.GetContractState (demoCore.hash160 [7]) = none ∧
      ic1.DAO.GetContractState (demoCore.hash160 [5]) =
        some ⟨[5], ⟨true, false, []⟩, demoContract.ID⟩ ∧
      ∀ (w : VM) (hashElem : Element) (rest2 : List Element) (hashbytes : List Nat),
        w.estack = hashElem :: rest2 → hashElem.Bytes = Outcome.done hashbytes →
        Uint160DecodeBytesBE hashbytes = Except.ok (demoCore.hash160 [7]) →
        bcGetContract ic1 w =
          Outcome.done (none, ic1, { w with estack := Element.byteArray [] :: rest2 }) :=
  (contractMigrate_spec demoCore false demoContext
    (demoVMRunning [Element.byteArray [5], Element.byteArray [1, 0]]) [7] [] demoContract
    (Element.byteArray [5]) (Element.byteArray [1, 0]) [] [5] [1, 0] ⟨true, false, []⟩
    rfl rfl rfl rfl rfl rfl rfl (by decide) (by decide) (by decide) (by decide) rfl).2.2
    (by decide) rfl

/-! ## C23: `contractMigrate` and the storage items -/

/-- C23, as the code has it: let the contract `c1` with storage and the script `cur` run
`contractMigrate` successfully, for a new script that hashes to another hash, over a DAO
that stands for a map. The loop puts the items it reads under the script hash of `c1`,
which is the hash they were read from: afterwards every item that was stored under the hash
of `cur` is stored there still, with its value and `IsConst = false`, and under the hash of
the new script the DAO holds what it held before the call, so no item has moved there. -/
theorem contractMigrate_storage_stays (C : CoreDeps) (nilScript : Bool) (ic : Context)
    (v : VM) (cur : List Nat) (frames : List (List Nat)) (c1 : Contract)
    (scriptElem manifestElem : Element) (rest : List Element) (script manifestBytes : List Nat)
    (m : Manifest)
    (ht : ic.Trigger = Trigger.Application)
    (hi : v.istack = cur :: frames)
    (hc1 : ic.DAO.GetContractState (C.hash160 cur) = some c1) (hscr : c1.Script = cur)
    (hst : c1.HasStorage = true) (hwf : ic.DAO.WF)
    (hs : v.estack = scriptElem :: manifestElem :: rest)
    (hsb : scriptElem.Bytes = Outcome.done script)
    (hmb : manifestElem.Bytes = Outcome.done manifestBytes)
    (hne : script ≠ []) (hl : script.length ≤ MaxContractScriptSize)
    (hml : manifestBytes.length ≤ C.MaxManifestSize)
    (hgas : v.gasConsumed + C.StoragePrice * (script.length + manifestBytes.length) ≤
      v.gasLimit)
    (hdec : C.DecodeManifest manifestBytes = Except.ok m)
    (hh : C.hash160 script ≠ C.hash160 cur)
    (hnone : ic.DAO.GetContractState (C.hash160 script) = none) :
    ∃ ic1 v1, contractMigrate C nilScript ic v = Outcome.done (none, ic1, v1) ∧
      (∀ key, ic1.DAO.GetStorageItem (C.hash160 script) key =
        ic.DAO.GetStorageItem (C.hash160 script) key) ∧
      (∀ key si, ic.DAO.GetStorageItem (C.hash160 cur) key = some si →
        ic1.DAO.GetStorageItem (C.hash160 cur) key = some ⟨si.Value, false⟩) := by
  have hrun := contractMigrate_eq C nilScript ic v cur frames c1 scriptElem manifestElem rest
    script manifestBytes m ht hi hc1 hscr hs hsb hmb hne hl hml hgas hdec hh hnone
  rw [hst] at hrun
  simp only [if_true] at hrun
  have hitems : ((ic.DAO.PutContractState C ⟨script, m, c1.ID⟩).DeleteContractState
      (C.hash160 cur)).GetStorageItems (C.hash160 cur) =
      ic.DAO.GetStorageItems (C.hash160 cur) := rfl
  refine ⟨_, _, hrun, ?_, ?_⟩
  · intro key
    exact migrateStorageItems_other _ _ _ _ _ hh
  · intro key si hg
    have hmem : (key, si) ∈ ic.DAO.GetStorageItems (C.hash160 cur) :=
      (DAO.mem_GetStorageItems _ _ _ _).2 (kvGet_mem _ _ _ hg)
    have hnd := DAO.GetStorageItems_nodup ic.DAO hwf (C.hash160 cur)
    rw [← hitems] at hmem hnd
    exact (migrateStorageItems_get _ (C.hash160 cur) _ hnd key).1 si hmem

/-- C23 on the demo instance: after the demo contract has migrated from the script `[7]` to
the script `[5]`, the items of the hash 5 are those of before. -/
theorem contractMigrate_storage_stays_witness :
    ∃ ic1 v1, contractMigrate demoCore false demoContext
        (demoVMRunning [Element.byteArray [5], Element.byteArray [1, 0]]) =
        Outcome.done (none, ic1, v1) ∧
      (∀ key, ic1.DAO.GetStorageItem (demoCore.hash160 [5]) key =
        demoContext.DAO.GetStorageItem (demoCore.hash160 [5]) key) ∧
      (∀ key si, demoContext.DAO.GetStorageItem (demoCore.hash160 [7]) key = some si →
        ic1.DAO.GetStorageItem (demoCore.hash160 [7]) key = some ⟨si.Value, false⟩) :=
  contractMigrate_storage_stays demoCore false demoContext
    (demoVMRunning [Element.byteArray [5], Element.byteArray [1, 0]]) [7] [] demoContract
    (Element.byteArray [5]) (Element.byteArray [1, 0]) [] [5] [1, 0] ⟨true, false, []⟩
    rfl rfl rfl rfl rfl ⟨by decide, by decide⟩ rfl rfl rfl (by decide) (by decide) (by decide)
    (by decide) rfl (by decide) rfl

/-- The demo contract, with the item `[8]` under the key `[1, 1]` of its hash 7, migrates
from the script `[7]` to the script `[5]` on the demo context: the context afterwards is
`demoMigrated`, in which no item is stored under the key `[1, 1]` of the hash 5 and the item
is stored under the hash 7 still. -/
theorem contractMigrate_demo :
    contractMigrate demoCore false demoContext
        (demoVMRunning [Element.byteArray [5], Element.byteArray [1, 0]]) =
      Outcome.done (none, demoMigrated,
        { demoVMRunning [Element.interop 2] with
          objects := (demoVM []).objects ++ [HostObject.contract demoContract]
          gasConsumed := 3 }) ∧
    demoContext.DAO.GetStorageItem 7 [1, 1] = some ⟨[8], true⟩ ∧
    demoMigrated.DAO.GetStorageItem 5 [1, 1] = none ∧
    demoMigrated.DAO.GetStorageItem 7 [1, 1] = some ⟨[8], false⟩ := by
  refine ⟨rfl, rfl, rfl, rfl⟩

/-- Against C24 as stated: in the demo context after the migration, which
`contractMigrate_demo` shows to be reached, no contract is stored at the current script
hash 7; `contractDestroy` under the trigger Application returns no error and changes
nothing, and the DAO holds the storage item of the key `[3]` under that script hash
afterwards. -/
theorem contractDestroy_leaves_storage :
    demoMigrated.Trigger = Trigger.Application ∧
    contractDestroy demoCore demoMigrated (demoVMRunning []) =
      Outcome.done (none, demoMigrated, demoVMRunning []) ∧
    demoMigrated.DAO.GetStorageItem (demoCore.hash160 [7]) [3] = some ⟨[5], false⟩ := by
  refine ⟨rfl, ?_, rfl⟩
  exact contractDestroy_none demoCore demoMigrated (demoVMRunning []) [7] [] rfl rfl rfl

/-! # The later services, the fee, the names and the genesis block -/

/-! ## C39: the call flags -/

/-- The function `contractCallEx` on a stack with an integer in the place of the flags is
`contractCall` on the stack without it. -/
theorem contractCallEx_eq (C : CoreDeps) (K : CallDeps) (ic : Context) (v : VM)
    (hElem method args : Element) (f : Int) (rest : List Element) :
    contractCallEx C K ic
        { v with estack := hElem :: method :: args :: Element.integer f :: rest } =
      contractCall C K ic { v with estack := hElem :: method :: args :: rest } := by
  simp only [contractCallEx, contractCall, VM.Pop, Element.BigInt]
  cases hElem.Bytes <;> rfl

/-- C39: for all call-flag values `f1` and `f2` and the same hash, method, arguments, context
and VM state, `contractCallEx` with `f1` and with `f2` end the same way, with the same
error or success, the same loaded script and the same evaluation stack, and both end as
`contractCall` does on the hash, the method and the arguments; and `contractCallExInternal`
gives the same result for any two flags. -/
theorem contractCallEx_flags_irrelevant (C : CoreDeps) (K : CallDeps) (ic : Context) (v : VM)
    (hElem method args : Element) (f1 f2 : Int) (rest : List Element) :
    contractCallEx C K ic
        { v with estack := hElem :: method :: args :: Element.integer f1 :: rest } =
      contractCallEx C K ic
        { v with estack := hElem :: method :: args :: Element.integer f2 :: rest } ∧
    contractCallEx C K ic
        { v with estack := hElem :: method :: args :: Element.integer f1 :: rest } =
      contractCall C K ic { v with estack := hElem :: method :: args :: rest } ∧
    ∀ (h : List Nat) (v0 : VM), contractCallExInternal C K ic v0 h method args f1 =
      contractCallExInternal C K ic v0 h method args f2 := by
  refine ⟨?_, contractCallEx_eq C K ic v hElem method args f1 rest, fun _ _ => rfl⟩
  rw [contractCallEx_eq, contractCallEx_eq]

/-! ## C35: `blockGetTransaction` -/

/-- The function `blockGetTransaction` on a block handle and an integer: the range check is
made on the `int64` the integer converts to, and the indexing stays within the list. -/
theorem blockGetTransaction_eq (ic : Context) (v : VM) (p : Nat) (b : Block Nat) (i : Int)
    (rest : List Element) (hs : v.estack = Element.interop p :: Element.integer i :: rest)
    (hp : v.objects[p]? = some (HostObject.block b)) :
    blockGetTransaction ic v =
      if bigIntInt64 i < 0 ∨ bigIntInt64 i ≥ (b.Transactions.length : Int) then
        Outcome.done (some "wrong transaction index", ic, { v with estack := rest })
      else
        match b.Transactions[(bigIntInt64 i).toNat]? with
        | none => Outcome.crashed "index out of range"
        | some tx =>
          Outcome.done (none, ic,
            { v with
              estack := Element.interop v.objects.length :: rest
              objects := v.objects ++ [HostObject.transaction tx] }) := by
  unfold blockGetTransaction
  rw [VM.Pop_cons v _ _ hs]
  simp only [Outcome.done_bind, Element.asBlock, hp]
  rw [VM.Pop_cons { v with estack := Element.integer i :: rest } _ rest rfl]
  simp only [Outcome.done_bind, Element.BigInt]
  split_ifs with hr
  · rfl
  · cases hx : b.Transactions[(bigIntInt64 i).toNat]? with
    | none => rfl
    | some tx => rfl

/-- The indexing of `blockGetTransaction` stays within the list: past the range check the
index names a transaction. -/
theorem blockGetTransaction_index_ok (b : Block Nat) (i : Int)
    (hr : ¬ (bigIntInt64 i < 0 ∨ bigIntInt64 i ≥ (b.Transactions.length : Int))) :
    ∃ tx, b.Transactions[(bigIntInt64 i).toNat]? = some tx := by
  have hlt : (bigIntInt64 i).toNat < b.Transactions.length := by
    push_neg at hr
    omega
  exact ⟨b.Transactions[(bigIntInt64 i).toNat], List.getElem?_eq_getElem hlt⟩

/-- C35, the code at the index `2 ^ 64`: on the handle of the demo block, which has two
transactions, and the integer `2 ^ 64`, which is not below 2, `blockGetTransaction`
returns no error and pushes a handle of the transaction at index 0, because `Int64()` keeps
the low 64 bits of the integer. On the index 2 it fails with "wrong transaction index". -/
theorem blockGetTransaction_wraps_index :
    blockGetTransaction demoContext
        (demoBlockVM [Element.interop 0, Element.integer (2 ^ 64)]) =
      Outcome.done (none, demoContext,
        { demoBlockVM [Element.interop 1] with
          objects := [HostObject.block demoBlock, HostObject.transaction 3] }) ∧
    blockGetTransaction demoContext
        (demoBlockVM [Element.interop 0, Element.integer 2]) =
      Outcome.done (some "wrong transaction index", demoContext, demoBlockVM []) ∧
    demoBlock.Transactions[0]? = some 3 ∧ demoBlock.Transactions.length = 2 := by
  refine ⟨?_, ?_, rfl, rfl⟩
  · rw [blockGetTransaction_eq demoContext
      (demoBlockVM [Element.interop 0, Element.integer (2 ^ 64)]) 0 demoBlock (2 ^ 64) [] rfl rfl]
    rfl
  · rw [blockGetTransaction_eq demoContext
      (demoBlockVM [Element.interop 0, Element.integer 2]) 0 demoBlock 2 [] rfl rfl]
    rfl

/-! ## C40: `NewBlockFromTrimmedBytes` on a zero count -/

/-- A zero count ends `NewBlockFromTrimmedBytes` after the count: the block has the decoded
base and witness, and the error is the reader's. -/
theorem NewBlockFromTrimmedBytes_zero_steps {Tx : Type} (D : Deps Tx) (data : List Nat)
    (base : Base) (br1 br2 br3 br4 : BinReader) (sep : Nat) (script : Witness)
    (h1 : Base.zero.decodeHashableFields (NewBinReaderFromBuf data) = (base, br1))
    (h2 : br1.ReadB = (sep, br2)) (h3 : Witness.DecodeBinary br2 = (script, br3))
    (h4 : br3.ReadVarUint = (0, br4)) :
    NewBlockFromTrimmedBytes D data =
      Outcome.done (⟨{ base with Script := script }, ⟨0, 0⟩, [], true⟩, br4.Err) := by
  unfold NewBlockFromTrimmedBytes
  dsimp only
  rw [h1]
  dsimp only
  rw [h2]
  dsimp only
  rw [h3]
  dsimp only
  rw [h4]
  rfl

/-- A count whose predecessor does not fit an `int` makes `make` panic. -/
theorem NewBlockFromTrimmedBytes_big_steps {Tx : Type} (D : Deps Tx) (data : List Nat)
    (base : Base) (br1 br2 br3 br4 : BinReader) (sep n : Nat) (script : Witness)
    (h1 : Base.zero.decodeHashableFields (NewBinReaderFromBuf data) = (base, br1))
    (h2 : br1.ReadB = (sep, br2)) (h3 : Witness.DecodeBinary br2 = (script, br3))
    (h4 : br3.ReadVarUint = (n, br4)) (hn : n > 0) (hbig : 2 ^ 63 ≤ n - 1) :
    NewBlockFromTrimmedBytes D data = Outcome.crashed "makeslice: len out of range" := by
  unfold NewBlockFromTrimmedBytes
  dsimp only
  rw [h1]
  dsimp only
  rw [h2]
  dsimp only
  rw [h3]
  dsimp only
  rw [h4]
  dsimp only
  rw [if_pos hn, if_pos hbig]

/-- The steps of `NewBlockFromTrimmedBytes` on the bytes of a base, a separator byte, the
bytes of its witness and a zero count. -/
theorem NewBlockFromTrimmedBytes_zero_bytes {Tx : Type} (D : Deps Tx) (base : Base)
    (sep : Nat) (tail : List Nat) (hbase : base.WF) :
    NewBlockFromTrimmedBytes D
        (base.hashableBytes ++ (sep :: (base.Script.bytes ++ (0 :: tail)))) =
      Outcome.done (⟨base, ⟨0, 0⟩, [], true⟩, none) := by
  have h1 := Base.decodeHashableFields_bytes base Base.zero
    (sep :: (base.Script.bytes ++ (0 :: tail))) hbase
  have h3 := Witness_DecodeBinary_bytes base.Script (0 :: tail) hbase.2.2.2.2.2.2.1
    hbase.2.2.2.2.2.2.2
  rw [NewBlockFromTrimmedBytes_zero_steps D _ _ _ _ _ ⟨tail, none⟩ (sep % 256) base.Script h1
    (BinReader.ReadB_cons sep _) h3 rfl]

/-- Every block `NewBlockFromTrimmedBytes` returns has `Trimmed = true`. -/
theorem NewBlockFromTrimmedBytes_Trimmed {Tx : Type} (D : Deps Tx) (data : List Nat)
    (blk : Block Tx) (err : Option String)
    (hrun : NewBlockFromTrimmedBytes D data = Outcome.done (blk, err)) : blk.Trimmed = true := by
  rcases h1 : Base.zero.decodeHashableFields (NewBinReaderFromBuf data) with ⟨base, br1⟩
  rcases h2 : br1.ReadB with ⟨sep, br2⟩
  rcases h3 : Witness.DecodeBinary br2 with ⟨script, br3⟩
  rcases h4 : br3.ReadVarUint with ⟨n, br4⟩
  by_cases hn : n > 0
  · by_cases hbig : 2 ^ 63 ≤ n - 1
    · rw [NewBlockFromTrimmedBytes_big_steps D data base br1 br2 br3 br4 sep n script h1 h2 h3
        h4 hn hbig] at hrun
      cases hrun
    · rcases h5 : Uint256.DecodeBinary br4 with ⟨cdh, br5⟩
      rcases h6 : decodeTrimmedTxs D (toInt64 (n - 1)).toNat br5 with ⟨txes, br6⟩
      rcases h7 : ConsensusData.DecodeBinary br6 with ⟨cd, br7⟩
      rw [NewBlockFromTrimmedBytes_of_steps D data base br1 br2 br3 br4 br5 br6 br7 sep n cdh
        script txes cd h1 h2 h3 h4 hn h5 hbig h6 h7] at hrun
      cases hrun
      rfl
  · have h0 : n = 0 := by omega
    subst h0
    rw [NewBlockFromTrimmedBytes_zero_steps D data base br1 br2 br3 br4 sep script h1 h2 h3 h4]
      at hrun
    cases hrun
    rfl

/-- The function `NewBlockFromTrimmedBytes` uses of its parameters only `NewTrimmedTX`:
neither the hashes nor the Merkle tree that `Verify` computes enter the result. -/
theorem NewBlockFromTrimmedBytes_deps {Tx : Type} (D D1 : Deps Tx) (data : List Nat)
    (hsame : D.NewTrimmedTX = D1.NewTrimmedTX) :
    NewBlockFromTrimmedBytes D data = NewBlockFromTrimmedBytes D1 data := by
  have hloop : decodeTrimmedTxs D = decodeTrimmedTxs D1 := by
    funext n
    induction n with
    | zero => funext br; rfl
    | succ n ih => funext br; simp only [decodeTrimmedTxs, ih, hsame]
  unfold NewBlockFromTrimmedBytes
  rw [hloop]

/-- The reader after the hashable fields does not depend on the base the fields are stored
in. -/
theorem Base.decodeHashableFields_reader (b b0 : Base) (br : BinReader) :
    (b.decodeHashableFields br).2 = (b0.decodeHashableFields br).2 := rfl

/-- C40: for every trimmed byte string whose hashable fields, separator byte and witness
decode and whose `contentsCount` reads as 0 without a reader error,
`NewBlockFromTrimmedBytes` returns no error and a block with `Trimmed = true`, no
transactions and zero consensus data; the bytes after the count are not read (on the bytes
of a base, a separator, its witness and a zero count the result is the same whatever
follows); `Block.DecodeBinary` on the same bytes ends with the error "invalid block
format"; every block `NewBlockFromTrimmedBytes` returns has `Trimmed = true`; and `Verify`
is not run: the hashes and the tree construction do not enter the result. -/
theorem NewBlockFromTrimmedBytes_zero_contentsCount {Tx : Type} (D : Deps Tx)
    (data : List Nat) (base : Base) (br1 br2 br3 br4 : BinReader) (sep : Nat)
    (script : Witness)
    (h1 : Base.zero.decodeHashableFields (NewBinReaderFromBuf data) = (base, br1))
    (h2 : br1.ReadB = (sep, br2)) (h3 : Witness.DecodeBinary br2 = (script, br3))
    (h4 : br3.ReadVarUint = (0, br4)) (hok : br4.Err = none) :
    NewBlockFromTrimmedBytes D data =
      Outcome.done (⟨{ base with Script := script }, ⟨0, 0⟩, [], true⟩, none) ∧
    (∀ (b : Base) (s : Nat) (tail : List Nat), b.WF →
      NewBlockFromTrimmedBytes D (b.hashableBytes ++ (s :: (b.Script.bytes ++ (0 :: tail)))) =
        Outcome.done (⟨b, ⟨0, 0⟩, [], true⟩, none)) ∧
    (∀ b0 : Block Tx, ∃ b1 br, b0.DecodeBinary D (NewBinReaderFromBuf data) =
      Outcome.done (b1, br) ∧ br.Err = some errInvalidBlockFormat) ∧
    (∀ (input : List Nat) (blk : Block Tx) (err : Option String),
      NewBlockFromTrimmedBytes D input = Outcome.done (blk, err) → blk.Trimmed = true) ∧
    (∀ (input : List Nat) (Hash : Tx → Nat) (cdHash : ConsensusData → Nat)
      (NewMerkleTree : List Nat → Except String Nat),
      NewBlockFromTrimmedBytes
          { D with Hash := Hash, cdHash := cdHash, NewMerkleTree := NewMerkleTree } input =
        NewBlockFromTrimmedBytes D input) := by
  refine ⟨?_, ?_, ?_, ?_, ?_⟩
  · rw [NewBlockFromTrimmedBytes_zero_steps D data base br1 br2 br3 br4 sep script h1 h2 h3 h4,
      hok]
  · intro b s tail hb
    exact NewBlockFromTrimmedBytes_zero_bytes D b s tail hb
  · intro b0
    have hr : (b0.Base.DecodeBinary (NewBinReaderFromBuf data)).2 = br3 := by
      have e1 := Base.decodeHashableFields_reader b0.Base Base.zero (NewBinReaderFromBuf data)
      rw [h1] at e1
      simp only [Base.DecodeBinary]
      rw [show (b0.Base.decodeHashableFields (NewBinReaderFromBuf data)) =
        ((b0.Base.decodeHashableFields (NewBinReaderFromBuf data)).1, br1) from
          Prod.ext rfl e1]
      simp only [h2, h3]
    have hzero : (b0.Base.DecodeBinary (NewBinReaderFromBuf data)).2.ReadVarUint.1 = 0 := by
      rw [hr, h4]
    exact ⟨_, _, Block_DecodeBinary_zero_count D b0 _ hzero, rfl⟩
  · intro input blk err hrun
    exact NewBlockFromTrimmedBytes_Trimmed D input blk err hrun
  · intro input Hash cdHash NewMerkleTree
    exact NewBlockFromTrimmedBytes_deps _ D input rfl

theorem demoBlock_Base_WF : demoBlock.Base.WF := by
  refine ⟨by decide, by decide, by decide, by decide, by decide, by decide, ?_, ?_⟩ <;>
    exact ⟨by decide, by decide⟩

/-- C40 on the bytes of the base of the demo block, a separator, its witness and a zero
count: a block is returned without error on which `Verify` does not pass. -/
theorem NewBlockFromTrimmedBytes_zero_contentsCount_witness :
    (⟨demoBlock.Base, ⟨0, 0⟩, [], true⟩ : Block Nat).Verify demoDeps = some errMerkleMismatch ∧
    NewBlockFromTrimmedBytes demoDeps
        (demoBlock.Base.hashableBytes ++ (1 :: (demoBlock.Base.Script.bytes ++ [0]))) =
      Outcome.done (⟨{ ({ demoBlock.Base with Script := Base.zero.Script } : Base) with
        Script := demoBlock.Base.Script }, ⟨0, 0⟩, [], true⟩, none) ∧
    (∀ (b : Base) (s : Nat) (tail : List Nat), b.WF →
      NewBlockFromTrimmedBytes demoDeps
          (b.hashableBytes ++ (s :: (b.Script.bytes ++ (0 :: tail)))) =
        Outcome.done (⟨b, ⟨0, 0⟩, [], true⟩, none)) ∧
    (∀ b0 : Block Nat, ∃ b1 br, b0.DecodeBinary demoDeps (NewBinReaderFromBuf
        (demoBlock.Base.hashableBytes ++ (1 :: (demoBlock.Base.Script.bytes ++ [0])))) =
      Outcome.done (b1, br) ∧ br.Err = some errInvalidBlockFormat) ∧
    (∀ (input : List Nat) (blk : Block Nat) (err : Option String),
      NewBlockFromTrimmedBytes demoDeps input = Outcome.done (blk, err) → blk.Trimmed = true) ∧
    (∀ (input : List Nat) (Hash : Nat → Nat) (cdHash : ConsensusData → Nat)
      (NewMerkleTree : List Nat → Except String Nat),
      NewBlockFromTrimmedBytes
          { demoDeps with Hash := Hash, cdHash := cdHash, NewMerkleTree := NewMerkleTree }
          input =
        NewBlockFromTrimmedBytes demoDeps input) :=
  ⟨rfl, NewBlockFromTrimmedBytes_zero_contentsCount demoDeps
    (demoBlock.Base.hashableBytes ++ (1 :: (demoBlock.Base.Script.bytes ++ [0])))
    { demoBlock.Base with Script := Base.zero.Script }
    ⟨1 :: (demoBlock.Base.Script.bytes ++ [0]), none⟩
    ⟨demoBlock.Base.Script.bytes ++ [0], none⟩ ⟨[0], none⟩ ⟨[], none⟩ (1 % 256)
    demoBlock.Base.Script
    (Base.decodeHashableFields_bytes demoBlock.Base Base.zero _ demoBlock_Base_WF)
    (BinReader.ReadB_cons 1 _)
    (Witness_DecodeBinary_bytes demoBlock.Base.Script [0] demoBlock_Base_WF.2.2.2.2.2.2.1
      demoBlock_Base_WF.2.2.2.2.2.2.2)
    rfl rfl⟩

/-! ## C32, C33: the network fee -/

theorem wrapInt64_of_range (z : Int) (h1 : -(2 ^ 63) ≤ z) (h2 : z < 2 ^ 63) : wrapInt64 z = z := by
  unfold wrapInt64
  omega

theorem opcodePrice_one (F : FeeDeps) (hF : F.WF) (op : Nat) : opcodePrice F [op] = F.prices op := by
  have h := hF.1 op
  simp only [opcodePrice, List.foldl, Fixed8.Add, zero_add]
  exact wrapInt64_of_range _ (by omega) (by omega)

theorem opcodePrice_two (F : FeeDeps) (hF : F.WF) (op1 op2 : Nat) :
    opcodePrice F [op1, op2] = F.prices op1 + F.prices op2 := by
  have h1 := hF.1 op1
  have h2 := hF.1 op2
  simp only [opcodePrice, List.foldl, Fixed8.Add, zero_add]
  rw [wrapInt64_of_range (F.prices op1) (by omega) (by omega)]
  exact wrapInt64_of_range _ (by omega) (by omega)

/-- The function `calculateMultisigFee` on a count below `2 ^ 16`: the price of `PUSHDATA1`
times the count plus the price of the opcode that pushes the count. -/
theorem calculateMultisigFee_eq (F : FeeDeps) (hF : F.WF) (n : Int) (h0 : 0 ≤ n)
    (hn : n < 2 ^ 16) :
    calculateMultisigFee F n = F.prices F.PUSHDATA1 * n + F.prices (F.emitInt n) ∧
      0 ≤ F.prices F.PUSHDATA1 * n ∧ F.prices F.PUSHDATA1 * n < 2 ^ 48 := by
  have h1 := hF.1 F.PUSHDATA1
  have h2 := hF.1 (F.emitInt n)
  have hlo : 0 ≤ F.prices F.PUSHDATA1 * n := Int.mul_nonneg h1.1 h0
  have hhi : F.prices F.PUSHDATA1 * n < 2 ^ 48 := by
    have hle : F.prices F.PUSHDATA1 * n ≤ (2 ^ 32 - 1) * (2 ^ 16 - 1) :=
      mul_le_mul (by omega) (by omega) h0 (by norm_num)
    calc F.prices F.PUSHDATA1 * n ≤ (2 ^ 32 - 1) * (2 ^ 16 - 1) := hle
      _ < 2 ^ 48 := by norm_num
  refine ⟨?_, hlo, hhi⟩
  simp only [calculateMultisigFee, Fixed8.Add, opcodePrice_one F hF]
  rw [wrapInt64_of_range (F.prices F.PUSHDATA1 * n) (by omega) (by omega)]
  exact wrapInt64_of_range _ (by omega) (by omega)

theorem demoFee_WF : demoFee.WF := by
  refine ⟨fun op => ?_, fun x => ?_⟩
  · simp only [demoFee]
    split_ifs <;> decide
  · simp only [demoFee]
    split_ifs <;> decide

/-- The multisig branch of `CalculateNetworkFee`, with the names of the code: `n` is the
first result of `ParseMultiSigContract` and `m` the number of public keys. -/
theorem CalculateNetworkFee_parse_eq (F : FeeDeps) (hF : F.WF) (script : List Nat) (n : Int)
    (pubs : List (List Nat)) (hsize : F.SizeOk script)
    (hsig : F.IsSignatureContract script = false)
    (hpar : F.ParseMultiSigContract script = some (n, pubs))
    (hn0 : 0 ≤ n) (hn : n < 2 ^ 16) (hm : pubs.length < 2 ^ 16) :
    CalculateNetworkFee F script =
      (F.prices F.PUSHDATA1 * (pubs.length : Int) + F.prices (F.emitInt (pubs.length : Int)) +
        (F.prices F.PUSHDATA1 * n + F.prices (F.emitInt n)) + F.prices F.PUSHNULL + 100000 * n,
       F.GetVarSizeInt (66 * (pubs.length : Int)) + 66 * (pubs.length : Int) +
        F.GetVarSizeBytes script) := by
  have hmi : ((pubs.length : Nat) : Int) < 2 ^ 16 := by exact_mod_cast hm
  have hm0 : (0 : Int) ≤ (pubs.length : Nat) := Int.ofNat_nonneg _
  obtain ⟨e1, l1, u1⟩ := calculateMultisigFee_eq F hF (pubs.length : Int) hm0 hmi
  obtain ⟨e2, l2, u2⟩ := calculateMultisigFee_eq F hF n hn0 hn
  have p1 := hF.1 (F.emitInt (pubs.length : Int))
  have p2 := hF.1 (F.emitInt n)
  have p3 := hF.1 F.PUSHNULL
  have s1 := hF.2 (66 * (pubs.length : Int))
  obtain ⟨s2, s3⟩ := hsize
  simp only [CalculateNetworkFee, hsig, hpar, Bool.false_eq_true, if_false, e1, e2,
    opcodePrice_one F hF, Fixed8.Add, ecdsaVerifyInteropPrice, zero_add]
  rw [wrapInt64_of_range (66 * (pubs.length : Int)) (by omega) (by omega)]
  rw [wrapInt64_of_range (F.GetVarSizeInt _ + _) (by omega) (by omega)]
  rw [wrapInt64_of_range (F.GetVarSizeInt _ + _ + _) (by omega) (by omega)]
  rw [wrapInt64_of_range (F.GetVarSizeInt _ + _ + _) (by omega) (by omega)]
  rw [wrapInt64_of_range (F.prices F.PUSHDATA1 * _ + _) (by omega) (by omega)]
  rw [wrapInt64_of_range (F.prices F.PUSHDATA1 * _ + _ + _) (by omega) (by omega)]
  rw [wrapInt64_of_range (F.prices F.PUSHDATA1 * _ + _ + _ + _) (by omega) (by omega)]
  rw [wrapInt64_of_range (100000 * n) (by omega) (by omega)]
  rw [wrapInt64_of_range _ (by omega) (by omega)]

/-- C32 as amended: for every m-of-n multisig verification script (`m` required signatures,
`n` public keys, both below `2 ^ 16`, prices and sizes within their ranges),
`CalculateNetworkFee` returns the fee `m * price(PUSHDATA1) + price(op m) +
n * price(PUSHDATA1) + price(op n) + price(PUSHNULL) + k * 100000` and the size
`varSize(66 * s) + 66 * s + varSize(script)`, where `op x` is the opcode `emit.Int` writes
for `x` and `s` and `k` are each one of `m` and `n`. -/
theorem CalculateNetworkFee_multisig (F : FeeDeps) (hF : F.WF) (script : List Nat) (m : Int)
    (pubs : List (List Nat)) (hsize : F.SizeOk script)
    (hsig : F.IsSignatureContract script = false)
    (hpar : F.ParseMultiSigContract script = some (m, pubs))
    (hm0 : 0 ≤ m) (hm : m < 2 ^ 16) (hn : pubs.length < 2 ^ 16) :
    ∃ s k : Int, (s = m ∨ s = (pubs.length : Int)) ∧ (k = m ∨ k = (pubs.length : Int)) ∧
      CalculateNetworkFee F script =
        (m * F.prices F.PUSHDATA1 + F.prices (F.emitInt m) +
          (pubs.length : Int) * F.prices F.PUSHDATA1 + F.prices (F.emitInt (pubs.length : Int)) +
          F.prices F.PUSHNULL + k * 100000,
         F.GetVarSizeInt (66 * s) + 66 * s + F.GetVarSizeBytes script) := by
  refine ⟨(pubs.length : Int), m, Or.inr rfl, Or.inl rfl, ?_⟩
  rw [CalculateNetworkFee_parse_eq F hF script m pubs hsize hsig hpar hm0 hm hn]
  refine Prod.ext ?_ rfl
  simp only
  ring

theorem CalculateNetworkFee_multisig_witness :
    ∃ s k : Int, (s = 2 ∨ s = (([[7], [8]] : List (List Nat)).length : Int)) ∧
      (k = 2 ∨ k = (([[7], [8]] : List (List Nat)).length : Int)) ∧
      CalculateNetworkFee demoFee [2, 7, 8] =
        (2 * demoFee.prices demoFee.PUSHDATA1 + demoFee.prices (demoFee.emitInt 2) +
          (([[7], [8]] : List (List Nat)).length : Int) * demoFee.prices demoFee.PUSHDATA1 +
          demoFee.prices (demoFee.emitInt (([[7], [8]] : List (List Nat)).length : Int)) +
          demoFee.prices demoFee.PUSHNULL + k * 100000,
         demoFee.GetVarSizeInt (66 * s) + 66 * s + demoFee.GetVarSizeBytes [2, 7, 8]) :=
  CalculateNetworkFee_multisig demoFee demoFee_WF [2, 7, 8] 2 [[7], [8]] (by decide) rfl rfl
    (by decide) (by decide) (by decide)

/-- C32 as stated fails on a 2-of-2 multisig script: in the demo instance, where `PUSHDATA1`
costs 180 and every other opcode 30, the script `[2, 7, 8]` has 2 required signatures and
2 public keys; the claimed fee is `2 * 180 + 2 * 180 + 30 + 2 * 100000 = 200750` and the
fee of the code is 200810, which has the price of the opcode pushing 2 twice more. -/
theorem CalculateNetworkFee_multisig_counterexample :
    demoFee.IsSignatureContract [2, 7, 8] = false ∧
    demoFee.ParseMultiSigContract [2, 7, 8] = some (2, [[7], [8]]) ∧
    2 * demoFee.prices demoFee.PUSHDATA1 + 2 * demoFee.prices demoFee.PUSHDATA1 +
      demoFee.prices demoFee.PUSHNULL + 2 * 100000 = 200750 ∧
    (CalculateNetworkFee demoFee [2, 7, 8]).1 = 200810 ∧
    ¬ ((CalculateNetworkFee demoFee [2, 7, 8]).1 =
      2 * demoFee.prices demoFee.PUSHDATA1 + 2 * demoFee.prices demoFee.PUSHDATA1 +
        demoFee.prices demoFee.PUSHNULL + 2 * 100000) := by
  have hfee : (CalculateNetworkFee demoFee [2, 7, 8]).1 = 200810 := by
    rw [CalculateNetworkFee_parse_eq demoFee demoFee_WF [2, 7, 8] 2 [[7], [8]] (by decide)
      rfl rfl (by decide) (by decide) (by decide)]
    decide
  refine ⟨rfl, rfl, rfl, hfee, ?_⟩
  rw [hfee]
  decide

/-- C33: for every script that is a signature contract (prices and the size of the script
within their ranges), `CalculateNetworkFee` returns the size `67 + varSize(script)` and the
fee `opcodePrice(PUSHDATA1, PUSHNULL) + 100000`, the sum of the two opcode prices and the
ECDSA-verify price; for every script that is neither a signature contract nor a multisig
contract it returns the fee 0 and the size 0. -/
theorem CalculateNetworkFee_signature (F : FeeDeps) (hF : F.WF) (script other : List Nat)
    (hsize : F.SizeOk script) (hsig : F.IsSignatureContract script = true)
    (hnosig : F.IsSignatureContract other = false)
    (hnomulti : F.ParseMultiSigContract other = none) :
    CalculateNetworkFee F script =
      (opcodePrice F [F.PUSHDATA1, F.PUSHNULL] + ecdsaVerifyInteropPrice,
       67 + F.GetVarSizeBytes script) ∧
    opcodePrice F [F.PUSHDATA1, F.PUSHNULL] = F.prices F.PUSHDATA1 + F.prices F.PUSHNULL ∧
    ecdsaVerifyInteropPrice = 100000 ∧
    CalculateNetworkFee F other = (0, 0) := by
  have p1 := hF.1 F.PUSHDATA1
  have p2 := hF.1 F.PUSHNULL
  obtain ⟨s1, s2⟩ := hsize
  refine ⟨?_, opcodePrice_two F hF _ _, rfl, ?_⟩
  · simp only [CalculateNetworkFee, hsig, if_true, opcodePrice_two F hF, Fixed8.Add,
      ecdsaVerifyInteropPrice, zero_add]
    rw [wrapInt64_of_range (67 + F.GetVarSizeBytes script) (by omega) (by omega)]
    rw [wrapInt64_of_range (67 + F.GetVarSizeBytes script) (by omega) (by omega)]
    rw [wrapInt64_of_range (F.prices F.PUSHDATA1 + F.prices F.PUSHNULL + 100000) (by omega)
      (by omega)]
    rw [wrapInt64_of_range _ (by omega) (by omega)]
  · simp only [CalculateNetworkFee, hnosig, hnomulti, Bool.false_eq_true, if_false]

theorem CalculateNetworkFee_signature_witness :
    CalculateNetworkFee demoFee [1] =
      (opcodePrice demoFee [demoFee.PUSHDATA1, demoFee.PUSHNULL] + ecdsaVerifyInteropPrice,
       67 + demoFee.GetVarSizeBytes [1]) ∧
    opcodePrice demoFee [demoFee.PUSHDATA1, demoFee.PUSHNULL] =
      demoFee.prices demoFee.PUSHDATA1 + demoFee.prices demoFee.PUSHNULL ∧
    ecdsaVerifyInteropPrice = 100000 ∧
    CalculateNetworkFee demoFee [0] = (0, 0) :=
  CalculateNetworkFee_signature demoFee demoFee_WF [1] [0] (by decide) rfl rfl rfl

/-! ## C36: the names of the attribute usages -/

set_option maxRecDepth 100000 in
theorem AttrUsage_String_listed :
    ∀ p ∈ specAttrUsageNames, AttrUsage.String p.1 = Outcome.done p.2 := by
  decide

theorem specAttrUsageNames_nodup :
    (specAttrUsageNames.map Prod.snd).Nodup ∧ specAttrUsageNames.length = 38 := by
  decide

set_option maxRecDepth 100000 in
theorem AttrUsage_String_other :
    ∀ v, v < 256 → v ∉ specAttrUsageNames.map Prod.fst →
      AttrUsage.String v = Outcome.done ("AttrUsage(" ++ Nat.repr v ++ ")") := by
  decide

/-- C36: for every byte value `v`, `AttrUsage.String` returns, without exceeding a bound of
the name tables, the name the specification lists for `v` when it lists one (0
ContractHash, 2 ECDH02, 3 ECDH03, 48 Vote, 128 CertURL, 129 DescriptionURL, 144 Description,
161..175 Hash1..Hash15, 240 Remark, 241..255 Remark1..Remark15), and otherwise "AttrUsage("
followed by `v` in decimal and ")"; the 38 names are pairwise distinct. -/
theorem AttrUsage_String_spec (v : Nat) (hv : v < 256) :
    (∀ name, (v, name) ∈ specAttrUsageNames → AttrUsage.String v = Outcome.done name) ∧
    (v ∉ specAttrUsageNames.map Prod.fst →
      AttrUsage.String v = Outcome.done ("AttrUsage(" ++ Nat.repr v ++ ")")) ∧
    (specAttrUsageNames.map Prod.snd).Nodup ∧ specAttrUsageNames.length = 38 ∧
    ∃ s, AttrUsage.String v = Outcome.done s := by
  have hlisted : ∀ name, (v, name) ∈ specAttrUsageNames →
      AttrUsage.String v = Outcome.done name :=
    fun name hmem => AttrUsage_String_listed (v, name) hmem
  refine ⟨hlisted, AttrUsage_String_other v hv, specAttrUsageNames_nodup.1,
    specAttrUsageNames_nodup.2, ?_⟩
  by_cases hmem : v ∈ specAttrUsageNames.map Prod.fst
  · obtain ⟨p, hp, hpv⟩ := List.mem_map.mp hmem
    refine ⟨p.2, ?_⟩
    rw [← hpv]
    exact AttrUsage_String_listed p hp
  · exact ⟨_, AttrUsage_String_other v hv hmem⟩

theorem AttrUsage_String_spec_witness :
    (∀ name, (170, name) ∈ specAttrUsageNames → AttrUsage.String 170 = Outcome.done name) ∧
    (170 ∉ specAttrUsageNames.map Prod.fst →
      AttrUsage.String 170 = Outcome.done ("AttrUsage(" ++ Nat.repr 170 ++ ")")) ∧
    (specAttrUsageNames.map Prod.snd).Nodup ∧ specAttrUsageNames.length = 38 ∧
    ∃ s, AttrUsage.String 170 = Outcome.done s :=
  AttrUsage_String_spec 170 (by decide)

/-! ## C31: `runtimeNotify` -/

theorem stringBytes_append (s t : String) :
    stringBytes (s ++ t) = stringBytes s ++ stringBytes t := by
  simp only [stringBytes, String.toList, String.data_append, List.flatMap_append,
    List.map_append]

/-- C31: for every stack item `x` on top of the stack of a running script, `runtimeNotify`
returns no error and appends exactly one event at the end of the notifications, leaving the
earlier ones as they were; the script hash of the event is the current script hash; its
item is `x` when `SerializeItem(x)` succeeds, and otherwise a new byte array that spells
"bad notification: " followed by the error and so begins with "bad notification:". -/
theorem runtimeNotify_spec (T : TypeTags) (C : CoreDeps) (s : NotifyState) (x : Nat)
    (rest : List Nat) (cur : List Nat) (frames : List (List Nat))
    (hs : s.estack = x :: rest) (hi : s.istack = cur :: frames) :
    ∃ item, runtimeNotify T C s = Outcome.done (none,
        { s with estack := rest, Notifications := s.Notifications ++ [⟨C.hash160 cur, item⟩] }) ∧
      ((∃ bytes, SerializeItem T s.heap x = some (Except.ok bytes)) ∧ item = EventItem.item x ∨
       (∃ err tail, SerializeItem T s.heap x = some (Except.error err) ∧
          item = EventItem.newByteArray (stringBytes ("bad notification: " ++ err)) ∧
          item = EventItem.newByteArray (stringBytes "bad notification:" ++ tail))) := by
  obtain ⟨res, hres⟩ := SerializeItem_returns T s.heap x
  unfold runtimeNotify
  rw [hs, hi]
  simp only [hres]
  cases res with
  | ok bytes => exact ⟨_, rfl, Or.inl ⟨⟨bytes, rfl⟩, rfl⟩⟩
  | error err =>
    refine ⟨_, rfl, Or.inr ⟨err, stringBytes (" " ++ err), rfl, rfl, ?_⟩⟩
    rw [← stringBytes_append]
    rfl

theorem runtimeNotify_spec_witness :
    ∃ item, runtimeNotify (⟨40, 48, 32, 33, 64, 65, 72⟩ : TypeTags) demoCore demoNotifyState = Outcome.done (none,
        { demoNotifyState with
          estack := [1, 2]
          Notifications := demoNotifyState.Notifications ++ [⟨demoCore.hash160 [7], item⟩] }) ∧
      ((∃ bytes, SerializeItem (⟨40, 48, 32, 33, 64, 65, 72⟩ : TypeTags) demoNotifyState.heap 0 = some (Except.ok bytes)) ∧
          item = EventItem.item 0 ∨
       (∃ err tail, SerializeItem (⟨40, 48, 32, 33, 64, 65, 72⟩ : TypeTags) demoNotifyState.heap 0 = some (Except.error err) ∧
          item = EventItem.newByteArray (stringBytes ("bad notification: " ++ err)) ∧
          item = EventItem.newByteArray (stringBytes "bad notification:" ++ tail))) :=
  runtimeNotify_spec (⟨40, 48, 32, 33, 64, 65, 72⟩ : TypeTags) demoCore demoNotifyState 0 [1, 2] [7] [] rfl rfl

/-! ## C38: the decoder on a count of `2 ^ 63` or more -/

/-- C38, the code at an Array header with the count `2 ^ 64 - 1`: with the type bytes of
the repository (`ArrayT` is 64, `MapT` is 72), `DeserializeItem` panics in `make` on the
ten bytes `64, 255, 255, ..., 255`, because `int(r.ReadVarUint())` is -1 there; on the same
count after the Map type byte it returns an empty map. -/
theorem DeserializeItem_count_panics :
    DeserializeItem ⟨40, 48, 32, 33, 64, 65, 72⟩ (64 :: 255 :: List.replicate 8 255) =
      Outcome.crashed "makeslice: len out of range" ∧
    DeserializeItem ⟨40, 48, 32, 33, 64, 65, 72⟩ (72 :: 255 :: List.replicate 8 255) =
      Outcome.done (Except.ok (Item.map [])) := by
  constructor <;> rfl

/-! ## C37: an object reached twice -/

theorem PathTo.reach {h : Heap} {a c : Nat} {p : List Nat} (hp : PathTo h a p c) :
    Reach h a c := by
  induction hp with
  | here a => exact Relation.ReflTransGen.refl
  | step a i b p c hb _ ih =>
    exact Relation.ReflTransGen.head (List.getElem?_mem hb) ih

theorem serializePairs_eq_serializeElems
    (f : Nat → BinWriter → List Nat → Option (BinWriter × List Nat)) :
    ∀ (m : List (Nat × Nat)) (w : BinWriter) (seen : List Nat),
      serializePairs f m w seen = serializeElems f (m.flatMap fun p => [p.1, p.2]) w seen := by
  intro m
  induction m with
  | nil => intro w seen; rfl
  | cons kv rest ih =>
    intro w seen
    obtain ⟨k, v⟩ := kv
    simp only [serializePairs, List.flatMap_cons, List.cons_append, List.nil_append,
      serializeElems]
    cases f k w seen with
    | none => rfl
    | some r1 =>
      obtain ⟨w1, s1⟩ := r1
      simp only
      cases f v w1 s1 with
      | none => rfl
      | some r2 =>
        obtain ⟨w2, s2⟩ := r2
        exact ih w2 s2

/-- An item without elements that is no container has unique paths. -/
theorem uniquePaths_leaf {h : Heap} {item : Nat} (hc : children h item = [])
    (hn : isContainer h item = false) : UniquePaths h item := by
  intro c p q hcon hp _
  cases hp with
  | here => rw [hn] at hcon; cases hcon
  | step _ i b p c hb _ => rw [hc] at hb; simp at hb

/-- The loop over the elements of a container, when it ends without error: every element
has unique paths, no container below an element was marked before the loop, and no
container is below two elements. -/
theorem serializeElems_unique {h : Heap}
    {f : Nat → BinWriter → List Nat → Option (BinWriter × List Nat)} (hf : SerSpec h f)
    (hP : ∀ a w s w' s', f a w s = some (w', s') → w'.Err = none → UniquePaths h a) :
    ∀ (l : List Nat) (w : BinWriter) (seen : List Nat) (w' : BinWriter) (seen' : List Nat),
      serializeElems f l w seen = some (w', seen') → w'.Err = none →
      (∀ (i : Nat) b, l[i]? = some b → UniquePaths h b) ∧
      (∀ (i : Nat) b c, l[i]? = some b → Reach h b c → isContainer h c = true → c ∉ seen) ∧
      (∀ (i j : Nat) bi bj c, i < j → l[i]? = some bi → l[j]? = some bj → Reach h bi c →
        Reach h bj c → isContainer h c = true → False) := by
  intro l
  induction l with
  | nil =>
    intro w seen w' seen' _ _
    refine ⟨?_, ?_, ?_⟩
    · intro i b hb; simp at hb
    · intro i b c hb; simp at hb
    · intro i j bi bj c _ hb; simp at hb
  | cons a rest ih =>
    intro w seen w' seen' hrun hnone
    simp only [serializeElems] at hrun
    cases hfa : f a w seen with
    | none => simp [hfa] at hrun
    | some r =>
      obtain ⟨w1, s1⟩ := r
      simp only [hfa] at hrun
      obtain ⟨hsub1, _, hvis1, _, _⟩ := hf a w seen w1 s1 hfa
      obtain ⟨_, hst2, _, _⟩ := serializeElems_spec hf rest w1 s1 w' seen' hrun
      have hnone1 : w1.Err = none := hst2 hnone
      obtain ⟨ih1, ih2, ih3⟩ := ih w1 s1 w' seen' hrun hnone
      refine ⟨?_, ?_, ?_⟩
      · intro i b hb
        cases i with
        | zero =>
          simp only [List.getElem?_cons_zero, Option.some.injEq] at hb
          subst hb
          exact hP a w seen w1 s1 hfa hnone1
        | succ k =>
          simp only [List.getElem?_cons_succ] at hb
          exact ih1 k b hb
      · intro i b c hb hr hc
        cases i with
        | zero =>
          simp only [List.getElem?_cons_zero, Option.some.injEq] at hb
          subst hb
          exact ((hvis1 hnone1 c hr).2 hc).1
        | succ k =>
          simp only [List.getElem?_cons_succ] at hb
          exact fun hmem => ih2 k b c hb hr hc (hsub1 hmem)
      · intro i j bi bj c hij hbi hbj hri hrj hc
        cases j with
        | zero => omega
        | succ l =>
          simp only [List.getElem?_cons_succ] at hbj
          cases i with
          | zero =>
            simp only [List.getElem?_cons_zero, Option.some.injEq] at hbi
            subst hbi
            exact ih2 l bj c hbj hrj hc ((hvis1 hnone1 c hri).2 hc).2
          | succ k =>
            simp only [List.getElem?_cons_succ] at hbi
            exact ih3 k l bi bj c (by omega) hbi hbj hri hrj hc

/-- A container whose loop over the elements ended without error has unique paths. -/
theorem uniquePaths_container {h : Heap} {item : Nat} {seen : List Nat}
    (hloop : (∀ (i : Nat) b, (children h item)[i]? = some b → UniquePaths h b) ∧
      (∀ (i : Nat) b c, (children h item)[i]? = some b → Reach h b c →
        isContainer h c = true → c ∉ item :: seen) ∧
      (∀ (i j : Nat) bi bj c, i < j → (children h item)[i]? = some bi →
        (children h item)[j]? = some bj → Reach h bi c → Reach h bj c →
        isContainer h c = true → False)) :
    UniquePaths h item := by
  obtain ⟨l1, l2, l3⟩ := hloop
  intro c p q hc hp hq
  cases hp with
  | here =>
    cases hq with
    | here => rfl
    | step _ j b q c hb hq1 =>
      exact absurd (List.mem_cons_self _ _) (l2 j b item hb hq1.reach hc)
  | step _ i b p c hb hp1 =>
    cases hq with
    | here => exact absurd (List.mem_cons_self _ _) (l2 i b item hb hp1.reach hc)
    | step _ j b1 q c hb1 hq1 =>
      rcases Nat.lt_trichotomy i j with hlt | heq | hgt
      · exact (l3 i j b b1 c hlt hb hb1 hp1.reach hq1.reach hc).elim
      · subst heq
        rw [hb] at hb1
        cases hb1
        rw [l1 i b hb c p q hc hp1 hq1]
      · exact (l3 j i b1 b c hgt hb1 hb hq1.reach hp1.reach hc).elim

/-- A traversal that ends without error went through an item with unique paths. -/
theorem serializeItemTo_unique (T : TypeTags) (h : Heap) :
    ∀ (fuel item : Nat) (w : BinWriter) (seen : List Nat) (w' : BinWriter) (seen' : List Nat),
      serializeItemTo T h fuel item w seen = some (w', seen') → w'.Err = none →
      UniquePaths h item := by
  intro fuel
  induction fuel with
  | zero => intro item w seen w' seen' hrun; simp [serializeItemTo] at hrun
  | succ fuel ih =>
    intro item w seen w' seen' hrun hnone
    unfold serializeItemTo at hrun
    split_ifs at hrun with hseen
    · simp only [Option.some.injEq, Prod.mk.injEq] at hrun
      rw [← hrun.1] at hnone
      simp at hnone
    · split at hrun
      all_goals rename_i hnode
      · exact uniquePaths_leaf (by simp [children, hnode]) (by simp [isContainer, hnode])
      · exact uniquePaths_leaf (by simp [children, hnode]) (by simp [isContainer, hnode])
      · exact uniquePaths_leaf (by simp [children, hnode]) (by simp [isContainer, hnode])
      · exact uniquePaths_leaf (by simp [children, hnode]) (by simp [isContainer, hnode])
      · exact uniquePaths_leaf (by simp [children, hnode]) (by simp [isContainer, hnode])
      · exact uniquePaths_leaf (by simp [children, hnode]) (by simp [isContainer, hnode])
      · rename_i arr
        have hch : children h item = arr := by simp only [children, hnode]
        exact uniquePaths_container
          (hch ▸ serializeElems_unique (serializeItemTo_spec T h fuel) ih _ _ _ _ _ hrun hnone)
      · rename_i arr
        have hch : children h item = arr := by simp only [children, hnode]
        exact uniquePaths_container
          (hch ▸ serializeElems_unique (serializeItemTo_spec T h fuel) ih _ _ _ _ _ hrun hnone)
      · rename_i m
        have hch : children h item = m.flatMap fun p => [p.1, p.2] := by
          simp only [children, hnode]
        rw [serializePairs_eq_serializeElems] at hrun
        exact uniquePaths_container
          (hch ▸ serializeElems_unique (serializeItemTo_spec T h fuel) ih _ _ _ _ _ hrun hnone)

/-- C37 as amended: `SerializeItem` fails on every item in which the same Array, Struct or
Map object is reached twice (along two different paths), even when the item graph is
acyclic; the error is "recursive structures can't be serialized" when no Interop item is
the item or is contained in it. -/
theorem SerializeItem_reached_twice_fails (T : TypeTags) (h : Heap) (item : Nat)
    (htwice : ReachedTwice h item) :
    ∃ e, SerializeItem T h item = some (Except.error e) ∧
      ((∀ b, Reach h item b → h[b]? ≠ some Node.interop) → e = errRecursive) := by
  obtain ⟨⟨w, s⟩, hr⟩ := serializeItemTo_isSome T h (h.length + 1) item NewBufBinWriter []
    (Nat.lt_succ_of_le (unseen_le_length h []))
  obtain ⟨_, _, _, herr, _⟩ := serializeItemTo_spec T h _ item _ _ w s hr
  have hne : w.Err ≠ none := by
    intro hnone
    obtain ⟨c, p, q, hc, hpq, hp, hq⟩ := htwice
    exact hpq (serializeItemTo_unique T h _ item _ _ w s hr hnone c p q hc hp hq)
  obtain ⟨e, he⟩ := Option.ne_none_iff_exists'.mp hne
  refine ⟨e, ?_, ?_⟩
  · simp only [SerializeItem, EncodeBinaryStackItem, hr, Option.map_some', he]
  · intro hno
    rcases herr hno (Or.inl rfl) with h1 | h1
    · exact absurd h1 hne
    · rw [he] at h1
      exact Option.some.inj h1

/-- C37 as amended at the array `[a, a]` whose two elements are one and the same empty
array. -/
theorem SerializeItem_reached_twice_fails_witness :
    ReachedTwice [Node.array [1, 1], Node.array []] 0 ∧
    ∃ e, SerializeItem ⟨40, 48, 32, 33, 64, 65, 72⟩ [Node.array [1, 1], Node.array []] 0 =
        some (Except.error e) ∧
      ((∀ b, Reach [Node.array [1, 1], Node.array []] 0 b →
          [Node.array [1, 1], Node.array []][b]? ≠ some Node.interop) → e = errRecursive) :=
  have htwice : ReachedTwice [Node.array [1, 1], Node.array []] 0 :=
    ⟨1, [0], [1], rfl, by decide, PathTo.step 0 0 1 [] 1 rfl (PathTo.here 1),
      PathTo.step 0 1 1 [] 1 rfl (PathTo.here 1)⟩
  ⟨htwice, SerializeItem_reached_twice_fails ⟨40, 48, 32, 33, 64, 65, 72⟩
    [Node.array [1, 1], Node.array []] 0 htwice⟩

/-- C37 as stated fails on the array `[a, a, x]` of twice the same empty array `a` and an
Interop item `x`: the traversal sets the re-entry error at the second `a` and goes on to
`x`, where the error is set anew, so `SerializeItem` fails with "interop item can't be
serialized". -/
theorem SerializeItem_reached_twice_counterexample :
    ReachedTwice [Node.array [1, 1, 2], Node.array [], Node.interop] 0 ∧
    SerializeItem ⟨40, 48, 32, 33, 64, 65, 72⟩
        [Node.array [1, 1, 2], Node.array [], Node.interop] 0 =
      some (Except.error errInterop) ∧
    errInterop ≠ errRecursive :=
  ⟨⟨1, [0], [1], rfl, by decide, PathTo.step 0 0 1 [] 1 rfl (PathTo.here 1),
      PathTo.step 0 1 1 [] 1 rfl (PathTo.here 1)⟩, rfl, by decide⟩

/-! ## C34: the genesis block -/

theorem unixTime_genesis : unixTime 2016 7 15 15 8 21 = 1468595301 := by decide

theorem getValidators_length (G : GenesisDeps) :
    ∀ (cfg : List String) (validators : List (List Nat)),
      getValidators G cfg = Except.ok validators → validators.length = cfg.length := by
  intro cfg
  induction cfg with
  | nil =>
    intro validators hv
    simp only [getValidators, Except.ok.injEq] at hv
    rw [← hv]
    rfl
  | cons s rest ih =>
    intro validators hv
    simp only [getValidators] at hv
    cases hk : G.NewPublicKeyFromString s with
    | error e => simp [hk] at hv
    | ok k =>
      simp only [hk] at hv
      cases hr : getValidators G rest with
      | error e => simp [hr] at hv
      | ok ks =>
        simp only [hr, Except.ok.injEq] at hv
        rw [← hv, List.length_cons, List.length_cons, ih ks hr]

theorem getNextConsensusAddress_eq (G : GenesisDeps) (validators : List (List Nat))
    (raw : List Nat) (hn : 1 ≤ validators.length)
    (hredeem : G.CreateMultiSigRedeemScript
      ((validators.length - (validators.length - 1) / 3 : Nat) : Int) validators =
        Except.ok raw) :
    getNextConsensusAddress G validators = Except.ok (G.Hash160 raw) := by
  have hm : ((validators.length : Int) - ((validators.length : Int) - 1).tdiv 3) =
      ((validators.length - (validators.length - 1) / 3 : Nat) : Int) := by
    rw [Int.tdiv_eq_ediv (by omega) (by decide)]
    omega
  simp only [getNextConsensusAddress, hm, hredeem]

/-- After `RebuildMerkleRoot` on a block of one transaction, `Verify` passes. -/
theorem Block_RebuildMerkleRoot_Verify {Tx : Type} (D : Deps Tx) (b : Block Tx) (tx : Tx)
    (htx : b.Transactions = [tx])
    (hM : ∀ l, l ≠ [] → ∃ root, D.NewMerkleTree l = Except.ok root) :
    ∃ root, b.RebuildMerkleRoot D =
        Except.ok { b with Base := { b.Base with MerkleRoot := root } } ∧
      ({ b with Base := { b.Base with MerkleRoot := root } } : Block Tx).Verify D = none := by
  obtain ⟨root, hroot⟩ := hM (b.merkleHashes D) (List.cons_ne_nil _ _)
  refine ⟨root, ?_, ?_⟩
  · simp only [Block.RebuildMerkleRoot, Block.computeMerkleTree, hroot]
  · have hdup : verifyDuplicates D b.Transactions [] = false := by
      simp only [htx, verifyDuplicates, List.not_mem_nil, if_false]
    have hroot1 : Block.computeMerkleTree D
        ({ b with Base := { b.Base with MerkleRoot := root } } : Block Tx) = Except.ok root :=
      hroot
    unfold Block.Verify
    rw [hroot1]
    simp only [hdup, Bool.false_eq_true, if_false, ne_eq, not_true_eq_false]

/-- C34: for every configuration of `n ≥ 1` standby validators that all parse, for which
the redeem script of `m = n - (n-1)/3` of the `n` keys is built and with a tree
construction that fails on the empty list only, `createGenesisBlock` returns a block with
index 0, zero `PrevHash`, timestamp 1468595301000, witness verification script `{PUSH1}`,
consensus data nonce 2083236893, exactly one transaction (script `SYSCALL
"Neo.Native.Deploy"`, sender `hash160({PUSH1})`, nonce 0), `NextConsensus` the hash160 of
that redeem script, and a Merkle root for which `Verify` passes. -/
theorem createGenesisBlock_spec (G : GenesisDeps) (D : Deps Transaction) (nonce : Nat)
    (cfg : List String) (validators : List (List Nat)) (raw : List Nat)
    (hvalid : getValidators G cfg = Except.ok validators) (hn : 1 ≤ validators.length)
    (hredeem : G.CreateMultiSigRedeemScript
      ((validators.length - (validators.length - 1) / 3 : Nat) : Int) validators =
        Except.ok raw)
    (hM : ∀ l, l ≠ [] → ∃ root, D.NewMerkleTree l = Except.ok root) :
    validators.length = cfg.length ∧
    ∃ b tx, createGenesisBlock G D nonce cfg = Except.ok b ∧
      b.Base.Index = 0 ∧ b.Base.PrevHash = 0 ∧ b.Base.Timestamp = 1468595301000 ∧
      b.Base.Script.VerificationScript = [G.PUSH1 % 256] ∧
      b.ConsensusData.Nonce = 2083236893 ∧
      b.Transactions = [tx] ∧ tx.Script = G.Syscall "Neo.Native.Deploy" ∧
      tx.Sender = G.Hash160 [G.PUSH1 % 256] ∧ tx.Nonce = 0 ∧
      b.Base.NextConsensus = G.Hash160 raw ∧ b.Verify D = none := by
  refine ⟨getValidators_length G cfg validators hvalid, ?_⟩
  have hnext := getNextConsensusAddress_eq G validators raw hn hredeem
  simp only [createGenesisBlock, hvalid, hnext]
  obtain ⟨root, hre, hver⟩ := Block_RebuildMerkleRoot_Verify D
    (⟨⟨0, 0, 0, (unixTime 2016 7 15 15 8 21).toNat % 2 ^ 64 * 1000 % 2 ^ 64, 0,
      G.Hash160 raw, ⟨[], [G.PUSH1 % 256]⟩⟩, ⟨0, 2083236893⟩,
      [deployNativeContracts G nonce], false⟩ : Block Transaction)
    (deployNativeContracts G nonce) rfl hM
  refine ⟨_, deployNativeContracts G nonce, hre, rfl, rfl, ?_, rfl, rfl, rfl, rfl, rfl, rfl,
    rfl, hver⟩
  simp only [unixTime_genesis]
  decide

theorem createGenesisBlock_spec_witness :
    ([[97, 98], [99, 100], [101, 102], [103, 104]] : List (List Nat)).length =
      (["ab", "cd", "ef", "gh"] : List String).length ∧
    ∃ b tx, createGenesisBlock demoGenesis demoTxDeps 99 ["ab", "cd", "ef", "gh"] = Except.ok b ∧
      b.Base.Index = 0 ∧ b.Base.PrevHash = 0 ∧ b.Base.Timestamp = 1468595301000 ∧
      b.Base.Script.VerificationScript = [demoGenesis.PUSH1 % 256] ∧
      b.ConsensusData.Nonce = 2083236893 ∧
      b.Transactions = [tx] ∧ tx.Script = demoGenesis.Syscall "Neo.Native.Deploy" ∧
      tx.Sender = demoGenesis.Hash160 [demoGenesis.PUSH1 % 256] ∧ tx.Nonce = 0 ∧
      b.Base.NextConsensus = demoGenesis.Hash160 [3, 97, 99, 101, 103, 4] ∧
      b.Verify demoTxDeps = none :=
  createGenesisBlock_spec demoGenesis demoTxDeps 99 ["ab", "cd", "ef", "gh"]
    [[97, 98], [99, 100], [101, 102], [103, 104]] [3, 97, 99, 101, 103, 4] rfl (by decide) rfl
    (fun l hl => by
      cases l with
      | nil => exact absurd rfl hl
      | cons a t => exact ⟨_, rfl⟩)

end NeoGo
